import Mathlib

/-!
# AHT: the hash table of `visitors` (src/aht.c, src/aht.h)

A shallow embedding of the open-addressing hash table of `aht.c`.

Conventions of the embedding
* `unsigned int` and `u_int32_t` are 32 bits wide, `size_t` and pointers are 64 bits
  wide (LP64); every arithmetic step that can wrap carries its explicit modulus.
* A slot of `t->table` is `NULL` (`Slot.empty`), the sentinel `ht_free_element`
  (`Slot.tombstone`) or a pointer to a `struct ht_ele` (`Slot.entry key data`).
  The slot array is a function from indices to slots; only indices below `size`
  are ever read or written by the code.
* Keys and values are opaque handles (`void *`), of arbitrary types `κ` and `ν`.
* `malloc` is driven by a script of outcomes carried in `World`; destructor
  invocations are recorded in `World.calls`, oldest first.
* A function whose C body has an unbounded loop returns an `Option`; `none` stands for
  a call that does not return (the probe walk cycles for ever, an `assert` aborts, or
  the code dereferences a slot that holds no element).
-/

namespace AHT

/-! ## Exit codes (aht.h) -/

abbrev HT_OK : Nat := 0
abbrev HT_FOUND : Nat := 1
abbrev HT_NOTFOUND : Nat := 2
abbrev HT_BUSY : Nat := 3
abbrev HT_NOMEM : Nat := 4
abbrev HT_IOVERFLOW : Nat := 5
abbrev HT_INVALID : Nat := 6
abbrev HT_INITIAL_SIZE : Nat := 256

/-! ## Machine arithmetic -/

/-- Truncation to an `unsigned int` / `u_int32_t`. -/
def u32 (x : Nat) : Nat := x % 4294967296

/-- The C expression `x + 1` on `unsigned int`. -/
def inc32 (x : Nat) : Nat := (x + 1) % 4294967296

/-- The C expression `x - 1` on `unsigned int`. -/
def dec32 (x : Nat) : Nat := (x + 4294967295) % 4294967296

/-- The C expression `x - y` on `u_int32_t`. -/
def sub32 (x y : Nat) : Nat := (x % 4294967296 + (4294967296 - y % 4294967296)) % 4294967296

/-- The C expression `x << n` on `u_int32_t`. -/
def shl32 (x n : Nat) : Nat := (x <<< n) % 4294967296

/-! ## Hash functions -/

/-- The byte `k[i]` of a buffer. -/
def byte (k : List Nat) (i : Nat) : Nat := k.getD i 0 % 256

/-- The C function `djb_hash`. -/
def djb_hash (buf : List Nat) (len : Nat) : Nat :=
  (List.range len).foldl (fun h i => u32 (h + shl32 h 5) ^^^ byte buf i) 5381

/-- The C macro `ROT32R`. -/
def ROT32R (x n : Nat) : Nat := (x >>> n) ||| shl32 x (32 - n)

/-- The C function `trivial_hash`. -/
def trivial_hash (buf : List Nat) (len : Nat) : Nat :=
  (List.range len).foldl (fun h i => ROT32R (u32 (h + byte buf i)) 3) 0

/-- The C macro `mix`. -/
def mix (a b c : Nat) : Nat × Nat × Nat :=
  let a := sub32 a b; let a := sub32 a c; let a := a ^^^ (c >>> 13)
  let b := sub32 b c; let b := sub32 b a; let b := b ^^^ shl32 a 8
  let c := sub32 c a; let c := sub32 c b; let c := c ^^^ (b >>> 13)
  let a := sub32 a b; let a := sub32 a c; let a := a ^^^ (c >>> 12)
  let b := sub32 b c; let b := sub32 b a; let b := b ^^^ shl32 a 16
  let c := sub32 c a; let c := sub32 c b; let c := c ^^^ (b >>> 5)
  let a := sub32 a b; let a := sub32 a c; let a := a ^^^ (c >>> 3)
  let b := sub32 b c; let b := sub32 b a; let b := b ^^^ shl32 a 10
  let c := sub32 c a; let c := sub32 c b; let c := c ^^^ (b >>> 15)
  (a, b, c)

/-- The little-endian 32-bit word `k[i] + (k[i+1]<<8) + (k[i+2]<<16) + (k[i+3]<<24)`. -/
def word (k : List Nat) (i : Nat) : Nat :=
  u32 (byte k i + shl32 (byte k (i + 1)) 8 + shl32 (byte k (i + 2)) 16 + shl32 (byte k (i + 3)) 24)

/-- The `while (len >= 12)` loop of `__ht_strong_hash`: `off` is how far `k` has advanced. -/
def strong_hash_blocks (k : List Nat) : Nat → Nat → Nat → Nat → Nat → Nat → Nat × Nat × Nat × Nat × Nat
  | 0, off, a, b, c, len => (off, a, b, c, len)
  | fuel + 1, off, a, b, c, len =>
    if 12 ≤ len then
      let m := mix (u32 (a + word k off)) (u32 (b + word k (off + 4))) (u32 (c + word k (off + 8)))
      strong_hash_blocks k fuel (off + 12) m.1 m.2.1 m.2.2 (len - 12)
    else (off, a, b, c, len)

/-- The fall-through `switch (len)` of `__ht_strong_hash` on the last bytes. -/
def strong_hash_tail (k : List Nat) (off a b c len : Nat) : Nat × Nat × Nat :=
  let c := if 11 ≤ len ∧ len ≤ 11 then u32 (c + shl32 (byte k (off + 10)) 24) else c
  let c := if 10 ≤ len ∧ len ≤ 11 then u32 (c + shl32 (byte k (off + 9)) 16) else c
  let c := if 9 ≤ len ∧ len ≤ 11 then u32 (c + shl32 (byte k (off + 8)) 8) else c
  let b := if 8 ≤ len ∧ len ≤ 11 then u32 (b + shl32 (byte k (off + 7)) 24) else b
  let b := if 7 ≤ len ∧ len ≤ 11 then u32 (b + shl32 (byte k (off + 6)) 16) else b
  let b := if 6 ≤ len ∧ len ≤ 11 then u32 (b + shl32 (byte k (off + 5)) 8) else b
  let b := if 5 ≤ len ∧ len ≤ 11 then u32 (b + byte k (off + 4)) else b
  let a := if 4 ≤ len ∧ len ≤ 11 then u32 (a + shl32 (byte k (off + 3)) 24) else a
  let a := if 3 ≤ len ∧ len ≤ 11 then u32 (a + shl32 (byte k (off + 2)) 16) else a
  let a := if 2 ≤ len ∧ len ≤ 11 then u32 (a + shl32 (byte k (off + 1)) 8) else a
  let a := if 1 ≤ len ∧ len ≤ 11 then u32 (a + byte k off) else a
  (a, b, c)

/-- The C function `__ht_strong_hash`. -/
def __ht_strong_hash (k : List Nat) (length initval : Nat) : Nat :=
  let length := u32 length
  let s := strong_hash_blocks k length 0 2654435769 2654435769 (u32 initval) length
  let c := u32 (s.2.2.2.1 + length)
  let r := strong_hash_tail k s.1 s.2.1 s.2.2.1 c s.2.2.2.2
  (mix r.1 r.2.1 r.2.2).2.2

/-- The initial value of the C global `strong_hash_init_val`. -/
def strong_hash_init_val : Nat := 261323297

/-- The C function `ht_strong_hash`, under the seed `seed` held by `strong_hash_init_val`. -/
def ht_strong_hash (seed : Nat) (k : List Nat) (length initval : Nat) : Nat :=
  __ht_strong_hash k length (u32 initval ^^^ u32 seed)

/-- The C function `ht_hash_string` on a NUL-terminated key whose bytes before the
terminator are `key`, under the seed `seed`. -/
def ht_hash_string (seed : Nat) (key : List Nat) : Nat :=
  __ht_strong_hash key key.length seed

/-- The eight bytes of a pointer value, least significant first. -/
def pointer_bytes (p : Nat) : List Nat :=
  (List.range 8).map (fun i => (p >>> (8 * i)) % 256)

/-- The C function `ht_hash_pointer` on the pointer value `p`, under the seed `seed`. -/
def ht_hash_pointer (seed : Nat) (p : Nat) : Nat :=
  __ht_strong_hash (pointer_bytes p) 8 seed

/-! ## Data model -/

/-- One cell of `t->table`. -/
inductive Slot (κ ν : Type) where
  | empty : Slot κ ν
  | tombstone : Slot κ ν
  | entry (key : κ) (data : ν) : Slot κ ν
  deriving DecidableEq

/-- A destructor invocation. -/
inductive Call (κ ν : Type) where
  | key_destructor (key : κ) : Call κ ν
  | val_destructor (obj : ν) : Call κ ν
  deriving DecidableEq

/-- What the table code sees of the rest of the process: the outcomes of the coming
`malloc` calls (`true` is a success; past the end of the script every call succeeds) and
the destructor invocations made so far. -/
structure World (κ ν : Type) where
  mallocs : List Bool
  calls : List (Call κ ν)

/-- The C `struct hashtable`. A destructor field is `true` when a destructor is bound. -/
structure hashtable (κ ν : Type) where
  table : Nat → Slot κ ν
  size : Nat
  sizemask : Nat
  used : Nat
  collisions : Nat
  hashf : κ → Nat
  key_compare : κ → κ → Bool
  key_destructor : Bool
  val_destructor : Bool

/-- Status and table after a call. -/
structure Ret (κ ν : Type) where
  ret : Nat
  t : hashtable κ ν
  w : World κ ν

/-- Status, out-parameter index and table after a call; `index` carries a meaning
only when the status is the one that writes it. -/
structure RetIdx (κ ν : Type) where
  ret : Nat
  index : Nat
  t : hashtable κ ν
  w : World κ ν

/-- Status and both tables after `ht_move`. -/
structure RetMove (κ ν : Type) where
  ret : Nat
  orig : hashtable κ ν
  dest : hashtable κ ν
  w : World κ ν

variable {κ ν : Type}

/-- One `malloc` call: whether it succeeded, and the world afterwards. -/
def malloc (w : World κ ν) : Bool × World κ ν :=
  match w.mallocs with
  | [] => (true, w)
  | b :: rest => (b, { w with mallocs := rest })

/-- The assignment `table[i] = s`. -/
def slot_set (f : Nat → Slot κ ν) (i : Nat) (s : Slot κ ν) : Nat → Slot κ ν :=
  fun j => if j = i then s else f j

/-- Record the call of a destructor, when one is bound. -/
def destruct (bound : Bool) (c : Call κ ν) (w : World κ ν) : World κ ν :=
  if bound then { w with calls := w.calls ++ [c] } else w

/-- The home slot `t->hashf(key) & t->sizemask`. -/
def home (t : hashtable κ ν) (key : κ) : Nat :=
  u32 (t.hashf key) &&& t.sizemask

/-- The probe step `(h+1) & t->sizemask`. -/
def next (t : hashtable κ ν) (h : Nat) : Nat :=
  u32 (h + 1) &&& t.sizemask

/-- The C function `ht_reset`. -/
def ht_reset (t : hashtable κ ν) : hashtable κ ν :=
  { t with table := fun _ => Slot.empty, size := 0, sizemask := 0, used := 0, collisions := 0 }

/-- The C function `ht_compare_ptr`; `ptr` gives the pointer value of a handle. -/
def ht_compare_ptr (ptr : κ → Nat) (key1 key2 : κ) : Bool :=
  ptr key1 == ptr key2

/-- The C function `ht_init`: `seed` is the value of `strong_hash_init_val` in force and
`ptr` gives the pointer value of a key handle. -/
def ht_init (seed : Nat) (ptr : κ → Nat) : hashtable κ ν :=
  { table := fun _ => Slot.empty, size := 0, sizemask := 0, used := 0, collisions := 0,
    hashf := fun key => ht_hash_pointer seed (ptr key),
    key_compare := ht_compare_ptr ptr,
    key_destructor := false, val_destructor := false }

/-- The C macro `ht_set_hash`. -/
def ht_set_hash (t : hashtable κ ν) (f : κ → Nat) : hashtable κ ν := { t with hashf := f }

/-- The C macro `ht_set_key_compare`. -/
def ht_set_key_compare (t : hashtable κ ν) (f : κ → κ → Bool) : hashtable κ ν :=
  { t with key_compare := f }

/-- The C macro `ht_set_key_destructor`. -/
def ht_set_key_destructor (t : hashtable κ ν) (bound : Bool) : hashtable κ ν :=
  { t with key_destructor := bound }

/-- The C macro `ht_set_val_destructor`. -/
def ht_set_val_destructor (t : hashtable κ ν) (bound : Bool) : hashtable κ ν :=
  { t with val_destructor := bound }

/-- The `while(1)` loop of `next_power`, started at `i`. -/
def next_power_loop (size : Nat) : Nat → Nat → Nat
  | 0, i => i
  | fuel + 1, i => if size ≤ i then i else next_power_loop size fuel (u32 (i * 2))

/-- The C function `next_power`, on an `unsigned int` argument. -/
def next_power (size : Nat) : Nat :=
  if 2147483648 ≤ size then 2147483648 else next_power_loop size 32 256

/-! ## Growth -/

/-- The inner `while(1)` of the rehash loop of `ht_expand`: walk from `h` to the next
`NULL` slot of the new table, counting collisions. -/
def ht_expand_probe (n : hashtable κ ν) : Nat → Nat → Nat → Option (Nat × Nat)
  | 0, _, _ => none
  | fuel + 1, h, c =>
    match n.table (next n h) with
    | Slot.empty => some (next n h, c)
    | _ => ht_expand_probe n fuel (next n h) (inc32 c)

/-- The placement of one element in the new table `n` (the body of the `if` of the
rehash loop), with the assignment `n.table[h] = t->table[i]`. -/
def ht_expand_place (n : hashtable κ ν) (key : κ) (data : ν) : Option (hashtable κ ν) :=
  match n.table (home n key) with
  | Slot.empty => some { n with table := slot_set n.table (home n key) (Slot.entry key data) }
  | _ =>
    match ht_expand_probe n n.size (home n key) (inc32 n.collisions) with
    | none => none
    | some (h, c) =>
      some { n with table := slot_set n.table h (Slot.entry key data), collisions := c }

/-- The rehash loop `for (i = 0; i < t->size && t->used > 0; i++)` of `ht_expand`; the
first argument counts the indices still below `t->size`, `used` is `t->used`. The
result is the final `t->used` and the new table. -/
def ht_expand_loop (t : hashtable κ ν) : Nat → Nat → Nat → hashtable κ ν → Option (Nat × hashtable κ ν)
  | 0, _, used, n => some (used, n)
  | fuel + 1, i, used, n =>
    if used = 0 then some (used, n) else
    match t.table i with
    | Slot.entry key data =>
      match ht_expand_place n key data with
      | none => none
      | some n1 => ht_expand_loop t fuel (i + 1) (dec32 used) n1
    | _ => ht_expand_loop t fuel (i + 1) used n

/-- The C function `ht_expand`; `size` is a `size_t`, truncated to `unsigned int` at the
call of `next_power`. -/
def ht_expand (w : World κ ν) (t : hashtable κ ν) (size : Nat) : Option (Ret κ ν) :=
  let realsize := next_power (u32 size)
  if size ≤ t.used then some ⟨HT_INVALID, t, w⟩ else
  if (malloc w).1 = false then some ⟨HT_NOMEM, t, (malloc w).2⟩ else
  let n : hashtable κ ν :=
    { table := fun _ => Slot.empty, size := realsize, sizemask := dec32 realsize,
      used := t.used, collisions := 0, hashf := t.hashf, key_compare := t.key_compare,
      key_destructor := t.key_destructor, val_destructor := t.val_destructor }
  match ht_expand_loop t t.size 0 t.used n with
  | none => none
  | some (used, n1) => if used = 0 then some ⟨HT_OK, n1, (malloc w).2⟩ else none

/-- The C function `ht_expand_if_needed`. -/
def ht_expand_if_needed (w : World κ ν) (t : hashtable κ ν) : Option (Ret κ ν) :=
  if t.size = 0 then ht_expand w t HT_INITIAL_SIZE
  else if t.size ≤ u32 (t.used * 2) then ht_expand w t (u32 (t.size * 2))
  else some ⟨HT_OK, t, w⟩

/-- The C function `ht_resize`; `minimal` is an `int`. -/
def ht_resize (w : World κ ν) (t : hashtable κ ν) : Option (Ret κ ν) :=
  let minimal := u32 (t.used * 2 + 1)
  if 2147483648 ≤ minimal ∨ minimal < HT_INITIAL_SIZE then ht_expand w t HT_INITIAL_SIZE
  else ht_expand w t minimal

/-! ## Probing -/

/-- The `while(1)` loop of `ht_insert`, entered with probe position `h` and collision
counter `c`; the result is the status, the index and the collision counter. -/
def ht_insert_loop (t : hashtable κ ν) (key : κ) : Nat → Nat → Nat → Option (Nat × Nat × Nat)
  | 0, _, _ => none
  | fuel + 1, h, c =>
    match t.table (next t h) with
    | Slot.entry k _ =>
      if t.key_compare key k then some (HT_BUSY, 0, inc32 c)
      else ht_insert_loop t key fuel (next t h) (inc32 c)
    | _ => some (HT_OK, next t h, c)

/-- The probe walk of `ht_insert`, after the growth check: the first probe at the home
slot and then the `while(1)` loop. The result is the status, the index and the
collision counter. -/
def ht_insert_walk (t : hashtable κ ν) (key : κ) : Option (Nat × Nat × Nat) :=
  match t.table (home t key) with
  | Slot.entry k _ =>
    if t.key_compare key k then some (HT_BUSY, 0, inc32 t.collisions)
    else ht_insert_loop t key t.size (home t key) (inc32 t.collisions)
  | _ => some (HT_OK, home t key, t.collisions)

/-- The C function `ht_insert`. -/
def ht_insert (w : World κ ν) (t : hashtable κ ν) (key : κ) : Option (RetIdx κ ν) :=
  match ht_expand_if_needed w t with
  | none => none
  | some r =>
    if r.ret ≠ HT_OK then some ⟨r.ret, 0, r.t, r.w⟩ else
    (ht_insert_walk r.t key).map fun p => ⟨p.1, p.2.1, { r.t with collisions := p.2.2 }, r.w⟩

/-- The C function `ht_add`. A failing `malloc` of the element stores `NULL` in the slot. -/
def ht_add (w : World κ ν) (t : hashtable κ ν) (key : κ) (data : ν) : Option (Ret κ ν) :=
  match ht_insert w t key with
  | none => none
  | some r =>
    if r.ret ≠ HT_OK then some ⟨r.ret, r.t, r.w⟩ else
    if (malloc r.w).1 = false then
      some ⟨HT_NOMEM, { r.t with table := slot_set r.t.table r.index Slot.empty }, (malloc r.w).2⟩
    else
      some ⟨HT_OK, { r.t with table := slot_set r.t.table r.index (Slot.entry key data),
                              used := inc32 r.t.used }, (malloc r.w).2⟩

/-- The `while(1)` loop of `ht_search`, entered with probe position `h`; the result is
the status and the index. -/
def ht_search_loop (t : hashtable κ ν) (key : κ) : Nat → Nat → Option (Nat × Nat)
  | 0, _ => none
  | fuel + 1, h =>
    match t.table (next t h) with
    | Slot.tombstone => ht_search_loop t key fuel (next t h)
    | Slot.empty => some (HT_NOTFOUND, 0)
    | Slot.entry k _ =>
      if t.key_compare key k then some (HT_FOUND, next t h)
      else ht_search_loop t key fuel (next t h)

/-- The probe walk of `ht_search`, after the growth check: the first probe at the home
slot and then the `while(1)` loop. The result is the status and the index. -/
def ht_search_walk (t : hashtable κ ν) (key : κ) : Option (Nat × Nat) :=
  match t.table (home t key) with
  | Slot.empty => some (HT_NOTFOUND, 0)
  | Slot.tombstone => ht_search_loop t key t.size (home t key)
  | Slot.entry k _ =>
    if t.key_compare key k then some (HT_FOUND, home t key)
    else ht_search_loop t key t.size (home t key)

/-- The C function `ht_search`. -/
def ht_search (w : World κ ν) (t : hashtable κ ν) (key : κ) : Option (RetIdx κ ν) :=
  match (if t.size = 0 then ht_expand_if_needed w t else some ⟨HT_OK, t, w⟩) with
  | none => none
  | some r =>
    if r.ret ≠ HT_OK then some ⟨r.ret, 0, r.t, r.w⟩ else
    (ht_search_walk r.t key).map fun p => ⟨p.1, p.2, r.t, r.w⟩

/-- The C function `ht_free`. -/
def ht_free (w : World κ ν) (t : hashtable κ ν) (index : Nat) : Ret κ ν :=
  if t.size ≤ index then ⟨HT_IOVERFLOW, t, w⟩ else
  match t.table index with
  | Slot.entry key data =>
    ⟨HT_OK, { t with table := slot_set t.table index Slot.tombstone, used := dec32 t.used },
      destruct t.val_destructor (Call.val_destructor data)
        (destruct t.key_destructor (Call.key_destructor key) w)⟩
  | _ => ⟨HT_OK, t, w⟩

/-- The C function `ht_rm`. -/
def ht_rm (w : World κ ν) (t : hashtable κ ν) (key : κ) : Option (Ret κ ν) :=
  match ht_search w t key with
  | none => none
  | some r => if r.ret ≠ HT_FOUND then some ⟨r.ret, r.t, r.w⟩ else some (ht_free r.w r.t r.index)

/-- The C function `ht_replace`; a failing `assert` aborts the call. -/
def ht_replace (w : World κ ν) (t : hashtable κ ν) (key : κ) (data : ν) : Option (Ret κ ν) :=
  match ht_add w t key data with
  | none => none
  | some r =>
    if r.ret = HT_OK ∨ r.ret ≠ HT_BUSY then some r else
    match ht_search r.w r.t key with
    | none => none
    | some s =>
      if s.ret ≠ HT_FOUND then none else
      if (ht_free s.w s.t s.index).ret ≠ HT_OK then none else
      ht_add (ht_free s.w s.t s.index).w (ht_free s.w s.t s.index).t key data

/-- The loop of `ht_destroy` over the slots, recording the destructor calls; the first
argument counts the indices still below `t->size`, `used` is `t->used`. -/
def ht_destroy_loop (t : hashtable κ ν) : Nat → Nat → Nat → World κ ν → World κ ν
  | 0, _, _, w => w
  | fuel + 1, i, used, w =>
    if used = 0 then w else
    match t.table i with
    | Slot.entry key data =>
      ht_destroy_loop t fuel (i + 1) (dec32 used)
        (destruct t.val_destructor (Call.val_destructor data)
          (destruct t.key_destructor (Call.key_destructor key) w))
    | _ => ht_destroy_loop t fuel (i + 1) used w

/-- The C function `ht_destroy`. -/
def ht_destroy (w : World κ ν) (t : hashtable κ ν) : Ret κ ν :=
  ⟨HT_OK, ht_reset t, ht_destroy_loop t t.size 0 t.used w⟩

/-- The C function `ht_move`, on two distinct tables. The code reads
`orig->table[index]->key` without a check: an index outside the array or a slot that
holds no element does not give a result. -/
def ht_move (w : World κ ν) (orig dest : hashtable κ ν) (index : Nat) : Option (RetMove κ ν) :=
  if orig.size ≤ index then none else
  match orig.table index with
  | Slot.entry key data =>
    match ht_insert w dest key with
    | none => none
    | some r =>
      if r.ret ≠ HT_OK then some ⟨r.ret, orig, r.t, r.w⟩ else
      some ⟨HT_OK,
        { orig with table := slot_set orig.table index Slot.tombstone, used := dec32 orig.used },
        { r.t with table := slot_set r.t.table r.index (Slot.entry key data),
                   used := inc32 r.t.used }, r.w⟩
  | _ => none

/-- The C function `ht_get_byindex`, with `-1` written as `2`. -/
def ht_get_byindex (t : hashtable κ ν) (index : Nat) : Nat :=
  if t.size ≤ index then 2 else
  match t.table index with
  | Slot.entry _ _ => 1
  | _ => 0

/-! ## Reachable tables and their invariants -/

/-- Tables reachable from `ht_init` by the public operations. Binding a strategy
(`ht_set_hash` and the like) is done on a table that holds no element. With
`strict = true` no call of the history has met a failing allocation, that is, none
has returned `HT_NOMEM`. -/
inductive Reach (strict : Bool) : hashtable κ ν → Prop
  | init (seed : Nat) (ptr : κ → Nat) : Reach strict (ht_init seed ptr)
  | set_hash {t : hashtable κ ν} (f : κ → Nat) :
      Reach strict t → t.used = 0 → Reach strict (ht_set_hash t f)
  | set_key_compare {t : hashtable κ ν} (f : κ → κ → Bool) :
      Reach strict t → t.used = 0 → Reach strict (ht_set_key_compare t f)
  | set_key_destructor {t : hashtable κ ν} (b : Bool) :
      Reach strict t → t.used = 0 → Reach strict (ht_set_key_destructor t b)
  | set_val_destructor {t : hashtable κ ν} (b : Bool) :
      Reach strict t → t.used = 0 → Reach strict (ht_set_val_destructor t b)
  | add {t : hashtable κ ν} (w : World κ ν) (k : κ) (v : ν) {r : Ret κ ν} :
      Reach strict t → ht_add w t k v = some r → (strict = true → r.ret ≠ HT_NOMEM) →
      Reach strict r.t
  | replace {t : hashtable κ ν} (w : World κ ν) (k : κ) (v : ν) {r : Ret κ ν} :
      Reach strict t → ht_replace w t k v = some r → (strict = true → r.ret ≠ HT_NOMEM) →
      Reach strict r.t
  | rm {t : hashtable κ ν} (w : World κ ν) (k : κ) {r : Ret κ ν} :
      Reach strict t → ht_rm w t k = some r → (strict = true → r.ret ≠ HT_NOMEM) →
      Reach strict r.t
  | free {t : hashtable κ ν} (w : World κ ν) (index : Nat) :
      Reach strict t → Reach strict (ht_free w t index).t
  | search {t : hashtable κ ν} (w : World κ ν) (k : κ) {r : RetIdx κ ν} :
      Reach strict t → ht_search w t k = some r → (strict = true → r.ret ≠ HT_NOMEM) →
      Reach strict r.t
  | expand {t : hashtable κ ν} (w : World κ ν) (n : Nat) {r : Ret κ ν} :
      Reach strict t → n < 18446744073709551616 → ht_expand w t n = some r →
      (strict = true → r.ret ≠ HT_NOMEM) → Reach strict r.t
  | resize {t : hashtable κ ν} (w : World κ ν) {r : Ret κ ν} :
      Reach strict t → ht_resize w t = some r → (strict = true → r.ret ≠ HT_NOMEM) →
      Reach strict r.t
  | move_orig {orig dest : hashtable κ ν} (w : World κ ν) (index : Nat) {r : RetMove κ ν} :
      Reach strict orig → Reach strict dest → ht_move w orig dest index = some r →
      (strict = true → r.ret ≠ HT_NOMEM) → Reach strict r.orig
  | move_dest {orig dest : hashtable κ ν} (w : World κ ν) (index : Nat) {r : RetMove κ ν} :
      Reach strict orig → Reach strict dest → ht_move w orig dest index = some r →
      (strict = true → r.ret ≠ HT_NOMEM) → Reach strict r.dest
  | destroy {t : hashtable κ ν} (w : World κ ν) :
      Reach strict t → Reach strict (ht_destroy w t).t

/-- The index of the `i`-th slot of the probe walk of `key`. -/
def probe (t : hashtable κ ν) (key : κ) (i : Nat) : Nat := (next t)^[i] (home t key)

/-- Whether a slot holds an element. -/
def is_entry (s : Slot κ ν) : Bool :=
  match s with
  | Slot.entry _ _ => true
  | _ => false

/-- The number of element slots among the first `n` slots. -/
def count_entries (f : Nat → Slot κ ν) : Nat → Nat
  | 0 => 0
  | n + 1 => count_entries f n + (if is_entry (f n) then 1 else 0)

/-- Capacity and count invariant: the size is 0 or a power of two between 256 and 2^31
with `sizemask = size - 1`, and `used` counts the element slots. -/
structure Inv (t : hashtable κ ν) : Prop where
  cap : (t.size = 0 ∧ t.sizemask = 0) ∨
    (∃ e, 8 ≤ e ∧ e ≤ 31 ∧ t.size = 2 ^ e ∧ t.sizemask = t.size - 1)
  cnt : t.used = count_entries t.table t.size

/-- Probe-chain invariant: every element is reached from the home slot of its key by a
walk that meets no `NULL` slot. -/
def ChainInv (t : hashtable κ ν) : Prop :=
  ∀ j k v, j < t.size → t.table j = Slot.entry k v →
    ∃ d, probe t k d = j ∧ ∀ i, i < d → t.table (probe t k i) ≠ Slot.empty

/-- The slots that a search for `key` walks past: tombstones and elements with another key. -/
def skips (t : hashtable κ ν) (key : κ) (s : Slot κ ν) : Prop :=
  s = Slot.tombstone ∨ ∃ k v, s = Slot.entry k v ∧ t.key_compare key k = false

/-- Two tables agree on everything but the slots, `used` and the collision counter. -/
structure SameShape (a b : hashtable κ ν) : Prop where
  size : b.size = a.size
  sizemask : b.sizemask = a.sizemask
  hashf : b.hashf = a.hashf
  key_compare : b.key_compare = a.key_compare
  key_destructor : b.key_destructor = a.key_destructor
  val_destructor : b.val_destructor = a.val_destructor

/-- Two tables carry the same strategy bundle. -/
structure SameBundle (a b : hashtable κ ν) : Prop where
  hashf : b.hashf = a.hashf
  key_compare : b.key_compare = a.key_compare
  key_destructor : b.key_destructor = a.key_destructor
  val_destructor : b.val_destructor = a.val_destructor

/-! ## Concrete tables -/

/-- A world in which every allocation succeeds and no destructor has run yet. -/
def w0 : World Nat Nat := ⟨[], []⟩

/-- A freshly initialised table with the default strategy of `ht_init`; the keys are
pointer values. -/
def fresh_ptr : hashtable Nat Nat := ht_init strong_hash_init_val id

/-- The outcome of `ht_add(t, 5, 7)` on the fresh table. -/
def demo_add1 : Ret Nat Nat := (ht_add w0 fresh_ptr 5 7).getD ⟨HT_NOMEM, fresh_ptr, w0⟩

/-- The outcome of `ht_search(t, 5)` on the table that holds the key 5. -/
def demo_search1 : RetIdx Nat Nat :=
  (ht_search w0 demo_add1.t 5).getD ⟨HT_NOMEM, 0, fresh_ptr, w0⟩

/-- The outcome of `ht_replace(t, 5, 9)` on the table that holds the key 5. -/
def demo_replace1 : Ret Nat Nat :=
  (ht_replace w0 demo_add1.t 5 9).getD ⟨HT_NOMEM, fresh_ptr, w0⟩

/-- The outcome of `ht_add(t, 406, 8)` on the table that holds the key 5; under the
default seed the pointer values 5, 406 and 573 have the same home slot, 248, in a table
of 256 slots. -/
def demo_add2 : Ret Nat Nat := (ht_add w0 demo_add1.t 406 8).getD ⟨HT_NOMEM, fresh_ptr, w0⟩

/-- The outcome of `ht_rm(t, 5)` on the table that holds the keys 5 and 406. -/
def demo_rm1 : Ret Nat Nat := (ht_rm w0 demo_add2.t 5).getD ⟨HT_NOMEM, fresh_ptr, w0⟩

/-- A freshly initialised table with a strategy bound: `ht_init` followed by the four
`ht_set_...` macros. -/
def ht_fresh (seed : Nat) (ptr : κ → Nat) (hashf : κ → Nat) (cmp : κ → κ → Bool)
    (kd vd : Bool) : hashtable κ ν :=
  ht_set_val_destructor (ht_set_key_destructor
    (ht_set_key_compare (ht_set_hash (ht_init seed ptr) hashf) cmp) kd) vd

/-- A table of 256 slots in which at most the slot `h` is not `NULL`. -/
def one_slot (hashf : κ → Nat) (cmp : κ → κ → Bool) (kd vd : Bool) (h : Nat) (s : Slot κ ν)
    (used collisions : Nat) : hashtable κ ν :=
  { table := slot_set (fun _ => Slot.empty) h s, size := 256, sizemask := 255, used := used,
    collisions := collisions, hashf := hashf, key_compare := cmp, key_destructor := kd,
    val_destructor := vd }

/-- The outcome of `ht_add(t, 406, 9)` on the table that holds the key 406 behind the
tombstone of the key 5. -/
def demo_add3 : Ret Nat Nat := (ht_add w0 demo_rm1.t 406 9).getD ⟨HT_NOMEM, fresh_ptr, w0⟩

/-- The table after `ht_add`; the table itself when the call does not return. -/
def then_add (t : hashtable κ ν) (w : World κ ν) (k : κ) (v : ν) : hashtable κ ν :=
  match ht_add w t k v with
  | some r => r.t
  | none => t

/-- The table after `ht_rm`; the table itself when the call does not return. -/
def then_rm (t : hashtable κ ν) (w : World κ ν) (k : κ) : hashtable κ ν :=
  match ht_rm w t k with
  | some r => r.t
  | none => t

/-- The table after `ht_expand`; the table itself when the call does not return. -/
def then_expand (t : hashtable κ ν) (w : World κ ν) (n : Nat) : hashtable κ ν :=
  match ht_expand w t n with
  | some r => r.t
  | none => t

/-- The table after `ht_add` of each key of the list in turn, with the value 0. -/
def add_keys (t : hashtable Nat Nat) : List Nat → hashtable Nat Nat
  | [] => t
  | k :: ks => add_keys (then_add t w0 k 0) ks

/-- The table after `ht_add` then `ht_rm` of each key of the list in turn. -/
def churn_keys (t : hashtable Nat Nat) : List Nat → hashtable Nat Nat
  | [] => t
  | k :: ks => churn_keys (then_rm (then_add t w0 k 0) w0 k) ks

/-- A fresh table of integer keys hashed by their value: `ht_init`, then `ht_set_hash`
with the identity and `ht_set_key_compare` with the equality of integers. -/
def id_table : hashtable Nat Nat :=
  ht_set_key_compare (ht_set_hash fresh_ptr (fun k => k)) (fun a b => a == b)

/-- The table after 256 rounds of insert-then-delete, of the keys 0 to 255. -/
def churned_table : hashtable Nat Nat := churn_keys id_table (List.range 256)

/-- The table after the insertion of the keys 0 to 255 followed by `ht_expand(t, 2^32 + 256)`. -/
def full_table : hashtable Nat Nat :=
  then_expand (add_keys id_table (List.range 256)) w0 (4294967296 + 256)

/-- Capacity shape of a table with a slot array: the size is a power of two between 2^8
and 2^31 and `sizemask = size - 1`. -/
def Cap (t : hashtable κ ν) : Prop :=
  ∃ e, 8 ≤ e ∧ e ≤ 31 ∧ t.size = 2 ^ e ∧ t.sizemask = t.size - 1

/-- Result of `ht_get_array`: the array returned (`none` is the `NULL` of a failed
allocation), the table, which the function only reads, and the world. -/
structure RetArray (κ ν : Type) where
  array : Option (List (κ × ν))
  t : hashtable κ ν
  w : World κ ν

/-- The loop of `ht_get_array` from index `idx`: the key and value of every slot for
which `ht_get_byindex` answers 1, up to the index for which it answers -1. -/
def ht_get_array_loop (t : hashtable κ ν) : Nat → Nat → List (κ × ν)
  | 0, _ => []
  | fuel + 1, idx =>
    if ht_get_byindex t idx = 2 then [] else
    match t.table idx with
    | Slot.entry key data => (key, data) :: ht_get_array_loop t fuel (idx + 1)
    | _ => ht_get_array_loop t fuel (idx + 1)

/-- The C function `ht_get_array`; `used` is an `int`, and `used*2` overflows it from
2^30 on. The array is allocated for `used` pairs; a table with more element slots than
`used` would make the loop write past its end. Both cases give no result. -/
def ht_get_array (w : World κ ν) (t : hashtable κ ν) : Option (RetArray κ ν) :=
  if 1073741824 ≤ t.used then none else
  if (malloc w).1 = false then some ⟨none, t, (malloc w).2⟩ else
  if t.used < (ht_get_array_loop t (t.size + 1) 0).length then none
  else some ⟨some (ht_get_array_loop t (t.size + 1) 0), t, (malloc w).2⟩

/-- The outcome of `ht_expand(t, 256)` on the fresh table when the allocation fails. -/
def demo_expand_fail : Ret Nat Nat :=
  (ht_expand ⟨[false], []⟩ fresh_ptr 256).getD ⟨HT_OK, fresh_ptr, w0⟩

/-- The outcome of `ht_expand(t, 300)` on the table that holds the key 406 and the
tombstone of the key 5. -/
def demo_expand1 : Ret Nat Nat := (ht_expand w0 demo_rm1.t 300).getD ⟨HT_NOMEM, fresh_ptr, w0⟩

/-- The outcome of the growth check on the table that holds the keys 5 and 406. -/
def demo_growth1 : Ret Nat Nat :=
  (ht_expand_if_needed w0 demo_add2.t).getD ⟨HT_NOMEM, fresh_ptr, w0⟩

/-- The table after the insertion of the keys 0 to 256. -/
def over_table : hashtable Nat Nat := add_keys id_table (List.range 257)

/-- The table after `ht_add(t, 255, 1)`, `ht_add(t, 511, 2)`, `ht_rm(t, 255)` and
`ht_add(t, 511, 3)` on the fresh table of integer keys hashed by their value. -/
def dup_table : hashtable Nat Nat :=
  then_add (then_rm (then_add (then_add id_table w0 255 1) w0 511 2) w0 255) w0 511 3

/-- The C function `ht_compare_string` on two NUL-terminated keys, each given by its
bytes before the terminator: `strcmp` returns 0 exactly when the bytes agree. -/
def ht_compare_string (key1 key2 : List Nat) : Bool := key1 == key2

/-- A freshly initialised table of string keys: `ht_init`, then `ht_set_hash` with
`ht_hash_string` and `ht_set_key_compare` with `ht_compare_string`. -/
def string_table (seed : Nat) (ptr : List Nat → Nat) : hashtable (List Nat) Nat :=
  ht_set_key_compare (ht_set_hash (ht_init seed ptr) (ht_hash_string seed)) ht_compare_string

/-- The calls `ht_add(t, key, data)` for the pairs of the list, one by one; the sequence
stops at the first call that does not return `HT_OK`. -/
def add_each (w : World κ ν) (t : hashtable κ ν) : List (κ × ν) → Option (Ret κ ν)
  | [] => some ⟨HT_OK, t, w⟩
  | kv :: rest =>
    match ht_add w t kv.1 kv.2 with
    | none => none
    | some r => if r.ret ≠ HT_OK then some r else add_each r.w r.t rest

/-- The size of the slot array after `n` insertions of distinct keys into a fresh table,
for `n` up to 512. -/
def size_after (n : Nat) : Nat :=
  if n = 0 then 0 else if n ≤ 128 then 256 else if n ≤ 256 then 512 else 1024

/-- The 300 two-byte strings with the bytes `1 + i / 200` and `1 + i % 200`, each with
the value `i`. -/
def demo_strings : List (List Nat × Nat) :=
  (List.range 300).map fun i => ([1 + i / 200, 1 + i % 200], i)

/-- The key and value of an element slot. -/
def slot_pair (s : Slot κ ν) : Option (κ × ν) :=
  match s with
  | Slot.entry key data => some (key, data)
  | _ => none

/-- The keys and values of the element slots among the `m` slots from index `i` on, in
increasing index. -/
def entry_pairs_from (t : hashtable κ ν) (i m : Nat) : List (κ × ν) :=
  (List.range' i m).filterMap fun j => slot_pair (t.table j)

/-- The keys and values of the element slots of the array, in increasing index. -/
def entry_pairs (t : hashtable κ ν) : List (κ × ν) := entry_pairs_from t 0 t.size

/-- The destructor calls that release one element: the key, then the value, each when
its destructor is bound. -/
def release_calls (t : hashtable κ ν) (p : κ × ν) : List (Call κ ν) :=
  (if t.key_destructor then [Call.key_destructor p.1] else []) ++
    (if t.val_destructor then [Call.val_destructor p.2] else [])

/-- A table of integer keys hashed by their value with both destructors bound, after
`ht_add(t, 1, 10)`, `ht_add(t, 2, 20)`, `ht_rm(t, 1)` and `ht_add(t, 3, 30)`. The world
is the one left by these calls. -/
def demo_bound : hashtable Nat Nat :=
  then_add (then_rm (then_add (then_add
    (ht_set_val_destructor (ht_set_key_destructor id_table true) true) w0 1 10) w0 2 20)
    w0 1) w0 3 30

/-- The C function `ht_set_strong_hash_init_val`: the value of `strong_hash_init_val`
after the call. -/
def ht_set_strong_hash_init_val (secret : Nat) : Nat := u32 secret

/-- The outcome of `ht_add(t, 5, 9)` on the table that holds the key 5. -/
def demo_busy1 : Ret Nat Nat := (ht_add w0 demo_add1.t 5 9).getD ⟨HT_NOMEM, fresh_ptr, w0⟩

/-- The fresh table after `ht_add(t, 406, 1)`: the key 406 is in its home slot 248. -/
def demo_orig : hashtable Nat Nat := then_add fresh_ptr w0 406 1

/-- The table that holds the key 406 in the slot 249, behind the tombstone of the slot
248, after `ht_add(t, 573, 1)` whose allocation of the element fails. -/
def demo_hidden : hashtable Nat Nat := then_add demo_rm1.t ⟨[false], []⟩ 573 1

/-- Result of a counter function of `visitors.c`: the `int` returned, the table and the
world. -/
structure RetCount where
  ret : Int
  t : hashtable (List Nat) Nat
  w : World (List Nat) Nat

/-- The conversion of a `long` to the `int` a counter function returns, for a value
given by its 64-bit pattern: the low 32 bits, read as a signed number. -/
def int_of_long (v : Nat) : Int :=
  if v % 4294967296 < 2147483648 then ((v % 4294967296 : Nat) : Int)
  else ((v % 4294967296 : Nat) : Int) - 4294967296

/-- The C function `vi_ht_init` of `visitors.c`: `ht_init`, then the string hash, the
key destructor `ht_destructor_free`, the value destructor `ht_no_destructor` and the
string comparison. -/
def vi_ht_init (seed : Nat) (ptr : List Nat → Nat) : hashtable (List Nat) Nat :=
  ht_set_key_compare (ht_set_val_destructor (ht_set_key_destructor
    (ht_set_hash (ht_init seed ptr) (ht_hash_string seed)) true) false) ht_compare_string

/-- The C function `vi_counter_incr` of `visitors.c`. The value of an element is the
64-bit pattern of the `long` counter kept in the `data` pointer. `strdup` is one
`malloc`. The `else` branch reads `idx`, which `ht_search` writes only with `HT_FOUND`;
`val++` overflows at `LONG_MAX`. Both cases give no result. -/
def vi_counter_incr (w : World (List Nat) Nat) (ht : hashtable (List Nat) Nat)
    (key : List Nat) : Option RetCount :=
  match ht_search w ht key with
  | none => none
  | some s =>
    if s.ret = HT_NOTFOUND then
      if (malloc s.w).1 = false then some ⟨0, s.t, (malloc s.w).2⟩ else
      match ht_add (malloc s.w).2 s.t key 1 with
      | none => none
      | some r => if r.ret ≠ HT_OK then some ⟨0, r.t, r.w⟩ else some ⟨1, r.t, r.w⟩
    else if s.ret ≠ HT_FOUND then none else
    match s.t.table s.index with
    | Slot.entry k v =>
      if v % 18446744073709551616 = 9223372036854775807 then none else
      some ⟨int_of_long (v + 1),
        { s.t with
          table := slot_set s.t.table s.index (Slot.entry k ((v + 1) % 18446744073709551616)) },
        s.w⟩
    | _ => none

/-- The C function `vi_counter_val` of `visitors.c`. -/
def vi_counter_val (w : World (List Nat) Nat) (ht : hashtable (List Nat) Nat)
    (key : List Nat) : Option RetCount :=
  match ht_search w ht key with
  | none => none
  | some s =>
    if s.ret = HT_NOTFOUND then some ⟨0, s.t, s.w⟩
    else if s.ret ≠ HT_FOUND then none else
    match s.t.table s.index with
    | Slot.entry _ v => some ⟨int_of_long v, s.t, s.w⟩
    | _ => none

/-- The calls `vi_counter_incr(ht, key)` for the keys of the list, one by one, whatever
they return; the result is the table and the world after the last call. -/
def vi_counter_incr_all (w : World (List Nat) Nat) (ht : hashtable (List Nat) Nat) :
    List (List Nat) → Option (hashtable (List Nat) Nat × World (List Nat) Nat)
  | [] => some (ht, w)
  | key :: rest =>
    match vi_counter_incr w ht key with
    | none => none
    | some r => vi_counter_incr_all r.w r.t rest

/-- No key is held by two slots of the array. -/
def KeysOnce (t : hashtable κ ν) : Prop :=
  ∀ i j k v1 v2, i < t.size → j < t.size → t.table i = Slot.entry k v1 →
    t.table j = Slot.entry k v2 → i = j

/-- A table of counters as `vi_counter_incr` keeps it: the invariants of the table, the
string comparison, no tombstone, no key held twice, a load of at most one half and a
size of at most 256 or four times `used`. -/
structure CounterInv (t : hashtable (List Nat) Nat) : Prop where
  inv : Inv t
  chain : ChainInv t
  notomb : ∀ j, t.table j ≠ Slot.tombstone
  cmp : t.key_compare = ht_compare_string
  once : KeysOnce t
  load : 2 * t.used ≤ t.size ∨ t.size = 0
  bound : t.size ≤ 256 ∨ t.size ≤ 4 * t.used

/-- The table holds the counters `f`: a key with `f key = 0` is not stored, and every
other key is stored with the value `f key`. -/
def Counts (t : hashtable (List Nat) Nat) (f : List Nat → Nat) : Prop :=
  ∀ k v, (∃ j, j < t.size ∧ t.table j = Slot.entry k v) ↔ (f k = v ∧ v ≠ 0)

/-! ## Page-view detection (visitors.c)

A C string is the list of its bytes before the terminating NUL.  A pointer
into the string is its byte offset, so that end - n is the suffix of the last
n bytes. -/

/-- The bytes of a string literal, written as characters. -/
def bytes (cs : List Char) : List Nat := cs.map Char.toNat

/-- The test !memcmp(end - n, lit, n) of the source: the last n bytes of the
string are the first n bytes of the literal. -/
def memcmp_end_zero (s lit : List Nat) (n : Nat) : Bool :=
  (s.drop (s.length - n)).take n == lit.take n

/-- The literal and the length of every memcmp test of vi_is_pageview, in the
order of the source. -/
def pageview_tests : List (List Nat × Nat) :=
  [ (bytes ['.', 'h', 't', 'm', 'l'], 5), (bytes ['.', 'h', 't', 'm'], 4),
    (bytes ['.', 'p', 'h', 'p'], 4), (bytes ['.', 'a', 's', 'p'], 4),
    (bytes ['.', 'j', 's', 'p'], 4), (bytes ['.', 'x', 'd', 'l'], 4),
    (bytes ['.', 'x', 'h', 't', 'm', 'l'], 5), (bytes ['.', 'x', 'm', 'l'], 4),
    (bytes ['.', 'c', 'g', 'i'], 4), (bytes ['.', 'p', 'l'], 3),
    (bytes ['.', 's', 'h', 't', 'm', 'l'], 6),
    (bytes ['.', 'H', 'T', 'M', 'L'], 5), (bytes ['.', 'H', 'T', 'M'], 4),
    (bytes ['.', 'P', 'H', 'P'], 4), (bytes ['.', 'A', 'S', 'P'], 4),
    (bytes ['.', 'J', 'S', 'P'], 4), (bytes ['.', 'X', 'D', 'L'], 4),
    (bytes ['.', 'X', 'H', 'T', 'M', 'L'], 6), (bytes ['.', 'X', 'M', 'L'], 4),
    (bytes ['.', 'C', 'G', 'I'], 4), (bytes ['.', 'P', 'L'], 3),
    (bytes ['.', 'S', 'H', 'T', 'M', 'L'], 6) ]

/-- The offset of the last occurrence of the byte c, as strrchr finds it. -/
def strrchr : List Nat → Nat → Option Nat
  | [], _ => none
  | b :: s, c =>
    match strrchr s c with
    | some i => some (i + 1)
    | none => if b = c then some 0 else none

/-- The function vi_is_pageview.  The result is none for the empty string,
where s[l-1] is read before the start of the string, and for a string whose
length does not fit the int l. -/
def vi_is_pageview (s : List Nat) : Option Nat :=
  let l := s.length
  if l = 0 ∨ 2147483648 ≤ l then none
  else if s.getD (l - 1) 0 = 47 then some 1
  else if 6 ≤ l ∧ pageview_tests.any (fun e => memcmp_end_zero s e.1 e.2) then some 1
  else
    match strrchr s 46 with
    | none => some 1
    | some dot =>
      match strrchr s 47 with
      | none => some 0
      | some slash => if dot < slash then some 1 else some 0

/-- The page extensions of the list in lower case, without .xhtml. -/
def page_exts_lower : List (List Nat) :=
  [ bytes ['.', 'h', 't', 'm', 'l'], bytes ['.', 'h', 't', 'm'],
    bytes ['.', 'p', 'h', 'p'], bytes ['.', 'a', 's', 'p'],
    bytes ['.', 'j', 's', 'p'], bytes ['.', 'x', 'd', 'l'],
    bytes ['.', 'x', 'm', 'l'], bytes ['.', 'c', 'g', 'i'],
    bytes ['.', 'p', 'l'], bytes ['.', 's', 'h', 't', 'm', 'l'] ]

/-- The page extensions of the list in upper case. -/
def page_exts_upper : List (List Nat) :=
  [ bytes ['.', 'H', 'T', 'M', 'L'], bytes ['.', 'H', 'T', 'M'],
    bytes ['.', 'P', 'H', 'P'], bytes ['.', 'A', 'S', 'P'],
    bytes ['.', 'J', 'S', 'P'], bytes ['.', 'X', 'D', 'L'],
    bytes ['.', 'X', 'H', 'T', 'M', 'L'], bytes ['.', 'X', 'M', 'L'],
    bytes ['.', 'C', 'G', 'I'], bytes ['.', 'P', 'L'],
    bytes ['.', 'S', 'H', 'T', 'M', 'L'] ]

/-! ## Glob matching and the grep patterns (visitors.c)

A char pointer is a buffer, the bytes of a C string before its NUL, and a byte
offset into it.  Reading at the offset of the NUL gives 0; reading beyond it is
outside the string and gives no value.  The int lengths are integers, as the
source decrements them below zero on some paths.  A result none stands for a
run with no defined result: a read outside a string, or loops that do not end
within the fuel. -/

/-- The value of the char at offset i of a C string, chars being signed. -/
def char_at (buf : List Nat) (i : Nat) : Option Int :=
  if i < buf.length then
    some (if buf.getD i 0 % 256 < 128 then (buf.getD i 0 % 256 : Nat)
      else ((buf.getD i 0 % 256 : Nat) : Int) - 256)
  else if i = buf.length then some 0
  else none

/-- The function tolower of the C locale. -/
def tolower (c : Int) : Int := if 65 ≤ c ∧ c ≤ 90 then c + 32 else c

/-- The loop while (pattern[1] == '*') of the case '*' in vi_match_len; the
result is the new pattern offset and patternLen. -/
def skip_stars : Nat → List Nat → Nat → Int → Option (Nat × Int)
  | 0, _, _, _ => none
  | fuel + 1, P, pp, plen =>
    match char_at P (pp + 1) with
    | none => none
    | some c => if c = 42 then skip_stars fuel P (pp + 1) (plen - 1) else some (pp, plen)

/-- The loop while (*pattern == '*') that vi_match_len runs once the string is
used up. -/
def skip_trailing : Nat → List Nat → Nat → Int → Option (Nat × Int)
  | 0, _, _, _ => none
  | fuel + 1, P, pp, plen =>
    match char_at P pp with
    | none => none
    | some c => if c = 42 then skip_trailing fuel P (pp + 1) (plen - 1) else some (pp, plen)

/-- The loop while(1) of the case '[' in vi_match_len, which scans a character
class; the result is the pattern offset and patternLen at the break, and the
flag match. -/
def class_loop : Nat → List Nat → Nat → Int → List Nat → Nat → Bool → Bool →
    Option (Nat × Int × Bool)
  | 0, _, _, _, _, _, _, _ => none
  | fuel + 1, P, pp, plen, S, sp, nocase, m =>
    match char_at P pp with
    | none => none
    | some p0 =>
      if p0 = 92 then
        match char_at P (pp + 1), char_at S sp with
        | some p1, some s0 =>
          class_loop fuel P (pp + 2) (plen - 2) S sp nocase (if p1 = s0 then true else m)
        | _, _ => none
      else if p0 = 93 then some (pp, plen, m)
      else if plen = 0 then some (pp - 1, plen + 1, m)
      else
        match char_at P (pp + 1) with
        | none => none
        | some p1 =>
          if p1 = 45 ∧ 3 ≤ plen then
            match char_at P (pp + 2), char_at S sp with
            | some p2, some s0 =>
              let start := if p0 > p2 then p2 else p0
              let stop := if p0 > p2 then p0 else p2
              let start1 := if nocase then tolower start else start
              let stop1 := if nocase then tolower stop else stop
              let c := if nocase then tolower s0 else s0
              class_loop fuel P (pp + 3) (plen - 3) S sp nocase
                (if start1 ≤ c ∧ c ≤ stop1 then true else m)
            | _, _ => none
          else
            match char_at S sp with
            | none => none
            | some s0 =>
              class_loop fuel P (pp + 1) (plen - 1) S sp nocase
                (if (if nocase then tolower p0 = tolower s0 else p0 = s0) then true else m)

/-- The end of one round of the main loop of vi_match_len, after the switch:
pattern++, patternLen--, and, when the string is used up, the skipping of
trailing stars and the break; the result is either the value returned or the
state of the next round. -/
def after_switch (P : List Nat) (pp : Nat) (plen : Int) (slen : Int) :
    Option (Nat ⊕ (Nat × Int)) :=
  if slen = 0 then
    match skip_trailing (P.length + 2) P (pp + 1) (plen - 1) with
    | none => none
    | some r => some (Sum.inl (if r.2 = 0 then 1 else 0))
  else some (Sum.inr (pp + 1, plen - 1))

/-- The body of vi_match_len.  With the flag false it is the main loop
while(patternLen), started at its test; with the flag true it is the loop
while(stringLen) of the case '*', which calls vi_match_len on pattern+1 for
every remaining position of the string. -/
def vi_match_loop :
    Nat → Bool → List Nat → Nat → Int → List Nat → Nat → Int → Bool → Option Nat
  | 0, _, _, _, _, _, _, _, _ => none
  | fuel + 1, true, P, pp, plen, S, sp, slen, nocase =>
    if slen = 0 then some 0
    else
      match vi_match_loop fuel false P (pp + 1) (plen - 1) S sp slen nocase with
      | none => none
      | some r =>
        if r ≠ 0 then some 1
        else vi_match_loop fuel true P pp plen S (sp + 1) (slen - 1) nocase
  | fuel + 1, false, P, pp, plen, S, sp, slen, nocase =>
    if plen = 0 then some (if slen = 0 then 1 else 0)
    else
      match char_at P pp with
      | none => none
      | some p0 =>
        if p0 = 42 then
          match skip_stars (P.length + 2) P pp plen with
          | none => none
          | some (pp1, plen1) =>
            if plen1 = 1 then some 1
            else vi_match_loop fuel true P pp1 plen1 S sp slen nocase
        else if p0 = 63 then
          if slen = 0 then some 0
          else
            match after_switch P pp plen (slen - 1) with
            | none => none
            | some (Sum.inl r) => some r
            | some (Sum.inr (pp1, plen1)) =>
              vi_match_loop fuel false P pp1 plen1 S (sp + 1) (slen - 1) nocase
        else if p0 = 91 then
          match char_at P (pp + 1) with
          | none => none
          | some q =>
            let neg := decide (q = 94)
            let pp0 := if neg then pp + 2 else pp + 1
            let plen0 := if neg then plen - 2 else plen - 1
            match class_loop (P.length + 3) P pp0 plen0 S sp nocase false with
            | none => none
            | some (pp1, plen1, m) =>
              if (if neg then !m else m) = false then some 0
              else
                match after_switch P pp1 plen1 (slen - 1) with
                | none => none
                | some (Sum.inl r) => some r
                | some (Sum.inr (pp2, plen2)) =>
                  vi_match_loop fuel false P pp2 plen2 S (sp + 1) (slen - 1) nocase
        else
          let pp0 := if p0 = 92 ∧ 2 ≤ plen then pp + 1 else pp
          let plen0 := if p0 = 92 ∧ 2 ≤ plen then plen - 1 else plen
          match char_at P pp0, char_at S sp with
          | some c, some s0 =>
            if (if nocase then tolower c ≠ tolower s0 else c ≠ s0) then some 0
            else
              match after_switch P pp0 plen0 (slen - 1) with
              | none => none
              | some (Sum.inl r) => some r
              | some (Sum.inr (pp1, plen1)) =>
                vi_match_loop fuel false P pp1 plen1 S (sp + 1) (slen - 1) nocase
          | _, _ => none

/-- The function vi_match_len, on the pattern and the string from the given
offsets.  Each round of the main loop moves the pattern offset on and each
round of the loop of '*' moves the string offset on; the fuel is twice the two
lengths and 8 more.  A result does not depend on the fuel: every larger fuel
gives the same one (vi_match_loop_fuel). -/
def vi_match_len (P : List Nat) (pp : Nat) (patternLen : Int) (S : List Nat) (sp : Nat)
    (stringLen : Int) (nocase : Bool) : Option Nat :=
  vi_match_loop (2 * (P.length + S.length) + 8) false P pp patternLen S sp stringLen nocase

/-- The function vi_match; there is no result when a length does not fit an
int. -/
def vi_match (pattern string : List Nat) (nocase : Bool) : Option Nat :=
  if 2147483648 ≤ pattern.length ∨ 2147483648 ≤ string.length then none
  else vi_match_len pattern 0 pattern.length string 0 string.length nocase

/-- The value of VI_GREP_PATTERNS_MAX. -/
def VI_GREP_PATTERNS_MAX : Nat := 1024

/-- The value of VI_PATTERNTYPE_GREP. -/
def VI_PATTERNTYPE_GREP : Int := 0

/-- The value of VI_PATTERNTYPE_EXCLUDE. -/
def VI_PATTERNTYPE_EXCLUDE : Int := 1

/-- One entry of Config_grep_pattern: struct greppat. -/
structure greppat where
  type : Int
  pattern : List Nat
deriving DecidableEq, Repr

/-- The function ConfigAddGrepPattern on the entries Config_grep_pattern[0 ..
Config_grep_pattern_num - 1].  It stores the pattern between two stars.  There
is no result when the array is full, where the program exits, when malloc
fails, where the null pointer is written through, and when the length does not
fit the int len. -/
def ConfigAddGrepPattern (cfg : List greppat) (pattern : List Nat) (type : Int)
    (malloc_ok : Bool) : Option (List greppat) :=
  if cfg.length = VI_GREP_PATTERNS_MAX then none
  else if malloc_ok = false ∨ 2147483648 ≤ pattern.length then none
  else some (cfg ++ [{ type := type, pattern := 42 :: pattern ++ [42] }])

/-- The function vi_match_line over the entries from index i on.  The test for
the bytes c, s, : reads the stored pattern; the pointer it advances by 3 is a
local one, and vi_match gets the stored pattern itself. -/
def vi_match_line : List greppat → List Nat → Option Int
  | [], _ => some 1
  | e :: rest, line =>
    let cs := decide (char_at e.pattern 0 = some 99) && decide (char_at e.pattern 1 = some 115)
      && decide (char_at e.pattern 2 = some 58)
    let nocase := !cs
    match vi_match e.pattern line nocase with
    | none => none
    | some r =>
      if r ≠ 0 then
        if e.type = VI_PATTERNTYPE_EXCLUDE then some 0 else vi_match_line rest line
      else
        if e.type = VI_PATTERNTYPE_GREP then some 0 else vi_match_line rest line

/-! ## Arithmetic lemmas -/

theorem dec32_pos {x : Nat} (h0 : 0 < x) (h1 : x ≤ 4294967296) : dec32 x = x - 1 := by
  unfold dec32; omega

theorem inc32_lt {x : Nat} (h : x + 1 < 4294967296) : inc32 x = x + 1 := by
  unfold inc32; omega

theorem u32_lt {x : Nat} (h : x < 4294967296) : u32 x = x := by
  unfold u32; omega

theorem two_pow_bounds {e : Nat} (h8 : 8 ≤ e) (h31 : e ≤ 31) :
    256 ≤ 2 ^ e ∧ 2 ^ e ≤ 2147483648 := by
  constructor
  · calc 256 = 2 ^ 8 := by norm_num
      _ ≤ 2 ^ e := Nat.pow_le_pow_right (by norm_num) h8
  · calc 2 ^ e ≤ 2 ^ 31 := Nat.pow_le_pow_right (by norm_num) h31
      _ = 2147483648 := by norm_num

/-- Specification of the doubling loop of `next_power`. -/
theorem next_power_loop_spec (size : Nat) (hs : size ≤ 2147483648) :
    ∀ fuel e, 8 ≤ e → e ≤ 31 → 31 < fuel + e → (e = 8 ∨ 2 ^ (e - 1) < size) →
      ∃ e1, next_power_loop size fuel (2 ^ e) = 2 ^ e1 ∧ e ≤ e1 ∧ e1 ≤ 31 ∧ size ≤ 2 ^ e1 ∧
        (e1 = 8 ∨ 2 ^ (e1 - 1) < size) := by
  intro fuel
  induction fuel with
  | zero => intro e _ h31 hf _; omega
  | succ fuel ih =>
    intro e h8 h31 hf hmin
    unfold next_power_loop
    by_cases hle : size ≤ 2 ^ e
    · rw [if_pos hle]; exact ⟨e, rfl, le_refl _, h31, hle, hmin⟩
    · rw [if_neg hle]
      have he : e < 31 := by
        by_contra hc
        have : e = 31 := by omega
        subst this
        norm_num at hle
        omega
      have hb := two_pow_bounds (e := e + 1) (by omega) (by omega)
      have hmul : u32 (2 ^ e * 2) = 2 ^ (e + 1) := by
        rw [← pow_succ]; exact u32_lt (by omega)
      rw [hmul]
      obtain ⟨e1, h1, h2, h3, h4, h5⟩ := ih (e + 1) (by omega) (by omega) (by omega)
        (Or.inr (by simpa using (by omega : 2 ^ e < size)))
      exact ⟨e1, h1, by omega, h3, h4, h5⟩

/-- The result of `next_power` is a power of two between 2^8 and 2^31, at least the
argument when that is at most 2^31, and the least such power. -/
theorem next_power_spec (size : Nat) :
    ∃ e, next_power size = 2 ^ e ∧ 8 ≤ e ∧ e ≤ 31 ∧
      (size ≤ 2147483648 → size ≤ 2 ^ e) ∧ (e = 8 ∨ 2 ^ (e - 1) < size) := by
  unfold next_power
  by_cases h : 2147483648 ≤ size
  · rw [if_pos h]
    refine ⟨31, by norm_num, by norm_num, le_refl _, ?_, Or.inr ?_⟩
    · intro h2; norm_num; omega
    · norm_num; omega
  · rw [if_neg h]
    obtain ⟨e1, h1, h2, h3, h4, h5⟩ :=
      next_power_loop_spec size (by omega) 32 8 (le_refl _) (by norm_num) (by norm_num) (Or.inl rfl)
    exact ⟨e1, by simpa using h1, h2, h3, fun _ => h4, h5⟩

/-- On a power of two in range `next_power` is the identity. -/
theorem next_power_pow {e : Nat} (h8 : 8 ≤ e) (h31 : e ≤ 31) : next_power (2 ^ e) = 2 ^ e := by
  obtain ⟨e1, h1, h2, h3, h4, h5⟩ := next_power_spec (2 ^ e)
  have hb := two_pow_bounds h8 h31
  have hle : e ≤ e1 := (Nat.pow_le_pow_iff_right (by norm_num)).mp (h4 hb.2)
  have hge : e1 ≤ e := by
    rcases h5 with h5 | h5
    · omega
    · have := (Nat.pow_lt_pow_iff_right (by norm_num : 1 < 2)).mp h5
      omega
  rw [h1, le_antisymm hge hle]

/-! ## Counting lemmas -/

theorem count_entries_le (f : Nat → Slot κ ν) (n : Nat) : count_entries f n ≤ n := by
  induction n with
  | zero => simp [count_entries]
  | succ n ih => unfold count_entries; split <;> omega

theorem count_entries_set_ge (f : Nat → Slot κ ν) (i : Nat) (s : Slot κ ν) (n : Nat)
    (h : n ≤ i) : count_entries (slot_set f i s) n = count_entries f n := by
  induction n with
  | zero => rfl
  | succ n ih =>
    have hne : n ≠ i := by omega
    simp only [count_entries, slot_set, if_neg hne]
    rw [← ih (by omega)]

theorem count_entries_set_lt (f : Nat → Slot κ ν) (i : Nat) (s : Slot κ ν) (n : Nat)
    (h : i < n) :
    count_entries (slot_set f i s) n + (if is_entry (f i) then 1 else 0) =
      count_entries f n + (if is_entry s then 1 else 0) := by
  induction n with
  | zero => omega
  | succ n ih =>
    by_cases hi : i = n
    · subst hi
      have h1 := count_entries_set_ge f i s i (le_refl _)
      simp only [count_entries, h1, slot_set, if_true]
      omega
    · have h2 := ih (by omega)
      have hne : n ≠ i := fun hc => hi hc.symm
      simp only [count_entries, slot_set, if_neg hne] at h2 ⊢
      omega

theorem count_entries_zero_iff (f : Nat → Slot κ ν) (n : Nat) (h : count_entries f n = 0) :
    ∀ i, i < n → is_entry (f i) = false := by
  induction n with
  | zero => intro i hi; omega
  | succ n ih =>
    intro i hi
    unfold count_entries at h
    by_cases hin : i = n
    · subst hin
      by_contra hc
      simp only [Bool.not_eq_false] at hc
      rw [if_pos hc] at h
      omega
    · exact ih (by omega) i (by omega)

theorem count_entries_const_empty (n : Nat) :
    count_entries (fun _ => (Slot.empty : Slot κ ν)) n = 0 := by
  induction n with
  | zero => rfl
  | succ n ih => simp [count_entries, ih, is_entry]

/-! ## Elementary facts on the probe step -/

theorem Inv.used_le {t : hashtable κ ν} (h : Inv t) : t.used ≤ t.size := by
  rw [h.cnt]; exact count_entries_le _ _

theorem Inv.size_le {t : hashtable κ ν} (h : Inv t) : t.size ≤ 2147483648 := by
  rcases h.cap with ⟨h0, _⟩ | ⟨e, h8, h31, hs, _⟩
  · omega
  · rw [hs]; exact (two_pow_bounds h8 h31).2

theorem Inv.size_pos {t : hashtable κ ν} (h : Inv t) (h0 : t.size ≠ 0) :
    256 ≤ t.size ∧ t.sizemask = t.size - 1 := by
  rcases h.cap with ⟨hz, _⟩ | ⟨e, h8, h31, hs, hm⟩
  · exact absurd hz h0
  · exact ⟨by rw [hs]; exact (two_pow_bounds h8 h31).1, hm⟩

theorem and_mask_lt {t : hashtable κ ν} (h : Inv t) (h0 : t.size ≠ 0) (x : Nat) :
    x &&& t.sizemask < t.size := by
  have hp := h.size_pos h0
  have : x &&& t.sizemask ≤ t.sizemask := Nat.and_le_right
  omega

theorem home_lt {t : hashtable κ ν} (h : Inv t) (h0 : t.size ≠ 0) (key : κ) :
    home t key < t.size := and_mask_lt h h0 _

theorem next_lt {t : hashtable κ ν} (h : Inv t) (h0 : t.size ≠ 0) (x : Nat) :
    next t x < t.size := and_mask_lt h h0 _

theorem next_congr {a b : hashtable κ ν} (h : b.sizemask = a.sizemask) : next b = next a := by
  funext x; simp [next, h]

theorem home_congr {a b : hashtable κ ν} (h : SameShape a b) : home b = home a := by
  funext x; simp [home, h.sizemask, h.hashf]

theorem probe_congr {a b : hashtable κ ν} (h : SameShape a b) : probe b = probe a := by
  funext k i; simp [probe, next_congr h.sizemask, home_congr h]

theorem SameShape.refl (a : hashtable κ ν) : SameShape a a := ⟨rfl, rfl, rfl, rfl, rfl, rfl⟩

theorem SameShape.trans {a b c : hashtable κ ν} (h1 : SameShape a b) (h2 : SameShape b c) :
    SameShape a c :=
  ⟨h2.size.trans h1.size, h2.sizemask.trans h1.sizemask, h2.hashf.trans h1.hashf,
    h2.key_compare.trans h1.key_compare, h2.key_destructor.trans h1.key_destructor,
    h2.val_destructor.trans h1.val_destructor⟩

/-! ## The rehash of `ht_expand` -/

/-- The probe of the rehash ends on a `NULL` slot, after a walk over occupied slots. -/
theorem ht_expand_probe_spec (n : hashtable κ ν) :
    ∀ fuel h c h1 c1, ht_expand_probe n fuel h c = some (h1, c1) →
      ∃ d, (next n)^[d + 1] h = h1 ∧ n.table h1 = Slot.empty ∧
        ∀ i, i < d → n.table ((next n)^[i + 1] h) ≠ Slot.empty := by
  intro fuel
  induction fuel with
  | zero => intro h c h1 c1 hp; simp [ht_expand_probe] at hp
  | succ fuel ih =>
    intro h c h1 c1 hp
    unfold ht_expand_probe at hp
    cases hs : n.table (next n h) with
    | empty =>
      rw [hs] at hp
      simp only [Option.some.injEq, Prod.mk.injEq] at hp
      refine ⟨0, ?_, ?_, ?_⟩
      · simpa using hp.1
      · rw [← hp.1]; exact hs
      · intro i hi; omega
    | tombstone =>
      rw [hs] at hp
      obtain ⟨d, hd1, hd2, hd3⟩ := ih _ _ _ _ hp
      refine ⟨d + 1, ?_, hd2, ?_⟩
      · rw [Function.iterate_succ_apply]; exact hd1
      · intro i hi
        cases i with
        | zero => simp [hs]
        | succ i => rw [Function.iterate_succ_apply]; exact hd3 i (by omega)
    | entry k v =>
      rw [hs] at hp
      obtain ⟨d, hd1, hd2, hd3⟩ := ih _ _ _ _ hp
      refine ⟨d + 1, ?_, hd2, ?_⟩
      · rw [Function.iterate_succ_apply]; exact hd1
      · intro i hi
        cases i with
        | zero => simp [hs]
        | succ i => rw [Function.iterate_succ_apply]; exact hd3 i (by omega)

/-- One placement of the rehash writes the element into a `NULL` slot that is reached
from the home slot of its key over occupied slots. -/
theorem ht_expand_place_spec (n : hashtable κ ν) (key : κ) (data : ν) (n1 : hashtable κ ν)
    (hp : ht_expand_place n key data = some n1) :
    ∃ j c d, n1 = { n with table := slot_set n.table j (Slot.entry key data), collisions := c } ∧
      n.table j = Slot.empty ∧ (∃ x, j = x &&& n.sizemask) ∧
      probe n key d = j ∧ ∀ i, i < d → n.table (probe n key i) ≠ Slot.empty := by
  unfold ht_expand_place at hp
  cases hs : n.table (home n key) with
  | empty =>
    rw [hs] at hp
    simp only [Option.some.injEq] at hp
    exact ⟨home n key, n.collisions, 0, hp.symm, hs, ⟨_, rfl⟩, rfl, fun i hi => by omega⟩
  | tombstone =>
    rw [hs] at hp
    simp only at hp
    cases hq : ht_expand_probe n n.size (home n key) (inc32 n.collisions) with
    | none => rw [hq] at hp; simp at hp
    | some q =>
      obtain ⟨h1, c1⟩ := q
      rw [hq] at hp
      simp only [Option.some.injEq] at hp
      obtain ⟨d, hd1, hd2, hd3⟩ := ht_expand_probe_spec n _ _ _ _ _ hq
      refine ⟨h1, c1, d + 1, hp.symm, hd2, ?_, hd1, ?_⟩
      · rw [← hd1, Function.iterate_succ_apply']; exact ⟨_, rfl⟩
      · intro i hi
        cases i with
        | zero => simp [probe, hs]
        | succ i => exact hd3 i (by omega)
  | entry k v =>
    rw [hs] at hp
    simp only at hp
    cases hq : ht_expand_probe n n.size (home n key) (inc32 n.collisions) with
    | none => rw [hq] at hp; simp at hp
    | some q =>
      obtain ⟨h1, c1⟩ := q
      rw [hq] at hp
      simp only [Option.some.injEq] at hp
      obtain ⟨d, hd1, hd2, hd3⟩ := ht_expand_probe_spec n _ _ _ _ _ hq
      refine ⟨h1, c1, d + 1, hp.symm, hd2, ?_, hd1, ?_⟩
      · rw [← hd1, Function.iterate_succ_apply']; exact ⟨_, rfl⟩
      · intro i hi
        cases i with
        | zero => simp [probe, hs]
        | succ i => exact hd3 i (by omega)

/-- Induction principle for the rehash loop: a property kept by every placement holds
at the end of the loop. -/
theorem ht_expand_loop_ind (t : hashtable κ ν) (P : Nat → hashtable κ ν → Prop)
    (hstep : ∀ used n key data n1, used ≠ 0 → P used n →
      ht_expand_place n key data = some n1 → P (dec32 used) n1) :
    ∀ fuel i used n r, ht_expand_loop t fuel i used n = some r → P used n → P r.1 r.2 := by
  intro fuel
  induction fuel with
  | zero =>
    intro i used n r hl hP
    simp only [ht_expand_loop, Option.some.injEq] at hl
    rw [← hl]; exact hP
  | succ fuel ih =>
    intro i used n r hl hP
    unfold ht_expand_loop at hl
    by_cases hu : used = 0
    · rw [if_pos hu] at hl
      simp only [Option.some.injEq] at hl
      rw [← hl]; exact hP
    · rw [if_neg hu] at hl
      cases hs : t.table i with
      | empty => rw [hs] at hl; exact ih _ _ _ _ hl hP
      | tombstone => rw [hs] at hl; exact ih _ _ _ _ hl hP
      | entry key data =>
        rw [hs] at hl
        simp only at hl
        cases hq : ht_expand_place n key data with
        | none => rw [hq] at hl; simp at hl
        | some n1 =>
          rw [hq] at hl
          exact ih _ _ _ _ hl (hstep _ _ _ _ _ hu hP hq)

theorem SameShape.bundle {a b : hashtable κ ν} (h : SameShape a b) : SameBundle a b :=
  ⟨h.hashf, h.key_compare, h.key_destructor, h.val_destructor⟩

theorem SameBundle.same (a : hashtable κ ν) : SameBundle a a := ⟨rfl, rfl, rfl, rfl⟩

theorem SameBundle.compose {a b c : hashtable κ ν} (h1 : SameBundle a b) (h2 : SameBundle b c) :
    SameBundle a c :=
  ⟨h2.hashf.trans h1.hashf, h2.key_compare.trans h1.key_compare,
    h2.key_destructor.trans h1.key_destructor, h2.val_destructor.trans h1.val_destructor⟩

/-- The probe-chain invariant survives a change of slots that empties no slot and whose
new elements come with a walk from their home slot. -/
theorem ChainInv.update {t t1 : hashtable κ ν} (hs : SameShape t t1) (hc : ChainInv t)
    (hne : ∀ i, t.table i ≠ Slot.empty → t1.table i ≠ Slot.empty)
    (hent : ∀ j k v, j < t.size → t1.table j = Slot.entry k v →
      t.table j = Slot.entry k v ∨
      ∃ d, probe t k d = j ∧ ∀ i, i < d → t.table (probe t k i) ≠ Slot.empty) :
    ChainInv t1 := by
  intro j k v hj he
  rw [probe_congr hs]
  rw [hs.size] at hj
  rcases hent j k v hj he with h | ⟨d, hd1, hd2⟩
  · obtain ⟨d, hd1, hd2⟩ := hc j k v hj h
    exact ⟨d, hd1, fun i hi => hne _ (hd2 i hi)⟩
  · exact ⟨d, hd1, fun i hi => hne _ (hd2 i hi)⟩

/-- Writing an element into a slot reached from its home slot over occupied slots keeps
the probe-chain invariant. -/
theorem ChainInv.set_entry {t : hashtable κ ν} (hc : ChainInv t) (j : Nat) (key : κ) (data : ν)
    (u c : Nat) (d : Nat) (hd1 : probe t key d = j)
    (hd2 : ∀ i, i < d → t.table (probe t key i) ≠ Slot.empty) :
    ChainInv { t with table := slot_set t.table j (Slot.entry key data), used := u,
                      collisions := c } := by
  refine ChainInv.update (t := t) ⟨rfl, rfl, rfl, rfl, rfl, rfl⟩ hc ?_ ?_
  · intro i hi
    simp only [slot_set]
    split
    · simp
    · exact hi
  · intro j1 k v hj he
    simp only [slot_set] at he
    by_cases hjj : j1 = j
    · rw [if_pos hjj] at he
      simp only [Slot.entry.injEq] at he
      right
      rw [← he.1, hjj]
      exact ⟨d, hd1, hd2⟩
    · rw [if_neg hjj] at he
      exact Or.inl he

/-- Turning a slot into a tombstone keeps the probe-chain invariant. -/
theorem ChainInv.set_tombstone {t : hashtable κ ν} (hc : ChainInv t) (j : Nat) (u : Nat) :
    ChainInv { t with table := slot_set t.table j Slot.tombstone, used := u } := by
  refine ChainInv.update (t := t) ⟨rfl, rfl, rfl, rfl, rfl, rfl⟩ hc ?_ ?_
  · intro i hi
    simp only [slot_set]
    split
    · simp
    · exact hi
  · intro j1 k v hj he
    simp only [slot_set] at he
    by_cases hjj : j1 = j
    · rw [if_pos hjj] at he; simp at he
    · rw [if_neg hjj] at he
      exact Or.inl he

/-- What a call of `ht_expand` does: it refuses a size not above `used`, reports a
failed allocation, or returns a fresh table of the new size that satisfies the
invariants and keeps `used` and the strategy bundle. -/
theorem ht_expand_spec {w : World κ ν} {t : hashtable κ ν} {size : Nat} {r : Ret κ ν}
    (hu : t.used ≤ 2147483648) (he : ht_expand w t size = some r) :
    (r.ret = HT_INVALID ∧ size ≤ t.used ∧ r.t = t ∧ r.w = w) ∨
    (r.ret = HT_NOMEM ∧ t.used < size ∧ (malloc w).1 = false ∧ r.t = t ∧ r.w = (malloc w).2) ∨
    (r.ret = HT_OK ∧ t.used < size ∧ (malloc w).1 = true ∧ r.w = (malloc w).2 ∧
      r.t.size = next_power (u32 size) ∧ Inv r.t ∧ ChainInv r.t ∧ r.t.used = t.used ∧
      SameBundle t r.t) := by
  unfold ht_expand at he
  simp only at he
  by_cases h1 : size ≤ t.used
  · rw [if_pos h1] at he
    simp only [Option.some.injEq] at he
    subst he
    exact Or.inl ⟨rfl, h1, rfl, rfl⟩
  · rw [if_neg h1] at he
    by_cases h2 : (malloc w).1 = false
    · rw [if_pos h2] at he
      simp only [Option.some.injEq] at he
      subst he
      exact Or.inr (Or.inl ⟨rfl, by omega, h2, rfl, rfl⟩)
    · rw [if_neg h2] at he
      right; right
      obtain ⟨e, hpow, h8, h31, -, -⟩ := next_power_spec (u32 size)
      have hb := two_pow_bounds h8 h31
      obtain ⟨n0, hn0⟩ : ∃ n0 : hashtable κ ν, (⟨fun _ => Slot.empty, next_power (u32 size),
          dec32 (next_power (u32 size)), t.used, 0, t.hashf, t.key_compare, t.key_destructor,
          t.val_destructor⟩ : hashtable κ ν) = n0 := ⟨_, rfl⟩
      rw [hn0] at he
      have hsz : n0.size = 2 ^ e := by rw [← hn0]; exact hpow
      have hmask : n0.sizemask = n0.size - 1 := by
        rw [← hn0]; exact dec32_pos (by rw [hpow]; omega) (by rw [hpow]; omega)
      cases hl : ht_expand_loop t t.size 0 t.used n0 with
      | none => rw [hl] at he; simp at he
      | some q =>
        obtain ⟨u1, n1⟩ := q
        rw [hl] at he
        simp only at he
        by_cases hu1 : u1 = 0
        · rw [if_pos hu1] at he
          simp only [Option.some.injEq] at he
          have key := ht_expand_loop_ind t
            (fun used n => SameShape n0 n ∧ n.used = n0.used ∧
              count_entries n.table n0.size + used = t.used ∧ ChainInv n)
            (by
              intro used n key data n2 hne ⟨hS, hU, hC, hCh⟩ hpl
              obtain ⟨j, c, d, hn2, hj0, ⟨x, hx⟩, hd1, hd2⟩ := ht_expand_place_spec _ _ _ _ hpl
              have hjlt : j < n0.size := by
                have hjm : j ≤ n.sizemask := by rw [hx]; exact Nat.and_le_right
                rw [hS.sizemask, hmask] at hjm
                omega
              subst hn2
              refine ⟨⟨hS.size, hS.sizemask, hS.hashf, hS.key_compare, hS.key_destructor,
                hS.val_destructor⟩, hU, ?_, ?_⟩
              · have hcs := count_entries_set_lt n.table j (Slot.entry key data) n0.size hjlt
                simp only [hj0, is_entry] at hcs
                have hd : dec32 used = used - 1 := dec32_pos (by omega) (by omega)
                simp only [hd]
                simp only [Bool.false_eq_true, if_false, if_true] at hcs
                omega
              · exact ChainInv.set_entry hCh j key data n.used c d hd1 hd2)
            t.size 0 t.used n0 (u1, n1) hl
            ⟨SameShape.refl _, rfl, by
              rw [← hn0]; simp [count_entries_const_empty], by
              intro j k v _ hjk
              rw [← hn0] at hjk
              simp at hjk⟩
          obtain ⟨hS, hU, hC, hCh⟩ := key
          simp only at hS hU hC hCh
          subst he
          refine ⟨rfl, by omega, by simpa using h2, rfl, ?_, ?_, hCh, ?_, ?_⟩
          · show n1.size = _
            rw [hS.size, ← hn0]
          · refine ⟨Or.inr ⟨e, h8, h31, ?_, ?_⟩, ?_⟩
            · show n1.size = _
              rw [hS.size, hsz]
            · show n1.sizemask = n1.size - 1
              rw [hS.sizemask, hS.size, hmask]
            · show n1.used = count_entries n1.table n1.size
              have hn0u : n0.used = t.used := by rw [← hn0]
              rw [hS.size, hU, hn0u]
              omega
          · show n1.used = _
            rw [hU, ← hn0]
          · have hb2 := hS.bundle
            rw [← hn0] at hb2
            exact ⟨hb2.hashf, hb2.key_compare, hb2.key_destructor, hb2.val_destructor⟩
        · rw [if_neg hu1] at he
          simp at he

/-! ## The probe walks of insert and search -/

theorem probe_zero (t : hashtable κ ν) (key : κ) : probe t key 0 = home t key := rfl

theorem probe_succ (t : hashtable κ ν) (key : κ) (i : Nat) :
    probe t key (i + 1) = next t (probe t key i) := by
  simp [probe, Function.iterate_succ_apply']

theorem probe_lt {t : hashtable κ ν} (h : Inv t) (h0 : t.size ≠ 0) (key : κ) (i : Nat) :
    probe t key i < t.size := by
  cases i with
  | zero => exact home_lt h h0 key
  | succ i => rw [probe_succ]; exact next_lt h h0 _

/-- The loop of `ht_insert` walks over elements with another key and ends on a slot
without element (`HT_OK`) or on an element with an equal key (`HT_BUSY`). -/
theorem ht_insert_loop_spec (t : hashtable κ ν) (key : κ) :
    ∀ fuel h c ret j c1, ht_insert_loop t key fuel h c = some (ret, j, c1) →
      ∃ d, d < fuel ∧
        (∀ i, i < d → ∃ k v, t.table ((next t)^[i + 1] h) = Slot.entry k v ∧
          t.key_compare key k = false) ∧
        ((ret = HT_OK ∧ j = (next t)^[d + 1] h ∧ is_entry (t.table j) = false) ∨
         (ret = HT_BUSY ∧ ∃ k v, t.table ((next t)^[d + 1] h) = Slot.entry k v ∧
          t.key_compare key k = true)) := by
  intro fuel
  induction fuel with
  | zero => intro h c ret j c1 hl; simp [ht_insert_loop] at hl
  | succ fuel ih =>
    intro h c ret j c1 hl
    unfold ht_insert_loop at hl
    cases hs : t.table (next t h) with
    | empty =>
      rw [hs] at hl
      simp only [Option.some.injEq, Prod.mk.injEq] at hl
      refine ⟨0, by omega, fun i hi => by omega, Or.inl ⟨hl.1.symm, ?_, ?_⟩⟩
      · simpa using hl.2.1.symm
      · rw [← hl.2.1, hs]; rfl
    | tombstone =>
      rw [hs] at hl
      simp only [Option.some.injEq, Prod.mk.injEq] at hl
      refine ⟨0, by omega, fun i hi => by omega, Or.inl ⟨hl.1.symm, ?_, ?_⟩⟩
      · simpa using hl.2.1.symm
      · rw [← hl.2.1, hs]; rfl
    | entry k v =>
      rw [hs] at hl
      simp only at hl
      by_cases hc : t.key_compare key k = true
      · rw [if_pos hc] at hl
        simp only [Option.some.injEq, Prod.mk.injEq] at hl
        refine ⟨0, by omega, fun i hi => by omega, Or.inr ⟨hl.1.symm, k, v, ?_, hc⟩⟩
        simpa using hs
      · rw [if_neg hc] at hl
        obtain ⟨d, hd, hpath, hend⟩ := ih _ _ _ _ _ hl
        refine ⟨d + 1, by omega, ?_, ?_⟩
        · intro i hi
          cases i with
          | zero => exact ⟨k, v, by simpa using hs, by simpa using hc⟩
          | succ i => rw [Function.iterate_succ_apply]; exact hpath i (by omega)
        · rw [Function.iterate_succ_apply]; exact hend

/-- The walk of `ht_insert` passes elements with another key and ends on a slot
without element (`HT_OK`) or on an element with an equal key (`HT_BUSY`). -/
theorem ht_insert_walk_spec (t : hashtable κ ν) (key : κ) (ret j c1 : Nat)
    (hw : ht_insert_walk t key = some (ret, j, c1)) :
    ∃ d, d ≤ t.size ∧
      (∀ i, i < d → ∃ k v, t.table (probe t key i) = Slot.entry k v ∧
        t.key_compare key k = false) ∧
      ((ret = HT_OK ∧ j = probe t key d ∧ is_entry (t.table j) = false) ∨
       (ret = HT_BUSY ∧ ∃ k v, t.table (probe t key d) = Slot.entry k v ∧
        t.key_compare key k = true)) := by
  unfold ht_insert_walk at hw
  cases hs : t.table (home t key) with
  | empty =>
    rw [hs] at hw
    simp only [Option.some.injEq, Prod.mk.injEq] at hw
    refine ⟨0, by omega, fun i hi => by omega, Or.inl ⟨hw.1.symm, hw.2.1.symm, ?_⟩⟩
    rw [← hw.2.1, hs]; rfl
  | tombstone =>
    rw [hs] at hw
    simp only [Option.some.injEq, Prod.mk.injEq] at hw
    refine ⟨0, by omega, fun i hi => by omega, Or.inl ⟨hw.1.symm, hw.2.1.symm, ?_⟩⟩
    rw [← hw.2.1, hs]; rfl
  | entry k v =>
    rw [hs] at hw
    simp only at hw
    by_cases hc : t.key_compare key k = true
    · rw [if_pos hc] at hw
      simp only [Option.some.injEq, Prod.mk.injEq] at hw
      exact ⟨0, by omega, fun i hi => by omega, Or.inr ⟨hw.1.symm, k, v, hs, hc⟩⟩
    · rw [if_neg hc] at hw
      obtain ⟨d, hd, hpath, hend⟩ := ht_insert_loop_spec t key _ _ _ _ _ _ hw
      refine ⟨d + 1, by omega, ?_, hend⟩
      intro i hi
      cases i with
      | zero => exact ⟨k, v, hs, by simpa using hc⟩
      | succ i => exact hpath i (by omega)

/-- The loop of `ht_search` finds an element that is reached over skipped slots. -/
theorem ht_search_loop_of_path (t : hashtable κ ν) (key : κ) :
    ∀ d fuel h k v, d < fuel →
      (∀ i, i < d → skips t key (t.table ((next t)^[i + 1] h))) →
      t.table ((next t)^[d + 1] h) = Slot.entry k v → t.key_compare key k = true →
      ht_search_loop t key fuel h = some (HT_FOUND, (next t)^[d + 1] h) := by
  intro d
  induction d with
  | zero =>
    intro fuel h k v hf _ hent hcmp
    cases fuel with
    | zero => omega
    | succ fuel =>
      unfold ht_search_loop
      simp only [Function.iterate_succ, Function.iterate_zero, Function.comp_apply, id_eq] at hent ⊢
      rw [hent]
      simp [hcmp]
  | succ d ih =>
    intro fuel h k v hf hpath hent hcmp
    cases fuel with
    | zero => omega
    | succ fuel =>
      have h0 := hpath 0 (by omega)
      simp only [Function.iterate_succ, Function.iterate_zero, Function.comp_apply, id_eq] at h0
      have hrec := ih fuel (next t h) k v (by omega)
        (fun i hi => by
          have := hpath (i + 1) (by omega)
          rwa [Function.iterate_succ_apply] at this)
        (by rwa [Function.iterate_succ_apply] at hent) hcmp
      rw [Function.iterate_succ_apply]
      unfold ht_search_loop
      rcases h0 with h0 | ⟨k0, v0, h0, hc0⟩
      · rw [h0]; exact hrec
      · rw [h0]; simp only [hc0]; exact hrec

/-- The loop of `ht_search` reports `HT_NOTFOUND` at a `NULL` slot that is reached over
skipped slots. -/
theorem ht_search_loop_of_empty (t : hashtable κ ν) (key : κ) :
    ∀ d fuel h, d < fuel →
      (∀ i, i < d → skips t key (t.table ((next t)^[i + 1] h))) →
      t.table ((next t)^[d + 1] h) = Slot.empty →
      ht_search_loop t key fuel h = some (HT_NOTFOUND, 0) := by
  intro d
  induction d with
  | zero =>
    intro fuel h hf _ hent
    cases fuel with
    | zero => omega
    | succ fuel =>
      unfold ht_search_loop
      simp only [Function.iterate_succ, Function.iterate_zero, Function.comp_apply, id_eq] at hent
      rw [hent]
  | succ d ih =>
    intro fuel h hf hpath hent
    cases fuel with
    | zero => omega
    | succ fuel =>
      have h0 := hpath 0 (by omega)
      simp only [Function.iterate_succ, Function.iterate_zero, Function.comp_apply, id_eq] at h0
      have hrec := ih fuel (next t h) (by omega)
        (fun i hi => by
          have := hpath (i + 1) (by omega)
          rwa [Function.iterate_succ_apply] at this)
        (by rwa [Function.iterate_succ_apply] at hent)
      unfold ht_search_loop
      rcases h0 with h0 | ⟨k0, v0, h0, hc0⟩
      · rw [h0]; exact hrec
      · rw [h0]; simp only [hc0]; exact hrec

/-- What a result of the loop of `ht_search` says about the slots walked. -/
theorem ht_search_loop_spec (t : hashtable κ ν) (key : κ) :
    ∀ fuel h ret j, ht_search_loop t key fuel h = some (ret, j) →
      ∃ d, d < fuel ∧ (∀ i, i < d → skips t key (t.table ((next t)^[i + 1] h))) ∧
        ((ret = HT_FOUND ∧ j = (next t)^[d + 1] h ∧
          ∃ k v, t.table j = Slot.entry k v ∧ t.key_compare key k = true) ∨
         (ret = HT_NOTFOUND ∧ t.table ((next t)^[d + 1] h) = Slot.empty)) := by
  intro fuel
  induction fuel with
  | zero => intro h ret j hl; simp [ht_search_loop] at hl
  | succ fuel ih =>
    intro h ret j hl
    unfold ht_search_loop at hl
    cases hs : t.table (next t h) with
    | empty =>
      rw [hs] at hl
      simp only [Option.some.injEq, Prod.mk.injEq] at hl
      exact ⟨0, by omega, fun i hi => by omega, Or.inr ⟨hl.1.symm, by simpa using hs⟩⟩
    | tombstone =>
      rw [hs] at hl
      obtain ⟨d, hd, hpath, hend⟩ := ih _ _ _ hl
      refine ⟨d + 1, by omega, ?_, ?_⟩
      · intro i hi
        cases i with
        | zero => exact Or.inl (by simpa using hs)
        | succ i => rw [Function.iterate_succ_apply]; exact hpath i (by omega)
      · rw [Function.iterate_succ_apply]; exact hend
    | entry k v =>
      rw [hs] at hl
      simp only at hl
      by_cases hc : t.key_compare key k = true
      · rw [if_pos hc] at hl
        simp only [Option.some.injEq, Prod.mk.injEq] at hl
        refine ⟨0, by omega, fun i hi => by omega, Or.inl ⟨hl.1.symm, ?_, k, v, ?_, hc⟩⟩
        · simpa using hl.2.symm
        · rw [← hl.2]; exact hs
      · rw [if_neg hc] at hl
        obtain ⟨d, hd, hpath, hend⟩ := ih _ _ _ hl
        refine ⟨d + 1, by omega, ?_, ?_⟩
        · intro i hi
          cases i with
          | zero => exact Or.inr ⟨k, v, by simpa using hs, by simpa using hc⟩
          | succ i => rw [Function.iterate_succ_apply]; exact hpath i (by omega)
        · rw [Function.iterate_succ_apply]; exact hend

/-- The walk of `ht_search` finds an element that is reached over skipped slots. -/
theorem ht_search_walk_of_path (t : hashtable κ ν) (key : κ) (d : Nat) (k : κ) (v : ν)
    (hd : d ≤ t.size) (hpath : ∀ i, i < d → skips t key (t.table (probe t key i)))
    (hent : t.table (probe t key d) = Slot.entry k v) (hcmp : t.key_compare key k = true) :
    ht_search_walk t key = some (HT_FOUND, probe t key d) := by
  unfold ht_search_walk
  cases d with
  | zero =>
    rw [probe_zero] at hent
    rw [hent]
    simp [hcmp, probe_zero]
  | succ d =>
    have hl := ht_search_loop_of_path t key d t.size (home t key) k v (by omega)
      (fun i hi => hpath (i + 1) (by omega)) hent hcmp
    have h0 := hpath 0 (by omega)
    rw [probe_zero] at h0
    rcases h0 with h0 | ⟨k0, v0, h0, hc0⟩
    · rw [h0]; exact hl
    · rw [h0]; simp only [hc0]; exact hl

/-- The walk of `ht_search` reports `HT_NOTFOUND` at a `NULL` slot that is reached over
skipped slots. -/
theorem ht_search_walk_of_empty (t : hashtable κ ν) (key : κ) (d : Nat)
    (hd : d ≤ t.size) (hpath : ∀ i, i < d → skips t key (t.table (probe t key i)))
    (hent : t.table (probe t key d) = Slot.empty) :
    ht_search_walk t key = some (HT_NOTFOUND, 0) := by
  unfold ht_search_walk
  cases d with
  | zero =>
    rw [probe_zero] at hent
    rw [hent]
  | succ d =>
    have hl := ht_search_loop_of_empty t key d t.size (home t key) (by omega)
      (fun i hi => hpath (i + 1) (by omega)) hent
    have h0 := hpath 0 (by omega)
    rw [probe_zero] at h0
    rcases h0 with h0 | ⟨k0, v0, h0, hc0⟩
    · rw [h0]; exact hl
    · rw [h0]; simp only [hc0]; exact hl

/-- What a result of the walk of `ht_search` says about the slots walked. -/
theorem ht_search_walk_spec (t : hashtable κ ν) (key : κ) (ret j : Nat)
    (hw : ht_search_walk t key = some (ret, j)) :
    ∃ d, d ≤ t.size ∧ (∀ i, i < d → skips t key (t.table (probe t key i))) ∧
      ((ret = HT_FOUND ∧ j = probe t key d ∧
        ∃ k v, t.table j = Slot.entry k v ∧ t.key_compare key k = true) ∨
       (ret = HT_NOTFOUND ∧ t.table (probe t key d) = Slot.empty)) := by
  unfold ht_search_walk at hw
  cases hs : t.table (home t key) with
  | empty =>
    rw [hs] at hw
    simp only [Option.some.injEq, Prod.mk.injEq] at hw
    exact ⟨0, by omega, fun i hi => by omega, Or.inr ⟨hw.1.symm, hs⟩⟩
  | tombstone =>
    rw [hs] at hw
    obtain ⟨d, hd, hpath, hend⟩ := ht_search_loop_spec t key _ _ _ _ hw
    refine ⟨d + 1, by omega, ?_, hend⟩
    intro i hi
    cases i with
    | zero => exact Or.inl hs
    | succ i => exact hpath i (by omega)
  | entry k v =>
    rw [hs] at hw
    simp only at hw
    by_cases hc : t.key_compare key k = true
    · rw [if_pos hc] at hw
      simp only [Option.some.injEq, Prod.mk.injEq] at hw
      refine ⟨0, by omega, fun i hi => by omega, Or.inl ⟨hw.1.symm, hw.2.symm, k, v, ?_, hc⟩⟩
      rw [← hw.2]; exact hs
    · rw [if_neg hc] at hw
      obtain ⟨d, hd, hpath, hend⟩ := ht_search_loop_spec t key _ _ _ _ hw
      refine ⟨d + 1, by omega, ?_, hend⟩
      intro i hi
      cases i with
      | zero => exact Or.inr ⟨k, v, hs, by simpa using hc⟩
      | succ i => exact hpath i (by omega)

/-- On a table that has a slot array `ht_search` is its probe walk. -/
theorem ht_search_eq_walk (w : World κ ν) (t : hashtable κ ν) (key : κ) (h0 : t.size ≠ 0) :
    ht_search w t key = (ht_search_walk t key).map fun p => ⟨p.1, p.2, t, w⟩ := by
  unfold ht_search
  rw [if_neg h0]
  simp

/-! ## Invariants under the elementary slot updates -/

theorem is_entry_entry (k : κ) (v : ν) : is_entry (Slot.entry k v) = true := rfl

theorem is_entry_empty : is_entry (Slot.empty : Slot κ ν) = false := rfl

theorem is_entry_tombstone : is_entry (Slot.tombstone : Slot κ ν) = false := rfl

theorem Inv.add_entry {t : hashtable κ ν} (h : Inv t) (j : Nat) (key : κ) (data : ν) (c : Nat)
    (hj : j < t.size) (hs : is_entry (t.table j) = false) :
    Inv { t with table := slot_set t.table j (Slot.entry key data), used := inc32 t.used,
                 collisions := c } := by
  have hcs := count_entries_set_lt t.table j (Slot.entry key data) t.size hj
  simp only [hs, is_entry_entry, is_entry_tombstone, Bool.false_eq_true, if_false, if_true] at hcs
  have hu := h.used_le
  have hsz := h.size_le
  refine ⟨h.cap, ?_⟩
  show inc32 t.used = count_entries (slot_set t.table j (Slot.entry key data)) t.size
  rw [inc32_lt (by omega), h.cnt]
  omega

theorem Inv.clear_slot {t : hashtable κ ν} (h : Inv t) (j : Nat) (c : Nat)
    (hj : j < t.size) (hs : is_entry (t.table j) = false) :
    Inv { t with table := slot_set t.table j Slot.empty, collisions := c } := by
  have hcs := count_entries_set_lt t.table j Slot.empty t.size hj
  simp only [hs, is_entry_empty, Bool.false_eq_true, if_false] at hcs
  refine ⟨h.cap, ?_⟩
  show t.used = count_entries (slot_set t.table j Slot.empty) t.size
  rw [h.cnt]
  omega

theorem Inv.drop_entry {t : hashtable κ ν} (h : Inv t) (j : Nat)
    (hj : j < t.size) (hs : is_entry (t.table j) = true) :
    Inv { t with table := slot_set t.table j Slot.tombstone, used := dec32 t.used } ∧
      dec32 t.used + 1 = t.used := by
  have hcs := count_entries_set_lt t.table j Slot.tombstone t.size hj
  simp only [hs, is_entry_entry, is_entry_tombstone, Bool.false_eq_true, if_false, if_true] at hcs
  have hu := h.used_le
  have hsz := h.size_le
  have hcnt := h.cnt
  have hd : dec32 t.used = t.used - 1 := dec32_pos (by omega) (by omega)
  refine ⟨⟨h.cap, ?_⟩, by omega⟩
  show dec32 t.used = count_entries (slot_set t.table j Slot.tombstone) t.size
  omega

theorem Inv.with_collisions {t : hashtable κ ν} (h : Inv t) (c : Nat) :
    Inv { t with collisions := c } := ⟨h.cap, h.cnt⟩

theorem ChainInv.collisions {t : hashtable κ ν} (h : ChainInv t) (c : Nat) :
    ChainInv { t with collisions := c } := h

/-- A table that counts no element has no element slot, so every chain property holds. -/
theorem ChainInv.of_unused {t : hashtable κ ν} (h : Inv t) (hu : t.used = 0) : ChainInv t := by
  intro j k v hj he
  have := count_entries_zero_iff t.table t.size (by rw [← h.cnt]; exact hu) j hj
  rw [he] at this
  simp [is_entry] at this

/-! ## `ht_free` -/

/-- The three outcomes of `ht_free`. -/
theorem ht_free_spec (w : World κ ν) (t : hashtable κ ν) (index : Nat) :
    (t.size ≤ index ∧ ht_free w t index = ⟨HT_IOVERFLOW, t, w⟩) ∨
    (index < t.size ∧ is_entry (t.table index) = false ∧ ht_free w t index = ⟨HT_OK, t, w⟩) ∨
    (index < t.size ∧ ∃ key data, t.table index = Slot.entry key data ∧
      ht_free w t index =
        ⟨HT_OK, { t with table := slot_set t.table index Slot.tombstone, used := dec32 t.used },
          destruct t.val_destructor (Call.val_destructor data)
            (destruct t.key_destructor (Call.key_destructor key) w)⟩) := by
  unfold ht_free
  by_cases h : t.size ≤ index
  · exact Or.inl ⟨h, by rw [if_pos h]⟩
  · rw [if_neg h]
    right
    cases hs : t.table index with
    | empty => exact Or.inl ⟨by omega, rfl, rfl⟩
    | tombstone => exact Or.inl ⟨by omega, rfl, rfl⟩
    | entry key data => exact Or.inr ⟨by omega, key, data, rfl, rfl⟩

theorem ht_free_inv {w : World κ ν} {t : hashtable κ ν} (index : Nat) (h : Inv t) :
    Inv (ht_free w t index).t := by
  rcases ht_free_spec w t index with ⟨_, he⟩ | ⟨_, _, he⟩ | ⟨hi, key, data, hs, he⟩
  · rw [he]; exact h
  · rw [he]; exact h
  · rw [he]; exact (h.drop_entry index hi (by rw [hs]; rfl)).1

theorem ht_free_chain {w : World κ ν} {t : hashtable κ ν} (index : Nat) (h : ChainInv t) :
    ChainInv (ht_free w t index).t := by
  rcases ht_free_spec w t index with ⟨_, he⟩ | ⟨_, _, he⟩ | ⟨hi, key, data, hs, he⟩
  · rw [he]; exact h
  · rw [he]; exact h
  · rw [he]; exact h.set_tombstone index _

theorem ht_free_shape (w : World κ ν) (t : hashtable κ ν) (index : Nat) :
    SameShape t (ht_free w t index).t := by
  rcases ht_free_spec w t index with ⟨_, he⟩ | ⟨_, _, he⟩ | ⟨hi, key, data, hs, he⟩
  · rw [he]; exact SameShape.refl _
  · rw [he]; exact SameShape.refl _
  · rw [he]; exact ⟨rfl, rfl, rfl, rfl, rfl, rfl⟩

/-! ## The growth check -/

/-- The three branches of `ht_expand_if_needed`. -/
theorem ht_expand_if_needed_cases {w : World κ ν} {t : hashtable κ ν} {r : Ret κ ν}
    (he : ht_expand_if_needed w t = some r) :
    (t.size ≠ 0 ∧ ¬ t.size ≤ u32 (t.used * 2) ∧ r = ⟨HT_OK, t, w⟩) ∨
    (t.size = 0 ∧ ht_expand w t HT_INITIAL_SIZE = some r) ∨
    (t.size ≠ 0 ∧ t.size ≤ u32 (t.used * 2) ∧ ht_expand w t (u32 (t.size * 2)) = some r) := by
  unfold ht_expand_if_needed at he
  by_cases h0 : t.size = 0
  · rw [if_pos h0] at he
    exact Or.inr (Or.inl ⟨h0, he⟩)
  · rw [if_neg h0] at he
    by_cases h1 : t.size ≤ u32 (t.used * 2)
    · rw [if_pos h1] at he
      exact Or.inr (Or.inr ⟨h0, h1, he⟩)
    · rw [if_neg h1] at he
      simp only [Option.some.injEq] at he
      exact Or.inl ⟨h0, h1, he.symm⟩

/-- The growth check keeps the invariants, `used` and the strategy bundle; it
establishes the probe-chain invariant when it grows the table, leaves the table
untouched when it fails, and leaves a table with a slot array when it succeeds. -/
theorem ht_expand_if_needed_spec {w : World κ ν} {t : hashtable κ ν} {r : Ret κ ν}
    (h : Inv t) (he : ht_expand_if_needed w t = some r) :
    Inv r.t ∧ (ChainInv t → ChainInv r.t) ∧ r.t.used = t.used ∧ SameBundle t r.t ∧
      (r.ret = HT_OK → r.t.size ≠ 0) ∧ (r.ret ≠ HT_OK → r.t = t) ∧
      (r.ret = HT_OK ∨ r.ret = HT_NOMEM ∨ r.ret = HT_INVALID) := by
  have hu : t.used ≤ 2147483648 := le_trans h.used_le h.size_le
  have hexp : ∀ n, ht_expand w t n = some r →
      Inv r.t ∧ (ChainInv t → ChainInv r.t) ∧ r.t.used = t.used ∧ SameBundle t r.t ∧
      (r.ret = HT_OK → r.t.size ≠ 0) ∧ (r.ret ≠ HT_OK → r.t = t) ∧
      (r.ret = HT_OK ∨ r.ret = HT_NOMEM ∨ r.ret = HT_INVALID) := by
    intro n hn
    rcases ht_expand_spec hu hn with ⟨h1, _, h3, _⟩ | ⟨h1, _, _, h3, _⟩ |
      ⟨h1, _, _, _, h5, h6, h7, h8, h9⟩
    · rw [h3]
      exact ⟨h, id, rfl, SameBundle.same _, fun hc => by rw [h1] at hc; exact absurd hc (by decide), fun _ => rfl,
        Or.inr (Or.inr h1)⟩
    · rw [h3]
      exact ⟨h, id, rfl, SameBundle.same _, fun hc => by rw [h1] at hc; exact absurd hc (by decide), fun _ => rfl,
        Or.inr (Or.inl h1)⟩
    · refine ⟨h6, fun _ => h7, h8, h9, fun _ => ?_, fun hc => absurd h1 hc, Or.inl h1⟩
      obtain ⟨e, hpow, h8, h31, -, -⟩ := next_power_spec (u32 n)
      have := (two_pow_bounds h8 h31).1
      omega
  rcases ht_expand_if_needed_cases he with ⟨h0, _, hr⟩ | ⟨_, hr⟩ | ⟨_, _, hr⟩
  · subst hr
    exact ⟨h, id, rfl, SameBundle.same _, fun _ => h0, fun hc => absurd rfl hc, Or.inl rfl⟩
  · exact hexp _ hr
  · exact hexp _ hr

/-! ## `ht_insert` and `ht_add` -/

/-- The steps of `ht_insert`: the growth check, then the probe walk. -/
theorem ht_insert_cases {w : World κ ν} {t : hashtable κ ν} {key : κ} {r : RetIdx κ ν}
    (he : ht_insert w t key = some r) :
    ∃ r0, ht_expand_if_needed w t = some r0 ∧ r.w = r0.w ∧
      ((r0.ret ≠ HT_OK ∧ r.ret = r0.ret ∧ r.t = r0.t) ∨
       (r0.ret = HT_OK ∧ ∃ c, ht_insert_walk r0.t key = some (r.ret, r.index, c) ∧
          r.t = { r0.t with collisions := c })) := by
  unfold ht_insert at he
  cases h0 : ht_expand_if_needed w t with
  | none => rw [h0] at he; simp at he
  | some r0 =>
    rw [h0] at he
    simp only at he
    refine ⟨r0, rfl, ?_⟩
    by_cases hr : r0.ret ≠ HT_OK
    · rw [if_pos hr] at he
      simp only [Option.some.injEq] at he
      subst he
      exact ⟨rfl, Or.inl ⟨hr, rfl, rfl⟩⟩
    · rw [if_neg hr] at he
      cases hw : ht_insert_walk r0.t key with
      | none => rw [hw] at he; simp at he
      | some p =>
        obtain ⟨ret, j, c⟩ := p
        rw [hw] at he
        simp only [Option.map_some', Option.some.injEq] at he
        subst he
        exact ⟨rfl, Or.inr ⟨by simpa using hr, c, rfl, rfl⟩⟩

/-- The steps of `ht_add`: `ht_insert`, then the allocation of the element. -/
theorem ht_add_cases {w : World κ ν} {t : hashtable κ ν} {key : κ} {data : ν} {r : Ret κ ν}
    (he : ht_add w t key data = some r) :
    ∃ ri, ht_insert w t key = some ri ∧
      ((ri.ret ≠ HT_OK ∧ r = ⟨ri.ret, ri.t, ri.w⟩) ∨
       (ri.ret = HT_OK ∧ (malloc ri.w).1 = false ∧
          r = ⟨HT_NOMEM, { ri.t with table := slot_set ri.t.table ri.index Slot.empty },
                (malloc ri.w).2⟩) ∨
       (ri.ret = HT_OK ∧ (malloc ri.w).1 = true ∧
          r = ⟨HT_OK, { ri.t with table := slot_set ri.t.table ri.index (Slot.entry key data),
                                  used := inc32 ri.t.used }, (malloc ri.w).2⟩)) := by
  unfold ht_add at he
  cases h0 : ht_insert w t key with
  | none => rw [h0] at he; simp at he
  | some ri =>
    rw [h0] at he
    simp only at he
    refine ⟨ri, rfl, ?_⟩
    by_cases hr : ri.ret ≠ HT_OK
    · rw [if_pos hr] at he
      simp only [Option.some.injEq] at he
      exact Or.inl ⟨hr, he.symm⟩
    · rw [if_neg hr] at he
      by_cases hm : (malloc ri.w).1 = false
      · rw [if_pos hm] at he
        simp only [Option.some.injEq] at he
        exact Or.inr (Or.inl ⟨by simpa using hr, hm, he.symm⟩)
      · rw [if_neg hm] at he
        simp only [Option.some.injEq] at he
        exact Or.inr (Or.inr ⟨by simpa using hr, by simpa using hm, he.symm⟩)

/-- A successful `ht_add`, step by step: the growth check succeeds and leaves a table
`t1`; the walk from the home slot of `key` passes `d` elements with other keys and
reaches a slot `j` without element; the element is written there. -/
theorem ht_add_ok {w : World κ ν} {t : hashtable κ ν} {key : κ} {data : ν} {r : Ret κ ν}
    (h : Inv t) (he : ht_add w t key data = some r) (hok : r.ret = HT_OK) :
    ∃ r0 j c d, ht_expand_if_needed w t = some r0 ∧ r0.ret = HT_OK ∧
      r.t = { r0.t with table := slot_set r0.t.table j (Slot.entry key data),
                        used := inc32 r0.t.used, collisions := c } ∧
      r.w = (malloc r0.w).2 ∧ (malloc r0.w).1 = true ∧
      j < r0.t.size ∧ is_entry (r0.t.table j) = false ∧ d ≤ r0.t.size ∧ j = probe r0.t key d ∧
      ∀ i, i < d → ∃ k v, r0.t.table (probe r0.t key i) = Slot.entry k v ∧
        r0.t.key_compare key k = false := by
  obtain ⟨ri, hi, hcase⟩ := ht_add_cases he
  obtain ⟨r0, h0, hw0, hcase0⟩ := ht_insert_cases hi
  have hspec := ht_expand_if_needed_spec h h0
  rcases hcase with ⟨hne, hr⟩ | ⟨_, _, hr⟩ | ⟨hri, hm, hr⟩
  · rw [hr] at hok; exact absurd hok hne
  · rw [hr] at hok; simp at hok
  · rcases hcase0 with ⟨hne, hr0, _⟩ | ⟨hr0, c, hwalk, hrt⟩
    · rw [hr0] at hri; exact absurd hri hne
    · obtain ⟨d, hd, hpath, hend⟩ := ht_insert_walk_spec _ _ _ _ _ hwalk
      rcases hend with ⟨_, hj, hne⟩ | ⟨hb, _⟩
      · refine ⟨r0, ri.index, c, d, h0, hr0, ?_, ?_, ?_, ?_, hne, hd, hj, hpath⟩
        · rw [hr, hrt]
        · rw [hr, hw0]
        · rw [← hw0]; exact hm
        · rw [hj]; exact probe_lt hspec.1 (hspec.2.2.2.2.1 hr0) _ _
      · rw [hri] at hb; exact absurd hb (by decide)

/-- The outcome `HT_BUSY` of `ht_add`, step by step: the growth check succeeds and the
walk meets, after `d` elements with other keys, an element with an equal key; only the
collision counter changes. -/
theorem ht_add_busy {w : World κ ν} {t : hashtable κ ν} {key : κ} {data : ν} {r : Ret κ ν}
    (h : Inv t) (he : ht_add w t key data = some r) (hb : r.ret = HT_BUSY) :
    ∃ r0 c d, ht_expand_if_needed w t = some r0 ∧ r0.ret = HT_OK ∧
      r.t = { r0.t with collisions := c } ∧ r.w = r0.w ∧ d ≤ r0.t.size ∧
      (∀ i, i < d → ∃ k v, r0.t.table (probe r0.t key i) = Slot.entry k v ∧
        r0.t.key_compare key k = false) ∧
      ∃ k v, r0.t.table (probe r0.t key d) = Slot.entry k v ∧ r0.t.key_compare key k = true := by
  obtain ⟨ri, hi, hcase⟩ := ht_add_cases he
  obtain ⟨r0, h0, hw0, hcase0⟩ := ht_insert_cases hi
  rcases hcase with ⟨hne, hr⟩ | ⟨_, _, hr⟩ | ⟨hri, hm, hr⟩
  · rcases hcase0 with ⟨hne0, hr0, hrt⟩ | ⟨hr0, c, hwalk, hrt⟩
    · exfalso
      have hrb : ri.ret = HT_BUSY := by rw [hr] at hb; exact hb
      rw [hr0] at hrb
      rcases (ht_expand_if_needed_spec h h0).2.2.2.2.2.2 with h1 | h1 | h1 <;>
        rw [h1] at hrb <;> simp at hrb
    · obtain ⟨d, hd, hpath, hend⟩ := ht_insert_walk_spec _ _ _ _ _ hwalk
      have hrb : ri.ret = HT_BUSY := by rw [hr] at hb; exact hb
      rcases hend with ⟨hok, _⟩ | ⟨_, hfin⟩
      · rw [hrb] at hok; exact absurd hok (by decide)
      · exact ⟨r0, c, d, h0, hr0, by rw [hr, hrt], by rw [hr, hw0], hd, hpath, hfin⟩
  · rw [hr] at hb; simp at hb
  · rw [hr] at hb; simp at hb

/-- Summary of `ht_insert` for the invariants: on `HT_OK` the index designates a slot
without element inside the array, reached from the home slot over occupied slots. -/
theorem ht_insert_spec {w : World κ ν} {t : hashtable κ ν} {key : κ} {ri : RetIdx κ ν}
    (h : Inv t) (he : ht_insert w t key = some ri) :
    Inv ri.t ∧ (ChainInv t → ChainInv ri.t) ∧ ri.t.used = t.used ∧ SameBundle t ri.t ∧
      (ri.ret = HT_OK → ri.index < ri.t.size ∧ is_entry (ri.t.table ri.index) = false ∧
        ∃ d, probe ri.t key d = ri.index ∧
          ∀ i, i < d → ri.t.table (probe ri.t key i) ≠ Slot.empty) := by
  obtain ⟨r0, h0, hw0, hcase0⟩ := ht_insert_cases he
  obtain ⟨hI, hC, hU, hB, hS, -, -⟩ := ht_expand_if_needed_spec h h0
  rcases hcase0 with ⟨hne, hr0, hrt⟩ | ⟨hr0, c, hwalk, hrt⟩
  · rw [hrt]
    exact ⟨hI, hC, hU, hB, fun hc => by rw [hr0] at hc; exact absurd hc hne⟩
  · rw [hrt]
    refine ⟨hI.with_collisions c, fun hc => (hC hc).collisions c, hU,
      ⟨hB.hashf, hB.key_compare, hB.key_destructor, hB.val_destructor⟩, fun hok => ?_⟩
    obtain ⟨d, hd, hpath, hend⟩ := ht_insert_walk_spec _ _ _ _ _ hwalk
    rcases hend with ⟨_, hj, hne⟩ | ⟨hb, _⟩
    · refine ⟨?_, hne, d, hj.symm, ?_⟩
      · rw [hj]; exact probe_lt hI (hS hr0) _ _
      · intro i hi
        obtain ⟨k, v, hkv, _⟩ := hpath i hi
        show r0.t.table (probe r0.t key i) ≠ Slot.empty
        rw [hkv]; simp
    · rw [hok] at hb; exact absurd hb (by decide)

theorem ht_add_inv {w : World κ ν} {t : hashtable κ ν} {key : κ} {data : ν} {r : Ret κ ν}
    (h : Inv t) (he : ht_add w t key data = some r) : Inv r.t := by
  obtain ⟨ri, hi, hcase⟩ := ht_add_cases he
  obtain ⟨hI, -, -, -, hOK⟩ := ht_insert_spec h hi
  rcases hcase with ⟨hne, hr⟩ | ⟨hri, _, hr⟩ | ⟨hri, hm, hr⟩
  · rw [hr]; exact hI
  · rw [hr]
    obtain ⟨hlt, hne, -⟩ := hOK hri
    exact hI.clear_slot ri.index ri.t.collisions hlt hne
  · rw [hr]
    obtain ⟨hlt, hne, -⟩ := hOK hri
    exact hI.add_entry ri.index key data ri.t.collisions hlt hne

theorem ht_add_chain {w : World κ ν} {t : hashtable κ ν} {key : κ} {data : ν} {r : Ret κ ν}
    (h : Inv t) (hc : ChainInv t) (he : ht_add w t key data = some r)
    (hmem : r.ret ≠ HT_NOMEM) : ChainInv r.t := by
  obtain ⟨ri, hi, hcase⟩ := ht_add_cases he
  obtain ⟨hI, hC, -, -, hOK⟩ := ht_insert_spec h hi
  rcases hcase with ⟨hne, hr⟩ | ⟨hri, _, hr⟩ | ⟨hri, hm, hr⟩
  · rw [hr]; exact hC hc
  · rw [hr] at hmem; simp at hmem
  · rw [hr]
    obtain ⟨hlt, hne, d, hd1, hd2⟩ := hOK hri
    exact (hC hc).set_entry ri.index key data (inc32 ri.t.used) ri.t.collisions d hd1 hd2

theorem ht_add_bundle {w : World κ ν} {t : hashtable κ ν} {key : κ} {data : ν} {r : Ret κ ν}
    (h : Inv t) (he : ht_add w t key data = some r) : SameBundle t r.t := by
  obtain ⟨ri, hi, hcase⟩ := ht_add_cases he
  obtain ⟨-, -, -, hB, -⟩ := ht_insert_spec h hi
  rcases hcase with ⟨hne, hr⟩ | ⟨hri, _, hr⟩ | ⟨hri, hm, hr⟩ <;> rw [hr] <;>
    exact ⟨hB.hashf, hB.key_compare, hB.key_destructor, hB.val_destructor⟩

/-! ## `ht_search`, `ht_rm`, `ht_replace`, `ht_move`, `ht_destroy` -/

/-- The steps of `ht_search`: the growth check on a table without slot array, then the
probe walk. The result table is the table after the growth check. -/
theorem ht_search_cases {w : World κ ν} {t : hashtable κ ν} {key : κ} {r : RetIdx κ ν}
    (he : ht_search w t key = some r) :
    (t.size ≠ 0 ∧ r.t = t ∧ r.w = w ∧ ht_search_walk t key = some (r.ret, r.index)) ∨
    (t.size = 0 ∧ ∃ r0, ht_expand_if_needed w t = some r0 ∧ r.t = r0.t ∧ r.w = r0.w ∧
      ((r0.ret ≠ HT_OK ∧ r.ret = r0.ret) ∨
       (r0.ret = HT_OK ∧ ht_search_walk r0.t key = some (r.ret, r.index)))) := by
  by_cases h0 : t.size = 0
  · right
    refine ⟨h0, ?_⟩
    unfold ht_search at he
    rw [if_pos h0] at he
    cases hg : ht_expand_if_needed w t with
    | none => rw [hg] at he; simp at he
    | some r0 =>
      rw [hg] at he
      simp only at he
      refine ⟨r0, rfl, ?_⟩
      by_cases hr : r0.ret ≠ HT_OK
      · rw [if_pos hr] at he
        simp only [Option.some.injEq] at he
        subst he
        exact ⟨rfl, rfl, Or.inl ⟨hr, rfl⟩⟩
      · rw [if_neg hr] at he
        cases hw : ht_search_walk r0.t key with
        | none => rw [hw] at he; simp at he
        | some p =>
          rw [hw] at he
          simp only [Option.map_some', Option.some.injEq] at he
          subst he
          exact ⟨rfl, rfl, Or.inr ⟨by simpa using hr, rfl⟩⟩
  · left
    rw [ht_search_eq_walk w t key h0] at he
    cases hw : ht_search_walk t key with
    | none => rw [hw] at he; simp at he
    | some p =>
      rw [hw] at he
      simp only [Option.map_some', Option.some.injEq] at he
      subst he
      exact ⟨h0, rfl, rfl, rfl⟩

/-- Summary of `ht_search` for the invariants; the status is one of `HT_FOUND`,
`HT_NOTFOUND`, `HT_NOMEM`, and a found index lies inside the array on an element. -/
theorem ht_search_spec {w : World κ ν} {t : hashtable κ ν} {key : κ} {r : RetIdx κ ν}
    (h : Inv t) (he : ht_search w t key = some r) :
    Inv r.t ∧ (ChainInv t → ChainInv r.t) ∧ r.t.used = t.used ∧ SameBundle t r.t ∧
      (t.size ≠ 0 → r.t = t ∧ r.w = w) ∧
      (r.ret = HT_FOUND ∨ r.ret = HT_NOTFOUND ∨ r.ret = HT_NOMEM) ∧
      (r.ret = HT_FOUND → r.index < r.t.size ∧
        ∃ k v, r.t.table r.index = Slot.entry k v ∧ r.t.key_compare key k = true) := by
  have hwalk : ∀ t1 : hashtable κ ν, Inv t1 → t1.size ≠ 0 →
      ht_search_walk t1 key = some (r.ret, r.index) →
      (r.ret = HT_FOUND ∨ r.ret = HT_NOTFOUND ∨ r.ret = HT_NOMEM) ∧
      (r.ret = HT_FOUND → r.index < t1.size ∧
        ∃ k v, t1.table r.index = Slot.entry k v ∧ t1.key_compare key k = true) := by
    intro t1 hI1 hs1 hw
    obtain ⟨d, hd, hpath, hend⟩ := ht_search_walk_spec _ _ _ _ hw
    rcases hend with ⟨hf, hj, hkv⟩ | ⟨hn, _⟩
    · exact ⟨Or.inl hf, fun _ => ⟨by rw [hj]; exact probe_lt hI1 hs1 _ _, hkv⟩⟩
    · exact ⟨Or.inr (Or.inl hn), fun hf => by rw [hn] at hf; exact absurd hf (by decide)⟩
  rcases ht_search_cases he with ⟨h0, hrt, hrw, hw⟩ | ⟨h0, r0, hg, hrt, hrw, hcase⟩
  · rw [hrt]
    obtain ⟨h1, h2⟩ := hwalk t h h0 hw
    exact ⟨h, id, rfl, SameBundle.same _, fun _ => ⟨rfl, hrw⟩, h1, h2⟩
  · obtain ⟨hI, hC, hU, hB, hS, hne, hret⟩ := ht_expand_if_needed_spec h hg
    rw [hrt]
    refine ⟨hI, hC, hU, hB, fun hc => absurd h0 hc, ?_⟩
    rcases hcase with ⟨hne0, hr⟩ | ⟨hok, hw⟩
    · rcases hret with h1 | h1 | h1
      · exact absurd h1 hne0
      · exact ⟨Or.inr (Or.inr (by rw [hr, h1])), fun hf => by
          rw [hr, h1] at hf; exact absurd hf (by decide)⟩
      · exfalso
        have hu : t.used ≤ 2147483648 := le_trans h.used_le h.size_le
        rcases ht_expand_if_needed_cases hg with ⟨hc, _⟩ | ⟨_, hx⟩ | ⟨hc, _⟩
        · exact hc h0
        · rcases ht_expand_spec hu hx with ⟨_, h3, _⟩ | ⟨h3, _⟩ | ⟨h3, _⟩
          · have h5 : t.used ≤ t.size := h.used_le
            have h4 : 256 ≤ t.used := h3
            omega
          · rw [h3] at h1; exact absurd h1 (by decide)
          · rw [h3] at h1; exact absurd h1 (by decide)
        · exact hc h0
    · exact hwalk r0.t hI (hS hok) hw

/-- The steps of `ht_rm`: the search, then `ht_free` on the index found. -/
theorem ht_rm_cases {w : World κ ν} {t : hashtable κ ν} {key : κ} {r : Ret κ ν}
    (he : ht_rm w t key = some r) :
    ∃ s, ht_search w t key = some s ∧
      ((s.ret ≠ HT_FOUND ∧ r = ⟨s.ret, s.t, s.w⟩) ∨
       (s.ret = HT_FOUND ∧ r = ht_free s.w s.t s.index)) := by
  unfold ht_rm at he
  cases hs : ht_search w t key with
  | none => rw [hs] at he; simp at he
  | some s =>
    rw [hs] at he
    simp only at he
    refine ⟨s, rfl, ?_⟩
    by_cases hf : s.ret ≠ HT_FOUND
    · rw [if_pos hf] at he
      simp only [Option.some.injEq] at he
      exact Or.inl ⟨hf, he.symm⟩
    · rw [if_neg hf] at he
      simp only [Option.some.injEq] at he
      exact Or.inr ⟨by simpa using hf, he.symm⟩

/-- The steps of `ht_replace`: a first `ht_add`; when it answers `HT_BUSY`, the search
(which must find), `ht_free` on the index found and a second `ht_add`. -/
theorem ht_replace_cases {w : World κ ν} {t : hashtable κ ν} {key : κ} {data : ν} {r : Ret κ ν}
    (he : ht_replace w t key data = some r) :
    ∃ r1, ht_add w t key data = some r1 ∧
      ((r1.ret ≠ HT_BUSY ∧ r = r1) ∨
       (r1.ret = HT_BUSY ∧ ∃ s, ht_search r1.w r1.t key = some s ∧ s.ret = HT_FOUND ∧
          (ht_free s.w s.t s.index).ret = HT_OK ∧
          ht_add (ht_free s.w s.t s.index).w (ht_free s.w s.t s.index).t key data = some r)) := by
  unfold ht_replace at he
  cases h1 : ht_add w t key data with
  | none => rw [h1] at he; simp at he
  | some r1 =>
    rw [h1] at he
    simp only at he
    refine ⟨r1, rfl, ?_⟩
    by_cases hb : r1.ret = HT_BUSY
    · have hcond : ¬ (r1.ret = HT_OK ∨ r1.ret ≠ HT_BUSY) := by
        rw [hb]; decide
      rw [if_neg hcond] at he
      right
      refine ⟨hb, ?_⟩
      cases hs : ht_search r1.w r1.t key with
      | none => rw [hs] at he; simp at he
      | some s =>
        rw [hs] at he
        simp only at he
        refine ⟨s, rfl, ?_⟩
        by_cases hf : s.ret ≠ HT_FOUND
        · rw [if_pos hf] at he; simp at he
        · rw [if_neg hf] at he
          by_cases hfr : (ht_free s.w s.t s.index).ret ≠ HT_OK
          · rw [if_pos hfr] at he; simp at he
          · rw [if_neg hfr] at he
            exact ⟨by simpa using hf, by simpa using hfr, he⟩
    · rw [if_pos (Or.inr hb)] at he
      simp only [Option.some.injEq] at he
      exact Or.inl ⟨hb, he.symm⟩

/-- The steps of `ht_move`: the slot of `orig` holds an element, `ht_insert` runs on
`dest` with its key, and on `HT_OK` the element changes table. -/
theorem ht_move_cases {w : World κ ν} {orig dest : hashtable κ ν} {index : Nat}
    {r : RetMove κ ν} (he : ht_move w orig dest index = some r) :
    index < orig.size ∧ ∃ key data, orig.table index = Slot.entry key data ∧
      ∃ ri, ht_insert w dest key = some ri ∧
        ((ri.ret ≠ HT_OK ∧ r = ⟨ri.ret, orig, ri.t, ri.w⟩) ∨
         (ri.ret = HT_OK ∧ r = ⟨HT_OK,
            { orig with table := slot_set orig.table index Slot.tombstone,
                        used := dec32 orig.used },
            { ri.t with table := slot_set ri.t.table ri.index (Slot.entry key data),
                        used := inc32 ri.t.used }, ri.w⟩)) := by
  unfold ht_move at he
  by_cases hi : orig.size ≤ index
  · rw [if_pos hi] at he; simp at he
  · rw [if_neg hi] at he
    refine ⟨by omega, ?_⟩
    cases hs : orig.table index with
    | empty => rw [hs] at he; simp at he
    | tombstone => rw [hs] at he; simp at he
    | entry key data =>
      rw [hs] at he
      simp only at he
      refine ⟨key, data, rfl, ?_⟩
      cases hins : ht_insert w dest key with
      | none => rw [hins] at he; simp at he
      | some ri =>
        rw [hins] at he
        simp only at he
        refine ⟨ri, rfl, ?_⟩
        by_cases hr : ri.ret ≠ HT_OK
        · rw [if_pos hr] at he
          simp only [Option.some.injEq] at he
          exact Or.inl ⟨hr, he.symm⟩
        · rw [if_neg hr] at he
          simp only [Option.some.injEq] at he
          exact Or.inr ⟨by simpa using hr, he.symm⟩

theorem ht_rm_inv {w : World κ ν} {t : hashtable κ ν} {key : κ} {r : Ret κ ν}
    (h : Inv t) (he : ht_rm w t key = some r) : Inv r.t := by
  obtain ⟨s, hs, hcase⟩ := ht_rm_cases he
  have hI := (ht_search_spec h hs).1
  rcases hcase with ⟨_, hr⟩ | ⟨_, hr⟩
  · rw [hr]; exact hI
  · rw [hr]; exact ht_free_inv _ hI

theorem ht_rm_chain {w : World κ ν} {t : hashtable κ ν} {key : κ} {r : Ret κ ν}
    (h : Inv t) (hc : ChainInv t) (he : ht_rm w t key = some r) : ChainInv r.t := by
  obtain ⟨s, hs, hcase⟩ := ht_rm_cases he
  have hC := (ht_search_spec h hs).2.1 hc
  rcases hcase with ⟨_, hr⟩ | ⟨_, hr⟩
  · rw [hr]; exact hC
  · rw [hr]; exact ht_free_chain _ hC

theorem ht_replace_inv {w : World κ ν} {t : hashtable κ ν} {key : κ} {data : ν} {r : Ret κ ν}
    (h : Inv t) (he : ht_replace w t key data = some r) : Inv r.t := by
  obtain ⟨r1, h1, hcase⟩ := ht_replace_cases he
  have hI1 := ht_add_inv h h1
  rcases hcase with ⟨_, hr⟩ | ⟨_, s, hs, _, _, h2⟩
  · rw [hr]; exact hI1
  · exact ht_add_inv (ht_free_inv _ (ht_search_spec hI1 hs).1) h2

theorem ht_replace_chain {w : World κ ν} {t : hashtable κ ν} {key : κ} {data : ν} {r : Ret κ ν}
    (h : Inv t) (hc : ChainInv t) (he : ht_replace w t key data = some r)
    (hmem : r.ret ≠ HT_NOMEM) : ChainInv r.t := by
  obtain ⟨r1, h1, hcase⟩ := ht_replace_cases he
  have hI1 := ht_add_inv h h1
  rcases hcase with ⟨_, hr⟩ | ⟨hb, s, hs, _, _, h2⟩
  · rw [hr] at hmem ⊢; exact ht_add_chain h hc h1 hmem
  · have hC1 := ht_add_chain h hc h1 (by rw [hb]; decide)
    have hS := ht_search_spec hI1 hs
    exact ht_add_chain (ht_free_inv _ hS.1) (ht_free_chain _ (hS.2.1 hC1)) h2 hmem

theorem ht_move_inv {w : World κ ν} {orig dest : hashtable κ ν} {index : Nat}
    {r : RetMove κ ν} (ho : Inv orig) (hd : Inv dest)
    (he : ht_move w orig dest index = some r) : Inv r.orig ∧ Inv r.dest := by
  obtain ⟨hi, key, data, hs, ri, hins, hcase⟩ := ht_move_cases he
  obtain ⟨hI, -, -, -, hOK⟩ := ht_insert_spec hd hins
  rcases hcase with ⟨_, hr⟩ | ⟨hri, hr⟩
  · rw [hr]; exact ⟨ho, hI⟩
  · rw [hr]
    obtain ⟨hlt, hne, -⟩ := hOK hri
    exact ⟨(ho.drop_entry index hi (by rw [hs]; rfl)).1,
      hI.add_entry ri.index key data ri.t.collisions hlt hne⟩

theorem ht_move_chain {w : World κ ν} {orig dest : hashtable κ ν} {index : Nat}
    {r : RetMove κ ν} (hd : Inv dest) (hco : ChainInv orig) (hcd : ChainInv dest)
    (he : ht_move w orig dest index = some r) : ChainInv r.orig ∧ ChainInv r.dest := by
  obtain ⟨hi, key, data, hs, ri, hins, hcase⟩ := ht_move_cases he
  obtain ⟨hI, hC, -, -, hOK⟩ := ht_insert_spec hd hins
  rcases hcase with ⟨_, hr⟩ | ⟨hri, hr⟩
  · rw [hr]; exact ⟨hco, hC hcd⟩
  · rw [hr]
    obtain ⟨hlt, hne, d, hd1, hd2⟩ := hOK hri
    exact ⟨hco.set_tombstone index _,
      (hC hcd).set_entry ri.index key data (inc32 ri.t.used) ri.t.collisions d hd1 hd2⟩

theorem ht_expand_inv {w : World κ ν} {t : hashtable κ ν} {n : Nat} {r : Ret κ ν}
    (h : Inv t) (he : ht_expand w t n = some r) :
    Inv r.t ∧ (ChainInv t → ChainInv r.t) := by
  have hu : t.used ≤ 2147483648 := le_trans h.used_le h.size_le
  rcases ht_expand_spec hu he with ⟨_, _, h3, _⟩ | ⟨_, _, _, h3, _⟩ | ⟨_, _, _, _, _, h6, h7, _⟩
  · rw [h3]; exact ⟨h, id⟩
  · rw [h3]; exact ⟨h, id⟩
  · exact ⟨h6, fun _ => h7⟩

theorem ht_resize_inv {w : World κ ν} {t : hashtable κ ν} {r : Ret κ ν}
    (h : Inv t) (he : ht_resize w t = some r) :
    Inv r.t ∧ (ChainInv t → ChainInv r.t) := by
  unfold ht_resize at he
  simp only at he
  split at he
  · exact ht_expand_inv h he
  · exact ht_expand_inv h he

theorem ht_reset_inv (t : hashtable κ ν) : Inv (ht_reset t) ∧ ChainInv (ht_reset t) := by
  refine ⟨⟨Or.inl ⟨rfl, rfl⟩, rfl⟩, ?_⟩
  intro j k v hj _
  exact absurd hj (by simp [ht_reset])

/-- Every reachable table satisfies the capacity and count invariant. -/
theorem Reach.inv {strict : Bool} {t : hashtable κ ν} (h : Reach strict t) : Inv t := by
  induction h with
  | init seed ptr => exact ⟨Or.inl ⟨rfl, rfl⟩, rfl⟩
  | set_hash f _ _ ih => exact ⟨ih.cap, ih.cnt⟩
  | set_key_compare f _ _ ih => exact ⟨ih.cap, ih.cnt⟩
  | set_key_destructor b _ _ ih => exact ⟨ih.cap, ih.cnt⟩
  | set_val_destructor b _ _ ih => exact ⟨ih.cap, ih.cnt⟩
  | add w k v _ he _ ih => exact ht_add_inv ih he
  | replace w k v _ he _ ih => exact ht_replace_inv ih he
  | rm w k _ he _ ih => exact ht_rm_inv ih he
  | free w index _ ih => exact ht_free_inv index ih
  | search w k _ he _ ih => exact (ht_search_spec ih he).1
  | expand w n _ _ he _ ih => exact (ht_expand_inv ih he).1
  | resize w _ he _ ih => exact (ht_resize_inv ih he).1
  | move_orig w index _ _ he _ iho ihd => exact (ht_move_inv iho ihd he).1
  | move_dest w index _ _ he _ iho ihd => exact (ht_move_inv iho ihd he).2
  | destroy w _ _ => exact (ht_reset_inv _).1

/-- Every table reachable without a failed allocation satisfies the probe-chain
invariant. -/
theorem Reach.chain {t : hashtable κ ν} (h : Reach true t) : ChainInv t := by
  induction h with
  | init seed ptr => intro j k v hj _; exact absurd hj (by simp [ht_init])
  | set_hash f hr hu _ =>
    exact ChainInv.of_unused (t := ht_set_hash _ f) ⟨hr.inv.cap, hr.inv.cnt⟩ hu
  | set_key_compare f hr hu _ =>
    exact ChainInv.of_unused (t := ht_set_key_compare _ f) ⟨hr.inv.cap, hr.inv.cnt⟩ hu
  | set_key_destructor b hr hu _ =>
    exact ChainInv.of_unused (t := ht_set_key_destructor _ b) ⟨hr.inv.cap, hr.inv.cnt⟩ hu
  | set_val_destructor b hr hu _ =>
    exact ChainInv.of_unused (t := ht_set_val_destructor _ b) ⟨hr.inv.cap, hr.inv.cnt⟩ hu
  | add w k v hr he hm ih => exact ht_add_chain hr.inv ih he (hm rfl)
  | replace w k v hr he hm ih => exact ht_replace_chain hr.inv ih he (hm rfl)
  | rm w k hr he _ ih => exact ht_rm_chain hr.inv ih he
  | free w index _ ih => exact ht_free_chain index ih
  | search w k hr he _ ih => exact (ht_search_spec hr.inv he).2.1 ih
  | expand w n hr _ he _ ih => exact (ht_expand_inv hr.inv he).2 ih
  | resize w hr he _ ih => exact (ht_resize_inv hr.inv he).2 ih
  | move_orig w index _ hd he _ iho ihd => exact (ht_move_chain hd.inv iho ihd he).1
  | move_dest w index _ hd he _ iho ihd => exact (ht_move_chain hd.inv iho ihd he).2
  | destroy w _ _ => exact (ht_reset_inv _).2

/-- A history without failed allocation is a history. -/
theorem Reach.weaken {strict : Bool} {t : hashtable κ ν} (h : Reach true t) :
    Reach strict t := by
  induction h with
  | init seed ptr => exact Reach.init seed ptr
  | set_hash f _ hu ih => exact Reach.set_hash f ih hu
  | set_key_compare f _ hu ih => exact Reach.set_key_compare f ih hu
  | set_key_destructor b _ hu ih => exact Reach.set_key_destructor b ih hu
  | set_val_destructor b _ hu ih => exact Reach.set_val_destructor b ih hu
  | add w k v _ he hm ih => exact Reach.add w k v ih he (fun _ => hm rfl)
  | replace w k v _ he hm ih => exact Reach.replace w k v ih he (fun _ => hm rfl)
  | rm w k _ he hm ih => exact Reach.rm w k ih he (fun _ => hm rfl)
  | free w index _ ih => exact Reach.free w index ih
  | search w k _ he hm ih => exact Reach.search w k ih he (fun _ => hm rfl)
  | expand w n _ hn he hm ih => exact Reach.expand w n ih hn he (fun _ => hm rfl)
  | resize w _ he hm ih => exact Reach.resize w ih he (fun _ => hm rfl)
  | move_orig w index _ _ he hm iho ihd =>
    exact Reach.move_orig w index iho ihd he (fun _ => hm rfl)
  | move_dest w index _ _ he hm iho ihd =>
    exact Reach.move_dest w index iho ihd he (fun _ => hm rfl)
  | destroy w _ ih => exact Reach.destroy w ih

/-! ## Search after insert -/

/-- After the element has been written at the end of the walk of `ht_insert`, the walk
of `ht_search` for the same key ends on it. -/
theorem ht_search_walk_after_insert (t : hashtable κ ν) (key : κ) (data : ν) (j u c d : Nat)
    (hd : d ≤ t.size) (hj : j = probe t key d) (hne : is_entry (t.table j) = false)
    (hpath : ∀ i, i < d → ∃ k v, t.table (probe t key i) = Slot.entry k v ∧
      t.key_compare key k = false)
    (hrefl : t.key_compare key key = true) :
    ht_search_walk { t with table := slot_set t.table j (Slot.entry key data), used := u,
                            collisions := c } key = some (HT_FOUND, j) := by
  obtain ⟨t2, ht2⟩ : ∃ t2 : hashtable κ ν, t2 =
      { t with table := slot_set t.table j (Slot.entry key data), used := u, collisions := c } :=
    ⟨_, rfl⟩
  rw [← ht2]
  have hshape : SameShape t t2 := by rw [ht2]; exact ⟨rfl, rfl, rfl, rfl, rfl, rfl⟩
  have htab : t2.table = slot_set t.table j (Slot.entry key data) := by rw [ht2]
  have hprobe : probe t2 = probe t := probe_congr hshape
  have key1 := ht_search_walk_of_path t2 key d key data (by rw [hshape.size]; exact hd)
    (by
      intro i hi
      obtain ⟨k, v, hkv, hcmp⟩ := hpath i hi
      have hij : probe t key i ≠ j := by
        intro hc
        rw [hc] at hkv
        rw [hkv] at hne
        exact absurd hne (by simp [is_entry_entry])
      right
      refine ⟨k, v, ?_, by rw [hshape.key_compare]; exact hcmp⟩
      rw [hprobe, htab]
      simp only [slot_set, if_neg hij]
      exact hkv)
    (by
      rw [hprobe, ← hj, htab]
      simp [slot_set])
    (by rw [hshape.key_compare]; exact hrefl)
  rw [key1, hprobe, ← hj]

/-- A successful `ht_add` is followed by a successful search: the search for the key
returns `HT_FOUND` with the index of a slot, inside the array, that holds the key and
the value just added; `used` has grown by one. -/
theorem ht_add_found {w : World κ ν} {t : hashtable κ ν} {key : κ} {data : ν} {r : Ret κ ν}
    (h : Inv t) (hrefl : t.key_compare key key = true)
    (he : ht_add w t key data = some r) (hok : r.ret = HT_OK) (w2 : World κ ν) :
    ∃ i, ht_search w2 r.t key = some ⟨HT_FOUND, i, r.t, w2⟩ ∧ i < r.t.size ∧
      r.t.table i = Slot.entry key data ∧ r.t.used = t.used + 1 ∧
      ∃ r0, ht_expand_if_needed w t = some r0 ∧ r0.ret = HT_OK ∧ r.t.size = r0.t.size ∧
        (is_entry (r0.t.table (home r0.t key)) = false → i = home r0.t key) := by
  obtain ⟨r0, j, c, d, hg, hg0, hrt, hrw, hm, hjlt, hne, hd, hj, hpath⟩ := ht_add_ok h he hok
  obtain ⟨hI, -, hU, hB, hS, -, -⟩ := ht_expand_if_needed_spec h hg
  have hs0 : r.t.size ≠ 0 := by rw [hrt]; exact hS hg0
  refine ⟨j, ?_, ?_, ?_, ?_, r0, hg, hg0, by rw [hrt], ?_⟩
  rotate_right
  · intro hhome
    cases d with
    | zero => rw [hj]; rfl
    | succ d =>
      obtain ⟨k1, v1, hkv, _⟩ := hpath 0 (by omega)
      rw [probe_zero] at hkv
      rw [hkv] at hhome
      exact absurd hhome (by simp [is_entry_entry])
  · rw [ht_search_eq_walk w2 r.t key hs0]
    rw [hrt]
    rw [ht_search_walk_after_insert r0.t key data j (inc32 r0.t.used) c d hd hj hne hpath
      (by rw [hB.key_compare]; exact hrefl)]
    rfl
  · rw [hrt]; exact hjlt
  · rw [hrt]
    show slot_set r0.t.table j (Slot.entry key data) j = Slot.entry key data
    simp [slot_set]
  · rw [hrt]
    show inc32 r0.t.used = t.used + 1
    have h1 := hI.used_le
    have h2 := hI.size_le
    rw [inc32_lt (by omega), hU]

/-! ## Facts on the concrete tables -/

theorem some_getD_of_isSome {α : Type} (o : Option α) (d : α) (h : o.isSome = true) :
    o = some (o.getD d) := by
  cases o with
  | none => simp at h
  | some a => rfl

theorem demo_add1_eq : ht_add w0 fresh_ptr 5 7 = some demo_add1 :=
  some_getD_of_isSome _ _ (by decide)

theorem demo_add1_reach : Reach false demo_add1.t :=
  Reach.add w0 5 7 (Reach.init _ _) demo_add1_eq (fun h => by cases h)

/-! ## The claims -/

/-- C1 (round trip). For every table reachable from `ht_init` by public operations, with
`key_compare` reflexive on the key: if `ht_add(t, k, v)` returns `HT_OK`, then the
`ht_search(t, k)` that follows immediately returns `HT_FOUND` with an index `i < size`
whose slot holds the key `k` and the value `v`, and `used` has grown by exactly 1. -/
theorem C1_add_then_search (t : hashtable κ ν) (w : World κ ν) (k : κ) (v : ν) (r : Ret κ ν)
    (hreach : Reach false t) (hrefl : t.key_compare k k = true)
    (hadd : ht_add w t k v = some r) (hok : r.ret = HT_OK) :
    ∃ i, ht_search r.w r.t k = some ⟨HT_FOUND, i, r.t, r.w⟩ ∧ i < r.t.size ∧
      r.t.table i = Slot.entry k v ∧ r.t.used = t.used + 1 := by
  obtain ⟨i, h1, h2, h3, h4, -⟩ := ht_add_found hreach.inv hrefl hadd hok r.w
  exact ⟨i, h1, h2, h3, h4⟩

/-- C1 at the fresh default table: adding the key 5 with the value 7. -/
theorem C1_add_then_search_witness :
    Reach false fresh_ptr ∧ fresh_ptr.key_compare 5 5 = true ∧
    ht_add w0 fresh_ptr 5 7 = some demo_add1 ∧ demo_add1.ret = HT_OK ∧
    ∃ i, ht_search demo_add1.w demo_add1.t 5 = some ⟨HT_FOUND, i, demo_add1.t, demo_add1.w⟩ ∧
      i < demo_add1.t.size ∧ demo_add1.t.table i = Slot.entry 5 7 ∧
      demo_add1.t.used = fresh_ptr.used + 1 :=
  ⟨Reach.init _ _, by decide, demo_add1_eq, by decide,
    C1_add_then_search fresh_ptr w0 5 7 demo_add1 (Reach.init _ _) (by decide) demo_add1_eq
      (by decide)⟩

/-- C8 (capacity invariant). Every table reachable from `ht_init` through any sequence of
public operations has `size = 0`, or `size` a power of two with `256 ≤ size ≤ 2^31` and
`sizemask = size - 1`. -/
theorem C8_capacity_invariant (t : hashtable κ ν) (hreach : Reach false t) :
    t.size = 0 ∨
      ((∃ e, t.size = 2 ^ e) ∧ 256 ≤ t.size ∧ t.size ≤ 2 ^ 31 ∧ t.sizemask = t.size - 1) := by
  rcases hreach.inv.cap with ⟨h0, _⟩ | ⟨e, h8, h31, hs, hm⟩
  · exact Or.inl h0
  · have hb := two_pow_bounds h8 h31
    exact Or.inr ⟨⟨e, hs⟩, by rw [hs]; exact hb.1, by rw [hs]; exact hb.2, hm⟩

/-- C8 at the table that holds one element. -/
theorem C8_capacity_invariant_witness :
    Reach false demo_add1.t ∧
    (demo_add1.t.size = 0 ∨
      ((∃ e, demo_add1.t.size = 2 ^ e) ∧ 256 ≤ demo_add1.t.size ∧ demo_add1.t.size ≤ 2 ^ 31 ∧
        demo_add1.t.sizemask = demo_add1.t.size - 1)) :=
  ⟨demo_add1_reach, C8_capacity_invariant demo_add1.t demo_add1_reach⟩

/-- The walks of two keys with the same hash value visit the same slots. -/
theorem probe_eq_of_hash {t : hashtable κ ν} {a b : κ} (h : t.hashf a = t.hashf b) (i : Nat) :
    probe t a i = probe t b i := by
  simp [probe, home, h]

/-- Under the probe-chain invariant a walk of `ht_search` that ends on a `NULL` slot has
passed every element whose key has the hash value of the searched key. -/
theorem no_entry_of_notfound {t : hashtable κ ν} (hc : ChainInv t) (key : κ) (d : Nat)
    (hpath : ∀ i, i < d → skips t key (t.table (probe t key i)))
    (hend : t.table (probe t key d) = Slot.empty)
    (j : Nat) (k : κ) (v : ν) (hj : j < t.size) (hjk : t.table j = Slot.entry k v)
    (hhash : t.hashf key = t.hashf k) : t.key_compare key k = false := by
  obtain ⟨d1, hd1, hd2⟩ := hc j k v hj hjk
  rcases Nat.lt_trichotomy d d1 with hlt | heq | hgt
  · have := hd2 d hlt
    rw [← probe_eq_of_hash hhash] at this
    exact absurd hend this
  · subst heq
    rw [← probe_eq_of_hash hhash] at hd1
    rw [hd1, hjk] at hend
    exact absurd hend (by simp)
  · have hs := hpath d1 hgt
    rw [probe_eq_of_hash hhash, hd1, hjk] at hs
    rcases hs with hs | ⟨k1, v1, hs, hcmp⟩
    · exact absurd hs (by simp)
    · simp only [Slot.entry.injEq] at hs
      rw [hs.1]; exact hcmp

/-- C3 (search is sound in both directions). For every table reachable without allocation
failure in its history, with `key_compare` an equivalence relation consistent with the
hash function: `ht_search(t, k)` returns `HT_FOUND` with index `i` only if `i < size` and
slot `i` is an element whose key compares equal to `k`, and returns `HT_NOTFOUND` only if
no element slot of the table holds a key equal to `k`. Of the equivalence relation the
proof needs the symmetry only. -/
theorem C3_search_sound (t : hashtable κ ν) (w : World κ ν) (k : κ) (r : RetIdx κ ν)
    (hreach : Reach true t)
    (hsymm : ∀ a b, t.key_compare a b = true → t.key_compare b a = true)
    (hhash : ∀ a b, t.key_compare a b = true → t.hashf a = t.hashf b)
    (hs : ht_search w t k = some r) :
    (t.size ≠ 0 → r.t = t) ∧
    (r.ret = HT_FOUND → r.index < r.t.size ∧
      ∃ k1 v, r.t.table r.index = Slot.entry k1 v ∧ r.t.key_compare k k1 = true) ∧
    (r.ret = HT_NOTFOUND → ∀ i k1 v, i < r.t.size → r.t.table i = Slot.entry k1 v →
      r.t.key_compare k k1 = false ∧ r.t.key_compare k1 k = false) := by
  obtain ⟨hI, hC, -, hB, hsame, -, hfound⟩ := ht_search_spec hreach.inv hs
  have hCr : ChainInv r.t := hC hreach.chain
  refine ⟨fun h0 => (hsame h0).1, hfound, ?_⟩
  intro hnf i k1 v hi hik
  have hwalk : ht_search_walk r.t k = some (r.ret, r.index) := by
    rcases ht_search_cases hs with ⟨_, hrt, _, hw⟩ | ⟨_, r0, hg, hrt, _, hcase⟩
    · rw [hrt]; exact hw
    · rcases hcase with ⟨hne, hr⟩ | ⟨_, hw⟩
      · exfalso
        rw [hr] at hnf
        rcases (ht_expand_if_needed_spec hreach.inv hg).2.2.2.2.2.2 with h2 | h2 | h2
        · exact hne h2
        · rw [h2] at hnf; exact absurd hnf (by decide)
        · rw [h2] at hnf; exact absurd hnf (by decide)
      · rw [hrt]; exact hw
  obtain ⟨d, -, hpath, hend⟩ := ht_search_walk_spec _ _ _ _ hwalk
  rcases hend with ⟨hf, _⟩ | ⟨_, hempty⟩
  · rw [hf] at hnf; exact absurd hnf (by decide)
  · have hcmp : r.t.key_compare k k1 = false := by
      by_contra hne
      have htrue : r.t.key_compare k k1 = true := by simpa using hne
      have hh : r.t.hashf k = r.t.hashf k1 := by
        rw [hB.hashf]; apply hhash; rw [← hB.key_compare]; exact htrue
      have := no_entry_of_notfound hCr k d hpath hempty i k1 v hi hik hh
      rw [this] at htrue
      exact absurd htrue (by decide)
    refine ⟨hcmp, ?_⟩
    by_contra hne
    have htrue : r.t.key_compare k1 k = true := by simpa using hne
    rw [hB.key_compare] at htrue hcmp
    rw [hsymm _ _ htrue] at hcmp
    exact absurd hcmp (by decide)

theorem demo_add1_strict : Reach true demo_add1.t :=
  Reach.add w0 5 7 (Reach.init _ _) demo_add1_eq (fun _ => by decide)

theorem demo_add1_compare : demo_add1.t.key_compare = ht_compare_ptr id :=
  (ht_add_bundle (Reach.init _ _ : Reach false fresh_ptr).inv demo_add1_eq).key_compare

theorem demo_add1_hashf :
    demo_add1.t.hashf = fun key => ht_hash_pointer strong_hash_init_val key :=
  (ht_add_bundle (Reach.init _ _ : Reach false fresh_ptr).inv demo_add1_eq).hashf

theorem demo_search1_eq : ht_search w0 demo_add1.t 5 = some demo_search1 :=
  some_getD_of_isSome _ _ (by decide)

/-- C3 at the table that holds the key 5, searched for the key 5. -/
theorem C3_search_sound_witness :
    Reach true demo_add1.t ∧ ht_search w0 demo_add1.t 5 = some demo_search1 ∧
    (demo_add1.t.size ≠ 0 → demo_search1.t = demo_add1.t) ∧
    (demo_search1.ret = HT_FOUND → demo_search1.index < demo_search1.t.size ∧
      ∃ k1 v, demo_search1.t.table demo_search1.index = Slot.entry k1 v ∧
        demo_search1.t.key_compare 5 k1 = true) ∧
    (demo_search1.ret = HT_NOTFOUND → ∀ i k1 v, i < demo_search1.t.size →
      demo_search1.t.table i = Slot.entry k1 v →
      demo_search1.t.key_compare 5 k1 = false ∧ demo_search1.t.key_compare k1 5 = false) :=
  ⟨demo_add1_strict, demo_search1_eq,
    C3_search_sound demo_add1.t w0 5 demo_search1 demo_add1_strict
      (by
        intro a b h
        rw [demo_add1_compare] at h ⊢
        simp only [ht_compare_ptr, id, beq_iff_eq] at h ⊢
        exact h.symm)
      (by
        intro a b h
        rw [demo_add1_compare] at h
        simp only [ht_compare_ptr, id, beq_iff_eq] at h
        rw [h])
      demo_search1_eq⟩

/-- C4 (upsert result). For every reachable table, with `key_compare` reflexive on the
key: if `ht_replace(t, k, v)` returns `HT_OK`, then `ht_search(t, k)` returns `HT_FOUND`
at a slot whose value is `v`, whether or not a key equal to `k` was stored before. -/
theorem C4_replace_then_search (t : hashtable κ ν) (w : World κ ν) (k : κ) (v : ν)
    (r : Ret κ ν) (hreach : Reach false t) (hrefl : t.key_compare k k = true)
    (hrep : ht_replace w t k v = some r) (hok : r.ret = HT_OK) :
    ∃ i, ht_search r.w r.t k = some ⟨HT_FOUND, i, r.t, r.w⟩ ∧ i < r.t.size ∧
      r.t.table i = Slot.entry k v := by
  obtain ⟨r1, h1, hcase⟩ := ht_replace_cases hrep
  have hI := hreach.inv
  rcases hcase with ⟨_, hr⟩ | ⟨_, s, hs, _, _, h2⟩
  · subst hr
    obtain ⟨i, hi1, hi2, hi3, -⟩ := ht_add_found hI hrefl h1 hok r.w
    exact ⟨i, hi1, hi2, hi3⟩
  · have hI1 := ht_add_inv hI h1
    have hB1 := ht_add_bundle hI h1
    have hS := ht_search_spec hI1 hs
    have hBs := hS.2.2.2.1
    have hSh := ht_free_shape s.w s.t s.index
    have hcmp : (ht_free s.w s.t s.index).t.key_compare k k = true := by
      rw [hSh.key_compare, hBs.key_compare, hB1.key_compare]; exact hrefl
    obtain ⟨i, hi1, hi2, hi3, -⟩ := ht_add_found (ht_free_inv _ hS.1) hcmp h2 hok r.w
    exact ⟨i, hi1, hi2, hi3⟩

/-- The size that a successful growth check leaves, on a table below the largest size. -/
theorem growth_size {w : World κ ν} {t : hashtable κ ν} {r0 : Ret κ ν} (h : Inv t)
    (hlt : t.size < 2147483648) (hg : ht_expand_if_needed w t = some r0)
    (hok : r0.ret = HT_OK) :
    r0.t.size = if t.size = 0 then 256 else if t.size ≤ 2 * t.used then 2 * t.size
      else t.size := by
  have hu : t.used ≤ 2147483648 := le_trans h.used_le h.size_le
  have hused := h.used_le
  have hu2 : u32 (t.used * 2) = 2 * t.used := by rw [u32_lt (by omega)]; omega
  rcases ht_expand_if_needed_cases hg with ⟨h0, h1, hr⟩ | ⟨h0, hx⟩ | ⟨h0, h1, hx⟩
  · rw [hu2] at h1
    rw [hr, if_neg h0, if_neg h1]
  · rw [if_pos h0]
    rcases ht_expand_spec hu hx with ⟨h3, _⟩ | ⟨h3, _⟩ | ⟨_, _, _, _, h5, _⟩
    · rw [h3] at hok; exact absurd hok (by decide)
    · rw [h3] at hok; exact absurd hok (by decide)
    · rw [h5]
      exact next_power_pow (e := 8) (le_refl _) (by norm_num)
  · rw [hu2] at h1
    rw [if_neg h0, if_pos h1]
    rcases ht_expand_spec hu hx with ⟨h3, _⟩ | ⟨h3, _⟩ | ⟨_, _, _, _, h5, _⟩
    · rw [h3] at hok; exact absurd hok (by decide)
    · rw [h3] at hok; exact absurd hok (by decide)
    · rw [h5]
      rcases h.cap with ⟨hz, _⟩ | ⟨e, h8, h31, hs, _⟩
      · exact absurd hz h0
      · have he : e ≤ 30 := by
          by_contra hc
          have : e = 31 := by omega
          subst this
          norm_num at hs
          omega
        have hb := two_pow_bounds (e := e + 1) (by omega) (by omega)
        have h2s : t.size * 2 = 2 ^ (e + 1) := by rw [hs, pow_succ]
        have h3 : u32 (2 ^ (e + 1)) = 2 ^ (e + 1) := u32_lt (by omega)
        rw [h2s, h3, h3, next_power_pow (by omega) (by omega), ← h2s]
        omega

/-- C10 (growth trigger policy). For a reachable table with size `s < 2^31` and `used = u`:
a successful `ht_add` leaves `size = 256` if `s = 0`, `size = 2·s` if `0 < s ≤ 2·u`, and
`size = s` otherwise; `ht_search` changes the size only when `s = 0`, and then to 256. -/
theorem C10_growth_policy (t : hashtable κ ν) (hreach : Reach false t)
    (hlt : t.size < 2 ^ 31) :
    (∀ w k v r, ht_add w t k v = some r → r.ret = HT_OK →
      r.t.size = if t.size = 0 then 256 else if t.size ≤ 2 * t.used then 2 * t.size
        else t.size) ∧
    (∀ w k r, ht_search w t k = some r → r.t.size ≠ t.size → t.size = 0 ∧ r.t.size = 256) := by
  have hI := hreach.inv
  have hlt1 : t.size < 2147483648 := by norm_num at hlt; exact hlt
  constructor
  · intro w k v r hadd hok
    obtain ⟨r0, j, c, d, hg, hg0, hrt, -⟩ := ht_add_ok hI hadd hok
    rw [hrt]
    exact growth_size hI hlt1 hg hg0
  · intro w k r hs hne
    rcases ht_search_cases hs with ⟨_, hrt, _⟩ | ⟨h0, r0, hg, hrt, _, _⟩
    · rw [hrt] at hne; exact absurd rfl hne
    · refine ⟨h0, ?_⟩
      by_cases hok : r0.ret = HT_OK
      · rw [hrt, growth_size hI hlt1 hg hok, if_pos h0]
      · have := (ht_expand_if_needed_spec hI hg).2.2.2.2.2.1 hok
        rw [hrt, this] at hne
        exact absurd rfl hne

/-- C10 at the table that holds one element (size 256, used 1). -/
theorem C10_growth_policy_witness :
    Reach false demo_add1.t ∧ demo_add1.t.size < 2 ^ 31 ∧
    (∀ w k v r, ht_add w demo_add1.t k v = some r → r.ret = HT_OK →
      r.t.size = if demo_add1.t.size = 0 then 256
        else if demo_add1.t.size ≤ 2 * demo_add1.t.used then 2 * demo_add1.t.size
        else demo_add1.t.size) ∧
    (∀ w k r, ht_search w demo_add1.t k = some r → r.t.size ≠ demo_add1.t.size →
      demo_add1.t.size = 0 ∧ r.t.size = 256) :=
  ⟨demo_add1_reach, by decide, C10_growth_policy demo_add1.t demo_add1_reach (by decide)⟩

/-- C4 at the table that holds the key 5: the value is replaced through the `HT_BUSY`
path of `ht_replace`. -/
theorem C4_replace_then_search_witness :
    Reach false demo_add1.t ∧ demo_add1.t.key_compare 5 5 = true ∧
    ht_replace w0 demo_add1.t 5 9 = some demo_replace1 ∧ demo_replace1.ret = HT_OK ∧
    ∃ i, ht_search demo_replace1.w demo_replace1.t 5 =
        some ⟨HT_FOUND, i, demo_replace1.t, demo_replace1.w⟩ ∧
      i < demo_replace1.t.size ∧ demo_replace1.t.table i = Slot.entry 5 9 :=
  ⟨demo_add1_reach, by decide, some_getD_of_isSome _ _ (by decide), by decide,
    C4_replace_then_search demo_add1.t w0 5 9 demo_replace1 demo_add1_reach (by decide)
      (some_getD_of_isSome _ _ (by decide)) (by decide)⟩

/-! ## Tombstones -/

/-- Turning an element that the search for `key` walks past into a tombstone does not
change the loop of `ht_search` for `key`. -/
theorem ht_search_loop_tombstone (t t1 : hashtable κ ν) (key : κ) (j : Nat) (kj : κ) (vj : ν)
    (hs : SameShape t t1) (htab : t1.table = slot_set t.table j Slot.tombstone)
    (hj : t.table j = Slot.entry kj vj) (hcmp : t.key_compare key kj = false) :
    ∀ fuel h, ht_search_loop t1 key fuel h = ht_search_loop t key fuel h := by
  intro fuel
  induction fuel with
  | zero => intro h; rfl
  | succ fuel ih =>
    intro h
    unfold ht_search_loop
    rw [next_congr hs.sizemask, htab, hs.key_compare]
    by_cases hx : next t h = j
    · simp only [slot_set, if_pos hx]
      rw [hx, hj]
      simp only [hcmp]
      exact ih _
    · simp only [slot_set, if_neg hx]
      cases t.table (next t h) with
      | empty => rfl
      | tombstone => exact ih _
      | entry k v =>
        simp only []
        split
        · rfl
        · exact ih _

/-- Turning an element that the search for `key` walks past into a tombstone does not
change the walk of `ht_search` for `key`. -/
theorem ht_search_walk_tombstone (t t1 : hashtable κ ν) (key : κ) (j : Nat) (kj : κ) (vj : ν)
    (hs : SameShape t t1) (htab : t1.table = slot_set t.table j Slot.tombstone)
    (hj : t.table j = Slot.entry kj vj) (hcmp : t.key_compare key kj = false) :
    ht_search_walk t1 key = ht_search_walk t key := by
  have hloop := ht_search_loop_tombstone t t1 key j kj vj hs htab hj hcmp
  unfold ht_search_walk
  rw [home_congr hs, hs.size, hs.key_compare, hloop, htab]
  by_cases hx : home t key = j
  · simp only [slot_set, if_pos hx]
    rw [hx, hj]
    simp only [hcmp]
    simp
  · simp only [slot_set, if_neg hx]

/-- A successful `ht_rm`, step by step: the table has a slot array, the search finds an
element with an equal key at an index `j` inside the array, and that slot becomes a
tombstone. -/
theorem ht_rm_ok {w : World κ ν} {t : hashtable κ ν} {key : κ} {r : Ret κ ν}
    (h : Inv t) (he : ht_rm w t key = some r) (hok : r.ret = HT_OK) :
    t.size ≠ 0 ∧ ∃ j kj vj, j < t.size ∧ t.table j = Slot.entry kj vj ∧
      t.key_compare key kj = true ∧
      ht_search w t key = some ⟨HT_FOUND, j, t, w⟩ ∧
      r = ⟨HT_OK, { t with table := slot_set t.table j Slot.tombstone, used := dec32 t.used },
            destruct t.val_destructor (Call.val_destructor vj)
              (destruct t.key_destructor (Call.key_destructor kj) w)⟩ := by
  obtain ⟨s, hs, hcase⟩ := ht_rm_cases he
  obtain ⟨hI, -, hU, -, hsame, hret, hfound⟩ := ht_search_spec h hs
  rcases hcase with ⟨hne, hr⟩ | ⟨hf, hr⟩
  · exfalso
    rw [hr] at hok
    simp only at hok
    rcases hret with h1 | h1 | h1
    · exact hne h1
    · rw [h1] at hok; exact absurd hok (by decide)
    · rw [h1] at hok; exact absurd hok (by decide)
  · obtain ⟨hlt, kj, vj, hkv, hcmp⟩ := hfound hf
    have h0 : t.size ≠ 0 := by
      intro h0
      have hu0 : t.used = 0 := by have := h.used_le; omega
      have := count_entries_zero_iff s.t.table s.t.size (by rw [← hI.cnt, hU, hu0]) s.index hlt
      rw [hkv] at this
      exact absurd this (by simp [is_entry_entry])
    obtain ⟨hst, hsw⟩ := hsame h0
    refine ⟨h0, s.index, kj, vj, by rw [← hst]; exact hlt, by rw [← hst]; exact hkv,
      by rw [← hst]; exact hcmp, ?_, ?_⟩
    · rw [hs]
      congr 1
      cases s
      simp only at hf hst hsw
      subst hf hst hsw
      rfl
    · rw [hr]
      rcases ht_free_spec s.w s.t s.index with ⟨h1, _⟩ | ⟨_, h1, _⟩ | ⟨_, k2, v2, hk2, hfr⟩
      · omega
      · rw [hkv] at h1; exact absurd h1 (by simp [is_entry_entry])
      · rw [hfr]
        rw [hkv] at hk2
        simp only [Slot.entry.injEq] at hk2
        rw [← hk2.1, ← hk2.2, hst, hsw]

/-- A growth check that succeeds without changing the size has not touched the table. -/
theorem no_growth_of_same_size {w : World κ ν} {t : hashtable κ ν} {r0 : Ret κ ν} (h : Inv t)
    (h0 : t.size ≠ 0) (hg : ht_expand_if_needed w t = some r0) (hok : r0.ret = HT_OK)
    (hsz : r0.t.size = t.size) : r0.t = t := by
  rcases ht_expand_if_needed_cases hg with ⟨_, _, hr⟩ | ⟨hz, _⟩ | ⟨_, h1, hx⟩
  · rw [hr]
  · exact absurd hz h0
  · exfalso
    have hsl := h.size_le
    have hp := h.size_pos h0
    by_cases hlt : t.size < 2147483648
    · have hu := h.used_le
      have hu2 : u32 (t.used * 2) = 2 * t.used := by rw [u32_lt (by omega)]; omega
      have := growth_size h hlt hg hok
      rw [hu2] at h1
      rw [if_neg h0, if_pos h1] at this
      omega
    · have hs : t.size = 2147483648 := by omega
      have hz : u32 (t.size * 2) = 0 := by rw [hs]; rfl
      rw [hz] at hx
      rcases ht_expand_spec (le_trans h.used_le hsl) hx with ⟨h3, _⟩ | ⟨_, h3, _⟩ | ⟨_, h3, _⟩
      · rw [h3] at hok; exact absurd hok (by decide)
      · omega
      · omega

/-- C7 (a tombstone never hides another key). For every reachable table with `key_compare`
symmetric and transitive: after `ht_rm(t, k)` returns `HT_OK` a slot `j` of the table has
become a tombstone; every key not equal to `k` that `ht_search` found before the call is
still found, at the same index and in the same slot contents; and a key whose home slot is
the freed slot, once inserted afterwards, is found by `ht_search` — in the freed slot
itself when the insert has not grown the table. -/
theorem C7_tombstone_keeps_others (t : hashtable κ ν) (w : World κ ν) (k : κ) (r : Ret κ ν)
    (hreach : Reach false t)
    (hsymm : ∀ a b, t.key_compare a b = true → t.key_compare b a = true)
    (htrans : ∀ a b c, t.key_compare a b = true → t.key_compare b c = true →
      t.key_compare a c = true)
    (hrm : ht_rm w t k = some r) (hok : r.ret = HT_OK) :
    ∃ j, j < t.size ∧ r.t.table j = Slot.tombstone ∧
      (∀ w1 k1 s, ht_search w1 t k1 = some s → s.ret = HT_FOUND →
        t.key_compare k1 k = false →
        ∀ w2, ht_search w2 r.t k1 = some ⟨HT_FOUND, s.index, r.t, w2⟩ ∧
          r.t.table s.index = t.table s.index) ∧
      (∀ w3 k2 v2 r3, home r.t k2 = j → r.t.key_compare k2 k2 = true →
        ht_add w3 r.t k2 v2 = some r3 → r3.ret = HT_OK →
        ∃ i, ht_search r3.w r3.t k2 = some ⟨HT_FOUND, i, r3.t, r3.w⟩ ∧
          r3.t.table i = Slot.entry k2 v2 ∧ (r3.t.size = r.t.size → i = j)) := by
  have hI := hreach.inv
  obtain ⟨h0, j, kj, vj, hjlt, hjk, hcmpk, -, hr⟩ := ht_rm_ok hI hrm hok
  have hIr : Inv r.t := ht_rm_inv hI hrm
  have hshape : SameShape t r.t := by rw [hr]; exact ⟨rfl, rfl, rfl, rfl, rfl, rfl⟩
  have htab : r.t.table = slot_set t.table j Slot.tombstone := by rw [hr]
  have hjt : r.t.table j = Slot.tombstone := by rw [htab]; simp [slot_set]
  refine ⟨j, hjlt, hjt, ?_, ?_⟩
  · intro w1 k1 s hs hf hneq w2
    have hcmp1 : t.key_compare k1 kj = false := by
      by_contra hc
      have hc1 : t.key_compare k1 kj = true := by simpa using hc
      have := htrans k1 kj k hc1 (hsymm k kj hcmpk)
      rw [this] at hneq
      exact absurd hneq (by decide)
    obtain ⟨-, -, -, -, hsame, -, hfound⟩ := ht_search_spec hI hs
    obtain ⟨hst, -⟩ := hsame h0
    obtain ⟨-, ks, vs, hks, hcs⟩ := hfound hf
    rw [hst] at hks hcs
    have hwalk : ht_search_walk t k1 = some (s.ret, s.index) := by
      rcases ht_search_cases hs with ⟨_, _, _, hw⟩ | ⟨hz, _⟩
      · exact hw
      · exact absurd hz h0
    have hne : s.index ≠ j := by
      intro hc
      rw [hc, hjk] at hks
      simp only [Slot.entry.injEq] at hks
      rw [← hks.1, hcmp1] at hcs
      exact absurd hcs (by decide)
    constructor
    · rw [ht_search_eq_walk w2 r.t k1 (by rw [hshape.size]; exact h0),
        ht_search_walk_tombstone t r.t k1 j kj vj hshape htab hjk hcmp1, hwalk, hf]
      rfl
    · rw [htab]
      simp only [slot_set, if_neg hne]
  · intro w3 k2 v2 r3 hhome hrefl hadd hok3
    obtain ⟨i, hi1, -, hi3, -, r0, hg, hg0, hsz, hat⟩ := ht_add_found hIr hrefl hadd hok3 r3.w
    refine ⟨i, hi1, hi3, ?_⟩
    intro hsame
    have hr0 : r0.t = r.t :=
      no_growth_of_same_size hIr (by rw [hshape.size]; exact h0) hg hg0 (by rw [← hsz, hsame])
    rw [hr0, hhome] at hat
    exact hat (by rw [hjt]; rfl)

/-! ## Two upserts of one key on a fresh table -/

theorem next_power_256 : next_power (u32 256) = 256 := by decide

theorem slot_set_same (f : Nat → Slot κ ν) (i : Nat) (s : Slot κ ν) : slot_set f i s i = s := by
  simp [slot_set]

theorem slot_set_overwrite (f : Nat → Slot κ ν) (i : Nat) (s s1 : Slot κ ν) :
    slot_set (slot_set f i s) i s1 = slot_set f i s1 := by
  funext j; simp only [slot_set]; split <;> rfl

theorem home_one_slot (hashf : κ → Nat) (cmp : κ → κ → Bool) (kd vd : Bool) (h : Nat)
    (s : Slot κ ν) (u c : Nat) (k : κ) :
    home (one_slot hashf cmp kd vd h s u c) k = u32 (hashf k) &&& 255 := rfl

theorem table_one_slot (hashf : κ → Nat) (cmp : κ → κ → Bool) (kd vd : Bool) (h : Nat)
    (s : Slot κ ν) (u c : Nat) :
    (one_slot hashf cmp kd vd h s u c).table h = s := by
  simp [one_slot, slot_set]

/-- No growth is needed on a table of 256 slots with at most one element. -/
theorem growth_one_slot (hashf : κ → Nat) (cmp : κ → κ → Bool) (kd vd : Bool) (h : Nat)
    (s : Slot κ ν) (u c : Nat) (w : World κ ν) (hu : u ≤ 1) :
    ht_expand_if_needed w (one_slot hashf cmp kd vd h s u c) =
      some ⟨HT_OK, one_slot hashf cmp kd vd h s u c, w⟩ := by
  unfold ht_expand_if_needed
  rw [if_neg (by simp [one_slot]), if_neg (by simp only [one_slot, u32]; omega)]

/-- The first upsert on a fresh table allocates 256 slots and fills the home slot. -/
theorem replace_fresh (seed : Nat) (ptr : κ → Nat) (hashf : κ → Nat) (cmp : κ → κ → Bool)
    (kd vd : Bool) (k1 : κ) (v1 : ν) (cs : List (Call κ ν)) :
    ht_replace ⟨[], cs⟩ (ht_fresh seed ptr hashf cmp kd vd) k1 v1 =
      some ⟨HT_OK, one_slot hashf cmp kd vd (u32 (hashf k1) &&& 255) (Slot.entry k1 v1) 1 0,
        ⟨[], cs⟩⟩ := by
  simp [ht_replace, ht_add, ht_insert, ht_expand_if_needed, ht_expand, ht_fresh, ht_init,
    ht_set_hash, ht_set_key_compare, ht_set_key_destructor, ht_set_val_destructor, malloc,
    ht_expand_loop, ht_insert_walk, home, next_power_256, dec32, inc32, one_slot]

/-- Adding a key equal to the stored one answers `HT_BUSY`. -/
theorem add_one_slot_busy (hashf : κ → Nat) (cmp : κ → κ → Bool) (kd vd : Bool)
    (k1 k2 : κ) (v1 v2 : ν) (w : World κ ν) (hcmp : cmp k2 k1 = true)
    (hhash : hashf k2 = hashf k1) :
    ht_add w (one_slot hashf cmp kd vd (u32 (hashf k1) &&& 255) (Slot.entry k1 v1) 1 0) k2 v2 =
      some ⟨HT_BUSY, one_slot hashf cmp kd vd (u32 (hashf k1) &&& 255) (Slot.entry k1 v1) 1 1,
        w⟩ := by
  have hw : ht_insert_walk
      (one_slot hashf cmp kd vd (u32 (hashf k1) &&& 255) (Slot.entry k1 v1) 1 0) k2 =
      some (HT_BUSY, 0, 1) := by
    unfold ht_insert_walk
    rw [home_one_slot, hhash, table_one_slot]
    simp [one_slot, hcmp, inc32]
  unfold ht_add ht_insert
  rw [growth_one_slot _ _ _ _ _ _ _ _ _ (le_refl _)]
  simp only [hw]
  simp [one_slot]

/-- Searching a key equal to the stored one finds the home slot. -/
theorem search_one_slot (hashf : κ → Nat) (cmp : κ → κ → Bool) (kd vd : Bool)
    (k1 k2 : κ) (v1 : ν) (u c : Nat) (w : World κ ν) (hcmp : cmp k2 k1 = true)
    (hhash : hashf k2 = hashf k1) :
    ht_search w (one_slot hashf cmp kd vd (u32 (hashf k1) &&& 255) (Slot.entry k1 v1) u c) k2 =
      some ⟨HT_FOUND, u32 (hashf k1) &&& 255,
        one_slot hashf cmp kd vd (u32 (hashf k1) &&& 255) (Slot.entry k1 v1) u c, w⟩ := by
  rw [ht_search_eq_walk _ _ _ (by simp [one_slot])]
  unfold ht_search_walk
  rw [home_one_slot, hhash, table_one_slot]
  simp [one_slot, hcmp]

/-- Freeing the home slot runs both destructors and leaves a tombstone. -/
theorem free_one_slot (hashf : κ → Nat) (cmp : κ → κ → Bool)
    (k1 : κ) (v1 : ν) (c : Nat) (ms : List Bool) (cs : List (Call κ ν)) :
    ht_free ⟨ms, cs⟩
        (one_slot hashf cmp true true (u32 (hashf k1) &&& 255) (Slot.entry k1 v1) 1 c)
        (u32 (hashf k1) &&& 255) =
      ⟨HT_OK, one_slot hashf cmp true true (u32 (hashf k1) &&& 255) Slot.tombstone 0 c,
        ⟨ms, cs ++ [Call.key_destructor k1, Call.val_destructor v1]⟩⟩ := by
  have hlt : ¬ 256 ≤ u32 (hashf k1) &&& 255 := by
    have : u32 (hashf k1) &&& 255 ≤ 255 := Nat.and_le_right
    omega
  unfold ht_free
  rw [if_neg (by simpa [one_slot] using hlt), table_one_slot]
  simp only [destruct, if_true]
  have hd : dec32 1 = 0 := rfl
  simp only [one_slot, slot_set_overwrite, hd]
  simp

/-- Adding a key whose home slot is the tombstone reuses it. -/
theorem add_one_slot_tombstone (hashf : κ → Nat) (cmp : κ → κ → Bool) (kd vd : Bool)
    (k1 k2 : κ) (v2 : ν) (c : Nat) (cs : List (Call κ ν))
    (hhash : hashf k2 = hashf k1) :
    ht_add ⟨[], cs⟩ (one_slot hashf cmp kd vd (u32 (hashf k1) &&& 255) Slot.tombstone 0 c)
        k2 v2 =
      some ⟨HT_OK, one_slot hashf cmp kd vd (u32 (hashf k1) &&& 255) (Slot.entry k2 v2) 1 c,
        ⟨[], cs⟩⟩ := by
  have hw : ht_insert_walk
      (one_slot hashf cmp kd vd (u32 (hashf k1) &&& 255) (Slot.tombstone : Slot κ ν) 0 c) k2 =
      some (HT_OK, u32 (hashf k1) &&& 255, c) := by
    unfold ht_insert_walk
    rw [home_one_slot, hhash, table_one_slot]
    simp [one_slot]
  unfold ht_add ht_insert
  rw [growth_one_slot _ _ _ _ _ _ _ _ _ (by omega)]
  simp only [hw]
  have hi : inc32 0 = 1 := rfl
  simp only [Option.map_some', malloc, one_slot]
  simp
  exact ⟨slot_set_overwrite _ _ _ _, hi⟩

/-- The second upsert, of a key equal to the stored one: the old element is disposed of
(both destructors run once) and the new element takes the home slot. -/
theorem replace_one_slot (hashf : κ → Nat) (cmp : κ → κ → Bool)
    (k1 k2 : κ) (v1 v2 : ν) (cs : List (Call κ ν)) (hcmp : cmp k2 k1 = true)
    (hhash : hashf k2 = hashf k1) :
    ht_replace ⟨[], cs⟩
        (one_slot hashf cmp true true (u32 (hashf k1) &&& 255) (Slot.entry k1 v1) 1 0) k2 v2 =
      some ⟨HT_OK, one_slot hashf cmp true true (u32 (hashf k1) &&& 255) (Slot.entry k2 v2) 1 1,
            ⟨[], cs ++ [Call.key_destructor k1, Call.val_destructor v1]⟩⟩ := by
  unfold ht_replace
  rw [add_one_slot_busy hashf cmp true true k1 k2 v1 v2 _ hcmp hhash]
  simp only [search_one_slot hashf cmp true true k1 k2 v1 1 1 _ hcmp hhash, free_one_slot,
    add_one_slot_tombstone hashf cmp true true k1 k2 v2 1 _ hhash]
  simp

/-- C5 (upsert disposal). On a freshly initialised table with both destructors bound and
every allocation succeeding, `ht_replace(k1, v1)` followed by `ht_replace(k2, v2)`, where
`k2` compares equal to `k1` (and to itself) and has the hash value of `k1`, returns
`HT_OK` twice and leaves `used = 1` and `ht_search(k2)` finding the value `v2`; over the
two calls the destructors have been invoked exactly once each, the value destructor on
`v1` (never on `v2`). -/
theorem C5_upsert_disposal (seed : Nat) (ptr : κ → Nat) (hashf : κ → Nat)
    (cmp : κ → κ → Bool) (k1 k2 : κ) (v1 v2 : ν) (cs : List (Call κ ν))
    (hcmp : cmp k2 k1 = true) (hrefl : cmp k2 k2 = true) (hhash : hashf k2 = hashf k1) :
    ∃ r1 r2, ht_replace ⟨[], cs⟩ (ht_fresh seed ptr hashf cmp true true) k1 v1 = some r1 ∧
      r1.ret = HT_OK ∧ ht_replace r1.w r1.t k2 v2 = some r2 ∧ r2.ret = HT_OK ∧
      r2.t.used = 1 ∧
      (∃ i, ht_search r2.w r2.t k2 = some ⟨HT_FOUND, i, r2.t, r2.w⟩ ∧
        r2.t.table i = Slot.entry k2 v2) ∧
      r2.w.calls = cs ++ [Call.key_destructor k1, Call.val_destructor v1] := by
  refine ⟨_, _, replace_fresh seed ptr hashf cmp true true k1 v1 cs, rfl,
    replace_one_slot hashf cmp k1 k2 v1 v2 cs hcmp hhash, rfl, rfl, ?_, rfl⟩
  have hh : u32 (hashf k1) &&& 255 = u32 (hashf k2) &&& 255 := by rw [hhash]
  refine ⟨u32 (hashf k1) &&& 255, ?_, table_one_slot _ _ _ _ _ _ _ _⟩
  simp only [hh]
  exact search_one_slot hashf cmp true true k2 k2 v2 1 1 _ hrefl rfl

/-- C5 with the default hash and comparison of `ht_init`, on the pointer value 5 upserted
twice. -/
theorem C5_upsert_disposal_witness :
    ht_compare_ptr id 5 5 = true ∧
    ∃ r1 r2, ht_replace ⟨[], []⟩ (ht_fresh strong_hash_init_val id
          (fun key => ht_hash_pointer strong_hash_init_val key) (ht_compare_ptr id) true true)
          5 7 = some r1 ∧
      r1.ret = HT_OK ∧ ht_replace r1.w r1.t 5 9 = some r2 ∧ r2.ret = HT_OK ∧
      r2.t.used = 1 ∧
      (∃ i, ht_search r2.w r2.t 5 = some ⟨HT_FOUND, i, r2.t, r2.w⟩ ∧
        r2.t.table i = Slot.entry 5 9) ∧
      r2.w.calls = [] ++ [Call.key_destructor 5, Call.val_destructor 7] :=
  ⟨by decide, C5_upsert_disposal strong_hash_init_val id
    (fun key => ht_hash_pointer strong_hash_init_val key) (ht_compare_ptr id) 5 5 7 9 []
    (by decide) (by decide) rfl⟩

/-! ## Removing an absent key -/

theorem then_add_reach {t : hashtable κ ν} (h : Reach false t) (w : World κ ν) (k : κ) (v : ν) :
    Reach false (then_add t w k v) := by
  unfold then_add
  cases he : ht_add w t k v with
  | none => exact h
  | some r => exact Reach.add w k v h he (fun hc => by cases hc)

theorem then_rm_reach {t : hashtable κ ν} (h : Reach false t) (w : World κ ν) (k : κ) :
    Reach false (then_rm t w k) := by
  unfold then_rm
  cases he : ht_rm w t k with
  | none => exact h
  | some r => exact Reach.rm w k h he (fun hc => by cases hc)

theorem then_expand_reach {t : hashtable κ ν} (h : Reach false t) (w : World κ ν) (n : Nat)
    (hn : n < 18446744073709551616) : Reach false (then_expand t w n) := by
  unfold then_expand
  cases he : ht_expand w t n with
  | none => exact h
  | some r => exact Reach.expand w n h hn he (fun hc => by cases hc)

theorem add_keys_reach (ks : List Nat) :
    ∀ t : hashtable Nat Nat, Reach false t → Reach false (add_keys t ks) := by
  induction ks with
  | nil => intro t h; exact h
  | cons k ks ih => intro t h; exact ih _ (then_add_reach h w0 k 0)

theorem churn_keys_reach (ks : List Nat) :
    ∀ t : hashtable Nat Nat, Reach false t → Reach false (churn_keys t ks) := by
  induction ks with
  | nil => intro t h; exact h
  | cons k ks ih => intro t h; exact ih _ (then_rm_reach (then_add_reach h w0 k 0) w0 k)

theorem id_table_reach : Reach false id_table :=
  Reach.set_key_compare _ (Reach.set_hash _ (Reach.init _ _) rfl) rfl

theorem churned_table_reach : Reach false churned_table :=
  churn_keys_reach _ _ id_table_reach

theorem full_table_reach : Reach false full_table :=
  then_expand_reach (add_keys_reach _ _ id_table_reach) w0 _ (by norm_num)

theorem demo_add2_eq : ht_add w0 demo_add1.t 406 8 = some demo_add2 :=
  some_getD_of_isSome _ _ (by decide)

theorem demo_add2_reach : Reach false demo_add2.t :=
  Reach.add w0 406 8 demo_add1_reach demo_add2_eq (fun h => by cases h)

theorem demo_rm1_eq : ht_rm w0 demo_add2.t 5 = some demo_rm1 :=
  some_getD_of_isSome _ _ (by decide)

theorem demo_rm1_reach : Reach false demo_rm1.t :=
  Reach.rm w0 5 demo_add2_reach demo_rm1_eq (fun h => by cases h)

theorem demo_add2_compare : demo_add2.t.key_compare = ht_compare_ptr id := by
  rw [(ht_add_bundle demo_add1_reach.inv demo_add2_eq).key_compare, demo_add1_compare]

/-- On the table after 256 rounds of insert-then-delete the loop of `ht_search` for the
key 1000 does not return within `size` steps. -/
theorem churned_table_loop :
    ht_search_loop churned_table 1000 churned_table.size (home churned_table 1000) = none := by
  decide!

/-- The state of the table after 256 rounds of insert-then-delete: 256 slots, all
tombstones, no element; and `ht_rm` of the key 1000 does not return. -/
theorem churned_table_facts :
    churned_table.size = 256 ∧ churned_table.used = 0 ∧
    (∀ i, i < 256 → churned_table.table i = Slot.tombstone) ∧
    (ht_rm w0 churned_table 1000).isSome = false := by
  decide!

theorem demo_add3_eq : ht_add w0 demo_rm1.t 406 9 = some demo_add3 :=
  some_getD_of_isSome _ _ (by decide)

/-- C2 fails on a reachable table built with the default strategy of `ht_init`: after
`ht_add(5, 7)`, `ht_add(406, 8)` (same home slot 248, stored in slot 249) and `ht_rm(5)`,
the key 406 is found by `ht_search` at index 249, and yet `ht_add(406, 9)` returns `HT_OK`:
it stores a second element with the key 406 in the tombstone of slot 248 and `used`
grows from 1 to 2. -/
theorem C2_insert_present_key_eval :
    Reach false demo_rm1.t ∧ demo_rm1.t.used = 1 ∧
    demo_rm1.t.table 248 = Slot.tombstone ∧ demo_rm1.t.table 249 = Slot.entry 406 8 ∧
    (ht_search w0 demo_rm1.t 406).map (fun r => (r.ret, r.index)) = some (HT_FOUND, 249) ∧
    ht_add w0 demo_rm1.t 406 9 = some demo_add3 ∧ demo_add3.ret = HT_OK ∧
    demo_add3.t.used = 2 ∧ demo_add3.t.table 248 = Slot.entry 406 9 ∧
    demo_add3.t.table 249 = Slot.entry 406 8 :=
  ⟨demo_rm1_reach, by decide, by decide, by decide, by decide, demo_add3_eq, by decide,
    by decide, by decide, by decide⟩

/-- C7 at the table that holds the keys 5 (slot 248) and 406 (slot 249, same home slot),
for the removal of the key 5. -/
theorem C7_tombstone_keeps_others_witness :
    Reach false demo_add2.t ∧ ht_rm w0 demo_add2.t 5 = some demo_rm1 ∧
    demo_rm1.ret = HT_OK ∧
    ∃ j, j < demo_add2.t.size ∧ demo_rm1.t.table j = Slot.tombstone ∧
      (∀ w1 k1 s, ht_search w1 demo_add2.t k1 = some s → s.ret = HT_FOUND →
        demo_add2.t.key_compare k1 5 = false →
        ∀ w2, ht_search w2 demo_rm1.t k1 = some ⟨HT_FOUND, s.index, demo_rm1.t, w2⟩ ∧
          demo_rm1.t.table s.index = demo_add2.t.table s.index) ∧
      (∀ w3 k2 v2 r3, home demo_rm1.t k2 = j → demo_rm1.t.key_compare k2 k2 = true →
        ht_add w3 demo_rm1.t k2 v2 = some r3 → r3.ret = HT_OK →
        ∃ i, ht_search r3.w r3.t k2 = some ⟨HT_FOUND, i, r3.t, r3.w⟩ ∧
          r3.t.table i = Slot.entry k2 v2 ∧ (r3.t.size = demo_rm1.t.size → i = j)) :=
  ⟨demo_add2_reach, demo_rm1_eq, by decide,
    C7_tombstone_keeps_others demo_add2.t w0 5 demo_rm1 demo_add2_reach
      (by
        intro a b h
        rw [demo_add2_compare] at h ⊢
        simp only [ht_compare_ptr, id, beq_iff_eq] at h ⊢
        exact h.symm)
      (by
        intro a b c h1 h2
        rw [demo_add2_compare] at h1 h2 ⊢
        simp only [ht_compare_ptr, id, beq_iff_eq] at h1 h2 ⊢
        exact h1.trans h2)
      demo_rm1_eq (by decide)⟩

/-! ## The load after an insert -/

/-- On a table that is not full the load is at most one half after a successful
`ht_add`. -/
theorem load_after_add_of_room {w : World κ ν} {t : hashtable κ ν} {k : κ} {v : ν}
    {r : Ret κ ν} (h : Inv t) (hroom : t.size = 0 ∨ t.used < t.size)
    (hadd : ht_add w t k v = some r) (hok : r.ret = HT_OK) : r.t.used * 2 ≤ r.t.size := by
  obtain ⟨r0, j, c, d, hg, hg0, hrt, -⟩ := ht_add_ok h hadd hok
  obtain ⟨hI0, -, hU, -, hS, -, -⟩ := ht_expand_if_needed_spec h hg
  have hused : r.t.used = t.used + 1 := by
    rw [hrt]
    show inc32 r0.t.used = t.used + 1
    have h1 := hI0.used_le
    have h2 := hI0.size_le
    rw [inc32_lt (by omega), hU]
  have hsize : r.t.size = r0.t.size := by rw [hrt]
  have hsl := h.size_le
  have hul := h.used_le
  rw [hused, hsize]
  by_cases hlt : t.size < 2147483648
  · rw [growth_size h hlt hg hg0]
    by_cases h0 : t.size = 0
    · rw [if_pos h0]; omega
    · rw [if_neg h0]
      have hu : t.used < t.size := by
        rcases hroom with hz | hu
        · exact absurd hz h0
        · exact hu
      by_cases h1 : t.size ≤ 2 * t.used
      · rw [if_pos h1]; omega
      · rw [if_neg h1]
        rcases h.cap with ⟨hz, _⟩ | ⟨e, h8, _, hs, _⟩
        · exact absurd hz h0
        · have heven : 2 ∣ t.size := by
            rw [hs]; exact dvd_pow_self 2 (by omega)
          omega
  · have hs : t.size = 2147483648 := by omega
    have hu : t.used < t.size := by
      rcases hroom with hz | hu
      · omega
      · exact hu
    rcases ht_expand_if_needed_cases hg with ⟨_, h1, hr⟩ | ⟨hz, _⟩ | ⟨_, _, hx⟩
    · rw [hr]
      have hu2 : u32 (t.used * 2) = 2 * t.used := by rw [u32_lt (by omega)]; omega
      rw [hu2] at h1
      show (t.used + 1) * 2 ≤ t.size
      omega
    · omega
    · exfalso
      have hz : u32 (t.size * 2) = 0 := by rw [hs]; rfl
      rw [hz] at hx
      rcases ht_expand_spec (le_trans hul hsl) hx with ⟨h3, _⟩ | ⟨h3, _⟩ | ⟨_, h3, _⟩
      · rw [h3] at hg0; exact absurd hg0 (by decide)
      · rw [h3] at hg0; exact absurd hg0 (by decide)
      · omega

/-- C9 fails on a reachable table: after the insertion of 256 keys (size 512) the call
`ht_expand(t, 2^32 + 256)` passes the test against `used` with the full `size_t` value
and computes the new size from its low 32 bits, 256: the table is rebuilt with 256
elements in 256 slots. The next `ht_add` doubles the size to 512, returns `HT_OK` and
leaves `used = 257`, and `257 * 2 > 512`. -/
theorem C9_load_after_add_eval :
    Reach false full_table ∧
    (full_table.size = 256 ∧ full_table.used = 256 ∧
      (ht_add w0 full_table 1000 0).map (fun r => (r.ret, r.t.size, r.t.used)) =
        some (HT_OK, 512, 257)) ∧
    ¬ (257 * 2 ≤ 512) :=
  ⟨full_table_reach, by decide!, by decide⟩

/-! ## The fuel of the probe loops

The loops of `ht_search` and `ht_insert` are run for `size` steps. A loop that has not
returned by then has seen every slot of the array and returns for no number of steps:
`none` is a walk that cycles for ever. -/

theorem next_eq_mod {t : hashtable κ ν} (h : Inv t) (h0 : t.size ≠ 0) (x : Nat)
    (hx : x < t.size) : next t x = (x + 1) % t.size := by
  rcases h.cap with ⟨hz, _⟩ | ⟨e, h8, h31, hs, hm⟩
  · exact absurd hz h0
  · have hb := two_pow_bounds h8 h31
    unfold next
    rw [hm, hs, Nat.and_pow_two_sub_one_eq_mod, u32_lt (by omega)]

theorem next_iterate_eq_mod {t : hashtable κ ν} (h : Inv t) (h0 : t.size ≠ 0) (x : Nat)
    (hx : x < t.size) (i : Nat) : (next t)^[i] x = (x + i) % t.size := by
  induction i with
  | zero => simp [Nat.mod_eq_of_lt hx]
  | succ i ih =>
    rw [Function.iterate_succ_apply', ih,
      next_eq_mod h h0 _ (Nat.mod_lt _ (Nat.pos_of_ne_zero h0)), Nat.add_mod, Nat.mod_mod,
      ← Nat.add_mod, Nat.add_assoc]

/-- The slots of a walk repeat with period `size`. -/
theorem next_iterate_period {t : hashtable κ ν} (h : Inv t) (h0 : t.size ≠ 0) (x i : Nat) :
    (next t)^[i + 1] x = (next t)^[i % t.size + 1] x := by
  rw [Function.iterate_succ_apply, Function.iterate_succ_apply,
    next_iterate_eq_mod h h0 _ (next_lt h h0 x), next_iterate_eq_mod h h0 _ (next_lt h h0 x),
    Nat.add_mod, Nat.add_mod (next t x) (i % t.size), Nat.mod_mod]

/-- The loop of `ht_search` runs out of steps exactly when every slot it has looked at is
a tombstone or an element with another key. -/
theorem ht_search_loop_none_iff (t : hashtable κ ν) (key : κ) :
    ∀ fuel h, ht_search_loop t key fuel h = none ↔
      ∀ i, i < fuel → skips t key (t.table ((next t)^[i + 1] h)) := by
  intro fuel
  induction fuel with
  | zero => intro h; simp [ht_search_loop]
  | succ fuel ih =>
    intro h
    have hstep : (∀ i, i < fuel + 1 → skips t key (t.table ((next t)^[i + 1] h))) ↔
        (skips t key (t.table (next t h)) ∧
          ∀ i, i < fuel → skips t key (t.table ((next t)^[i + 1] (next t h)))) := by
      constructor
      · intro hall
        refine ⟨by simpa using hall 0 (by omega), fun i hi => ?_⟩
        have := hall (i + 1) (by omega)
        rwa [Function.iterate_succ_apply] at this
      · intro ⟨h1, h2⟩ i hi
        cases i with
        | zero => simpa using h1
        | succ i => rw [Function.iterate_succ_apply]; exact h2 i (by omega)
    rw [hstep]
    unfold ht_search_loop
    cases hs : t.table (next t h) with
    | empty =>
      constructor
      · intro hc; simp at hc
      · intro ⟨h1, _⟩
        rcases h1 with h1 | ⟨k, v, h1, _⟩ <;> simp at h1
    | tombstone =>
      simp only [ih]
      exact ⟨fun h2 => ⟨Or.inl rfl, h2⟩, fun h2 => h2.2⟩
    | entry k v =>
      by_cases hc : t.key_compare key k = true
      · simp only [hc, if_true]
        constructor
        · intro h2; simp at h2
        · intro ⟨h1, _⟩
          rcases h1 with h1 | ⟨k1, v1, h1, h3⟩
          · simp at h1
          · simp only [Slot.entry.injEq] at h1
            rw [← h1.1, hc] at h3
            exact absurd h3 (by decide)
      · have hc1 : t.key_compare key k = false := by simpa using hc
        simp only [hc1, Bool.false_eq_true, if_false, ih]
        exact ⟨fun h2 => ⟨Or.inr ⟨k, v, rfl, hc1⟩, h2⟩, fun h2 => h2.2⟩

/-- A loop of `ht_search` that has not returned after `size` steps returns after no
number of steps. -/
theorem ht_search_loop_fuel_complete {t : hashtable κ ν} (h : Inv t) (h0 : t.size ≠ 0)
    (key : κ) (x : Nat) (hnone : ht_search_loop t key t.size x = none) :
    ∀ n, ht_search_loop t key n x = none := by
  intro n
  rw [ht_search_loop_none_iff] at hnone ⊢
  intro i _
  rw [next_iterate_period h h0]
  exact hnone _ (Nat.mod_lt _ (Nat.pos_of_ne_zero h0))

/-- The loop of `ht_insert` runs out of steps exactly when every slot it has looked at is
an element with another key. -/
theorem ht_insert_loop_none_iff (t : hashtable κ ν) (key : κ) :
    ∀ fuel h c, ht_insert_loop t key fuel h c = none ↔
      ∀ i, i < fuel → ∃ k v, t.table ((next t)^[i + 1] h) = Slot.entry k v ∧
        t.key_compare key k = false := by
  intro fuel
  induction fuel with
  | zero => intro h c; simp [ht_insert_loop]
  | succ fuel ih =>
    intro h c
    have hstep : (∀ i, i < fuel + 1 → ∃ k v, t.table ((next t)^[i + 1] h) = Slot.entry k v ∧
          t.key_compare key k = false) ↔
        ((∃ k v, t.table (next t h) = Slot.entry k v ∧ t.key_compare key k = false) ∧
          ∀ i, i < fuel → ∃ k v, t.table ((next t)^[i + 1] (next t h)) = Slot.entry k v ∧
            t.key_compare key k = false) := by
      constructor
      · intro hall
        refine ⟨by simpa using hall 0 (by omega), fun i hi => ?_⟩
        have := hall (i + 1) (by omega)
        rwa [Function.iterate_succ_apply] at this
      · intro ⟨h1, h2⟩ i hi
        cases i with
        | zero => simpa using h1
        | succ i => rw [Function.iterate_succ_apply]; exact h2 i (by omega)
    rw [hstep]
    unfold ht_insert_loop
    cases hs : t.table (next t h) with
    | empty =>
      constructor
      · intro hc; simp at hc
      · intro ⟨⟨k, v, h1, _⟩, _⟩; simp at h1
    | tombstone =>
      constructor
      · intro hc; simp at hc
      · intro ⟨⟨k, v, h1, _⟩, _⟩; simp at h1
    | entry k v =>
      by_cases hc : t.key_compare key k = true
      · simp only [hc, if_true]
        constructor
        · intro h2; simp at h2
        · intro ⟨⟨k1, v1, h1, h3⟩, _⟩
          simp only [Slot.entry.injEq] at h1
          rw [← h1.1, hc] at h3
          exact absurd h3 (by decide)
      · have hc1 : t.key_compare key k = false := by simpa using hc
        simp only [hc1, Bool.false_eq_true, if_false, ih]
        exact ⟨fun h2 => ⟨⟨k, v, rfl, hc1⟩, h2⟩, fun h2 => h2.2⟩

/-- A loop of `ht_insert` that has not returned after `size` steps returns after no
number of steps. -/
theorem ht_insert_loop_fuel_complete {t : hashtable κ ν} (h : Inv t) (h0 : t.size ≠ 0)
    (key : κ) (x c : Nat) (hnone : ht_insert_loop t key t.size x c = none) :
    ∀ n c1, ht_insert_loop t key n x c1 = none := by
  intro n c1
  rw [ht_insert_loop_none_iff] at hnone ⊢
  intro i _
  rw [next_iterate_period h h0]
  exact hnone _ (Nat.mod_lt _ (Nat.pos_of_ne_zero h0))

/-- The probe of the rehash runs out of steps exactly when no slot it has looked at is
`NULL`. -/
theorem ht_expand_probe_none_iff (n : hashtable κ ν) :
    ∀ fuel h c, ht_expand_probe n fuel h c = none ↔
      ∀ i, i < fuel → n.table ((next n)^[i + 1] h) ≠ Slot.empty := by
  intro fuel
  induction fuel with
  | zero => intro h c; simp [ht_expand_probe]
  | succ fuel ih =>
    intro h c
    have hstep : (∀ i, i < fuel + 1 → n.table ((next n)^[i + 1] h) ≠ Slot.empty) ↔
        (n.table (next n h) ≠ Slot.empty ∧
          ∀ i, i < fuel → n.table ((next n)^[i + 1] (next n h)) ≠ Slot.empty) := by
      constructor
      · intro hall
        refine ⟨by simpa using hall 0 (by omega), fun i hi => ?_⟩
        have := hall (i + 1) (by omega)
        rwa [Function.iterate_succ_apply] at this
      · intro ⟨h1, h2⟩ i hi
        cases i with
        | zero => simpa using h1
        | succ i => rw [Function.iterate_succ_apply]; exact h2 i (by omega)
    rw [hstep]
    unfold ht_expand_probe
    cases hs : n.table (next n h) with
    | empty =>
      constructor
      · intro hc; simp at hc
      · intro ⟨h1, _⟩; exact absurd rfl h1
    | tombstone =>
      simp only [ih]
      exact ⟨fun h2 => ⟨by simp, h2⟩, fun h2 => h2.2⟩
    | entry k v =>
      simp only [ih]
      exact ⟨fun h2 => ⟨by simp, h2⟩, fun h2 => h2.2⟩

/-- A probe of the rehash that has not returned after `size` steps returns after no
number of steps. -/
theorem ht_expand_probe_fuel_complete {n : hashtable κ ν} (h : Inv n) (h0 : n.size ≠ 0)
    (x c : Nat) (hnone : ht_expand_probe n n.size x c = none) :
    ∀ m c1, ht_expand_probe n m x c1 = none := by
  intro m c1
  rw [ht_expand_probe_none_iff] at hnone ⊢
  intro i _
  rw [next_iterate_period h h0]
  exact hnone _ (Nat.mod_lt _ (Nat.pos_of_ne_zero h0))

theorem Inv.cap_of_size {t : hashtable κ ν} (h : Inv t) (h0 : t.size ≠ 0) : Cap t := by
  rcases h.cap with ⟨hz, _⟩ | hc
  · exact absurd hz h0
  · exact hc

theorem Cap.size_ge {t : hashtable κ ν} (h : Cap t) : 256 ≤ t.size ∧ t.size ≤ 2147483648 := by
  obtain ⟨e, h8, h31, hs, _⟩ := h
  rw [hs]; exact two_pow_bounds h8 h31

theorem Cap.next_bound {t : hashtable κ ν} (h : Cap t) (x : Nat) : next t x < t.size := by
  have hb := h.size_ge
  obtain ⟨e, _, _, _, hm⟩ := h
  have : next t x ≤ t.sizemask := Nat.and_le_right
  omega

theorem Cap.home_bound {t : hashtable κ ν} (h : Cap t) (key : κ) : home t key < t.size := by
  have hb := h.size_ge
  obtain ⟨e, _, _, _, hm⟩ := h
  have : home t key ≤ t.sizemask := Nat.and_le_right
  omega

theorem Cap.next_mod {t : hashtable κ ν} (h : Cap t) (x : Nat) (hx : x < t.size) :
    next t x = (x + 1) % t.size := by
  have hb := h.size_ge
  obtain ⟨e, h8, h31, hs, hm⟩ := h
  unfold next
  rw [hm, hs, Nat.and_pow_two_sub_one_eq_mod, u32_lt (by omega)]

theorem Cap.iterate_mod {t : hashtable κ ν} (h : Cap t) (x : Nat) (hx : x < t.size) (i : Nat) :
    (next t)^[i] x = (x + i) % t.size := by
  have hpos : 0 < t.size := by have := h.size_ge; omega
  induction i with
  | zero => simp [Nat.mod_eq_of_lt hx]
  | succ i ih =>
    rw [Function.iterate_succ_apply', ih, h.next_mod _ (Nat.mod_lt _ hpos), Nat.add_mod,
      Nat.mod_mod, ← Nat.add_mod, Nat.add_assoc]

/-- From any slot of the array a walk reaches any other slot in fewer than `size` steps. -/
theorem Cap.cover {t : hashtable κ ν} (h : Cap t) (x j : Nat) (hx : x < t.size)
    (hj : j < t.size) : ∃ i, i < t.size ∧ (next t)^[i] x = j := by
  by_cases hle : x ≤ j
  · refine ⟨j - x, by omega, ?_⟩
    rw [h.iterate_mod x hx, show x + (j - x) = j by omega, Nat.mod_eq_of_lt hj]
  · refine ⟨j + t.size - x, by omega, ?_⟩
    rw [h.iterate_mod x hx, show x + (j + t.size - x) = j + t.size by omega,
      Nat.add_mod_right, Nat.mod_eq_of_lt hj]

/-- A count below the number of slots leaves a slot without element. -/
theorem exists_not_entry_of_count_lt (f : Nat → Slot κ ν) (n : Nat)
    (h : count_entries f n < n) : ∃ j, j < n ∧ is_entry (f j) = false := by
  induction n with
  | zero => omega
  | succ n ih =>
    unfold count_entries at h
    by_cases he : is_entry (f n) = true
    · rw [if_pos he] at h
      obtain ⟨j, hj, hjf⟩ := ih (by omega)
      exact ⟨j, by omega, hjf⟩
    · exact ⟨n, by omega, by simpa using he⟩

/-- The walk of `ht_insert` returns when the array has a slot without element. -/
theorem ht_insert_walk_returns {t : hashtable κ ν} (h : Cap t) (key : κ)
    (hfree : ∃ j, j < t.size ∧ is_entry (t.table j) = false) :
    ∃ p, ht_insert_walk t key = some p := by
  obtain ⟨j, hj, hjf⟩ := hfree
  obtain ⟨i, hi, hij⟩ := h.cover (home t key) j (h.home_bound key) hj
  cases hw : ht_insert_walk t key with
  | some p => exact ⟨p, rfl⟩
  | none =>
    exfalso
    unfold ht_insert_walk at hw
    cases hs : t.table (home t key) with
    | empty => rw [hs] at hw; simp at hw
    | tombstone => rw [hs] at hw; simp at hw
    | entry k v =>
      rw [hs] at hw
      simp only at hw
      by_cases hc : t.key_compare key k = true
      · rw [if_pos hc] at hw; simp at hw
      · rw [if_neg hc] at hw
        rw [ht_insert_loop_none_iff] at hw
        cases i with
        | zero =>
          simp only [Function.iterate_zero, id_eq] at hij
          rw [← hij, hs] at hjf
          simp [is_entry_entry] at hjf
        | succ i =>
          obtain ⟨k1, v1, hkv, _⟩ := hw i (by omega)
          rw [hij] at hkv
          rw [hkv] at hjf
          simp [is_entry_entry] at hjf

/-- The walk of `ht_search` returns when the array has a `NULL` slot. -/
theorem ht_search_walk_returns {t : hashtable κ ν} (h : Cap t) (key : κ)
    (hfree : ∃ j, j < t.size ∧ t.table j = Slot.empty) :
    ∃ p, ht_search_walk t key = some p := by
  obtain ⟨j, hj, hjf⟩ := hfree
  obtain ⟨i, hi, hij⟩ := h.cover (home t key) j (h.home_bound key) hj
  cases hw : ht_search_walk t key with
  | some p => exact ⟨p, rfl⟩
  | none =>
    exfalso
    have hloop : ht_search_loop t key t.size (home t key) = none ∧
        t.table (home t key) ≠ Slot.empty := by
      unfold ht_search_walk at hw
      cases hs : t.table (home t key) with
      | empty => rw [hs] at hw; simp at hw
      | tombstone => rw [hs] at hw; exact ⟨hw, by simp⟩
      | entry k v =>
        rw [hs] at hw
        simp only at hw
        by_cases hc : t.key_compare key k = true
        · rw [if_pos hc] at hw; simp at hw
        · rw [if_neg hc] at hw; exact ⟨hw, by simp⟩
    obtain ⟨hl, hne⟩ := hloop
    rw [ht_search_loop_none_iff] at hl
    cases i with
    | zero =>
      simp only [Function.iterate_zero, id_eq] at hij
      rw [hij] at hne
      exact hne hjf
    | succ i =>
      have := hl i (by omega)
      rw [hij, hjf] at this
      rcases this with h1 | ⟨k1, v1, h1, _⟩ <;> simp at h1

/-- The probe of the rehash returns when the new array has a `NULL` slot. -/
theorem ht_expand_probe_returns {n : hashtable κ ν} (h : Cap n) (x c : Nat)
    (hfree : ∃ j, j < n.size ∧ n.table j = Slot.empty) :
    ∃ p, ht_expand_probe n n.size x c = some p := by
  obtain ⟨j, hj, hjf⟩ := hfree
  cases hw : ht_expand_probe n n.size x c with
  | some p => exact ⟨p, rfl⟩
  | none =>
    exfalso
    rw [ht_expand_probe_none_iff] at hw
    obtain ⟨i, hi, hij⟩ := h.cover (next n x) j (h.next_bound x) hj
    have := hw i hi
    rw [Function.iterate_succ_apply, hij] at this
    exact this hjf

/-- One placement of the rehash returns when the new array has a `NULL` slot. -/
theorem ht_expand_place_returns {n : hashtable κ ν} (h : Cap n) (key : κ) (data : ν)
    (hfree : ∃ j, j < n.size ∧ n.table j = Slot.empty) :
    ∃ n1, ht_expand_place n key data = some n1 := by
  unfold ht_expand_place
  cases hs : n.table (home n key) with
  | empty => exact ⟨_, rfl⟩
  | tombstone =>
    obtain ⟨p, hp⟩ := ht_expand_probe_returns h (home n key) (inc32 n.collisions) hfree
    simp only [hp]
    exact ⟨_, rfl⟩
  | entry k v =>
    obtain ⟨p, hp⟩ := ht_expand_probe_returns h (home n key) (inc32 n.collisions) hfree
    simp only [hp]
    exact ⟨_, rfl⟩

/-! ## The rehash of `ht_expand`, in full -/

theorem count_entries_succ (f : Nat → Slot κ ν) (n : Nat) :
    count_entries f (n + 1) = count_entries f n + (if is_entry (f n) then 1 else 0) := rfl

theorem count_entries_mono (f : Nat → Slot κ ν) (i n : Nat) (h : i ≤ n) :
    count_entries f i ≤ count_entries f n := by
  induction n with
  | zero =>
    have : i = 0 := by omega
    subst this; exact le_refl _
  | succ n ih =>
    by_cases hi : i = n + 1
    · subst hi; exact le_refl _
    · have := ih (by omega)
      rw [count_entries_succ]
      omega

/-- When the first `i` slots hold as many elements as the first `n`, the slots from `i`
to `n` hold none. -/
theorem count_entries_tail (f : Nat → Slot κ ν) (i n : Nat)
    (hc : count_entries f i = count_entries f n) :
    ∀ j, i ≤ j → j < n → is_entry (f j) = false := by
  induction n with
  | zero => intro j _ hj; omega
  | succ n ih =>
    intro j hij hj
    by_cases hin : i ≤ n
    · have hm := count_entries_mono f i n hin
      have hs : count_entries f (n + 1) =
          count_entries f n + (if is_entry (f n) then 1 else 0) := rfl
      by_cases he : is_entry (f n) = true
      · rw [if_pos he] at hs; omega
      · rw [if_neg he] at hs
        by_cases hjn : j = n
        · subst hjn; simpa using he
        · exact ih (by omega) j hij (by omega)
    · omega

/-- The rehash loop, run on a new table with room for the elements still to move,
returns with `t->used = 0`; the new table then holds exactly the elements of the old
one, has no tombstone and satisfies the probe-chain invariant. -/
theorem ht_expand_loop_full (t : hashtable κ ν) :
    ∀ fuel i used n, i + fuel = t.size →
      used + count_entries t.table i = count_entries t.table t.size →
      used ≤ 4294967296 → Cap n →
      count_entries n.table n.size + used = count_entries t.table t.size →
      count_entries t.table t.size ≤ n.size →
      (∀ j, n.table j ≠ Slot.tombstone) → ChainInv n →
      (∀ j k v, n.table j = Slot.entry k v → ∃ i1, i1 < i ∧ t.table i1 = Slot.entry k v) →
      (∀ i1 k v, i1 < i → t.table i1 = Slot.entry k v →
        ∃ j, j < n.size ∧ n.table j = Slot.entry k v) →
      ∃ n1, ht_expand_loop t fuel i used n = some (0, n1) ∧ SameShape n n1 ∧
        n1.used = n.used ∧
        count_entries n1.table n1.size = count_entries t.table t.size ∧
        (∀ j, n1.table j ≠ Slot.tombstone) ∧ ChainInv n1 ∧
        (∀ j k v, n1.table j = Slot.entry k v →
          ∃ i1, i1 < t.size ∧ t.table i1 = Slot.entry k v) ∧
        (∀ i1 k v, i1 < t.size → t.table i1 = Slot.entry k v →
          ∃ j, j < n1.size ∧ n1.table j = Slot.entry k v) := by
  intro fuel
  induction fuel with
  | zero =>
    intro i used n hi hu _ _ hcn _ hnt hch hsub hsup
    have hi0 : i = t.size := by omega
    subst hi0
    have hu0 : used = 0 := by omega
    subst hu0
    exact ⟨n, rfl, SameShape.refl n, rfl, by omega, hnt, hch, hsub, hsup⟩
  | succ fuel ih =>
    intro i used n hi hu hub hcap hcn hfit hnt hch hsub hsup
    unfold ht_expand_loop
    by_cases hu0 : used = 0
    · subst hu0
      rw [if_pos rfl]
      refine ⟨n, rfl, SameShape.refl n, rfl, by omega, hnt, hch, ?_, ?_⟩
      · intro j k v hj
        obtain ⟨i1, hi1, hi2⟩ := hsub j k v hj
        exact ⟨i1, by omega, hi2⟩
      · intro i1 k v hi1 hkv
        by_cases hlt : i1 < i
        · exact hsup i1 k v hlt hkv
        · have := count_entries_tail t.table i t.size (by omega) i1 (by omega) hi1
          rw [hkv] at this
          simp [is_entry_entry] at this
    · rw [if_neg hu0]
      have hstep := count_entries_succ t.table i
      cases hs : t.table i with
      | empty =>
        rw [hs] at hstep
        simp only [is_entry_empty, Bool.false_eq_true, if_false, Nat.add_zero] at hstep
        obtain ⟨n1, h1, h2⟩ := ih (i + 1) used n (by omega) (by omega) hub hcap hcn hfit hnt hch
          (fun j k v hj => by
            obtain ⟨i1, hi1, hi2⟩ := hsub j k v hj
            exact ⟨i1, by omega, hi2⟩)
          (fun i1 k v hi1 hkv => by
            by_cases hlt : i1 < i
            · exact hsup i1 k v hlt hkv
            · have : i1 = i := by omega
              rw [this, hs] at hkv
              simp at hkv)
        exact ⟨n1, h1, h2⟩
      | tombstone =>
        rw [hs] at hstep
        simp only [is_entry_tombstone, Bool.false_eq_true, if_false, Nat.add_zero] at hstep
        obtain ⟨n1, h1, h2⟩ := ih (i + 1) used n (by omega) (by omega) hub hcap hcn hfit hnt hch
          (fun j k v hj => by
            obtain ⟨i1, hi1, hi2⟩ := hsub j k v hj
            exact ⟨i1, by omega, hi2⟩)
          (fun i1 k v hi1 hkv => by
            by_cases hlt : i1 < i
            · exact hsup i1 k v hlt hkv
            · have : i1 = i := by omega
              rw [this, hs] at hkv
              simp at hkv)
        exact ⟨n1, h1, h2⟩
      | entry key data =>
        rw [hs] at hstep
        simp only [is_entry_entry, if_true] at hstep
        have hfree : ∃ j, j < n.size ∧ n.table j = Slot.empty := by
          obtain ⟨j, hj, hjf⟩ := exists_not_entry_of_count_lt n.table n.size (by omega)
          refine ⟨j, hj, ?_⟩
          cases hx : n.table j with
          | empty => rfl
          | tombstone => exact absurd hx (hnt j)
          | entry k v => rw [hx] at hjf; simp [is_entry_entry] at hjf
        obtain ⟨n1, hpl⟩ := ht_expand_place_returns hcap key data hfree
        obtain ⟨j, c, d, hn1, hj0, ⟨x, hx⟩, hd1, hd2⟩ := ht_expand_place_spec _ _ _ _ hpl
        have hjlt : j < n.size := by
          have hb := hcap.size_ge
          obtain ⟨e, _, _, _, hm⟩ := hcap
          have hjm : j ≤ n.sizemask := by rw [hx]; exact Nat.and_le_right
          omega
        simp only [hpl]
        have hshape : SameShape n n1 := by rw [hn1]; exact ⟨rfl, rfl, rfl, rfl, rfl, rfl⟩
        have htab : n1.table = slot_set n.table j (Slot.entry key data) := by rw [hn1]
        have hused : n1.used = n.used := by rw [hn1]
        have hcs := count_entries_set_lt n.table j (Slot.entry key data) n.size hjlt
        simp only [hj0, is_entry_entry, is_entry_empty, Bool.false_eq_true, if_false,
          if_true] at hcs
        have hd : dec32 used = used - 1 := dec32_pos (by omega) hub
        obtain ⟨n2, h1, h2, h3, h4⟩ := ih (i + 1) (dec32 used) n1 (by omega) (by omega)
          (by omega)
          (by
            obtain ⟨e, h8, h31, hsz, hm⟩ := hcap
            exact ⟨e, h8, h31, by rw [hshape.size]; exact hsz,
              by rw [hshape.sizemask, hshape.size]; exact hm⟩)
          (by rw [hshape.size, htab]; omega)
          (by rw [hshape.size]; exact hfit)
          (by
            intro j1
            rw [htab]
            simp only [slot_set]
            split
            · simp
            · exact hnt j1)
          (by rw [hn1]; exact ChainInv.set_entry hch j key data n.used c d hd1 hd2)
          (by
            intro j1 k v hj1
            rw [htab] at hj1
            simp only [slot_set] at hj1
            by_cases hjj : j1 = j
            · rw [if_pos hjj] at hj1
              simp only [Slot.entry.injEq] at hj1
              exact ⟨i, by omega, by rw [hs, hj1.1, hj1.2]⟩
            · rw [if_neg hjj] at hj1
              obtain ⟨i1, hi1, hi2⟩ := hsub j1 k v hj1
              exact ⟨i1, by omega, hi2⟩)
          (by
            intro i1 k v hi1 hkv
            rw [hshape.size, htab]
            by_cases hlt : i1 < i
            · obtain ⟨j1, hj1, hj2⟩ := hsup i1 k v hlt hkv
              have hne : j1 ≠ j := by
                intro hc; rw [hc, hj0] at hj2; simp at hj2
              exact ⟨j1, hj1, by simp only [slot_set, if_neg hne]; exact hj2⟩
            · have : i1 = i := by omega
              rw [this, hs] at hkv
              simp only [Slot.entry.injEq] at hkv
              exact ⟨j, hjlt, by simp only [slot_set, if_true]; rw [hkv.1, hkv.2]⟩)
        exact ⟨n2, h1, hshape.trans h2, by rw [h3, hused], h4⟩

/-- A call of `ht_expand` with a size above `used`, a successful allocation and a new
size that can hold the elements returns `HT_OK`; the new table has the new size, no
tombstone, the elements of the old table and no other, and the strategy bundle and
`used` of the old table. -/
theorem ht_expand_returns {w : World κ ν} {t : hashtable κ ν} {size : Nat} (h : Inv t)
    (hn : t.used < size) (hm : (malloc w).1 = true)
    (hfit : t.used ≤ next_power (u32 size)) :
    ∃ r, ht_expand w t size = some r ∧ r.ret = HT_OK ∧ r.w = (malloc w).2 ∧
      r.t.size = next_power (u32 size) ∧ r.t.used = t.used ∧ SameBundle t r.t ∧
      (∀ j, r.t.table j ≠ Slot.tombstone) ∧ ChainInv r.t ∧
      (∀ j k v, r.t.table j = Slot.entry k v →
        ∃ i1, i1 < t.size ∧ t.table i1 = Slot.entry k v) ∧
      (∀ i1 k v, i1 < t.size → t.table i1 = Slot.entry k v →
        ∃ j, j < r.t.size ∧ r.t.table j = Slot.entry k v) := by
  obtain ⟨e, hpow, h8, h31, -, -⟩ := next_power_spec (u32 size)
  have hb := two_pow_bounds h8 h31
  obtain ⟨n0, hn0⟩ : ∃ n0 : hashtable κ ν, (⟨fun _ => Slot.empty, next_power (u32 size),
      dec32 (next_power (u32 size)), t.used, 0, t.hashf, t.key_compare, t.key_destructor,
      t.val_destructor⟩ : hashtable κ ν) = n0 := ⟨_, rfl⟩
  have hsz : n0.size = next_power (u32 size) := by rw [← hn0]
  have hmask : n0.sizemask = n0.size - 1 := by
    rw [← hn0]; exact dec32_pos (by rw [hpow]; omega) (by rw [hpow]; omega)
  have htab : n0.table = fun _ => Slot.empty := by rw [← hn0]
  have hused : n0.used = t.used := by rw [← hn0]
  have hul := h.used_le
  have hsl := h.size_le
  obtain ⟨n1, hl, hS, hU, hC, hNT, hCh, hsub, hsup⟩ :=
    ht_expand_loop_full t t.size 0 t.used n0 (by omega)
      (by rw [← h.cnt]; simp [count_entries])
      (by omega)
      ⟨e, h8, h31, by rw [hsz]; exact hpow, hmask⟩
      (by rw [htab, count_entries_const_empty, ← h.cnt]; omega)
      (by rw [hsz, ← h.cnt]; exact hfit)
      (by intro j; rw [htab]; simp)
      (by intro j k v _ hjk; rw [htab] at hjk; simp at hjk)
      (by intro j k v hjk; rw [htab] at hjk; simp at hjk)
      (by intro i1 k v hi1; omega)
  refine ⟨⟨HT_OK, n1, (malloc w).2⟩, ?_, rfl, rfl, ?_, ?_, ?_, hNT, hCh, hsub, hsup⟩
  · unfold ht_expand
    simp only
    rw [if_neg (by omega), if_neg (by rw [hm]; decide), hn0, hl]
    simp
  · show n1.size = _
    rw [hS.size, hsz]
  · show n1.used = _
    rw [hU, hused]
  · have hb2 := hS.bundle
    rw [← hn0] at hb2
    exact ⟨hb2.hashf, hb2.key_compare, hb2.key_destructor, hb2.val_destructor⟩

/-- What a successful `ht_expand` leaves: no tombstone, the elements of the old table
and no other. -/
theorem ht_expand_ok_facts {w : World κ ν} {t : hashtable κ ν} {size : Nat} {r : Ret κ ν}
    (h : Inv t) (he : ht_expand w t size = some r) (hok : r.ret = HT_OK) :
    (∀ j, r.t.table j ≠ Slot.tombstone) ∧
    (∀ j k v, r.t.table j = Slot.entry k v →
      ∃ i1, i1 < t.size ∧ t.table i1 = Slot.entry k v) ∧
    (∀ i1 k v, i1 < t.size → t.table i1 = Slot.entry k v →
      ∃ j, j < r.t.size ∧ r.t.table j = Slot.entry k v) := by
  have hu : t.used ≤ 2147483648 := le_trans h.used_le h.size_le
  rcases ht_expand_spec hu he with ⟨h1, _⟩ | ⟨h1, _⟩ | ⟨_, h2, h3, _, h5, h6, _, h8, _⟩
  · rw [h1] at hok; exact absurd hok (by decide)
  · rw [h1] at hok; exact absurd hok (by decide)
  · have hfit : t.used ≤ next_power (u32 size) := by
      rw [← h5, ← h8]; exact h6.used_le
    obtain ⟨r1, hr1, -, -, -, -, -, hNT, -, hsub, hsup⟩ := ht_expand_returns h h2 h3 hfit
    rw [he] at hr1
    simp only [Option.some.injEq] at hr1
    subst hr1
    exact ⟨hNT, hsub, hsup⟩

/-! ## `used` stays below 2^31 -/

/-- After a successful growth check the table has room: `used` is below the size, and
one more element keeps `used` below 2^31. -/
theorem growth_ok_room {w : World κ ν} {t : hashtable κ ν} {r0 : Ret κ ν} (h : Inv t)
    (hu : t.used < 2147483648) (hg : ht_expand_if_needed w t = some r0)
    (hok : r0.ret = HT_OK) :
    r0.t.used = t.used ∧ r0.t.used < r0.t.size ∧ r0.t.used + 1 < 2147483648 := by
  have hU := (ht_expand_if_needed_spec h hg).2.2.1
  have hul := h.used_le
  have hsl := h.size_le
  have hu2 : u32 (t.used * 2) = 2 * t.used := by rw [u32_lt (by omega)]; omega
  have hsl0 := (ht_expand_if_needed_spec h hg).1.size_le
  refine ⟨hU, ?_⟩
  rw [hU]
  by_cases hlt : t.size < 2147483648
  · have hsz := growth_size h hlt hg hok
    by_cases h0 : t.size = 0
    · rw [if_pos h0] at hsz; constructor <;> omega
    · rw [if_neg h0] at hsz
      have hp := h.size_pos h0
      by_cases h1 : t.size ≤ 2 * t.used
      · rw [if_pos h1] at hsz; constructor <;> omega
      · rw [if_neg h1] at hsz; constructor <;> omega
  · have hs : t.size = 2147483648 := by omega
    rcases ht_expand_if_needed_cases hg with ⟨_, h1, hr⟩ | ⟨hz, _⟩ | ⟨_, _, hx⟩
    · rw [hu2] at h1
      rw [hr]
      show t.used < t.size ∧ _
      constructor <;> omega
    · omega
    · exfalso
      have hz : u32 (t.size * 2) = 0 := by rw [hs]; rfl
      rw [hz] at hx
      rcases ht_expand_spec (le_trans hul hsl) hx with ⟨h3, _⟩ | ⟨h3, _⟩ | ⟨_, h3, _⟩
      · rw [h3] at hok; exact absurd hok (by decide)
      · rw [h3] at hok; exact absurd hok (by decide)
      · omega

/-- The effect of `ht_insert` on `used`: none; and on `HT_OK` there is room for one more
element. -/
theorem ht_insert_room {w : World κ ν} {t : hashtable κ ν} {key : κ} {ri : RetIdx κ ν}
    (h : Inv t) (hu : t.used < 2147483648) (he : ht_insert w t key = some ri) :
    ri.t.used = t.used ∧
      (ri.ret = HT_OK → ri.t.used < ri.t.size ∧ ri.t.used + 1 < 2147483648) := by
  obtain ⟨r0, h0, -, hcase⟩ := ht_insert_cases he
  have hU := (ht_expand_if_needed_spec h h0).2.2.1
  rcases hcase with ⟨hne, hr, hrt⟩ | ⟨hr0, c, -, hrt⟩
  · rw [hrt]
    exact ⟨hU, fun hc => by rw [hr] at hc; exact absurd hc hne⟩
  · rw [hrt]
    have := growth_ok_room h hu h0 hr0
    exact ⟨hU, fun _ => this.2⟩

/-- The effect of `ht_add` on `used`: one more on `HT_OK`, none otherwise. -/
theorem ht_add_used {w : World κ ν} {t : hashtable κ ν} {key : κ} {data : ν} {r : Ret κ ν}
    (h : Inv t) (hu : t.used < 2147483648) (he : ht_add w t key data = some r) :
    (r.ret = HT_OK ∧ r.t.used = t.used + 1 ∧ r.t.used < 2147483648) ∨
    (r.ret ≠ HT_OK ∧ r.t.used = t.used) := by
  obtain ⟨ri, hi, hcase⟩ := ht_add_cases he
  obtain ⟨hU, hroom⟩ := ht_insert_room h hu hi
  rcases hcase with ⟨hne, hr⟩ | ⟨hri, _, hr⟩ | ⟨hri, hm, hr⟩
  · rw [hr]; exact Or.inr ⟨hne, hU⟩
  · rw [hr]; exact Or.inr ⟨by simp, hU⟩
  · rw [hr]
    have := hroom hri
    left
    refine ⟨rfl, ?_, ?_⟩
    · show inc32 ri.t.used = t.used + 1
      rw [inc32_lt (by omega), hU]
    · show inc32 ri.t.used < _
      rw [inc32_lt (by omega)]; omega

/-- The effect of `ht_free` on `used`: it does not grow. -/
theorem ht_free_used {w : World κ ν} {t : hashtable κ ν} (index : Nat) (h : Inv t) :
    (ht_free w t index).t.used ≤ t.used := by
  rcases ht_free_spec w t index with ⟨_, he⟩ | ⟨_, _, he⟩ | ⟨hi, key, data, hs, he⟩
  · rw [he]
  · rw [he]
  · rw [he]
    have := (h.drop_entry index hi (by rw [hs]; rfl)).2
    show dec32 t.used ≤ t.used
    omega

theorem ht_rm_used {w : World κ ν} {t : hashtable κ ν} {key : κ} {r : Ret κ ν}
    (h : Inv t) (he : ht_rm w t key = some r) : r.t.used ≤ t.used := by
  obtain ⟨s, hs, hcase⟩ := ht_rm_cases he
  obtain ⟨hI, -, hU, -⟩ := ht_search_spec h hs
  rcases hcase with ⟨_, hr⟩ | ⟨_, hr⟩
  · rw [hr]; exact le_of_eq hU
  · rw [hr, ← hU]; exact ht_free_used _ hI

theorem ht_replace_used {w : World κ ν} {t : hashtable κ ν} {key : κ} {data : ν}
    {r : Ret κ ν} (h : Inv t) (hu : t.used < 2147483648)
    (he : ht_replace w t key data = some r) : r.t.used < 2147483648 := by
  obtain ⟨r1, h1, hcase⟩ := ht_replace_cases he
  have hI1 := ht_add_inv h h1
  have hu1 : r1.t.used < 2147483648 := by
    rcases ht_add_used h hu h1 with ⟨_, _, h3⟩ | ⟨_, h3⟩
    · exact h3
    · rw [h3]; exact hu
  rcases hcase with ⟨_, hr⟩ | ⟨_, s, hs, _, _, h2⟩
  · rw [hr]; exact hu1
  · obtain ⟨hIs, -, hUs, -⟩ := ht_search_spec hI1 hs
    have hf := ht_free_used (w := s.w) s.index hIs
    have huf : (ht_free s.w s.t s.index).t.used < 2147483648 := by omega
    rcases ht_add_used (ht_free_inv _ hIs) huf h2 with ⟨_, _, h3⟩ | ⟨_, h3⟩
    · exact h3
    · rw [h3]; exact huf

theorem ht_move_used {w : World κ ν} {orig dest : hashtable κ ν} {index : Nat}
    {r : RetMove κ ν} (ho : Inv orig) (hd : Inv dest) (huo : orig.used < 2147483648)
    (hud : dest.used < 2147483648) (he : ht_move w orig dest index = some r) :
    r.orig.used < 2147483648 ∧ r.dest.used < 2147483648 := by
  obtain ⟨hi, key, data, hs, ri, hins, hcase⟩ := ht_move_cases he
  obtain ⟨hU, hroom⟩ := ht_insert_room hd hud hins
  rcases hcase with ⟨_, hr⟩ | ⟨hri, hr⟩
  · rw [hr]; exact ⟨huo, by show ri.t.used < _; omega⟩
  · rw [hr]
    have := hroom hri
    have hdrop := (ho.drop_entry index hi (by rw [hs]; rfl)).2
    constructor
    · show dec32 orig.used < _; omega
    · show inc32 ri.t.used < _
      rw [inc32_lt (by omega)]; omega

theorem ht_expand_used {w : World κ ν} {t : hashtable κ ν} {n : Nat} {r : Ret κ ν}
    (h : Inv t) (he : ht_expand w t n = some r) : r.t.used = t.used := by
  have hu : t.used ≤ 2147483648 := le_trans h.used_le h.size_le
  rcases ht_expand_spec hu he with ⟨_, _, h3, _⟩ | ⟨_, _, _, h3, _⟩ | ⟨_, _, _, _, _, _, _, h8, _⟩
  · rw [h3]
  · rw [h3]
  · exact h8

theorem ht_resize_used {w : World κ ν} {t : hashtable κ ν} {r : Ret κ ν}
    (h : Inv t) (he : ht_resize w t = some r) : r.t.used = t.used := by
  unfold ht_resize at he
  simp only at he
  split at he
  · exact ht_expand_used h he
  · exact ht_expand_used h he

/-- In every reachable table `used` is below 2^31, so that `used * 2` does not wrap. -/
theorem Reach.used_lt {strict : Bool} {t : hashtable κ ν} (h : Reach strict t) :
    t.used < 2147483648 := by
  induction h with
  | init seed ptr => show 0 < _; omega
  | set_hash f _ _ ih => exact ih
  | set_key_compare f _ _ ih => exact ih
  | set_key_destructor b _ _ ih => exact ih
  | set_val_destructor b _ _ ih => exact ih
  | add w k v hr he _ ih =>
    rcases ht_add_used hr.inv ih he with ⟨_, _, h3⟩ | ⟨_, h3⟩
    · exact h3
    · rw [h3]; exact ih
  | replace w k v hr he _ ih => exact ht_replace_used hr.inv ih he
  | rm w k hr he _ ih => have := ht_rm_used hr.inv he; omega
  | free w index hr ih => have := ht_free_used (w := w) index hr.inv; omega
  | search w k hr he _ ih => rw [(ht_search_spec hr.inv he).2.2.1]; exact ih
  | expand w n hr _ he _ ih => rw [ht_expand_used hr.inv he]; exact ih
  | resize w hr he _ ih => rw [ht_resize_used hr.inv he]; exact ih
  | move_orig w index ho hd he _ iho ihd => exact (ht_move_used ho.inv hd.inv iho ihd he).1
  | move_dest w index ho hd he _ iho ihd => exact (ht_move_used ho.inv hd.inv iho ihd he).2
  | destroy w _ _ => show 0 < _; omega

/-! ## Claims on `ht_expand` -/

theorem demo_expand1_eq : ht_expand w0 demo_rm1.t 300 = some demo_expand1 :=
  some_getD_of_isSome _ _ (by decide!)

/-- C13 (resize drops all tombstones). For every reachable table, after `ht_expand` or
`ht_resize` returns `HT_OK` no slot of the table is a tombstone: every slot is an element
or `NULL`, and exactly `used` slots of the array are elements. -/
theorem C13_resize_drops_tombstones (t : hashtable κ ν) (hreach : Reach false t) :
    (∀ w n r, ht_expand w t n = some r → r.ret = HT_OK →
      (∀ j, r.t.table j ≠ Slot.tombstone) ∧
      (∀ j, is_entry (r.t.table j) = false → r.t.table j = Slot.empty) ∧
      count_entries r.t.table r.t.size = r.t.used) ∧
    (∀ w r, ht_resize w t = some r → r.ret = HT_OK →
      (∀ j, r.t.table j ≠ Slot.tombstone) ∧
      (∀ j, is_entry (r.t.table j) = false → r.t.table j = Slot.empty) ∧
      count_entries r.t.table r.t.size = r.t.used) := by
  have hI := hreach.inv
  have key : ∀ w n r, ht_expand w t n = some r → r.ret = HT_OK →
      (∀ j, r.t.table j ≠ Slot.tombstone) ∧
      (∀ j, is_entry (r.t.table j) = false → r.t.table j = Slot.empty) ∧
      count_entries r.t.table r.t.size = r.t.used := by
    intro w n r he hok
    obtain ⟨hNT, -, -⟩ := ht_expand_ok_facts hI he hok
    refine ⟨hNT, ?_, ((ht_expand_inv hI he).1.cnt).symm⟩
    intro j hj
    cases hx : r.t.table j with
    | empty => rfl
    | tombstone => exact absurd hx (hNT j)
    | entry k v => rw [hx] at hj; simp [is_entry_entry] at hj
  refine ⟨key, ?_⟩
  intro w r he hok
  unfold ht_resize at he
  simp only at he
  split at he
  · exact key _ _ _ he hok
  · exact key _ _ _ he hok

/-- C13 at the table that holds the key 406 behind the tombstone of the key 5. -/
theorem C13_resize_drops_tombstones_witness :
    Reach false demo_rm1.t ∧ demo_rm1.t.table 248 = Slot.tombstone ∧
    ht_expand w0 demo_rm1.t 300 = some demo_expand1 ∧ demo_expand1.ret = HT_OK ∧
    (∀ w n r, ht_expand w demo_rm1.t n = some r → r.ret = HT_OK →
      (∀ j, r.t.table j ≠ Slot.tombstone) ∧
      (∀ j, is_entry (r.t.table j) = false → r.t.table j = Slot.empty) ∧
      count_entries r.t.table r.t.size = r.t.used) ∧
    (∀ w r, ht_resize w demo_rm1.t = some r → r.ret = HT_OK →
      (∀ j, r.t.table j ≠ Slot.tombstone) ∧
      (∀ j, is_entry (r.t.table j) = false → r.t.table j = Slot.empty) ∧
      count_entries r.t.table r.t.size = r.t.used) :=
  ⟨demo_rm1_reach, by decide, demo_expand1_eq, by decide!,
    C13_resize_drops_tombstones demo_rm1.t demo_rm1_reach⟩

/-- The new size fits the elements whenever the requested size fits in 32 bits. -/
theorem fits_of_small {t : hashtable κ ν} (h : Inv t) {n : Nat} (hn : t.used < n)
    (h32 : n < 4294967296) : t.used ≤ next_power (u32 n) := by
  rw [u32_lt h32]
  have hul := h.used_le
  have hsl := h.size_le
  by_cases hle : n ≤ 2147483648
  · obtain ⟨e, hpow, h8, h31, hge, -⟩ := next_power_spec n
    have := hge hle
    rw [hpow]; omega
  · unfold next_power
    rw [if_pos (by omega)]
    omega

theorem over_table_reach : Reach false over_table :=
  add_keys_reach _ _ id_table_reach

/-- The status of `ht_expand` follows from the request and the allocation alone:
`HT_INVALID` for a request that is not above `used`, `HT_NOMEM` for a failed allocation,
and a call that returns otherwise returns `HT_OK`. -/
theorem ht_expand_status (w : World κ ν) (t : hashtable κ ν) (n : Nat) :
    (n ≤ t.used → ht_expand w t n = some ⟨HT_INVALID, t, w⟩) ∧
    (t.used < n → (malloc w).1 = false →
      ht_expand w t n = some ⟨HT_NOMEM, t, (malloc w).2⟩) ∧
    (∀ r, ht_expand w t n = some r →
      (r.ret = HT_INVALID ↔ n ≤ t.used) ∧
      (t.used < n → (r.ret = HT_NOMEM ↔ (malloc w).1 = false) ∧
        (r.ret = HT_OK ↔ (malloc w).1 = true))) := by
  refine ⟨?_, ?_, ?_⟩
  · intro h
    unfold ht_expand
    simp only
    rw [if_pos h]
  · intro h hm
    unfold ht_expand
    simp only
    rw [if_neg (by omega), if_pos hm]
  · intro r he
    unfold ht_expand at he
    simp only at he
    by_cases h1 : n ≤ t.used
    · rw [if_pos h1] at he
      simp only [Option.some.injEq] at he
      subst he
      exact ⟨⟨fun _ => h1, fun _ => rfl⟩, fun hc => absurd h1 (by omega)⟩
    · rw [if_neg h1] at he
      by_cases h2 : (malloc w).1 = false
      · rw [if_pos h2] at he
        simp only [Option.some.injEq] at he
        subst he
        refine ⟨⟨fun hc => absurd hc (by simp), fun hc => absurd hc h1⟩, fun _ => ?_⟩
        exact ⟨⟨fun _ => h2, fun _ => rfl⟩,
          ⟨fun hc => absurd hc (by simp), fun hc => by rw [h2] at hc; cases hc⟩⟩
      · rw [if_neg h2] at he
        have h2t : (malloc w).1 = true := by
          cases hb : (malloc w).1 with
          | false => exact absurd hb h2
          | true => rfl
        cases hl : ht_expand_loop t t.size 0 t.used
            { table := fun _ => Slot.empty, size := next_power (u32 n),
              sizemask := dec32 (next_power (u32 n)), used := t.used, collisions := 0,
              hashf := t.hashf, key_compare := t.key_compare,
              key_destructor := t.key_destructor, val_destructor := t.val_destructor } with
        | none => rw [hl] at he; cases he
        | some p =>
          rw [hl] at he
          simp only at he
          split at he
          · simp only [Option.some.injEq] at he
            subst he
            refine ⟨⟨fun hc => absurd hc (by simp), fun hc => absurd hc h1⟩, fun _ => ?_⟩
            exact ⟨⟨fun hc => absurd hc (by simp), fun hc => absurd hc h2⟩,
              ⟨fun _ => h2t, fun _ => rfl⟩⟩
          · cases he

/-- C14 fails on a reachable table: the table that holds the keys 0 to 256 has
`used = 257`, and the request `2^32 + 1` is above `used`. The allocation succeeds, the
new size is computed from the low 32 bits of the request and is 256, and the loop that
places the 257th element in the new array finds no `NULL` slot: the call returns neither
`HT_OK` nor `HT_NOMEM`, it does not return. -/
theorem C14_expand_status_eval :
    Reach false over_table ∧ (malloc w0).1 = true ∧ next_power (u32 4294967297) = 256 ∧
    (over_table.used = 257 ∧ (ht_expand w0 over_table 4294967297).isSome = false) :=
  ⟨over_table_reach, by decide, by decide, by decide!⟩

/-- The new size of a successful `ht_expand` whose request fits in 32 bits: the smallest
power of two that is at least the request and at least 256, capped at 2^31; it is not
below `used`. -/
theorem ht_expand_size_small {w : World κ ν} {t : hashtable κ ν} {n : Nat} {r : Ret κ ν}
    (h : Inv t) (h32 : n < 4294967296) (he : ht_expand w t n = some r)
    (hok : r.ret = HT_OK) :
    r.t.size = next_power n ∧ t.used ≤ r.t.size ∧
    ∃ e, r.t.size = 2 ^ e ∧ 8 ≤ e ∧ e ≤ 31 ∧ (n ≤ 2147483648 → n ≤ 2 ^ e) ∧
      (e = 8 ∨ 2 ^ (e - 1) < n) := by
  have hu : t.used ≤ 2147483648 := le_trans h.used_le h.size_le
  rcases ht_expand_spec hu he with ⟨h1, _⟩ | ⟨h1, _⟩ | ⟨_, h2, _, _, h5, _⟩
  · rw [h1] at hok; exact absurd hok (by decide)
  · rw [h1] at hok; exact absurd hok (by decide)
  · have hfit := fits_of_small h h2 h32
    rw [u32_lt h32] at h5 hfit
    refine ⟨h5, by rw [h5]; exact hfit, ?_⟩
    rw [h5]
    exact next_power_spec n

/-- C15 fails on the fresh table: the request `2^32 + 256` is above `used = 0`, the call
returns `HT_OK`, and the new size is 256, computed from the low 32 bits of the request,
where the smallest power of two at least `max(n, 256)`, capped at 2^31, is 2^31. On the
table that holds the keys 0 to 255 the same call returns `HT_OK` with `size = 256` and
`used = 256`: the new size is not above `used`. -/
theorem C15_expand_size_eval :
    Reach false fresh_ptr ∧
    (ht_expand w0 fresh_ptr 4294967552).map (fun r => (r.ret, r.t.size, r.t.used)) =
      some (HT_OK, 256, 0) ∧
    u32 4294967552 = 256 ∧ next_power 256 = 256 ∧ ¬ (4294967552 ≤ 256) ∧
    Reach false (add_keys id_table (List.range 256)) ∧
    (ht_expand w0 (add_keys id_table (List.range 256)) 4294967552).map
      (fun r => (r.ret, r.t.size, r.t.used)) = some (HT_OK, 256, 256) :=
  ⟨Reach.init _ _, by decide, by decide, by decide, by decide,
    add_keys_reach _ _ id_table_reach, by decide!⟩

theorem demo_expand_fail_eq :
    ht_expand ⟨[false], []⟩ fresh_ptr 256 = some demo_expand_fail :=
  some_getD_of_isSome _ _ (by decide)

/-- C16 (a failing resize is all-or-nothing). Whenever `ht_expand` returns `HT_NOMEM` or
`HT_INVALID`, the table it returns is the table it was given: every slot, `size`,
`sizemask`, `used`, `collisions` and the strategy bundle are as before the call. -/
theorem C16_failed_expand_intact (w : World κ ν) (t : hashtable κ ν) (n : Nat) (r : Ret κ ν)
    (he : ht_expand w t n = some r) (hfail : r.ret = HT_NOMEM ∨ r.ret = HT_INVALID) :
    r.t = t := by
  obtain ⟨h1, h2, h3⟩ := ht_expand_status w t n
  by_cases hn : n ≤ t.used
  · rw [h1 hn] at he
    simp only [Option.some.injEq] at he
    rw [← he]
  · have hlt : t.used < n := by omega
    by_cases hm : (malloc w).1 = false
    · rw [h2 hlt hm] at he
      simp only [Option.some.injEq] at he
      rw [← he]
    · have hm1 : (malloc w).1 = true := by
        cases hb : (malloc w).1 with
        | false => exact absurd hb hm
        | true => rfl
      have hok := ((h3 r he).2 hlt).2.2 hm1
      rcases hfail with hf | hf
      · rw [hok] at hf; exact absurd hf (by decide)
      · rw [hok] at hf; exact absurd hf (by decide)

/-- C16 at the fresh table, for a request of 256 slots whose allocation fails. -/
theorem C16_failed_expand_intact_witness :
    ht_expand ⟨[false], []⟩ fresh_ptr 256 = some demo_expand_fail ∧
    demo_expand_fail.ret = HT_NOMEM ∧ demo_expand_fail.t = fresh_ptr :=
  ⟨demo_expand_fail_eq, by decide,
    C16_failed_expand_intact _ fresh_ptr 256 demo_expand_fail demo_expand_fail_eq
      (Or.inl (by decide))⟩

/-! ## Termination of the insert walk, and the size across the operations -/

theorem demo_growth1_eq : ht_expand_if_needed w0 demo_add2.t = some demo_growth1 :=
  some_getD_of_isSome _ _ (by decide)

/-- C19 (insert terminates). For every reachable table, once the growth check of
`ht_insert` has returned `HT_OK` the table has a slot without element, and the probe
walk of `ht_insert` returns: after `d < size` elements with another key it ends on a slot
without element (`HT_OK` and its index) or on an element with an equal key (`HT_BUSY`),
so that `ht_insert` itself returns. -/
theorem C19_insert_walk_returns (t : hashtable κ ν) (w : World κ ν) (key : κ) (r0 : Ret κ ν)
    (hreach : Reach false t) (hg : ht_expand_if_needed w t = some r0)
    (hok : r0.ret = HT_OK) :
    (∃ j, j < r0.t.size ∧ is_entry (r0.t.table j) = false) ∧
    (∃ ret index c d, ht_insert_walk r0.t key = some (ret, index, c) ∧ d < r0.t.size ∧
      (∀ i, i < d → ∃ k v, r0.t.table (probe r0.t key i) = Slot.entry k v ∧
        r0.t.key_compare key k = false) ∧
      ((ret = HT_OK ∧ index = probe r0.t key d ∧ is_entry (r0.t.table index) = false) ∨
       (ret = HT_BUSY ∧ ∃ k v, r0.t.table (probe r0.t key d) = Slot.entry k v ∧
        r0.t.key_compare key k = true))) ∧
    ∃ ri, ht_insert w t key = some ri := by
  have hI := hreach.inv
  have hI0 := (ht_expand_if_needed_spec hI hg).1
  obtain ⟨-, hroom, -⟩ := growth_ok_room hI hreach.used_lt hg hok
  have hs0 : r0.t.size ≠ 0 := by omega
  have hcap := hI0.cap_of_size hs0
  have hfree : ∃ j, j < r0.t.size ∧ is_entry (r0.t.table j) = false :=
    exists_not_entry_of_count_lt _ _ (by rw [← hI0.cnt]; exact hroom)
  obtain ⟨⟨ret, index, c⟩, hw⟩ := ht_insert_walk_returns hcap key hfree
  refine ⟨hfree, ?_, ?_⟩
  · obtain ⟨d, hd, hpath, hend⟩ := ht_insert_walk_spec r0.t key ret index c hw
    refine ⟨ret, index, c, d, hw, ?_, hpath, hend⟩
    obtain ⟨j, hj, hjf⟩ := hfree
    obtain ⟨i, hi, hij⟩ := hcap.cover (home r0.t key) j (hcap.home_bound key) hj
    by_contra hge
    obtain ⟨k, v, hkv, -⟩ := hpath i (by omega)
    have hp : probe r0.t key i = j := hij
    rw [hp] at hkv
    rw [hkv] at hjf
    simp [is_entry_entry] at hjf
  · unfold ht_insert
    rw [hg]
    simp only
    rw [if_neg (by rw [hok]; simp), hw]
    exact ⟨_, rfl⟩

/-- C19 at the table that holds the keys 5 and 406, for the key 573. -/
theorem C19_insert_walk_returns_witness :
    Reach false demo_add2.t ∧ ht_expand_if_needed w0 demo_add2.t = some demo_growth1 ∧
    demo_growth1.ret = HT_OK ∧
    ((∃ j, j < demo_growth1.t.size ∧ is_entry (demo_growth1.t.table j) = false) ∧
    (∃ ret index c d, ht_insert_walk demo_growth1.t 573 = some (ret, index, c) ∧
      d < demo_growth1.t.size ∧
      (∀ i, i < d → ∃ k v, demo_growth1.t.table (probe demo_growth1.t 573 i) =
        Slot.entry k v ∧ demo_growth1.t.key_compare 573 k = false) ∧
      ((ret = HT_OK ∧ index = probe demo_growth1.t 573 d ∧
        is_entry (demo_growth1.t.table index) = false) ∨
       (ret = HT_BUSY ∧ ∃ k v, demo_growth1.t.table (probe demo_growth1.t 573 d) =
        Slot.entry k v ∧ demo_growth1.t.key_compare 573 k = true))) ∧
    ∃ ri, ht_insert w0 demo_add2.t 573 = some ri) :=
  ⟨demo_add2_reach, demo_growth1_eq, by decide,
    C19_insert_walk_returns demo_add2.t w0 573 demo_growth1 demo_add2_reach demo_growth1_eq
      (by decide)⟩

theorem growth_size_le {w : World κ ν} {t : hashtable κ ν} {r0 : Ret κ ν} (h : Inv t)
    (hg : ht_expand_if_needed w t = some r0) : t.size ≤ r0.t.size := by
  have hul := h.used_le
  have hsl := h.size_le
  rcases ht_expand_if_needed_cases hg with ⟨_, _, hr⟩ | ⟨h0, _⟩ | ⟨h0, hle, hx⟩
  · rw [hr]
  · omega
  · rcases ht_expand_spec (le_trans hul hsl) hx with
      ⟨_, _, h3, _⟩ | ⟨_, _, _, h3, _⟩ | ⟨_, h2, _, _, h5, _⟩
    · rw [h3]
    · rw [h3]
    · by_cases hfull : t.size = 2147483648
      · have hz : u32 (t.size * 2) = 0 := by rw [hfull]; rfl
        omega
      · have hid : u32 (t.size * 2) = t.size * 2 := u32_lt (by omega)
        rw [hid, hid] at h5
        obtain ⟨e, hpow, h8, h31, hge, -⟩ := next_power_spec (t.size * 2)
        have hb := two_pow_bounds h8 h31
        by_cases hs2 : t.size * 2 ≤ 2147483648
        · have := hge hs2
          omega
        · rw [h5]
          unfold next_power
          rw [if_pos (by omega)]
          omega

theorem ht_insert_size_le {w : World κ ν} {t : hashtable κ ν} {key : κ} {ri : RetIdx κ ν}
    (h : Inv t) (he : ht_insert w t key = some ri) : t.size ≤ ri.t.size := by
  obtain ⟨r0, h0, -, hcase⟩ := ht_insert_cases he
  have hle := growth_size_le h h0
  rcases hcase with ⟨-, -, hrt⟩ | ⟨-, c, -, hrt⟩
  · rw [hrt]; exact hle
  · rw [hrt]; exact hle

theorem ht_add_size_le {w : World κ ν} {t : hashtable κ ν} {key : κ} {data : ν} {r : Ret κ ν}
    (h : Inv t) (he : ht_add w t key data = some r) : t.size ≤ r.t.size := by
  obtain ⟨ri, hi, hcase⟩ := ht_add_cases he
  have hle := ht_insert_size_le h hi
  rcases hcase with ⟨-, hr⟩ | ⟨-, -, hr⟩ | ⟨-, -, hr⟩
  · rw [hr]; exact hle
  · rw [hr]; exact hle
  · rw [hr]; exact hle

theorem ht_search_size_le {w : World κ ν} {t : hashtable κ ν} {key : κ} {r : RetIdx κ ν}
    (h : Inv t) (he : ht_search w t key = some r) :
    t.size ≤ r.t.size ∧ (t.size ≠ 0 → r.t = t) := by
  rcases ht_search_cases he with ⟨h0, hrt, -, -⟩ | ⟨h0, r0, hg, hrt, -, -⟩
  · rw [hrt]; exact ⟨le_refl _, fun _ => rfl⟩
  · rw [hrt]; exact ⟨growth_size_le h hg, fun hc => absurd h0 hc⟩

theorem ht_free_size (w : World κ ν) (t : hashtable κ ν) (index : Nat) :
    (ht_free w t index).t.size = t.size :=
  (ht_free_shape w t index).size

theorem ht_rm_size {w : World κ ν} {t : hashtable κ ν} {key : κ} {r : Ret κ ν}
    (h : Inv t) (he : ht_rm w t key = some r) :
    t.size ≤ r.t.size ∧ (t.size ≠ 0 → r.t.size = t.size) := by
  obtain ⟨s, hs, hcase⟩ := ht_rm_cases he
  obtain ⟨hle, hsame⟩ := ht_search_size_le h hs
  rcases hcase with ⟨-, hr⟩ | ⟨-, hr⟩
  · rw [hr]; exact ⟨hle, fun h0 => by rw [hsame h0]⟩
  · rw [hr, ht_free_size]; exact ⟨hle, fun h0 => by rw [hsame h0]⟩

theorem ht_replace_size_le {w : World κ ν} {t : hashtable κ ν} {key : κ} {data : ν}
    {r : Ret κ ν} (h : Inv t) (he : ht_replace w t key data = some r) :
    t.size ≤ r.t.size := by
  obtain ⟨r1, h1, hcase⟩ := ht_replace_cases he
  have hI1 := ht_add_inv h h1
  have hle1 := ht_add_size_le h h1
  rcases hcase with ⟨_, hr⟩ | ⟨_, s, hs, _, _, h2⟩
  · rw [hr]; exact hle1
  · have hIs := (ht_search_spec hI1 hs).1
    have hle2 := (ht_search_size_le hI1 hs).1
    have hle3 := ht_add_size_le (ht_free_inv _ hIs) h2
    rw [ht_free_size] at hle3
    omega

theorem ht_move_size {w : World κ ν} {orig dest : hashtable κ ν} {index : Nat}
    {r : RetMove κ ν} (hd : Inv dest) (he : ht_move w orig dest index = some r) :
    r.orig.size = orig.size ∧ dest.size ≤ r.dest.size := by
  obtain ⟨-, key, data, -, ri, hins, hcase⟩ := ht_move_cases he
  have hle := ht_insert_size_le hd hins
  rcases hcase with ⟨_, hr⟩ | ⟨_, hr⟩
  · rw [hr]; exact ⟨rfl, hle⟩
  · rw [hr]; exact ⟨rfl, hle⟩

theorem ht_get_array_table {w : World κ ν} {t : hashtable κ ν} {r : RetArray κ ν}
    (he : ht_get_array w t = some r) : r.t = t := by
  unfold ht_get_array at he
  split at he
  · cases he
  · split at he
    · simp only [Option.some.injEq] at he
      rw [← he]
    · split at he
      · cases he
      · simp only [Option.some.injEq] at he
        rw [← he]

/-- C20 (no automatic shrinking). For every reachable table, `size` after `ht_add`,
`ht_replace`, `ht_rm`, `ht_free`, `ht_search`, `ht_move` (for the origin and for a
reachable destination) and `ht_get_array` is not below `size` before; `ht_rm` keeps the
size of a table whose size is not 0, `ht_free` and `ht_get_array` keep every size, and
`ht_move` keeps the size of the origin. -/
theorem C20_no_automatic_shrinking (t : hashtable κ ν) (hreach : Reach false t) :
    (∀ w key data r, ht_add w t key data = some r → t.size ≤ r.t.size) ∧
    (∀ w key data r, ht_replace w t key data = some r → t.size ≤ r.t.size) ∧
    (∀ w key r, ht_rm w t key = some r →
      t.size ≤ r.t.size ∧ (t.size ≠ 0 → r.t.size = t.size)) ∧
    (∀ w index, (ht_free w t index).t.size = t.size) ∧
    (∀ w key r, ht_search w t key = some r → t.size ≤ r.t.size) ∧
    (∀ w dest index r, Reach false dest → ht_move w t dest index = some r →
      r.orig.size = t.size ∧ dest.size ≤ r.dest.size) ∧
    (∀ w r, ht_get_array w t = some r → r.t.size = t.size) := by
  have hI := hreach.inv
  refine ⟨?_, ?_, ?_, ?_, ?_, ?_, ?_⟩
  · intro w key data r he
    exact ht_add_size_le hI he
  · intro w key data r he
    exact ht_replace_size_le hI he
  · intro w key r he
    exact ht_rm_size hI he
  · intro w index
    exact ht_free_size w t index
  · intro w key r he
    exact (ht_search_size_le hI he).1
  · intro w dest index r hd he
    exact ht_move_size hd.inv he
  · intro w r he
    rw [ht_get_array_table he]

/-- C20 at the table that holds the keys 5 and 406. -/
theorem C20_no_automatic_shrinking_witness :
    Reach false demo_add2.t ∧
    ((∀ w key data r, ht_add w demo_add2.t key data = some r →
      demo_add2.t.size ≤ r.t.size) ∧
    (∀ w key data r, ht_replace w demo_add2.t key data = some r →
      demo_add2.t.size ≤ r.t.size) ∧
    (∀ w key r, ht_rm w demo_add2.t key = some r →
      demo_add2.t.size ≤ r.t.size ∧ (demo_add2.t.size ≠ 0 → r.t.size = demo_add2.t.size)) ∧
    (∀ w index, (ht_free w demo_add2.t index).t.size = demo_add2.t.size) ∧
    (∀ w key r, ht_search w demo_add2.t key = some r → demo_add2.t.size ≤ r.t.size) ∧
    (∀ w dest index r, Reach false dest → ht_move w demo_add2.t dest index = some r →
      r.orig.size = demo_add2.t.size ∧ dest.size ≤ r.dest.size) ∧
    (∀ w r, ht_get_array w demo_add2.t = some r → r.t.size = demo_add2.t.size)) :=
  ⟨demo_add2_reach, C20_no_automatic_shrinking demo_add2.t demo_add2_reach⟩

/-! ## Evaluations on reachable tables -/

theorem dup_table_reach : Reach false dup_table :=
  then_add_reach (then_rm_reach (then_add_reach (then_add_reach id_table_reach w0 255 1)
    w0 511 2) w0 255) w0 511 3

/-- C12 fails on a reachable table. On a table of 256 slots whose keys are hashed by
their value, `ht_add(t, 255, 1)` fills the slot 255 and `ht_add(t, 511, 2)` wraps to the
slot 0; after `ht_rm(t, 255)` the call `ht_add(t, 511, 3)` returns `HT_OK` on the
tombstone of the slot 255, so the key 511 is stored twice and `ht_search` finds the
value 3. `ht_expand(t, 256)` returns `HT_OK` and keeps `used = 2`, but it moves the
slot 0 first: afterwards `ht_search` finds the key 511 with the value 2. -/
theorem C12_expand_keeps_contents_eval :
    Reach false dup_table ∧ dup_table.used = 2 ∧
    dup_table.table 0 = Slot.entry 511 2 ∧ dup_table.table 255 = Slot.entry 511 3 ∧
    (ht_search w0 dup_table 511).map (fun r => (r.ret, r.t.table r.index)) =
      some (HT_FOUND, Slot.entry 511 3) ∧
    (ht_expand w0 dup_table 256).map (fun r => (r.ret, r.t.size, r.t.used)) =
      some (HT_OK, 256, 2) ∧
    (ht_search w0 (then_expand dup_table w0 256) 511).map
      (fun r => (r.ret, r.t.table r.index)) = some (HT_FOUND, Slot.entry 511 2) :=
  ⟨dup_table_reach, by decide!, by decide!, by decide!, by decide!, by decide!, by decide!⟩

/-- C17 fails on a reachable table. The table holds the key 406 in the slot 249, behind
the tombstone of the slot 248, and `ht_search` finds 406. The key 573 has the home slot
248: `ht_add(t, 573, 1)` with the allocation of the element failing returns `HT_NOMEM`
and leaves `NULL` in the slot 248. `used` is unchanged, but the walk of `ht_search` for
406 now ends on the slot 248: the key is not found any more. -/
theorem C17_failed_add_eval :
    Reach false demo_rm1.t ∧ demo_rm1.t.table 248 = Slot.tombstone ∧ demo_rm1.t.used = 1 ∧
    (ht_search w0 demo_rm1.t 406).map (fun r => (r.ret, r.index)) = some (HT_FOUND, 249) ∧
    (ht_add ⟨[false], []⟩ demo_rm1.t 573 1).map
      (fun r => (r.ret, r.t.table 248, r.t.table 249, r.t.used)) =
      some (HT_NOMEM, Slot.empty, Slot.entry 406 8, 1) ∧
    (ht_search w0 (then_add demo_rm1.t ⟨[false], []⟩ 573 1) 406).map
      (fun r => (r.ret, r.index)) = some (HT_NOTFOUND, 0) :=
  ⟨demo_rm1_reach, by decide, by decide, by decide, by decide, by decide⟩

/-- C18 fails on a reachable table. After 256 rounds of insert-then-delete of the keys 0
to 255, hashed by their value, the table has 256 slots, `used = 0`, and every slot is a
tombstone: the growth check never ran on a loaded table. `ht_search` for the key 1000
does not return: its loop returns for no number of steps. -/
theorem C18_search_terminates_eval :
    Reach false churned_table ∧ churned_table.size = 256 ∧ churned_table.used = 0 ∧
    (∀ i, i < 256 → churned_table.table i = Slot.tombstone) ∧
    ht_search_walk churned_table 1000 = none ∧
    (ht_search w0 churned_table 1000).isSome = false ∧
    ∀ n, ht_search_loop churned_table 1000 n (home churned_table 1000) = none := by
  have hI := churned_table_reach.inv
  have h0 : churned_table.size ≠ 0 := by rw [churned_table_facts.1]; decide
  have hb := (hI.cap_of_size h0).home_bound 1000
  rw [churned_table_facts.1] at hb
  have hs := churned_table_facts.2.2.1 _ hb
  have hw : ht_search_walk churned_table 1000 = none := by
    unfold ht_search_walk
    rw [hs]
    exact churned_table_loop
  refine ⟨churned_table_reach, churned_table_facts.1, churned_table_facts.2.1,
    churned_table_facts.2.2.1, hw, ?_, ?_⟩
  · rw [ht_search_eq_walk w0 churned_table 1000 h0, hw]
    rfl
  · exact ht_search_loop_fuel_complete hI h0 1000 _ churned_table_loop

/-! ## Insertion of keys that are not stored -/

theorem malloc_nil {w : World κ ν} (hw : w.mallocs = []) : malloc w = (true, w) := by
  unfold malloc
  rw [hw]

/-- With the allocation succeeding and the size below 2^31, the growth check returns
`HT_OK`, and every element of the table after it is an element of the table before. -/
theorem growth_returns {w : World κ ν} {t : hashtable κ ν} (h : Inv t)
    (hw : w.mallocs = []) (hsz : t.size < 2147483648) :
    ∃ r0, ht_expand_if_needed w t = some r0 ∧ r0.ret = HT_OK ∧ r0.w = w ∧
      ∀ j k v, j < r0.t.size → r0.t.table j = Slot.entry k v →
        ∃ i, i < t.size ∧ t.table i = Slot.entry k v := by
  have hm := malloc_nil hw
  have hul := h.used_le
  by_cases h0 : t.size = 0
  · obtain ⟨r, he, hok, hrw, -, -, -, -, -, hsub, -⟩ :=
      @ht_expand_returns _ _ w t HT_INITIAL_SIZE h (by show t.used < 256; omega)
        (by rw [hm]) (fits_of_small h (by show t.used < 256; omega) (by decide))
    refine ⟨r, ?_, hok, by rw [hrw, hm], fun j k v _ hj => hsub j k v hj⟩
    unfold ht_expand_if_needed
    rw [if_pos h0]
    exact he
  · have hu2 : u32 (t.used * 2) = t.used * 2 := u32_lt (by omega)
    have hs2 : u32 (t.size * 2) = t.size * 2 := u32_lt (by omega)
    by_cases hle : t.size ≤ t.used * 2
    · have hlt : t.used < t.size * 2 := by omega
      obtain ⟨r, he, hok, hrw, -, -, -, -, -, hsub, -⟩ :=
        @ht_expand_returns _ _ w t (t.size * 2) h hlt (by rw [hm])
          (fits_of_small h hlt (by omega))
      refine ⟨r, ?_, hok, by rw [hrw, hm], fun j k v _ hj => hsub j k v hj⟩
      unfold ht_expand_if_needed
      rw [if_neg h0, hu2, if_pos hle, hs2]
      exact he
    · refine ⟨⟨HT_OK, t, w⟩, ?_, rfl, rfl, fun j k v hj hs => ⟨j, hj, hs⟩⟩
      unfold ht_expand_if_needed
      rw [if_neg h0, hu2, if_neg hle]

theorem Cap.probe_bound {t : hashtable κ ν} (h : Cap t) (key : κ) (d : Nat) :
    probe t key d < t.size := by
  unfold probe
  rw [h.iterate_mod _ (h.home_bound key)]
  exact Nat.mod_lt _ (by have := h.size_ge; omega)

/-- The insertion of a key that is equal to no stored key, with every allocation
succeeding and the size below 2^31: `ht_add` returns `HT_OK`, `used` grows by one, the
size is the one chosen by the growth check, and the stored keys are the old ones and the
new key. -/
theorem ht_add_fresh_key {w : World κ ν} {t : hashtable κ ν} (hreach : Reach false t)
    (hw : w.mallocs = []) (hsz : t.size < 2147483648)
    (hcmp : ∀ a b, t.key_compare a b = true → a = b) (S : List κ)
    (hst : ∀ j k v, j < t.size → t.table j = Slot.entry k v → k ∈ S)
    (key : κ) (hk : key ∉ S) (data : ν) :
    ∃ r, ht_add w t key data = some r ∧ r.ret = HT_OK ∧ r.w = w ∧
      r.t.used = t.used + 1 ∧
      r.t.size = (if t.size = 0 then 256 else if t.size ≤ 2 * t.used then 2 * t.size
        else t.size) ∧
      r.t.key_compare = t.key_compare ∧
      ∀ j k v, j < r.t.size → r.t.table j = Slot.entry k v → k ∈ key :: S := by
  have hI := hreach.inv
  obtain ⟨r0, hg, hok, hrw, hsub⟩ := growth_returns hI hw hsz
  obtain ⟨hI0, -, -, hB, -⟩ := ht_expand_if_needed_spec hI hg
  obtain ⟨hU, hroom, -⟩ := growth_ok_room hI hreach.used_lt hg hok
  have hult := hreach.used_lt
  have hs0 : r0.t.size ≠ 0 := by omega
  have hcap := hI0.cap_of_size hs0
  have hfree : ∃ j, j < r0.t.size ∧ is_entry (r0.t.table j) = false :=
    exists_not_entry_of_count_lt _ _ (by rw [← hI0.cnt]; exact hroom)
  obtain ⟨⟨ret, idx, c⟩, hwk⟩ := ht_insert_walk_returns hcap key hfree
  obtain ⟨d, -, -, hend⟩ := ht_insert_walk_spec r0.t key ret idx c hwk
  have hret : ret = HT_OK := by
    rcases hend with ⟨hret, -, -⟩ | ⟨-, k1, v1, hkv, hc⟩
    · exact hret
    · exfalso
      rw [hB.key_compare] at hc
      have hkk := hcmp key k1 hc
      obtain ⟨i, hi, hti⟩ := hsub _ k1 v1 (hcap.probe_bound key d) hkv
      exact hk (by rw [hkk]; exact hst i k1 v1 hi hti)
  have hins : ht_insert w t key = some ⟨ret, idx, { r0.t with collisions := c }, r0.w⟩ := by
    unfold ht_insert
    rw [hg]
    simp only
    rw [if_neg (by rw [hok]; simp), hwk]
    rfl
  have hm : malloc r0.w = (true, w) := by rw [hrw]; exact malloc_nil hw
  have hadd : ht_add w t key data = some ⟨HT_OK,
      { r0.t with collisions := c, table := slot_set r0.t.table idx (Slot.entry key data),
                  used := inc32 r0.t.used }, w⟩ := by
    unfold ht_add
    rw [hins]
    simp only
    rw [if_neg (by rw [hret]; simp), hm]
    simp
  refine ⟨_, hadd, rfl, rfl, ?_, ?_, hB.key_compare, ?_⟩
  · show inc32 r0.t.used = t.used + 1
    rw [hU]
    unfold inc32
    omega
  · have hgs := growth_size hI hsz hg hok
    exact hgs
  · intro j k v hj hs
    have hs1 : slot_set r0.t.table idx (Slot.entry key data) j = Slot.entry k v := hs
    unfold slot_set at hs1
    by_cases hji : j = idx
    · rw [if_pos hji] at hs1
      simp only [Slot.entry.injEq] at hs1
      rw [← hs1.1]
      exact List.mem_cons_self _ _
    · rw [if_neg hji] at hs1
      obtain ⟨i, hi, hti⟩ := hsub j k v hj hs1
      exact List.mem_cons_of_mem _ (hst i k v hi hti)

theorem size_after_cases (u : Nat) :
    (u = 0 ∧ size_after u = 0) ∨ (1 ≤ u ∧ u ≤ 128 ∧ size_after u = 256) ∨
    (129 ≤ u ∧ u ≤ 256 ∧ size_after u = 512) ∨ (257 ≤ u ∧ size_after u = 1024) := by
  unfold size_after
  by_cases h0 : u = 0
  · exact Or.inl ⟨h0, by rw [if_pos h0]⟩
  · by_cases h1 : u ≤ 128
    · exact Or.inr (Or.inl ⟨by omega, h1, by rw [if_neg h0, if_pos h1]⟩)
    · by_cases h2 : u ≤ 256
      · exact Or.inr (Or.inr (Or.inl ⟨by omega, h2, by rw [if_neg h0, if_neg h1, if_pos h2]⟩))
      · exact Or.inr (Or.inr (Or.inr ⟨by omega, by rw [if_neg h0, if_neg h1, if_neg h2]⟩))

theorem size_after_step (u : Nat) (hu : u + 1 ≤ 512) :
    (if size_after u = 0 then 256 else if size_after u ≤ 2 * u then 2 * size_after u
      else size_after u) = size_after (u + 1) := by
  rcases size_after_cases u with ⟨h0, hs⟩ | ⟨h1, h2, hs⟩ | ⟨h1, h2, hs⟩ | ⟨h1, hs⟩ <;>
  rcases size_after_cases (u + 1) with ⟨k0, ks⟩ | ⟨k1, k2, ks⟩ | ⟨k1, k2, ks⟩ | ⟨k1, ks⟩ <;>
  rw [hs, ks] <;> first
    | omega
    | (rw [if_pos rfl])
    | (rw [if_neg (by omega), if_neg (by omega)])
    | (rw [if_neg (by omega), if_pos (by omega)])

theorem size_after_le (u : Nat) : size_after u ≤ 1024 := by
  rcases size_after_cases u with ⟨_, hs⟩ | ⟨_, _, hs⟩ | ⟨_, _, hs⟩ | ⟨_, hs⟩ <;> omega

/-- The insertion, one by one, of keys that are pairwise distinct and not stored, with
every allocation succeeding and at most 512 keys stored in the end: every `ht_add`
returns `HT_OK`, and the table ends with one more element per key and the size given by
`size_after`. -/
theorem add_each_fresh {w : World κ ν} (hw : w.mallocs = []) :
    ∀ (kvs : List (κ × ν)) (t : hashtable κ ν) (S : List κ), Reach false t →
      (∀ a b, t.key_compare a b = true → a = b) →
      (∀ j k v, j < t.size → t.table j = Slot.entry k v → k ∈ S) →
      (kvs.map Prod.fst).Nodup → (∀ k, k ∈ kvs.map Prod.fst → k ∉ S) →
      t.used + kvs.length ≤ 512 → t.size = size_after t.used →
      ∃ r, add_each w t kvs = some r ∧ r.ret = HT_OK ∧ r.w = w ∧
        r.t.used = t.used + kvs.length ∧ r.t.size = size_after (t.used + kvs.length) ∧
        Reach false r.t := by
  intro kvs
  induction kvs with
  | nil =>
    intro t S hreach _ _ _ _ _ hsize
    exact ⟨⟨HT_OK, t, w⟩, rfl, rfl, rfl, rfl, hsize, hreach⟩
  | cons kv rest ih =>
    intro t S hreach hcmp hst hnd hfresh hlen hsize
    simp only [List.map_cons, List.nodup_cons] at hnd
    simp only [List.length_cons] at hlen
    have hsz : t.size < 2147483648 := by
      have := size_after_le t.used
      omega
    obtain ⟨r, he, hok, hrw, hu, hs, hc, hst1⟩ :=
      ht_add_fresh_key hreach hw hsz hcmp S hst kv.1
        (hfresh kv.1 (by simp)) kv.2
    have hreach1 : Reach false r.t := Reach.add w kv.1 kv.2 hreach he (fun h => by cases h)
    have hsize1 : r.t.size = size_after r.t.used := by
      rw [hs, hu, hsize]
      exact size_after_step t.used (by omega)
    obtain ⟨r2, he2, hok2, hrw2, hu2, hs2, hreach2⟩ :=
      ih r.t (kv.1 :: S) hreach1 (by rw [hc]; exact hcmp) hst1 hnd.2
        (by
          intro k hkm hkS
          rcases List.mem_cons.mp hkS with hk1 | hk1
          · exact hnd.1 (by rw [← hk1]; exact hkm)
          · exact hfresh k (by simp only [List.map_cons]; exact List.mem_cons_of_mem _ hkm) hk1)
        (by omega) hsize1
    refine ⟨r2, ?_, hok2, hrw2, ?_, ?_, hreach2⟩
    · show (match ht_add w t kv.1 kv.2 with
        | none => none
        | some r => if r.ret ≠ HT_OK then some r else add_each r.w r.t rest) = some r2
      rw [he]
      simp only
      rw [if_neg (by rw [hok]; simp), hrw]
      exact he2
    · rw [hu2, hu, List.length_cons]; omega
    · rw [hs2, hu, List.length_cons]
      congr 1
      omega

theorem string_table_reach (seed : Nat) (ptr : List Nat → Nat) :
    Reach false (string_table seed ptr) :=
  Reach.set_key_compare _ (Reach.set_hash _ (Reach.init _ _) rfl) rfl

/-- The insertion of at most 512 pairwise distinct strings into a fresh table of string
keys, with every allocation succeeding. -/
theorem add_each_string_table (seed : Nat) (ptr : List Nat → Nat) {w : World (List Nat) Nat}
    (hw : w.mallocs = []) (kvs : List (List Nat × Nat)) (hd : (kvs.map Prod.fst).Nodup)
    (hl : kvs.length ≤ 512) :
    ∃ r, add_each w (string_table seed ptr) kvs = some r ∧ r.ret = HT_OK ∧
      r.t.used = kvs.length ∧ r.t.size = size_after kvs.length := by
  obtain ⟨r, he, hok, -, hu, hs, -⟩ :=
    add_each_fresh hw kvs (string_table seed ptr) [] (string_table_reach seed ptr)
      (by
        intro a b hab
        have h1 : ht_compare_string a b = true := hab
        unfold ht_compare_string at h1
        exact beq_iff_eq.mp h1)
      (by
        intro j k v _ hs
        have h1 : (Slot.empty : Slot (List Nat) Nat) = Slot.entry k v := hs
        cases h1)
      hd (by intro k _ hk; cases hk)
      (by show 0 + kvs.length ≤ 512; omega) rfl
  have hu0 : (string_table seed ptr).used = 0 := rfl
  rw [hu0, Nat.zero_add] at hu hs
  exact ⟨r, he, hok, hu, hs⟩

theorem demo_strings_nodup : (demo_strings.map Prod.fst).Nodup := by
  unfold demo_strings
  rw [List.map_map]
  refine List.Nodup.map_on ?_ (List.nodup_range 300)
  intro x hx y hy hxy
  rw [List.mem_range] at hx hy
  simp only [Function.comp_apply, List.cons.injEq, and_true] at hxy
  omega

theorem demo_strings_length : demo_strings.length = 300 := by
  unfold demo_strings
  rw [List.length_map, List.length_range]

/-- C11 as stated fails: 300 pairwise distinct strings inserted one by one into a fresh
table of string keys, with every allocation succeeding, leave `used = 300` and
`size = 1024`, not 512. The insert that finds `used = 256` in 512 slots doubles the size
before it completes, as the one that finds `used = 128` in 256 slots does. -/
theorem C11_three_hundred_inserts_counterexample :
    (demo_strings.map Prod.fst).Nodup ∧ demo_strings.length = 300 ∧
    (add_each ⟨[], []⟩ (string_table strong_hash_init_val (fun _ => 0)) demo_strings).map
      (fun r => (r.ret, r.t.size, r.t.used)) = some (HT_OK, 1024, 300) ∧
    ¬ (1024 = 512) := by
  refine ⟨demo_strings_nodup, demo_strings_length, ?_, by decide⟩
  obtain ⟨r, he, hok, hu, hs⟩ :=
    add_each_string_table strong_hash_init_val (fun _ => 0)
      (show (⟨[], []⟩ : World (List Nat) Nat).mallocs = [] from rfl) demo_strings
      demo_strings_nodup (by rw [demo_strings_length]; decide)
  rw [he, demo_strings_length] at *
  simp only [Option.map_some', hok, hu, hs]
  rfl

/-- C11, amended. 300 pairwise distinct strings are inserted one by one with `ht_add`
into a freshly initialised table of string keys (`ht_hash_string`, `ht_compare_string`),
every allocation succeeding. Every call returns `HT_OK`. After `m` inserts `used = m`;
the size is 256 for `m` from 1 to 128, 512 for `m` from 129 to 256 (the insert that
raises `used` past 128 grows the table), and 1024 for `m` from 257 to 300 (the insert
that raises `used` past 256 grows it again). After all 300 inserts `size = 1024` and
`used = 300`. -/
theorem C11_three_hundred_inserts (seed : Nat) (ptr : List Nat → Nat)
    (w : World (List Nat) Nat) (kvs : List (List Nat × Nat)) (hw : w.mallocs = [])
    (hd : (kvs.map Prod.fst).Nodup) (hl : kvs.length = 300) :
    (∀ m, 1 ≤ m → m ≤ 128 → ∃ r, add_each w (string_table seed ptr) (kvs.take m) = some r ∧
      r.ret = HT_OK ∧ r.t.used = m ∧ r.t.size = 256) ∧
    (∀ m, 129 ≤ m → m ≤ 256 → ∃ r, add_each w (string_table seed ptr) (kvs.take m) = some r ∧
      r.ret = HT_OK ∧ r.t.used = m ∧ r.t.size = 512) ∧
    (∀ m, 257 ≤ m → m ≤ 300 → ∃ r, add_each w (string_table seed ptr) (kvs.take m) = some r ∧
      r.ret = HT_OK ∧ r.t.used = m ∧ r.t.size = 1024) ∧
    ∃ r, add_each w (string_table seed ptr) kvs = some r ∧ r.ret = HT_OK ∧
      r.t.used = 300 ∧ r.t.size = 1024 := by
  have hpre : ∀ m, m ≤ 300 → ∃ r, add_each w (string_table seed ptr) (kvs.take m) = some r ∧
      r.ret = HT_OK ∧ r.t.used = m ∧ r.t.size = size_after m := by
    intro m hm
    have hlen : (kvs.take m).length = m := by rw [List.length_take, hl]; omega
    have hnd : ((kvs.take m).map Prod.fst).Nodup := by
      rw [List.map_take]
      exact hd.sublist (List.take_sublist _ _)
    obtain ⟨r, he, hok, hu, hs⟩ :=
      add_each_string_table seed ptr hw (kvs.take m) hnd (by omega)
    rw [hlen] at hu hs
    exact ⟨r, he, hok, hu, hs⟩
  have hfull : kvs.take 300 = kvs := by rw [← hl]; exact List.take_length _
  refine ⟨?_, ?_, ?_, ?_⟩
  · intro m h1 h2
    obtain ⟨r, he, hok, hu, hs⟩ := hpre m (by omega)
    refine ⟨r, he, hok, hu, ?_⟩
    rcases size_after_cases m with ⟨_, _⟩ | ⟨_, _, h⟩ | ⟨_, _, h⟩ | ⟨_, h⟩ <;> omega
  · intro m h1 h2
    obtain ⟨r, he, hok, hu, hs⟩ := hpre m (by omega)
    refine ⟨r, he, hok, hu, ?_⟩
    rcases size_after_cases m with ⟨_, _⟩ | ⟨_, _, h⟩ | ⟨_, _, h⟩ | ⟨_, h⟩ <;> omega
  · intro m h1 h2
    obtain ⟨r, he, hok, hu, hs⟩ := hpre m (by omega)
    refine ⟨r, he, hok, hu, ?_⟩
    rcases size_after_cases m with ⟨_, _⟩ | ⟨_, _, h⟩ | ⟨_, _, h⟩ | ⟨_, h⟩ <;> omega
  · obtain ⟨r, he, hok, hu, hs⟩ := hpre 300 (by omega)
    rw [hfull] at he
    refine ⟨r, he, hok, hu, ?_⟩
    rcases size_after_cases 300 with ⟨_, _⟩ | ⟨_, _, h⟩ | ⟨_, _, h⟩ | ⟨_, h⟩ <;> omega

/-- C11, amended, at the 300 two-byte strings of `demo_strings`, under the default seed. -/
theorem C11_three_hundred_inserts_witness :
    (⟨[], []⟩ : World (List Nat) Nat).mallocs = [] ∧ (demo_strings.map Prod.fst).Nodup ∧
    demo_strings.length = 300 ∧
    ((∀ m, 1 ≤ m → m ≤ 128 → ∃ r, add_each ⟨[], []⟩
      (string_table strong_hash_init_val (fun _ => 0)) (demo_strings.take m) = some r ∧
      r.ret = HT_OK ∧ r.t.used = m ∧ r.t.size = 256) ∧
    (∀ m, 129 ≤ m → m ≤ 256 → ∃ r, add_each ⟨[], []⟩
      (string_table strong_hash_init_val (fun _ => 0)) (demo_strings.take m) = some r ∧
      r.ret = HT_OK ∧ r.t.used = m ∧ r.t.size = 512) ∧
    (∀ m, 257 ≤ m → m ≤ 300 → ∃ r, add_each ⟨[], []⟩
      (string_table strong_hash_init_val (fun _ => 0)) (demo_strings.take m) = some r ∧
      r.ret = HT_OK ∧ r.t.used = m ∧ r.t.size = 1024) ∧
    ∃ r, add_each ⟨[], []⟩ (string_table strong_hash_init_val (fun _ => 0)) demo_strings =
      some r ∧ r.ret = HT_OK ∧ r.t.used = 300 ∧ r.t.size = 1024) :=
  ⟨rfl, demo_strings_nodup, demo_strings_length,
    C11_three_hundred_inserts strong_hash_init_val (fun _ => 0) ⟨[], []⟩ demo_strings rfl
      demo_strings_nodup demo_strings_length⟩

/-- A successful `ht_expand` keeps a key that is stored once: with a hash function
consistent with the comparison, a key whose only equal element is `(k0, v0)` is found
in the new table, in a slot that holds `(k0, v0)`; and `used` is unchanged. -/
theorem ht_expand_keeps_search {w : World κ ν} {t : hashtable κ ν} {n : Nat} {r : Ret κ ν}
    (h : Inv t) (he : ht_expand w t n = some r) (hok : r.ret = HT_OK)
    (hhash : ∀ a b, t.key_compare a b = true → t.hashf a = t.hashf b)
    (key k0 : κ) (v0 : ν) (i0 : Nat) (hi0 : i0 < t.size)
    (hent : t.table i0 = Slot.entry k0 v0) (hc0 : t.key_compare key k0 = true)
    (honce : ∀ j k v, j < t.size → t.table j = Slot.entry k v →
      t.key_compare key k = true → k = k0 ∧ v = v0) (w1 : World κ ν) :
    r.t.used = t.used ∧
    ∃ s, ht_search w1 r.t key = some s ∧ s.ret = HT_FOUND ∧ s.t = r.t ∧
      s.t.table s.index = Slot.entry k0 v0 := by
  have hu : t.used ≤ 2147483648 := le_trans h.used_le h.size_le
  obtain ⟨hNT, hsub, hsup⟩ := ht_expand_ok_facts h he hok
  rcases ht_expand_spec hu he with ⟨h1, _⟩ | ⟨h1, _⟩ | ⟨_, _, _, _, h5, hI1, hC1, hU, hB⟩
  · rw [h1] at hok; exact absurd hok (by decide)
  · rw [h1] at hok; exact absurd hok (by decide)
  refine ⟨hU, ?_⟩
  have hs0 : r.t.size ≠ 0 := by
    obtain ⟨e, hpow, h8, h31, -, -⟩ := next_power_spec (u32 n)
    have := two_pow_bounds h8 h31
    omega
  have hcap := hI1.cap_of_size hs0
  obtain ⟨j, hj, hjent⟩ := hsup i0 k0 v0 hi0 hent
  obtain ⟨d, hdj, hdne⟩ := hC1 j k0 v0 hj hjent
  have hprobe : ∀ i, probe r.t key i = probe r.t k0 i := by
    intro i
    unfold probe home
    rw [hB.hashf, hhash key k0 hc0]
  have hex : ∃ m, ∃ k v, r.t.table (probe r.t key m) = Slot.entry k v ∧
      r.t.key_compare key k = true :=
    ⟨d, k0, v0, by rw [hprobe, hdj]; exact hjent, by rw [hB.key_compare]; exact hc0⟩
  classical
  have hmin : ∀ {m : Nat}, m < Nat.find hex → ¬ ∃ k v,
      r.t.table (probe r.t key m) = Slot.entry k v ∧ r.t.key_compare key k = true :=
    fun hm => Nat.find_min hex hm
  obtain ⟨k, v, hkv, hkc⟩ := Nat.find_spec hex
  have hmd : Nat.find hex ≤ d := Nat.find_min' hex
    ⟨k0, v0, by rw [hprobe, hdj]; exact hjent, by rw [hB.key_compare]; exact hc0⟩
  have hlt : Nat.find hex < r.t.size := by
    by_contra hge
    have hpos : 0 < r.t.size := Nat.pos_of_ne_zero hs0
    have hmod : Nat.find hex % r.t.size < Nat.find hex :=
      lt_of_lt_of_le (Nat.mod_lt _ hpos) (by omega)
    apply hmin hmod
    refine ⟨k, v, ?_, hkc⟩
    have hper : probe r.t key (Nat.find hex % r.t.size) = probe r.t key (Nat.find hex) := by
      unfold probe
      rw [hcap.iterate_mod _ (hcap.home_bound key), hcap.iterate_mod _ (hcap.home_bound key),
        Nat.add_mod_mod]
    rw [hper]
    exact hkv
  have hpath : ∀ i, i < Nat.find hex → skips r.t key (r.t.table (probe r.t key i)) := by
    intro i hi
    cases hs : r.t.table (probe r.t key i) with
    | empty =>
      exfalso
      rw [hprobe] at hs
      exact hdne i (by omega) hs
    | tombstone => exact absurd hs (hNT _)
    | entry k1 v1 =>
      right
      refine ⟨k1, v1, rfl, ?_⟩
      cases hc : r.t.key_compare key k1 with
      | false => rfl
      | true => exact absurd ⟨k1, v1, hs, hc⟩ (hmin hi)
  have hwalk := ht_search_walk_of_path r.t key (Nat.find hex) k v (by omega) hpath hkv hkc
  refine ⟨⟨HT_FOUND, probe r.t key (Nat.find hex), r.t, w1⟩, ?_, rfl, rfl, ?_⟩
  · rw [ht_search_eq_walk w1 r.t key hs0, hwalk]
    rfl
  · show r.t.table (probe r.t key (Nat.find hex)) = Slot.entry k0 v0
    obtain ⟨i1, hi1, hti1⟩ := hsub _ k v hkv
    rw [hB.key_compare] at hkc
    obtain ⟨e1, e2⟩ := honce i1 k v hi1 hti1 hkc
    rw [hkv, e1, e2]

/-- What `ht_add` leaves when it returns `HT_NOMEM`: the table as it was, when the growth
failed; otherwise the table after the growth check with `NULL` stored in the slot chosen
by the walk, which held no element. -/
theorem ht_add_nomem {w : World κ ν} {t : hashtable κ ν} {key : κ} {data : ν} {r : Ret κ ν}
    (h : Inv t) (he : ht_add w t key data = some r) (hret : r.ret = HT_NOMEM) :
    r.t = t ∨ ∃ r0 index c, ht_expand_if_needed w t = some r0 ∧ r0.ret = HT_OK ∧
      is_entry (r0.t.table index) = false ∧
      r.t = { r0.t with collisions := c, table := slot_set r0.t.table index Slot.empty } := by
  obtain ⟨ri, hi, hcase⟩ := ht_add_cases he
  obtain ⟨r0, hg, -, hcase0⟩ := ht_insert_cases hi
  rcases hcase with ⟨hne, hr⟩ | ⟨hok, -, hr⟩ | ⟨-, -, hr⟩
  · rcases hcase0 with ⟨hne0, hr0, hrt⟩ | ⟨-, c, hwk, -⟩
    · left
      rw [hr]
      show ri.t = t
      rw [hrt]
      exact (ht_expand_if_needed_spec h hg).2.2.2.2.2.1 hne0
    · exfalso
      rw [hr] at hret
      have hret1 : ri.ret = HT_NOMEM := hret
      obtain ⟨d, -, -, hend⟩ := ht_insert_walk_spec r0.t key ri.ret ri.index c hwk
      rcases hend with ⟨h1, -⟩ | ⟨h1, -⟩
      · exact hne h1
      · rw [hret1] at h1; exact absurd h1 (by decide)
  · rcases hcase0 with ⟨hne0, hr0, -⟩ | ⟨hok0, c, hwk, hrt⟩
    · exfalso
      rw [hr0] at hok
      exact hne0 hok
    · right
      obtain ⟨d, -, -, hend⟩ := ht_insert_walk_spec r0.t key ri.ret ri.index c hwk
      have hfree : is_entry (r0.t.table ri.index) = false := by
        rcases hend with ⟨-, -, h3⟩ | ⟨h1, -⟩
        · exact h3
        · rw [hok] at h1; exact absurd h1 (by decide)
      refine ⟨r0, ri.index, c, hg, hok0, hfree, ?_⟩
      rw [hr]
      show { ri.t with table := slot_set ri.t.table ri.index Slot.empty } = _
      rw [hrt]
  · rw [hr] at hret
    exact absurd hret (by simp)

/-! ## The element slots in index order -/

theorem entry_pairs_from_zero (t : hashtable κ ν) (i : Nat) : entry_pairs_from t i 0 = [] := rfl

theorem entry_pairs_from_succ (t : hashtable κ ν) (i m : Nat) :
    entry_pairs_from t i (m + 1) =
      (match t.table i with
        | Slot.entry key data => [(key, data)]
        | _ => []) ++ entry_pairs_from t (i + 1) m := by
  unfold entry_pairs_from
  rw [List.range'_succ, List.filterMap_cons]
  cases hs : t.table i <;> simp [slot_pair]

theorem entry_pairs_from_append (t : hashtable κ ν) (i m : Nat) :
    entry_pairs_from t i (m + 1) =
      entry_pairs_from t i m ++ (match t.table (i + m) with
        | Slot.entry key data => [(key, data)]
        | _ => []) := by
  unfold entry_pairs_from
  rw [List.range'_concat, List.filterMap_append]
  cases hs : t.table (i + m) <;> simp [slot_pair, hs]

/-- The number of element slots is the number of pairs. -/
theorem entry_pairs_from_length (t : hashtable κ ν) (m : Nat) :
    (entry_pairs_from t 0 m).length = count_entries t.table m := by
  induction m with
  | zero => rfl
  | succ m ih =>
    rw [entry_pairs_from_append, List.length_append, ih, count_entries_succ, Nat.zero_add]
    cases hs : t.table m <;> simp [is_entry]

/-- No pair comes from a run of slots without element. -/
theorem entry_pairs_from_nil (t : hashtable κ ν) :
    ∀ m i, (∀ j, i ≤ j → j < i + m → is_entry (t.table j) = false) →
      entry_pairs_from t i m = [] := by
  intro m
  induction m with
  | zero => intro i _; rfl
  | succ m ih =>
    intro i h
    rw [entry_pairs_from_succ, ih (i + 1) (fun j h1 h2 => h j (by omega) (by omega))]
    have hi := h i (le_refl _) (by omega)
    cases hs : t.table i with
    | empty => rfl
    | tombstone => rfl
    | entry k v => rw [hs] at hi; simp [is_entry] at hi

theorem entry_pairs_mem {t : hashtable κ ν} {p : κ × ν} :
    ∀ m i, p ∈ entry_pairs_from t i m ↔
      ∃ j, i ≤ j ∧ j < i + m ∧ t.table j = Slot.entry p.1 p.2 := by
  intro m i
  unfold entry_pairs_from
  rw [List.mem_filterMap]
  constructor
  · rintro ⟨j, hj, hs⟩
    rw [List.mem_range'_1] at hj
    refine ⟨j, hj.1, hj.2, ?_⟩
    cases hx : t.table j with
    | empty => rw [hx] at hs; simp [slot_pair] at hs
    | tombstone => rw [hx] at hs; simp [slot_pair] at hs
    | entry k v =>
      rw [hx] at hs
      simp only [slot_pair, Option.some.injEq] at hs
      rw [← hs]
  · rintro ⟨j, h1, h2, hs⟩
    exact ⟨j, List.mem_range'_1.mpr ⟨h1, h2⟩, by rw [hs]; rfl⟩

/-- The loop of `ht_get_array` collects the pairs of the element slots from `idx` to the
end of the array. -/
theorem ht_get_array_loop_eq (t : hashtable κ ν) :
    ∀ fuel idx, idx + fuel = t.size + 1 →
      ht_get_array_loop t fuel idx = entry_pairs_from t idx (t.size - idx) := by
  intro fuel
  induction fuel with
  | zero =>
    intro idx h
    rw [show t.size - idx = 0 by omega]
    rfl
  | succ fuel ih =>
    intro idx h
    unfold ht_get_array_loop
    by_cases hi : t.size ≤ idx
    · have h2 : ht_get_byindex t idx = 2 := by unfold ht_get_byindex; rw [if_pos hi]
      rw [if_pos h2, show t.size - idx = 0 by omega]
      rfl
    · have h2 : ht_get_byindex t idx ≠ 2 := by
        unfold ht_get_byindex
        rw [if_neg hi]
        cases t.table idx <;> simp
      rw [if_neg h2, show t.size - idx = (t.size - (idx + 1)) + 1 by omega,
        entry_pairs_from_succ, ← ih (idx + 1) (by omega)]
      cases t.table idx <;> rfl

theorem ht_get_array_loop_pairs (t : hashtable κ ν) :
    ht_get_array_loop t (t.size + 1) 0 = entry_pairs t := by
  rw [ht_get_array_loop_eq t (t.size + 1) 0 (by omega)]
  rfl

theorem entry_pairs_length {t : hashtable κ ν} (h : Inv t) : (entry_pairs t).length = t.used := by
  unfold entry_pairs
  rw [entry_pairs_from_length, ← h.cnt]

/-- With `used` equal to the number of element slots, `ht_get_array` returns: `NULL`
when its allocation fails, the pairs of the element slots otherwise. -/
theorem ht_get_array_spec {w : World κ ν} {t : hashtable κ ν} (h : Inv t)
    (hu : t.used < 1073741824) :
    ((malloc w).1 = false → ht_get_array w t = some ⟨none, t, (malloc w).2⟩) ∧
    ((malloc w).1 = true → ht_get_array w t = some ⟨some (entry_pairs t), t, (malloc w).2⟩) := by
  unfold ht_get_array
  rw [if_neg (by omega)]
  constructor
  · intro hm
    rw [if_pos hm]
  · intro hm
    rw [if_neg (by rw [hm]; simp), ht_get_array_loop_pairs, entry_pairs_length h,
      if_neg (by omega)]

/-- The rehash loop ends with `t->used == 0` when `used` counts the element slots. -/
theorem ht_expand_loop_used (t : hashtable κ ν) :
    ∀ fuel i used n r, i + fuel = t.size →
      used + count_entries t.table i = count_entries t.table t.size →
      used ≤ 4294967296 →
      ht_expand_loop t fuel i used n = some r → r.1 = 0 := by
  intro fuel
  induction fuel with
  | zero =>
    intro i used n r hi hc _ hl
    simp only [ht_expand_loop, Option.some.injEq] at hl
    rw [← hl]
    have : i = t.size := by omega
    rw [this] at hc
    show used = 0
    omega
  | succ fuel ih =>
    intro i used n r hi hc hb hl
    unfold ht_expand_loop at hl
    by_cases hu : used = 0
    · rw [if_pos hu] at hl
      simp only [Option.some.injEq] at hl
      rw [← hl]; exact hu
    · rw [if_neg hu] at hl
      have hcs := count_entries_succ t.table i
      cases hs : t.table i with
      | empty =>
        rw [hs] at hl
        rw [hs] at hcs
        exact ih _ _ _ _ (by omega) (by rw [hcs]; simpa [is_entry] using hc) hb hl
      | tombstone =>
        rw [hs] at hl
        rw [hs] at hcs
        exact ih _ _ _ _ (by omega) (by rw [hcs]; simpa [is_entry] using hc) hb hl
      | entry key data =>
        rw [hs] at hl
        rw [hs] at hcs
        simp only at hl
        cases hq : ht_expand_place n key data with
        | none => rw [hq] at hl; simp at hl
        | some n1 =>
          rw [hq] at hl
          have hd : dec32 used = used - 1 := dec32_pos (by omega) hb
          refine ih _ _ _ _ (by omega) ?_ (by omega) hl
          rw [hcs, hd]
          simp only [is_entry, if_true]
          omega

/-! ## Claims on `ht_free`, the count invariant and `ht_destroy` -/

/-- C21 (delete by index). For every reachable table, `ht_free(t, index)` returns
`HT_IOVERFLOW` exactly when `index >= size` and `HT_OK` otherwise. On an element slot it
calls the bound destructors on the key and the value, stores the tombstone in the slot
and decreases `used` by 1; on a `NULL` or tombstone slot, and on overflow, it returns the
table and the world as they were. In every case the other slots, `size`, `sizemask`,
`collisions` and the strategy bundle are unchanged. -/
theorem C21_free_by_index (t : hashtable κ ν) (w : World κ ν) (index : Nat)
    (hreach : Reach false t) :
    ((ht_free w t index).ret = HT_IOVERFLOW ↔ t.size ≤ index) ∧
    ((ht_free w t index).ret = HT_OK ↔ index < t.size) ∧
    (∀ key data, index < t.size → t.table index = Slot.entry key data →
      (ht_free w t index).t.table index = Slot.tombstone ∧
      (ht_free w t index).t.used + 1 = t.used ∧
      (ht_free w t index).w = destruct t.val_destructor (Call.val_destructor data)
        (destruct t.key_destructor (Call.key_destructor key) w)) ∧
    (t.size ≤ index ∨ is_entry (t.table index) = false →
      (ht_free w t index).t = t ∧ (ht_free w t index).w = w) ∧
    (∀ j, j ≠ index → (ht_free w t index).t.table j = t.table j) ∧
    (ht_free w t index).t.size = t.size ∧ (ht_free w t index).t.sizemask = t.sizemask ∧
    (ht_free w t index).t.collisions = t.collisions ∧
    SameBundle t (ht_free w t index).t := by
  have hI := hreach.inv
  rcases ht_free_spec w t index with ⟨hi, he⟩ | ⟨hi, hs, he⟩ | ⟨hi, key, data, hs, he⟩
  · rw [he]
    refine ⟨⟨fun _ => hi, fun _ => rfl⟩, ⟨fun hc => absurd hc (by simp), fun hc => by omega⟩,
      ?_, fun _ => ⟨rfl, rfl⟩, fun j _ => rfl, rfl, rfl, rfl, ⟨rfl, rfl, rfl, rfl⟩⟩
    intro key data hlt
    omega
  · rw [he]
    refine ⟨⟨fun hc => absurd hc (by simp), fun hc => by omega⟩, ⟨fun _ => hi, fun _ => rfl⟩,
      ?_, fun _ => ⟨rfl, rfl⟩, fun j _ => rfl, rfl, rfl, rfl, ⟨rfl, rfl, rfl, rfl⟩⟩
    intro key data _ hkd
    rw [hkd] at hs
    simp [is_entry] at hs
  · rw [he]
    refine ⟨⟨fun hc => absurd hc (by simp), fun hc => by omega⟩, ⟨fun _ => hi, fun _ => rfl⟩,
      ?_, ?_, ?_, rfl, rfl, rfl, ⟨rfl, rfl, rfl, rfl⟩⟩
    · intro key1 data1 _ hkd
      rw [hs] at hkd
      simp only [Slot.entry.injEq] at hkd
      refine ⟨?_, (hI.drop_entry index hi (by rw [hs]; rfl)).2, by rw [hkd.1, hkd.2]⟩
      show slot_set t.table index Slot.tombstone index = Slot.tombstone
      unfold slot_set
      rw [if_pos rfl]
    · intro hc
      rcases hc with hc | hc
      · omega
      · rw [hs] at hc
        simp [is_entry] at hc
    · intro j hj
      show slot_set t.table index Slot.tombstone j = t.table j
      unfold slot_set
      rw [if_neg hj]

/-- C21 at the table that holds the keys 5 (slot 248) and 406 (slot 249), for the index
248. -/
theorem C21_free_by_index_witness :
    Reach false demo_add2.t ∧ demo_add2.t.table 248 = Slot.entry 5 7 ∧
    demo_add2.t.used = 2 ∧ (ht_free w0 demo_add2.t 248).t.used = 1 ∧
    (((ht_free w0 demo_add2.t 248).ret = HT_IOVERFLOW ↔ demo_add2.t.size ≤ 248) ∧
    ((ht_free w0 demo_add2.t 248).ret = HT_OK ↔ 248 < demo_add2.t.size) ∧
    (∀ key data, 248 < demo_add2.t.size → demo_add2.t.table 248 = Slot.entry key data →
      (ht_free w0 demo_add2.t 248).t.table 248 = Slot.tombstone ∧
      (ht_free w0 demo_add2.t 248).t.used + 1 = demo_add2.t.used ∧
      (ht_free w0 demo_add2.t 248).w =
        destruct demo_add2.t.val_destructor (Call.val_destructor data)
          (destruct demo_add2.t.key_destructor (Call.key_destructor key) w0)) ∧
    (demo_add2.t.size ≤ 248 ∨ is_entry (demo_add2.t.table 248) = false →
      (ht_free w0 demo_add2.t 248).t = demo_add2.t ∧ (ht_free w0 demo_add2.t 248).w = w0) ∧
    (∀ j, j ≠ 248 → (ht_free w0 demo_add2.t 248).t.table j = demo_add2.t.table j) ∧
    (ht_free w0 demo_add2.t 248).t.size = demo_add2.t.size ∧
    (ht_free w0 demo_add2.t 248).t.sizemask = demo_add2.t.sizemask ∧
    (ht_free w0 demo_add2.t 248).t.collisions = demo_add2.t.collisions ∧
    SameBundle demo_add2.t (ht_free w0 demo_add2.t 248).t) :=
  ⟨demo_add2_reach, by decide, by decide, by decide,
    C21_free_by_index demo_add2.t w0 248 demo_add2_reach⟩

/-- C28 (count invariant). In every reachable table `used` is the number of element
slots. Consequently the rehash loop of `ht_expand`, whenever it ends, ends with
`t->used == 0`, so that the `assert` holds; and the loop of `ht_get_array` stores
exactly `used` pairs, the `used * 2` cells of the array it allocated. -/
theorem C28_count_invariant (t : hashtable κ ν) (hreach : Reach false t) :
    t.used = count_entries t.table t.size ∧
    (∀ n r, ht_expand_loop t t.size 0 t.used n = some r → r.1 = 0) ∧
    (∀ w n r, ht_expand w t n = some r →
      r.ret = HT_OK ∨ r.ret = HT_NOMEM ∨ r.ret = HT_INVALID) ∧
    (ht_get_array_loop t (t.size + 1) 0).length = t.used := by
  have hI := hreach.inv
  have hlen : (ht_get_array_loop t (t.size + 1) 0).length = t.used := by
    rw [ht_get_array_loop_pairs, entry_pairs_length hI]
  refine ⟨hI.cnt, ?_, ?_, hlen⟩
  · intro n r hl
    have hu := hI.used_le
    have hs := hI.size_le
    exact ht_expand_loop_used t t.size 0 t.used n r (by omega)
      (by rw [← hI.cnt]; rfl) (by omega) hl
  · intro w n r he
    rcases ht_expand_spec (le_trans hI.used_le hI.size_le) he with
      ⟨h1, _⟩ | ⟨h1, _⟩ | ⟨h1, _⟩
    · exact Or.inr (Or.inr h1)
    · exact Or.inr (Or.inl h1)
    · exact Or.inl h1

/-- C28 at the table that holds the key 406 behind the tombstone of the key 5. -/
theorem C28_count_invariant_witness :
    Reach false demo_rm1.t ∧ demo_rm1.t.used = 1 ∧
    (demo_rm1.t.used = count_entries demo_rm1.t.table demo_rm1.t.size ∧
    (∀ n r, ht_expand_loop demo_rm1.t demo_rm1.t.size 0 demo_rm1.t.used n = some r →
      r.1 = 0) ∧
    (∀ w n r, ht_expand w demo_rm1.t n = some r →
      r.ret = HT_OK ∨ r.ret = HT_NOMEM ∨ r.ret = HT_INVALID) ∧
    (ht_get_array_loop demo_rm1.t (demo_rm1.t.size + 1) 0).length = demo_rm1.t.used) :=
  ⟨demo_rm1_reach, by decide, C28_count_invariant demo_rm1.t demo_rm1_reach⟩

theorem demo_bound_reach : Reach false demo_bound :=
  then_add_reach (then_rm_reach (then_add_reach (then_add_reach
    (Reach.set_val_destructor _ (Reach.set_key_destructor _ id_table_reach rfl) rfl)
    w0 1 10) w0 2 20) w0 1) w0 3 30

theorem destruct_calls (b : Bool) (c : Call κ ν) (w : World κ ν) :
    destruct b c w = { w with calls := w.calls ++ (if b then [c] else []) } := by
  unfold destruct
  cases b
  · simp
  · simp

/-- The loop of `ht_destroy` calls the bound destructors on the key and the value of
every element slot, in index order, when `used` counts the element slots. -/
theorem ht_destroy_loop_calls (t : hashtable κ ν) :
    ∀ fuel i used w, used + count_entries t.table i = count_entries t.table (i + fuel) →
      used ≤ 4294967296 →
      ht_destroy_loop t fuel i used w =
        { w with calls := w.calls ++ (entry_pairs_from t i fuel).flatMap (release_calls t) } := by
  intro fuel
  induction fuel with
  | zero =>
    intro i used w _ _
    simp [ht_destroy_loop, entry_pairs_from_zero]
  | succ fuel ih =>
    intro i used w hc hb
    have hcm := count_entries_mono t.table (i + 1) (i + (fuel + 1)) (by omega)
    have hcs := count_entries_succ t.table i
    unfold ht_destroy_loop
    by_cases hu : used = 0
    · rw [if_pos hu]
      have hnil : entry_pairs_from t i (fuel + 1) = [] := by
        refine entry_pairs_from_nil t _ _ ?_
        intro j h1 h2
        exact count_entries_tail t.table i (i + (fuel + 1)) (by omega) j h1 h2
      rw [hnil]
      simp
    · rw [if_neg hu, entry_pairs_from_succ]
      have hidx : i + 1 + fuel = i + (fuel + 1) := by omega
      cases hs : t.table i with
      | empty =>
        rw [hs] at hcs
        simp only [is_entry, Bool.false_eq_true, if_false] at hcs
        rw [ih (i + 1) used w (by rw [hidx]; omega) hb]
        simp
      | tombstone =>
        rw [hs] at hcs
        simp only [is_entry, Bool.false_eq_true, if_false] at hcs
        rw [ih (i + 1) used w (by rw [hidx]; omega) hb]
        simp
      | entry key data =>
        rw [hs] at hcs
        simp only [is_entry, if_true] at hcs
        have hd : dec32 used = used - 1 := dec32_pos (by omega) hb
        simp only
        rw [ih (i + 1) (dec32 used) _ (by rw [hidx, hd]; omega) (by omega),
          destruct_calls, destruct_calls]
        simp [release_calls, List.flatMap_cons, List.append_assoc]

/-- C24 (destroy returns the table to the reusable empty state). For every reachable
table `ht_destroy` returns `HT_OK` and leaves `size = 0`, `sizemask = 0`, `used = 0`,
`collisions = 0` and no slot array, with the strategy bundle as it was. The destructor
calls it has made are, for the element slots in index order, the key destructor on the
key and the value destructor on the value, each when bound: one call per element and
destructor, none for a tombstone or `NULL` slot. The table it leaves is reachable. -/
theorem C24_destroy_resets (t : hashtable κ ν) (w : World κ ν) (hreach : Reach false t) :
    (ht_destroy w t).ret = HT_OK ∧
    (ht_destroy w t).t.size = 0 ∧ (ht_destroy w t).t.sizemask = 0 ∧
    (ht_destroy w t).t.used = 0 ∧ (ht_destroy w t).t.collisions = 0 ∧
    (∀ j, (ht_destroy w t).t.table j = Slot.empty) ∧
    SameBundle t (ht_destroy w t).t ∧
    (ht_destroy w t).w.calls = w.calls ++ (entry_pairs t).flatMap (release_calls t) ∧
    (ht_destroy w t).w.mallocs = w.mallocs ∧
    (∀ p, p ∈ entry_pairs t ↔ ∃ j, j < t.size ∧ t.table j = Slot.entry p.1 p.2) ∧
    (entry_pairs t).length = t.used ∧
    Reach false (ht_destroy w t).t := by
  have hI := hreach.inv
  have hloop := ht_destroy_loop_calls t t.size 0 t.used w
    (by rw [Nat.zero_add, ← hI.cnt]; rfl) (by have := hI.used_le; have := hI.size_le; omega)
  refine ⟨rfl, rfl, rfl, rfl, rfl, fun _ => rfl, ⟨rfl, rfl, rfl, rfl⟩, ?_, ?_, ?_,
    entry_pairs_length hI, Reach.destroy w hreach⟩
  · show (ht_destroy_loop t t.size 0 t.used w).calls = _
    rw [hloop]
    rfl
  · show (ht_destroy_loop t t.size 0 t.used w).mallocs = _
    rw [hloop]
  · intro p
    unfold entry_pairs
    rw [entry_pairs_mem]
    constructor
    · rintro ⟨j, _, h2, h3⟩
      exact ⟨j, by omega, h3⟩
    · rintro ⟨j, h2, h3⟩
      exact ⟨j, by omega, by omega, h3⟩

/-- C24 at a table with both destructors bound that holds the keys 2 and 3 and the
tombstone of the key 1. -/
theorem C24_destroy_resets_witness :
    Reach false demo_bound ∧ demo_bound.table 1 = Slot.tombstone ∧
    entry_pairs demo_bound = [(2, 20), (3, 30)] ∧
    (ht_destroy ⟨[], []⟩ demo_bound).w.calls =
      [Call.key_destructor 2, Call.val_destructor 20, Call.key_destructor 3,
        Call.val_destructor 30] ∧
    ((ht_destroy ⟨[], []⟩ demo_bound).ret = HT_OK ∧
    (ht_destroy ⟨[], []⟩ demo_bound).t.size = 0 ∧
    (ht_destroy ⟨[], []⟩ demo_bound).t.sizemask = 0 ∧
    (ht_destroy ⟨[], []⟩ demo_bound).t.used = 0 ∧
    (ht_destroy ⟨[], []⟩ demo_bound).t.collisions = 0 ∧
    (∀ j, (ht_destroy ⟨[], []⟩ demo_bound).t.table j = Slot.empty) ∧
    SameBundle demo_bound (ht_destroy ⟨[], []⟩ demo_bound).t ∧
    (ht_destroy ⟨[], []⟩ demo_bound).w.calls =
      ([] : List (Call Nat Nat)) ++ (entry_pairs demo_bound).flatMap (release_calls demo_bound) ∧
    (ht_destroy ⟨[], []⟩ demo_bound).w.mallocs = [] ∧
    (∀ p, p ∈ entry_pairs demo_bound ↔
      ∃ j, j < demo_bound.size ∧ demo_bound.table j = Slot.entry p.1 p.2) ∧
    (entry_pairs demo_bound).length = demo_bound.used ∧
    Reach false (ht_destroy ⟨[], []⟩ demo_bound).t) :=
  ⟨demo_bound_reach, by decide, by decide!, by decide,
    C24_destroy_resets demo_bound ⟨[], []⟩ demo_bound_reach⟩

/-! ## The strong hash -/

theorem word_congr {k k1 : List Nat} {i : Nat}
    (h : ∀ j, j < 4 → byte k (i + j) = byte k1 (i + j)) : word k i = word k1 i := by
  unfold word
  have h0 := h 0 (by omega)
  rw [Nat.add_zero] at h0
  rw [h0, h 1 (by omega), h 2 (by omega), h 3 (by omega)]

/-- The loop of `__ht_strong_hash` reads the key bytes below `off + len` only. -/
theorem strong_hash_blocks_congr {k k1 : List Nat} :
    ∀ fuel off a b c len, (∀ j, j < len → byte k (off + j) = byte k1 (off + j)) →
      strong_hash_blocks k fuel off a b c len = strong_hash_blocks k1 fuel off a b c len := by
  intro fuel
  induction fuel with
  | zero => intro off a b c len _; rfl
  | succ fuel ih =>
    intro off a b c len h
    unfold strong_hash_blocks
    by_cases h12 : 12 ≤ len
    · rw [if_pos h12, if_pos h12]
      have w0 : word k off = word k1 off := word_congr (fun j hj => h j (by omega))
      have w4 : word k (off + 4) = word k1 (off + 4) :=
        word_congr (fun j hj => by rw [Nat.add_assoc]; exact h (4 + j) (by omega))
      have w8 : word k (off + 8) = word k1 (off + 8) :=
        word_congr (fun j hj => by rw [Nat.add_assoc]; exact h (8 + j) (by omega))
      simp only [w0, w4, w8]
      exact ih _ _ _ _ _ (fun j hj => by rw [Nat.add_assoc]; exact h (12 + j) (by omega))
    · rw [if_neg h12, if_neg h12]

/-- The loop of `__ht_strong_hash` advances `k` by what it takes from `len`. -/
theorem strong_hash_blocks_off (k : List Nat) :
    ∀ fuel off a b c len,
      (strong_hash_blocks k fuel off a b c len).1 +
        (strong_hash_blocks k fuel off a b c len).2.2.2.2 = off + len := by
  intro fuel
  induction fuel with
  | zero => intro off a b c len; rfl
  | succ fuel ih =>
    intro off a b c len
    unfold strong_hash_blocks
    by_cases h12 : 12 ≤ len
    · rw [if_pos h12]
      simp only
      rw [ih]
      omega
    · rw [if_neg h12]

/-- The `switch` of `__ht_strong_hash` reads the key bytes below `off + len` only. -/
theorem strong_hash_tail_congr {k k1 : List Nat} (off a b c len : Nat)
    (h : ∀ j, j < len → byte k (off + j) = byte k1 (off + j)) :
    strong_hash_tail k off a b c len = strong_hash_tail k1 off a b c len := by
  unfold strong_hash_tail
  by_cases h11 : len ≤ 11
  · have h0 := h 0
    rw [Nat.add_zero] at h0
    interval_cases len <;> simp [h, h0]
  · simp [h11]

/-- The C function `__ht_strong_hash` reads the first `length` bytes of the key only. -/
theorem strong_hash_bytes {k k1 : List Nat} (length initval : Nat)
    (h : ∀ j, j < u32 length → byte k j = byte k1 j) :
    __ht_strong_hash k length initval = __ht_strong_hash k1 length initval := by
  unfold __ht_strong_hash
  have hb : strong_hash_blocks k (u32 length) 0 2654435769 2654435769 (u32 initval) (u32 length) =
      strong_hash_blocks k1 (u32 length) 0 2654435769 2654435769 (u32 initval) (u32 length) :=
    @strong_hash_blocks_congr k k1 _ _ _ _ _ _ (fun j hj => by rw [Nat.zero_add]; exact h j hj)
  have ho := strong_hash_blocks_off k1 (u32 length) 0 2654435769 2654435769 (u32 initval)
    (u32 length)
  simp only [hb]
  generalize strong_hash_blocks k1 (u32 length) 0 2654435769 2654435769 (u32 initval)
    (u32 length) = S at ho
  obtain ⟨off, a, b, c, len⟩ := S
  simp only at ho ⊢
  rw [@strong_hash_tail_congr k k1 off a b (u32 (c + u32 length)) len
    (fun j hj => h _ (by omega))]

theorem u32_idem (x : Nat) : u32 (u32 x) = u32 x := by
  unfold u32
  omega

/-- C25 (seeding of the strong hash). `ht_set_strong_hash_init_val(secret)` leaves the
32-bit value of `secret` as the seed. With `s` that seed, or the default seed
`0x0F937A21`: `ht_strong_hash(k, length, initval)` is
`__ht_strong_hash(k, length, initval ^ s)`, so that after the seed 0 is set it is
`__ht_strong_hash(k, length, initval)`, and `ht_hash_string(key)` is
`ht_strong_hash(key, strlen(key), 0)`, that is `__ht_strong_hash(key, strlen(key), s)`.
In `__ht_strong_hash`
the initial value is the start of register `c` (`a` and `b` start at `0x9e3779b9`) and
is used nowhere else; the result depends on the first `length` bytes of the key, the
length and that value only. -/
theorem C25_strong_hash_seeding (secret : Nat) (k : List Nat) (length initval : Nat) :
    ht_set_strong_hash_init_val secret = u32 secret ∧
    ht_strong_hash (ht_set_strong_hash_init_val secret) k length initval =
      __ht_strong_hash k length (u32 initval ^^^ u32 secret) ∧
    ht_strong_hash (ht_set_strong_hash_init_val 0) k length initval =
      __ht_strong_hash k length initval ∧
    ht_hash_string (ht_set_strong_hash_init_val secret) k =
      ht_strong_hash (ht_set_strong_hash_init_val secret) k k.length 0 ∧
    ht_hash_string (ht_set_strong_hash_init_val secret) k =
      __ht_strong_hash k k.length (u32 secret) ∧
    strong_hash_init_val = 0x0F937A21 ∧
    ht_strong_hash strong_hash_init_val k length initval =
      __ht_strong_hash k length (u32 initval ^^^ 0x0F937A21) ∧
    ht_hash_string strong_hash_init_val k = ht_strong_hash strong_hash_init_val k k.length 0 ∧
    __ht_strong_hash k length initval =
      (mix
        (strong_hash_tail k
          (strong_hash_blocks k (u32 length) 0 0x9e3779b9 0x9e3779b9 (u32 initval) (u32 length)).1
          (strong_hash_blocks k (u32 length) 0 0x9e3779b9 0x9e3779b9 (u32 initval) (u32 length)).2.1
          (strong_hash_blocks k (u32 length) 0 0x9e3779b9 0x9e3779b9 (u32 initval) (u32 length)).2.2.1
          (u32 ((strong_hash_blocks k (u32 length) 0 0x9e3779b9 0x9e3779b9 (u32 initval)
            (u32 length)).2.2.2.1 + u32 length))
          (strong_hash_blocks k (u32 length) 0 0x9e3779b9 0x9e3779b9 (u32 initval)
            (u32 length)).2.2.2.2).1
        (strong_hash_tail k
          (strong_hash_blocks k (u32 length) 0 0x9e3779b9 0x9e3779b9 (u32 initval) (u32 length)).1
          (strong_hash_blocks k (u32 length) 0 0x9e3779b9 0x9e3779b9 (u32 initval) (u32 length)).2.1
          (strong_hash_blocks k (u32 length) 0 0x9e3779b9 0x9e3779b9 (u32 initval) (u32 length)).2.2.1
          (u32 ((strong_hash_blocks k (u32 length) 0 0x9e3779b9 0x9e3779b9 (u32 initval)
            (u32 length)).2.2.2.1 + u32 length))
          (strong_hash_blocks k (u32 length) 0 0x9e3779b9 0x9e3779b9 (u32 initval)
            (u32 length)).2.2.2.2).2.1
        (strong_hash_tail k
          (strong_hash_blocks k (u32 length) 0 0x9e3779b9 0x9e3779b9 (u32 initval) (u32 length)).1
          (strong_hash_blocks k (u32 length) 0 0x9e3779b9 0x9e3779b9 (u32 initval) (u32 length)).2.1
          (strong_hash_blocks k (u32 length) 0 0x9e3779b9 0x9e3779b9 (u32 initval) (u32 length)).2.2.1
          (u32 ((strong_hash_blocks k (u32 length) 0 0x9e3779b9 0x9e3779b9 (u32 initval)
            (u32 length)).2.2.2.1 + u32 length))
          (strong_hash_blocks k (u32 length) 0 0x9e3779b9 0x9e3779b9 (u32 initval)
            (u32 length)).2.2.2.2).2.2).2.2 ∧
    (∀ k1 s, (∀ j, j < u32 length → byte k j = byte k1 j) →
      ht_strong_hash s k length initval = ht_strong_hash s k1 length initval) ∧
    (∀ iv, u32 iv = u32 initval →
      __ht_strong_hash k length iv = __ht_strong_hash k length initval) := by
  have hdef : u32 strong_hash_init_val = 0x0F937A21 := by decide
  refine ⟨rfl, ?_, ?_, ?_, rfl, by decide, ?_, ?_, rfl, ?_, ?_⟩
  · unfold ht_strong_hash ht_set_strong_hash_init_val
    rw [u32_idem]
  · unfold ht_strong_hash ht_set_strong_hash_init_val
    have h0 : u32 (u32 0) = 0 := rfl
    rw [h0, Nat.xor_zero]
    unfold __ht_strong_hash
    rw [u32_idem]
  · unfold ht_strong_hash ht_hash_string ht_set_strong_hash_init_val
    rw [u32_idem]
    have h0 : u32 0 = 0 := rfl
    rw [h0, Nat.zero_xor]
  · unfold ht_strong_hash
    rw [hdef]
  · unfold ht_strong_hash ht_hash_string
    rw [hdef]
    have h0 : u32 0 = 0 := rfl
    rw [h0, Nat.zero_xor]
    rfl
  · intro k1 s h
    unfold ht_strong_hash
    exact strong_hash_bytes length _ h
  · intro iv hiv
    unfold __ht_strong_hash
    rw [hiv]

/-- C26 (seed effect on collisions). The strings "ab" and "ba" are in the same bucket of
a table of 256 slots, bucket 169, under the default seed `0x0F937A21`; under the seed 0
they are in the buckets 65 and 67. -/
theorem C26_seed_changes_collisions :
    ([97, 98] : List Nat) ≠ [98, 97] ∧
    u32 (ht_hash_string strong_hash_init_val [97, 98]) &&& 255 = 169 ∧
    u32 (ht_hash_string strong_hash_init_val [98, 97]) &&& 255 = 169 ∧
    u32 (ht_hash_string (ht_set_strong_hash_init_val 0) [97, 98]) &&& 255 = 65 ∧
    u32 (ht_hash_string (ht_set_strong_hash_init_val 0) [98, 97]) &&& 255 = 67 := by
  refine ⟨by decide, ?_, ?_, ?_, ?_⟩ <;> decide

/-! ## `ht_rm` and `ht_replace` on a key that is stored -/

/-- After a growth check that returned `HT_OK` the load is at most one half. -/
theorem growth_ok_load {w : World κ ν} {t : hashtable κ ν} {r0 : Ret κ ν} (h : Inv t)
    (hu : t.used < 2147483648) (hg : ht_expand_if_needed w t = some r0)
    (hok : r0.ret = HT_OK) : 2 * r0.t.used ≤ r0.t.size := by
  have hul := h.used_le
  have hsl := h.size_le
  have hU := (ht_expand_if_needed_spec h hg).2.2.1
  have hu2 : u32 (t.used * 2) = t.used * 2 := u32_lt (by omega)
  by_cases hfull : t.size < 2147483648
  · have hgs := growth_size h hfull hg hok
    rw [hU, hgs]
    by_cases h0 : t.size = 0
    · rw [if_pos h0]; omega
    · rw [if_neg h0]
      by_cases hle : t.size ≤ 2 * t.used
      · rw [if_pos hle]; omega
      · rw [if_neg hle]; omega
  · rcases ht_expand_if_needed_cases hg with ⟨_, hn, hr⟩ | ⟨h0, hx⟩ | ⟨h0, hle, hx⟩
    · rw [hr]
      show 2 * t.used ≤ t.size
      omega
    · omega
    · have hz : u32 (t.size * 2) = 0 := by
        have : t.size = 2147483648 := by omega
        rw [this]; rfl
      rw [hz] at hx
      rcases ht_expand_spec (le_trans hul hsl) hx with
        ⟨h3, _⟩ | ⟨h3, _⟩ | ⟨_, h2, _⟩
      · rw [h3] at hok; exact absurd hok (by decide)
      · rw [h3] at hok; exact absurd hok (by decide)
      · omega

/-- The walk of `ht_insert` ends on a slot without element that it reaches over
elements with another key. -/
theorem ht_insert_walk_of_path {t : hashtable κ ν} (h : Cap t) (key : κ) (d : Nat)
    (hpath : ∀ i, i < d → ∃ k v, t.table (probe t key i) = Slot.entry k v ∧
      t.key_compare key k = false)
    (hend : is_entry (t.table (probe t key d)) = false) :
    ∃ c, ht_insert_walk t key = some (HT_OK, probe t key d, c) := by
  obtain ⟨⟨ret, j, c⟩, hw⟩ :=
    ht_insert_walk_returns h key ⟨probe t key d, h.probe_bound key d, hend⟩
  obtain ⟨d1, -, hp1, hend1⟩ := ht_insert_walk_spec t key ret j c hw
  have hdd : d1 = d := by
    rcases Nat.lt_trichotomy d1 d with hlt | heq | hgt
    · exfalso
      obtain ⟨k, v, hkv, hc⟩ := hpath d1 hlt
      rcases hend1 with ⟨_, hj, hne⟩ | ⟨_, k1, v1, hkv1, hc1⟩
      · rw [hj, hkv] at hne
        simp [is_entry] at hne
      · rw [hkv] at hkv1
        simp only [Slot.entry.injEq] at hkv1
        rw [hkv1.1, hc1] at hc
        simp at hc
    · exact heq
    · exfalso
      obtain ⟨k, v, hkv, -⟩ := hp1 d hgt
      rw [hkv] at hend
      simp [is_entry] at hend
  subst hdd
  rcases hend1 with ⟨hret, hj, -⟩ | ⟨_, k1, v1, hkv1, -⟩
  · exact ⟨c, by rw [hw, hret, hj]⟩
  · exfalso
    rw [hkv1] at hend
    simp [is_entry] at hend

theorem demo_busy1_eq : ht_add w0 demo_add1.t 5 9 = some demo_busy1 :=
  some_getD_of_isSome _ _ (by decide)

/-- C30 (the assertions of `ht_replace` cannot fail). For every reachable table,
whenever the first `ht_add` inside `ht_replace` returns `HT_BUSY`: the `ht_search` that
follows returns `HT_FOUND`, with the index of the slot where the walk of `ht_insert` met
the equal key after `d` elements with other keys; `ht_free` on that index returns
`HT_OK`; and the final `ht_add` returns, with `HT_OK` or `HT_NOMEM`, never `HT_BUSY`, and
its result is the result of `ht_replace`. -/
theorem C30_replace_asserts_hold (t : hashtable κ ν) (w : World κ ν) (key : κ) (data : ν)
    (r1 : Ret κ ν) (hreach : Reach false t) (h1 : ht_add w t key data = some r1)
    (hbusy : r1.ret = HT_BUSY) :
    ∃ s, ht_search r1.w r1.t key = some s ∧ s.ret = HT_FOUND ∧ s.t = r1.t ∧ s.w = r1.w ∧
      (∃ d k v, s.index = probe r1.t key d ∧
        (∀ i, i < d → ∃ k1 v1, r1.t.table (probe r1.t key i) = Slot.entry k1 v1 ∧
          r1.t.key_compare key k1 = false) ∧
        r1.t.table s.index = Slot.entry k v ∧ r1.t.key_compare key k = true) ∧
      (ht_free s.w s.t s.index).ret = HT_OK ∧
      ∃ r, ht_add (ht_free s.w s.t s.index).w (ht_free s.w s.t s.index).t key data = some r ∧
        (r.ret = HT_OK ∨ r.ret = HT_NOMEM) ∧ ht_replace w t key data = some r := by
  have hI := hreach.inv
  obtain ⟨r0, c, d, hg, hok0, hrt, -, hd, hpath, k, v, hkv, hkc⟩ := ht_add_busy hI h1 hbusy
  obtain ⟨hI0, -, hU, -, hS, -, -⟩ := ht_expand_if_needed_spec hI hg
  have hload := growth_ok_load hI hreach.used_lt hg hok0
  have hI1 : Inv r1.t := ht_add_inv hI h1
  have hsh : SameShape r0.t r1.t := by rw [hrt]; exact ⟨rfl, rfl, rfl, rfl, rfl, rfl⟩
  have hp1 : probe r1.t = probe r0.t := probe_congr hsh
  have ht1 : r1.t.table = r0.t.table := by rw [hrt]
  have hu1 : r1.t.used = r0.t.used := by rw [hrt]
  have hs1 : r1.t.size ≠ 0 := by rw [hsh.size]; exact hS hok0
  have hpath1 : ∀ i, i < d → ∃ k1 v1, r1.t.table (probe r1.t key i) = Slot.entry k1 v1 ∧
      r1.t.key_compare key k1 = false := by
    intro i hi
    rw [hp1, ht1, hsh.key_compare]
    exact hpath i hi
  have hkv1 : r1.t.table (probe r1.t key d) = Slot.entry k v := by
    rw [hp1, ht1]; exact hkv
  have hkc1 : r1.t.key_compare key k = true := by rw [hsh.key_compare]; exact hkc
  have hwalk := ht_search_walk_of_path r1.t key d k v (by rw [hsh.size]; exact hd)
    (fun i hi => by
      obtain ⟨k1, v1, h2, h3⟩ := hpath1 i hi
      rw [h2]
      exact Or.inr ⟨k1, v1, rfl, h3⟩) hkv1 hkc1
  have hidx : probe r1.t key d < r1.t.size := probe_lt hI1 hs1 key d
  have hsearch : ht_search r1.w r1.t key = some ⟨HT_FOUND, probe r1.t key d, r1.t, r1.w⟩ := by
    rw [ht_search_eq_walk r1.w r1.t key hs1, hwalk]
    rfl
  refine ⟨_, hsearch, rfl, rfl, rfl, ⟨d, k, v, rfl, hpath1, hkv1, hkc1⟩, ?_⟩
  show (ht_free r1.w r1.t (probe r1.t key d)).ret = HT_OK ∧
    ∃ r, ht_add (ht_free r1.w r1.t (probe r1.t key d)).w
      (ht_free r1.w r1.t (probe r1.t key d)).t key data = some r ∧
      (r.ret = HT_OK ∨ r.ret = HT_NOMEM) ∧ ht_replace w t key data = some r
  have hIF : Inv (ht_free r1.w r1.t (probe r1.t key d)).t := ht_free_inv _ hI1
  have hshF := ht_free_shape r1.w r1.t (probe r1.t key d)
  have hdrop := (hI1.drop_entry _ hidx (by rw [hkv1]; rfl)).2
  rcases ht_free_spec r1.w r1.t (probe r1.t key d) with
    ⟨hi, _⟩ | ⟨_, hs, _⟩ | ⟨_, k2, v2, hs2, hfe⟩
  · omega
  · rw [hkv1] at hs
    simp [is_entry] at hs
  have hretF : (ht_free r1.w r1.t (probe r1.t key d)).ret = HT_OK := by rw [hfe]
  have htF : ∀ j, (ht_free r1.w r1.t (probe r1.t key d)).t.table j =
      slot_set r1.t.table (probe r1.t key d) Slot.tombstone j := by
    intro j; rw [hfe]
  have huF : (ht_free r1.w r1.t (probe r1.t key d)).t.used + 1 = r1.t.used := by
    rw [hfe]; exact hdrop
  generalize hfr : ht_free r1.w r1.t (probe r1.t key d) = fr at hIF hshF hretF htF huF ⊢
  have hpF : probe fr.t = probe r1.t := probe_congr hshF
  have hsF : fr.t.size ≠ 0 := by rw [hshF.size]; exact hs1
  have hgF : ht_expand_if_needed fr.w fr.t = some ⟨HT_OK, fr.t, fr.w⟩ := by
    unfold ht_expand_if_needed
    have hsz : fr.t.size = r0.t.size := by rw [hshF.size, hsh.size]
    have hlt : fr.t.used * 2 < fr.t.size := by omega
    have hsl := hIF.size_le
    rw [if_neg hsF, u32_lt (by omega), if_neg (by omega)]
  obtain ⟨c2, hwF⟩ := ht_insert_walk_of_path (hIF.cap_of_size hsF) key d
    (by
      intro i hi
      obtain ⟨k1, v1, h2, h3⟩ := hpath1 i hi
      refine ⟨k1, v1, ?_, by rw [hshF.key_compare]; exact h3⟩
      rw [hpF, htF]
      unfold slot_set
      rw [if_neg, h2]
      intro heq
      rw [heq, hkv1] at h2
      simp only [Slot.entry.injEq] at h2
      rw [← h2.1, hkc1] at h3
      simp at h3)
    (by
      rw [hpF, htF]
      unfold slot_set
      rw [if_pos rfl]
      rfl)
  rw [hpF] at hwF
  have hins : ht_insert fr.w fr.t key =
      some ⟨HT_OK, probe r1.t key d, { fr.t with collisions := c2 }, fr.w⟩ := by
    unfold ht_insert
    rw [hgF]
    simp only
    rw [if_neg (by simp), hwF]
    rfl
  refine ⟨hretF, ?_⟩
  have hrep : ∀ r, ht_add fr.w fr.t key data = some r → ht_replace w t key data = some r := by
    intro r hr
    unfold ht_replace
    rw [h1]
    simp only
    rw [if_neg (by rw [hbusy]; simp), hsearch]
    simp only
    rw [if_neg (by simp), hfr, if_neg (by rw [hretF]; simp)]
    exact hr
  unfold ht_add
  rw [hins]
  simp only
  rw [if_neg (by simp)]
  by_cases hm : (malloc fr.w).1 = false
  · rw [if_pos hm]
    exact ⟨_, rfl, Or.inr rfl, hrep _ (by
      unfold ht_add; rw [hins]; simp only; rw [if_neg (by simp), if_pos hm])⟩
  · rw [if_neg hm]
    exact ⟨_, rfl, Or.inl rfl, hrep _ (by
      unfold ht_add; rw [hins]; simp only; rw [if_neg (by simp), if_neg hm])⟩

/-- C30 at the table that holds the key 5, for `ht_replace(t, 5, 9)`. -/
theorem C30_replace_asserts_hold_witness :
    Reach false demo_add1.t ∧ ht_add w0 demo_add1.t 5 9 = some demo_busy1 ∧
    demo_busy1.ret = HT_BUSY ∧
    ∃ s, ht_search demo_busy1.w demo_busy1.t 5 = some s ∧ s.ret = HT_FOUND ∧
      s.t = demo_busy1.t ∧ s.w = demo_busy1.w ∧
      (∃ d k v, s.index = probe demo_busy1.t 5 d ∧
        (∀ i, i < d → ∃ k1 v1, demo_busy1.t.table (probe demo_busy1.t 5 i) = Slot.entry k1 v1 ∧
          demo_busy1.t.key_compare 5 k1 = false) ∧
        demo_busy1.t.table s.index = Slot.entry k v ∧ demo_busy1.t.key_compare 5 k = true) ∧
      (ht_free s.w s.t s.index).ret = HT_OK ∧
      ∃ r, ht_add (ht_free s.w s.t s.index).w (ht_free s.w s.t s.index).t 5 9 = some r ∧
        (r.ret = HT_OK ∨ r.ret = HT_NOMEM) ∧ ht_replace w0 demo_add1.t 5 9 = some r :=
  ⟨demo_add1_reach, demo_busy1_eq, by decide,
    C30_replace_asserts_hold demo_add1.t w0 5 9 demo_busy1 demo_add1_reach demo_busy1_eq
      (by decide)⟩

/-- After `ht_rm` has removed a key that was stored once, a search for it that returns
returns `HT_NOTFOUND`. -/
theorem ht_rm_then_notfound {w : World κ ν} {t : hashtable κ ν} {key : κ} {r : Ret κ ν}
    (h : Inv t) (he : ht_rm w t key = some r) (hok : r.ret = HT_OK)
    (honce : ∀ i j k1 v1 k2 v2, i < t.size → j < t.size → t.table i = Slot.entry k1 v1 →
      t.table j = Slot.entry k2 v2 → t.key_compare key k1 = true →
      t.key_compare key k2 = true → i = j) :
    ∀ w1 s, ht_search w1 r.t key = some s → s.ret = HT_NOTFOUND := by
  intro w1 s hs
  obtain ⟨s0, hs0, hcase⟩ := ht_rm_cases he
  obtain ⟨hI0, -, hU0, hB0, hsame0, hst0, hf0⟩ := ht_search_spec h hs0
  rcases hcase with ⟨hne, hr⟩ | ⟨hfound, hr⟩
  · exfalso
    rw [hr] at hok
    have hok1 : s0.ret = HT_OK := hok
    rcases hst0 with h1 | h1 | h1 <;> rw [h1] at hok1 <;> exact absurd hok1 (by decide)
  · obtain ⟨hi0, k0, v0, hkv0, hc0⟩ := hf0 hfound
    have hsz : t.size ≠ 0 := by
      intro hz
      have hu0 : t.used = 0 := by have := h.used_le; omega
      have hcnt : count_entries s0.t.table s0.t.size = 0 := by rw [← hI0.cnt, hU0, hu0]
      have := count_entries_zero_iff _ _ hcnt _ hi0
      rw [hkv0] at this
      simp [is_entry] at this
    obtain ⟨hst, -⟩ := hsame0 hsz
    rw [hst] at hi0 hkv0 hc0
    have hrt : r.t = (ht_free s0.w t s0.index).t := by rw [hr, hst]
    have hIr : Inv r.t := by rw [hrt]; exact ht_free_inv _ h
    have hshape : SameShape t r.t := by rw [hrt]; exact ht_free_shape _ _ _
    have htab : ∀ j, r.t.table j = slot_set t.table s0.index Slot.tombstone j := by
      intro j
      rw [hrt]
      rcases ht_free_spec s0.w t s0.index with ⟨hi, _⟩ | ⟨_, hs1, _⟩ | ⟨_, k2, v2, _, hfe⟩
      · omega
      · rw [hkv0] at hs1; simp [is_entry] at hs1
      · rw [hfe]
    have hsr : r.t.size ≠ 0 := by rw [hshape.size]; exact hsz
    obtain ⟨-, -, -, -, hsame, hst1, hf1⟩ := ht_search_spec hIr hs
    rcases ht_search_cases hs with ⟨_, hrt1, _, hwk⟩ | ⟨hz, _⟩
    · obtain ⟨d, -, -, hend⟩ := ht_search_walk_spec _ _ _ _ hwk
      rcases hend with ⟨hF, -, -⟩ | ⟨hN, -⟩
      · exfalso
        obtain ⟨hi1, k1, v1, hkv1, hc1⟩ := hf1 hF
        rw [hrt1] at hi1 hkv1 hc1
        rw [htab] at hkv1
        unfold slot_set at hkv1
        by_cases hj : s.index = s0.index
        · rw [if_pos hj] at hkv1
          cases hkv1
        · rw [if_neg hj] at hkv1
          rw [hshape.size] at hi1
          rw [hshape.key_compare] at hc1
          exact hj (honce _ _ _ _ _ _ hi1 hi0 hkv1 hkv0 hc1 hc0)
      · exact hN
    · exact absurd hz hsr

/-- C29 fails on a reachable table. After `ht_add(5, 7)`, `ht_add(406, 8)`, `ht_rm(5)`
and `ht_add(406, 9)`, which returns `HT_OK` on the tombstone of the slot 248, the key
406 is stored in the slots 248 and 249. `ht_rm(t, 406)` returns `HT_OK` and frees the
slot 248; the `ht_search` that follows returns `HT_FOUND`, with the index 249. -/
theorem C29_rm_then_search_eval :
    Reach false demo_add3.t ∧ demo_add3.t.table 248 = Slot.entry 406 9 ∧
    demo_add3.t.table 249 = Slot.entry 406 8 ∧
    (ht_rm w0 demo_add3.t 406).map (fun r => (r.ret, r.t.used, r.t.table 248)) =
      some (HT_OK, 1, Slot.tombstone) ∧
    (ht_search w0 (then_rm demo_add3.t w0 406) 406).map
      (fun r => (r.ret, r.index, r.t.table r.index)) =
      some (HT_FOUND, 249, Slot.entry 406 8) :=
  ⟨Reach.add w0 406 9 demo_rm1_reach demo_add3_eq (fun h => by cases h), by decide, by decide,
    by decide, by decide⟩

/-! ## `ht_move` and `ht_get_array` -/

theorem demo_orig_reach : Reach false demo_orig := then_add_reach (Reach.init _ _) w0 406 1

theorem demo_hidden_reach : Reach false demo_hidden :=
  then_add_reach demo_rm1_reach ⟨[false], []⟩ 573 1

/-- What `ht_move` does when it returns. The slot `index` of `orig` holds an element
`(key, data)`. A status other than `HT_OK` leaves `orig` as it was and `used` of `dest`
unchanged, and `HT_BUSY` is returned only when `dest` holds an element with an equal
key. On `HT_OK` the slot `index` of `orig` is a tombstone, `used` has decreased by 1 in
`orig` and increased by 1 in `dest`, and a search for the key in `dest` finds an element
`(key, data)`, provided the key compares equal to itself. -/
theorem ht_move_facts {w : World κ ν} {orig dest : hashtable κ ν} {index : Nat}
    {r : RetMove κ ν} (ho : Inv orig) (hd : Inv dest)
    (he : ht_move w orig dest index = some r) :
    index < orig.size ∧ ∃ key data, orig.table index = Slot.entry key data ∧
      (r.ret ≠ HT_OK → r.orig = orig ∧ r.dest.used = dest.used) ∧
      (r.ret = HT_BUSY → ∃ j k v, j < r.dest.size ∧ r.dest.table j = Slot.entry k v ∧
        r.dest.key_compare key k = true) ∧
      (r.ret = HT_OK → r.orig.table index = Slot.tombstone ∧ r.orig.used + 1 = orig.used ∧
        r.dest.used = dest.used + 1 ∧
        (dest.key_compare key key = true → ∀ w2, ∃ i,
          ht_search w2 r.dest key = some ⟨HT_FOUND, i, r.dest, w2⟩ ∧
          r.dest.table i = Slot.entry key data)) := by
  obtain ⟨hi, key, data, hs, ri, hins, hcase⟩ := ht_move_cases he
  refine ⟨hi, key, data, hs, ?_⟩
  obtain ⟨hIi, -, hUi, hBi, -⟩ := ht_insert_spec hd hins
  obtain ⟨r0, hg, -, hcase0⟩ := ht_insert_cases hins
  obtain ⟨hI0, -, hU0, hB0, hS0, -, -⟩ := ht_expand_if_needed_spec hd hg
  rcases hcase with ⟨hne, hr⟩ | ⟨hok, hr⟩
  · rw [hr]
    refine ⟨fun _ => ⟨rfl, hUi⟩, ?_, fun hc => absurd hc hne⟩
    intro hb
    have hb1 : ri.ret = HT_BUSY := hb
    rcases hcase0 with ⟨hne0, hr0, -⟩ | ⟨hok0, c, hwk, hrt⟩
    · exfalso
      rw [hr0] at hb1
      rcases (ht_expand_if_needed_spec hd hg).2.2.2.2.2.2 with h1 | h1 | h1 <;>
        rw [h1] at hb1 <;> exact absurd hb1 (by decide)
    · obtain ⟨d, -, -, hend⟩ := ht_insert_walk_spec _ _ _ _ _ hwk
      rcases hend with ⟨h1, -⟩ | ⟨-, k, v, hkv, hc⟩
      · rw [hb1] at h1; exact absurd h1 (by decide)
      · refine ⟨probe r0.t key d, k, v, ?_, ?_, ?_⟩
        · show probe r0.t key d < ri.t.size
          rw [hrt]
          exact probe_lt hI0 (hS0 hok0) key d
        · show ri.t.table (probe r0.t key d) = Slot.entry k v
          rw [hrt]; exact hkv
        · show ri.t.key_compare key k = true
          rw [hrt]; exact hc
  · rw [hr]
    refine ⟨fun hc => absurd rfl hc, fun hc => absurd hc (by simp), fun _ => ?_⟩
    have hdrop := (ho.drop_entry index hi (by rw [hs]; rfl)).2
    refine ⟨?_, hdrop, ?_, ?_⟩
    · show slot_set orig.table index Slot.tombstone index = Slot.tombstone
      unfold slot_set
      rw [if_pos rfl]
    · show inc32 ri.t.used = dest.used + 1
      have h1 := hIi.used_le
      have h2 := hIi.size_le
      rw [inc32_lt (by omega), hUi]
    · intro hrefl w2
      rcases hcase0 with ⟨hne0, hr0, -⟩ | ⟨hok0, c, hwk, hrt⟩
      · exfalso
        rw [hr0] at hok
        exact hne0 hok
      · obtain ⟨d, hdle, hpath, hend⟩ := ht_insert_walk_spec _ _ _ _ _ hwk
        rcases hend with ⟨-, hj, hne⟩ | ⟨h1, -⟩
        · have hwalk := ht_search_walk_after_insert r0.t key data ri.index (inc32 ri.t.used) c d
            hdle hj hne hpath (by rw [hB0.key_compare]; exact hrefl)
          refine ⟨ri.index, ?_, ?_⟩
          · rw [ht_search_eq_walk w2 _ key (by rw [hrt]; exact hS0 hok0)]
            rw [hrt]
            rw [hrt] at hwalk
            rw [hwalk]
            rfl
          · show slot_set ri.t.table ri.index (Slot.entry key data) ri.index = _
            unfold slot_set
            rw [if_pos rfl]
        · rw [hok] at h1; exact absurd h1 (by decide)

/-- C23 fails on two reachable tables. `orig` holds the key 406 in the slot 248; `dest`
holds the key 406 in the slot 249, behind the tombstone of the slot 248, and
`ht_search(dest, 406)` returns `HT_FOUND`. `ht_move(orig, dest, 248)` does not return
`HT_BUSY`: the walk of `ht_insert` stops on the tombstone, the call returns `HT_OK` and
`dest` holds the key 406 twice. -/
theorem C23_move_eval :
    Reach false demo_orig ∧ Reach false demo_rm1.t ∧
    demo_orig.table 248 = Slot.entry 406 1 ∧
    (ht_search w0 demo_rm1.t 406).map (fun r => (r.ret, r.index)) = some (HT_FOUND, 249) ∧
    (ht_move w0 demo_orig demo_rm1.t 248).map
      (fun r => (r.ret, r.dest.used, r.dest.table 248, r.dest.table 249)) =
      some (HT_OK, 2, Slot.entry 406 1, Slot.entry 406 8) :=
  ⟨demo_orig_reach, demo_rm1_reach, by decide, by decide, by decide⟩

/-- In a table that satisfies the probe-chain invariant, the search for a stored key
that compares equal to itself returns `HT_FOUND`, with the index of an element whose key
compares equal. -/
theorem ht_search_finds_stored {t : hashtable κ ν} (h : Inv t) (hc : ChainInv t)
    (j : Nat) (k : κ) (v : ν) (hj : j < t.size) (hjent : t.table j = Slot.entry k v)
    (hrefl : t.key_compare k k = true) (w : World κ ν) :
    ∃ i, ht_search w t k = some ⟨HT_FOUND, i, t, w⟩ ∧ i < t.size ∧
      ∃ k1 v1, t.table i = Slot.entry k1 v1 ∧ t.key_compare k k1 = true := by
  have hs0 : t.size ≠ 0 := by omega
  have hcap := h.cap_of_size hs0
  obtain ⟨d, hdj, hdne⟩ := hc j k v hj hjent
  have hex : ∃ m, ∃ k1 v1, t.table (probe t k m) = Slot.entry k1 v1 ∧
      t.key_compare k k1 = true := ⟨d, k, v, by rw [hdj]; exact hjent, hrefl⟩
  classical
  have hmin : ∀ {m : Nat}, m < Nat.find hex → ¬ ∃ k1 v1,
      t.table (probe t k m) = Slot.entry k1 v1 ∧ t.key_compare k k1 = true :=
    fun hm => Nat.find_min hex hm
  obtain ⟨k1, v1, hkv, hkc⟩ := Nat.find_spec hex
  have hmd : Nat.find hex ≤ d := Nat.find_min' hex ⟨k, v, by rw [hdj]; exact hjent, hrefl⟩
  have hlt : Nat.find hex < t.size := by
    by_contra hge
    have hpos : 0 < t.size := Nat.pos_of_ne_zero hs0
    have hmod : Nat.find hex % t.size < Nat.find hex :=
      lt_of_lt_of_le (Nat.mod_lt _ hpos) (by omega)
    apply hmin hmod
    refine ⟨k1, v1, ?_, hkc⟩
    have hper : probe t k (Nat.find hex % t.size) = probe t k (Nat.find hex) := by
      unfold probe
      rw [hcap.iterate_mod _ (hcap.home_bound k), hcap.iterate_mod _ (hcap.home_bound k),
        Nat.add_mod_mod]
    rw [hper]
    exact hkv
  have hpath : ∀ i, i < Nat.find hex → skips t k (t.table (probe t k i)) := by
    intro i hi
    cases hs : t.table (probe t k i) with
    | empty => exact absurd hs (hdne i (by omega))
    | tombstone => exact Or.inl rfl
    | entry k2 v2 =>
      right
      refine ⟨k2, v2, rfl, ?_⟩
      cases hcc : t.key_compare k k2 with
      | false => rfl
      | true => exact absurd ⟨k2, v2, hs, hcc⟩ (hmin hi)
  have hwalk := ht_search_walk_of_path t k (Nat.find hex) k1 v1 (by omega) hpath hkv hkc
  refine ⟨probe t k (Nat.find hex), ?_, hcap.probe_bound k _, k1, v1, hkv, hkc⟩
  rw [ht_search_eq_walk w t k hs0, hwalk]
  rfl

/-- The snapshot of a table without allocation failure in its history: `ht_get_array`
returns the `used` pairs of the element slots in index order and the table as it was,
and the search for each returned key that compares equal to itself returns `HT_FOUND`. -/
theorem ht_get_array_strict {w : World κ ν} {t : hashtable κ ν} (hreach : Reach true t)
    (hu : t.used < 1073741824) (hm : (malloc w).1 = true) :
    ht_get_array w t = some ⟨some (entry_pairs t), t, (malloc w).2⟩ ∧
    (entry_pairs t).length = t.used ∧
    (∀ p, p ∈ entry_pairs t ↔ ∃ j, j < t.size ∧ t.table j = Slot.entry p.1 p.2) ∧
    ∀ p, p ∈ entry_pairs t → t.key_compare p.1 p.1 = true → ∀ w1, ∃ i,
      ht_search w1 t p.1 = some ⟨HT_FOUND, i, t, w1⟩ := by
  have hI := hreach.inv
  have hmem : ∀ p, p ∈ entry_pairs t ↔ ∃ j, j < t.size ∧ t.table j = Slot.entry p.1 p.2 := by
    intro p
    unfold entry_pairs
    rw [entry_pairs_mem]
    constructor
    · rintro ⟨j, _, h2, h3⟩
      exact ⟨j, by omega, h3⟩
    · rintro ⟨j, h2, h3⟩
      exact ⟨j, by omega, by omega, h3⟩
  refine ⟨(ht_get_array_spec hI hu).2 hm, entry_pairs_length hI, hmem, ?_⟩
  intro p hp hrefl w1
  obtain ⟨j, hj, hjent⟩ := (hmem p).mp hp
  obtain ⟨i, hs, -⟩ := ht_search_finds_stored hI hreach.chain j p.1 p.2 hj hjent hrefl w1
  exact ⟨i, hs⟩

/-- C22 fails on a reachable table. The table holds the key 406 in the slot 249; the slot
248, the home slot of 406, was a tombstone and is `NULL` since an `ht_add` whose
allocation of the element failed. `ht_get_array` returns the `used = 1` pair
`(406, 8)`, but `ht_search` for the returned key 406 returns `HT_NOTFOUND`. -/
theorem C22_snapshot_eval :
    Reach false demo_hidden ∧ demo_hidden.used = 1 ∧
    demo_hidden.table 248 = Slot.empty ∧ demo_hidden.table 249 = Slot.entry 406 8 ∧
    (ht_get_array w0 demo_hidden).map (fun r => r.array) = some (some [(406, 8)]) ∧
    (ht_search w0 demo_hidden 406).map (fun r => r.ret) = some HT_NOTFOUND :=
  ⟨demo_hidden_reach, by decide, by decide, by decide, by decide!, by decide⟩

/-! ## The occurrence counters of `visitors.c` -/

/-- The rehash loop stores no key twice when the old table holds no key twice. -/
theorem ht_expand_loop_once (t : hashtable κ ν) (ht : KeysOnce t) :
    ∀ fuel i used n r, i + fuel = t.size →
      (∀ a b k v1 v2, n.table a = Slot.entry k v1 → n.table b = Slot.entry k v2 → a = b) →
      (∀ a k v, n.table a = Slot.entry k v → ∃ i1 v1, i1 < i ∧ t.table i1 = Slot.entry k v1) →
      ht_expand_loop t fuel i used n = some r →
      ∀ a b k v1 v2, r.2.table a = Slot.entry k v1 → r.2.table b = Slot.entry k v2 → a = b := by
  intro fuel
  induction fuel with
  | zero =>
    intro i used n r _ hn _ hl
    simp only [ht_expand_loop, Option.some.injEq] at hl
    rw [← hl]; exact hn
  | succ fuel ih =>
    intro i used n r hi hn hprov hl
    unfold ht_expand_loop at hl
    by_cases hu : used = 0
    · rw [if_pos hu] at hl
      simp only [Option.some.injEq] at hl
      rw [← hl]; exact hn
    · rw [if_neg hu] at hl
      have hweak : ∀ a k v, n.table a = Slot.entry k v →
          ∃ i1 v1, i1 < i + 1 ∧ t.table i1 = Slot.entry k v1 := by
        intro a k v ha
        obtain ⟨i1, v1, h1, h2⟩ := hprov a k v ha
        exact ⟨i1, v1, by omega, h2⟩
      cases hs : t.table i with
      | empty => rw [hs] at hl; exact ih _ _ _ _ (by omega) hn hweak hl
      | tombstone => rw [hs] at hl; exact ih _ _ _ _ (by omega) hn hweak hl
      | entry key data =>
        rw [hs] at hl
        simp only at hl
        cases hq : ht_expand_place n key data with
        | none => rw [hq] at hl; simp at hl
        | some n1 =>
          rw [hq] at hl
          obtain ⟨j, c, d, hn1, hje, -, -, -⟩ := ht_expand_place_spec n key data n1 hq
          have htab : ∀ a, n1.table a = slot_set n.table j (Slot.entry key data) a := by
            intro a; rw [hn1]
          have hfresh : ∀ b v2, n.table b ≠ Slot.entry key v2 := by
            intro b v2 hb
            obtain ⟨i1, v1, h1, h2⟩ := hprov b key v2 hb
            have := ht i1 i key v1 data (by omega) (by omega) h2 hs
            omega
          refine ih _ _ _ _ (by omega) ?_ ?_ hl
          · intro a b k v1 v2 ha hb
            rw [htab] at ha hb
            unfold slot_set at ha hb
            by_cases haj : a = j
            · by_cases hbj : b = j
              · rw [haj, hbj]
              · rw [if_pos haj] at ha
                rw [if_neg hbj] at hb
                simp only [Slot.entry.injEq] at ha
                rw [← ha.1] at hb
                exact absurd hb (hfresh b v2)
            · by_cases hbj : b = j
              · rw [if_neg haj] at ha
                rw [if_pos hbj] at hb
                simp only [Slot.entry.injEq] at hb
                rw [← hb.1] at ha
                exact absurd ha (hfresh a v1)
              · rw [if_neg haj] at ha
                rw [if_neg hbj] at hb
                exact hn a b k v1 v2 ha hb
          · intro a k v ha
            rw [htab] at ha
            unfold slot_set at ha
            by_cases haj : a = j
            · rw [if_pos haj] at ha
              simp only [Slot.entry.injEq] at ha
              exact ⟨i, data, by omega, by rw [← ha.1]; exact hs⟩
            · rw [if_neg haj] at ha
              exact hweak a k v ha

/-- `ht_expand` keeps the property that no key is held twice. -/
theorem ht_expand_once {w : World κ ν} {t : hashtable κ ν} {n : Nat} {r : Ret κ ν}
    (ht : KeysOnce t) (he : ht_expand w t n = some r) : KeysOnce r.t := by
  unfold ht_expand at he
  simp only at he
  by_cases h1 : n ≤ t.used
  · rw [if_pos h1] at he
    simp only [Option.some.injEq] at he
    rw [← he]; exact ht
  · rw [if_neg h1] at he
    by_cases h2 : (malloc w).1 = false
    · rw [if_pos h2] at he
      simp only [Option.some.injEq] at he
      rw [← he]; exact ht
    · rw [if_neg h2] at he
      cases hl : ht_expand_loop t t.size 0 t.used
          { table := fun _ => Slot.empty, size := next_power (u32 n),
            sizemask := dec32 (next_power (u32 n)), used := t.used, collisions := 0,
            hashf := t.hashf, key_compare := t.key_compare,
            key_destructor := t.key_destructor, val_destructor := t.val_destructor } with
      | none => rw [hl] at he; cases he
      | some p =>
        rw [hl] at he
        simp only at he
        split at he
        · simp only [Option.some.injEq] at he
          rw [← he]
          have := ht_expand_loop_once t ht t.size 0 t.used _ p (by omega)
            (fun a b k v1 v2 ha _ => by cases ha) (fun a k v ha => by cases ha) hl
          intro i j k v1 v2 _ _ hi hj
          exact this i j k v1 v2 hi hj
        · cases he

theorem growth_once {w : World κ ν} {t : hashtable κ ν} {r0 : Ret κ ν} (ht : KeysOnce t)
    (hg : ht_expand_if_needed w t = some r0) : KeysOnce r0.t := by
  rcases ht_expand_if_needed_cases hg with ⟨_, _, hr⟩ | ⟨_, hx⟩ | ⟨_, _, hx⟩
  · rw [hr]; exact ht
  · exact ht_expand_once ht hx
  · exact ht_expand_once ht hx

/-- The growth check leaves no tombstone in a table that had none. -/
theorem growth_notomb {w : World κ ν} {t : hashtable κ ν} {r0 : Ret κ ν} (h : Inv t)
    (hnt : ∀ j, t.table j ≠ Slot.tombstone) (hg : ht_expand_if_needed w t = some r0) :
    ∀ j, r0.t.table j ≠ Slot.tombstone := by
  have key : ∀ n, ht_expand w t n = some r0 → ∀ j, r0.t.table j ≠ Slot.tombstone := by
    intro n hx
    by_cases hok : r0.ret = HT_OK
    · exact (ht_expand_ok_facts h hx hok).1
    · rcases ht_expand_spec (le_trans h.used_le h.size_le) hx with
        ⟨_, _, h3, _⟩ | ⟨_, _, _, h3, _⟩ | ⟨h1, _⟩
      · rw [h3]; exact hnt
      · rw [h3]; exact hnt
      · exact absurd h1 hok
  rcases ht_expand_if_needed_cases hg with ⟨_, _, hr⟩ | ⟨_, hx⟩ | ⟨_, _, hx⟩
  · rw [hr]; exact hnt
  · exact key _ hx
  · exact key _ hx

/-- The growth check keeps the stored elements. -/
theorem growth_entries {w : World κ ν} {t : hashtable κ ν} {r0 : Ret κ ν} (h : Inv t)
    (hg : ht_expand_if_needed w t = some r0) (k : κ) (v : ν) :
    (∃ j, j < r0.t.size ∧ r0.t.table j = Slot.entry k v) ↔
      (∃ j, j < t.size ∧ t.table j = Slot.entry k v) := by
  have key : ∀ n, ht_expand w t n = some r0 →
      ((∃ j, j < r0.t.size ∧ r0.t.table j = Slot.entry k v) ↔
        (∃ j, j < t.size ∧ t.table j = Slot.entry k v)) := by
    intro n hx
    by_cases hok : r0.ret = HT_OK
    · obtain ⟨-, hsub, hsup⟩ := ht_expand_ok_facts h hx hok
      exact ⟨fun ⟨j, _, hj⟩ => hsub j k v hj, fun ⟨j, h1, hj⟩ => hsup j k v h1 hj⟩
    · rcases ht_expand_spec (le_trans h.used_le h.size_le) hx with
        ⟨_, _, h3, _⟩ | ⟨_, _, _, h3, _⟩ | ⟨h1, _⟩
      · rw [h3]
      · rw [h3]
      · exact absurd h1 hok
  rcases ht_expand_if_needed_cases hg with ⟨_, _, hr⟩ | ⟨_, hx⟩ | ⟨_, _, hx⟩
  · rw [hr]
  · exact key _ hx
  · exact key _ hx

/-- The insertion of a key that compares equal to no stored key, with every allocation
succeeding and the size below 2^31, returns `HT_OK`. -/
theorem ht_add_absent {w : World κ ν} {t : hashtable κ ν} (hI : Inv t)
    (hult : t.used < 2147483648) (hw : w.mallocs = []) (hsz : t.size < 2147483648)
    (key : κ) (data : ν)
    (habs : ∀ j k v, j < t.size → t.table j = Slot.entry k v → t.key_compare key k = false) :
    ∃ r, ht_add w t key data = some r ∧ r.ret = HT_OK ∧ r.w = w := by
  obtain ⟨r0, hg, hok, hrw, -⟩ := growth_returns hI hw hsz
  obtain ⟨hI0, -, -, hB, -⟩ := ht_expand_if_needed_spec hI hg
  obtain ⟨-, hroom, -⟩ := growth_ok_room hI hult hg hok
  have hs0 : r0.t.size ≠ 0 := by omega
  have hcap := hI0.cap_of_size hs0
  have hfree : ∃ j, j < r0.t.size ∧ is_entry (r0.t.table j) = false :=
    exists_not_entry_of_count_lt _ _ (by rw [← hI0.cnt]; exact hroom)
  obtain ⟨⟨ret, idx, c⟩, hwk⟩ := ht_insert_walk_returns hcap key hfree
  obtain ⟨d, -, -, hend⟩ := ht_insert_walk_spec r0.t key ret idx c hwk
  have hret : ret = HT_OK := by
    rcases hend with ⟨hret, -, -⟩ | ⟨-, k1, v1, hkv, hc⟩
    · exact hret
    · exfalso
      obtain ⟨i, hi, hti⟩ := (growth_entries hI hg k1 v1).mp ⟨_, hcap.probe_bound key d, hkv⟩
      rw [hB.key_compare, habs i k1 v1 hi hti] at hc
      simp at hc
  have hins : ht_insert w t key = some ⟨ret, idx, { r0.t with collisions := c }, r0.w⟩ := by
    unfold ht_insert
    rw [hg]
    simp only
    rw [if_neg (by rw [hok]; simp), hwk]
    rfl
  have hm : malloc r0.w = (true, w) := by rw [hrw]; exact malloc_nil hw
  have hadd : ht_add w t key data = some ⟨HT_OK,
      { r0.t with collisions := c, table := slot_set r0.t.table idx (Slot.entry key data),
                  used := inc32 r0.t.used }, w⟩ := by
    unfold ht_add
    rw [hins]
    simp only
    rw [if_neg (by rw [hret]; simp), hm]
    simp
  exact ⟨_, hadd, rfl, rfl⟩

/-- The growth check keeps a table of counters and its counters. -/
theorem counter_growth {w : World (List Nat) Nat} {t : hashtable (List Nat) Nat}
    {r0 : Ret (List Nat) Nat} (h : CounterInv t) (hsz : t.size < 2147483648)
    (hg : ht_expand_if_needed w t = some r0) (hok : r0.ret = HT_OK) :
    CounterInv r0.t ∧ r0.t.size ≠ 0 ∧ r0.t.used = t.used ∧
      ∀ f, Counts t f → Counts r0.t f := by
  have hI := h.inv
  have hul := hI.used_le
  obtain ⟨hI0, hC0, hU0, hB0, hS0, -, -⟩ := ht_expand_if_needed_spec hI hg
  have hgs := growth_size hI hsz hg hok
  refine ⟨⟨hI0, hC0 h.chain, growth_notomb hI h.notomb hg, by rw [hB0.key_compare, h.cmp],
    growth_once h.once hg, Or.inl (growth_ok_load hI (by omega) hg hok), ?_⟩, hS0 hok, hU0, ?_⟩
  · rw [hgs, hU0]
    by_cases h0 : t.size = 0
    · rw [if_pos h0]; exact Or.inl (le_refl _)
    · rw [if_neg h0]
      by_cases hle : t.size ≤ 2 * t.used
      · rw [if_pos hle]; right; omega
      · rw [if_neg hle]; exact h.bound
  · intro f hf k v
    rw [growth_entries hI hg k v]
    exact hf k v

theorem compare_string_iff (a b : List Nat) : ht_compare_string a b = true ↔ a = b := by
  unfold ht_compare_string
  exact beq_iff_eq

theorem CounterInv.size_lt {t : hashtable (List Nat) Nat} (h : CounterInv t)
    (hu : t.used < 536870912) : t.size < 2147483648 := by
  rcases h.bound with hb | hb <;> omega

/-- The walk of `ht_search` on a table of counters: a key without counter is not found,
a key with a counter is found in the slot that holds it. -/
theorem counter_walk {t : hashtable (List Nat) Nat} (h : CounterInv t) (h0 : t.size ≠ 0)
    {f : List Nat → Nat} (hf : Counts t f) (key : List Nat) :
    (f key = 0 → ∃ i, ht_search_walk t key = some (HT_NOTFOUND, i)) ∧
    (f key ≠ 0 → ∃ i, ht_search_walk t key = some (HT_FOUND, i) ∧ i < t.size ∧
      t.table i = Slot.entry key (f key)) := by
  have hI := h.inv
  have hcap := hI.cap_of_size h0
  constructor
  · intro hz
    have hlt : t.used < t.size := by
      have := hcap.size_ge
      rcases h.load with hl | hl <;> omega
    obtain ⟨j, hj, hje⟩ :=
      exists_not_entry_of_count_lt t.table t.size (by rw [← hI.cnt]; exact hlt)
    have hjempty : t.table j = Slot.empty := by
      cases hs : t.table j with
      | empty => rfl
      | tombstone => exact absurd hs (h.notomb j)
      | entry k v => rw [hs] at hje; simp [is_entry] at hje
    obtain ⟨⟨ret, i⟩, hw⟩ := ht_search_walk_returns hcap key ⟨j, hj, hjempty⟩
    obtain ⟨d, -, -, hend⟩ := ht_search_walk_spec t key ret i hw
    rcases hend with ⟨-, hi, k, v, hkv, hc⟩ | ⟨hN, -⟩
    · exfalso
      rw [h.cmp, compare_string_iff] at hc
      have := (hf k v).mp ⟨i, by rw [hi]; exact hcap.probe_bound key d, hkv⟩
      rw [← hc, hz] at this
      exact this.2 this.1.symm
    · exact ⟨i, by rw [hw, hN]⟩
  · intro hnz
    obtain ⟨j, hj, hje⟩ := (hf key (f key)).mpr ⟨rfl, hnz⟩
    obtain ⟨i, hs, hi, k1, v1, hkv, hc⟩ := ht_search_finds_stored hI h.chain j key (f key) hj hje
      (by rw [h.cmp, compare_string_iff]) ⟨[], []⟩
    rw [h.cmp, compare_string_iff] at hc
    rw [← hc] at hkv
    have hv := ((hf key v1).mp ⟨i, hi, hkv⟩).1
    rw [ht_search_eq_walk _ t key h0] at hs
    cases hw : ht_search_walk t key with
    | none => rw [hw] at hs; simp at hs
    | some p =>
      rw [hw] at hs
      simp only [Option.map_some', Option.some.injEq, RetIdx.mk.injEq, and_true] at hs
      refine ⟨i, ?_, hi, by rw [hv]; exact hkv⟩
      rw [← hs.1, ← hs.2]

/-- The search of `ht_search` on a table of counters, with every allocation succeeding:
it returns, leaves a table of counters with a slot array and the same counters, and
finds exactly the keys that have a counter. -/
theorem counter_search {t : hashtable (List Nat) Nat} (h : CounterInv t)
    (hsz : t.size < 2147483648) {f : List Nat → Nat} (hf : Counts t f)
    {w : World (List Nat) Nat} (hw : w.mallocs = []) (key : List Nat) :
    ∃ s, ht_search w t key = some s ∧ s.w = w ∧ CounterInv s.t ∧ Counts s.t f ∧
      s.t.size ≠ 0 ∧ s.t.used = t.used ∧ s.t.size < 2147483648 ∧ (t.size ≠ 0 → s.t = t) ∧
      (f key = 0 → s.ret = HT_NOTFOUND) ∧
      (f key ≠ 0 → s.ret = HT_FOUND ∧ s.index < s.t.size ∧
        s.t.table s.index = Slot.entry key (f key)) := by
  by_cases h0 : t.size = 0
  · obtain ⟨r0, hg, hok, hrw, -⟩ := growth_returns h.inv hw hsz
    obtain ⟨hC0, hs0, hU0, hF0⟩ := counter_growth h hsz hg hok
    have hsz0 : r0.t.size < 2147483648 := by
      rw [growth_size h.inv hsz hg hok, if_pos h0]; omega
    obtain ⟨hA, hB⟩ := counter_walk hC0 hs0 (hF0 f hf) key
    have hsearch : ht_search w t key =
        (ht_search_walk r0.t key).map fun p => ⟨p.1, p.2, r0.t, r0.w⟩ := by
      unfold ht_search
      rw [if_pos h0, hg]
      simp only
      rw [if_neg (by rw [hok]; simp)]
    by_cases hz : f key = 0
    · obtain ⟨i, hi⟩ := hA hz
      refine ⟨⟨HT_NOTFOUND, i, r0.t, r0.w⟩, by rw [hsearch, hi]; rfl, hrw, hC0, hF0 f hf, hs0,
        hU0, hsz0, fun hc => absurd h0 hc, fun _ => rfl, fun hc => absurd hz hc⟩
    · obtain ⟨i, hi, hlt, hent⟩ := hB hz
      refine ⟨⟨HT_FOUND, i, r0.t, r0.w⟩, by rw [hsearch, hi]; rfl, hrw, hC0, hF0 f hf, hs0,
        hU0, hsz0, fun hc => absurd h0 hc, fun hc => absurd hc hz, fun _ => ⟨rfl, hlt, hent⟩⟩
  · obtain ⟨hA, hB⟩ := counter_walk h h0 hf key
    by_cases hz : f key = 0
    · obtain ⟨i, hi⟩ := hA hz
      refine ⟨⟨HT_NOTFOUND, i, t, w⟩, by rw [ht_search_eq_walk w t key h0, hi]; rfl, rfl, h, hf,
        h0, rfl, hsz, fun _ => rfl, fun _ => rfl, fun hc => absurd hz hc⟩
    · obtain ⟨i, hi, hlt, hent⟩ := hB hz
      refine ⟨⟨HT_FOUND, i, t, w⟩, by rw [ht_search_eq_walk w t key h0, hi]; rfl, rfl, h, hf,
        h0, rfl, hsz, fun _ => rfl, fun hc => absurd hc hz, fun _ => ⟨rfl, hlt, hent⟩⟩

/-- Changing the value of the element that holds a key keeps a table of counters, and
changes the counter of that key only. -/
theorem counter_bump {t : hashtable (List Nat) Nat} (h : CounterInv t)
    {f : List Nat → Nat} (hf : Counts t f) (key : List Nat) (i v1 : Nat) (hi : i < t.size)
    (hent : t.table i = Slot.entry key (f key)) (hv1 : v1 ≠ 0) :
    CounterInv { t with table := slot_set t.table i (Slot.entry key v1) } ∧
    Counts { t with table := slot_set t.table i (Slot.entry key v1) }
      (Function.update f key v1) := by
  have hI := h.inv
  have hcs := count_entries_set_lt t.table i (Slot.entry key v1) t.size hi
  rw [hent] at hcs
  simp only [is_entry, if_true] at hcs
  have hget : ∀ j, slot_set t.table i (Slot.entry key v1) j =
      if j = i then Slot.entry key v1 else t.table j := fun j => rfl
  refine ⟨⟨⟨hI.cap, ?_⟩, ?_, ?_, h.cmp, ?_, h.load, h.bound⟩, ?_⟩
  · show t.used = count_entries (slot_set t.table i (Slot.entry key v1)) t.size
    rw [hI.cnt]
    omega
  · refine @ChainInv.update _ _ t _ ⟨rfl, rfl, rfl, rfl, rfl, rfl⟩ h.chain ?_ ?_
    · intro x hx
      show slot_set t.table i (Slot.entry key v1) x ≠ Slot.empty
      rw [hget]
      by_cases hxi : x = i
      · rw [if_pos hxi]; simp
      · rw [if_neg hxi]; exact hx
    · intro j k v hj hjk
      have hjk1 : slot_set t.table i (Slot.entry key v1) j = Slot.entry k v := hjk
      rw [hget] at hjk1
      by_cases hji : j = i
      · rw [if_pos hji] at hjk1
        simp only [Slot.entry.injEq] at hjk1
        right
        rw [← hjk1.1, hji]
        exact h.chain i key (f key) hi hent
      · rw [if_neg hji] at hjk1
        exact Or.inl hjk1
  · intro j
    show slot_set t.table i (Slot.entry key v1) j ≠ Slot.tombstone
    rw [hget]
    by_cases hji : j = i
    · rw [if_pos hji]; simp
    · rw [if_neg hji]; exact h.notomb j
  · intro a b k x1 x2 ha hb hak hbk
    have hak1 : slot_set t.table i (Slot.entry key v1) a = Slot.entry k x1 := hak
    have hbk1 : slot_set t.table i (Slot.entry key v1) b = Slot.entry k x2 := hbk
    rw [hget] at hak1 hbk1
    by_cases hai : a = i
    · by_cases hbi : b = i
      · rw [hai, hbi]
      · rw [if_pos hai] at hak1
        rw [if_neg hbi] at hbk1
        simp only [Slot.entry.injEq] at hak1
        rw [← hak1.1] at hbk1
        rw [hai]
        exact h.once i b key _ _ hi hb hent hbk1
    · by_cases hbi : b = i
      · rw [if_neg hai] at hak1
        rw [if_pos hbi] at hbk1
        simp only [Slot.entry.injEq] at hbk1
        rw [← hbk1.1] at hak1
        rw [hbi]
        exact h.once a i key _ _ ha hi hak1 hent
      · rw [if_neg hai] at hak1
        rw [if_neg hbi] at hbk1
        exact h.once a b k _ _ ha hb hak1 hbk1
  · intro k v
    show (∃ j, j < t.size ∧ slot_set t.table i (Slot.entry key v1) j = Slot.entry k v) ↔ _
    by_cases hk : k = key
    · rw [hk, Function.update_same]
      constructor
      · rintro ⟨j, hj, hjk⟩
        rw [hget] at hjk
        by_cases hji : j = i
        · rw [if_pos hji] at hjk
          simp only [Slot.entry.injEq, true_and] at hjk
          exact ⟨hjk, by rw [← hjk]; exact hv1⟩
        · rw [if_neg hji] at hjk
          exact absurd (h.once j i key _ _ hj hi hjk hent) hji
      · rintro ⟨hv, -⟩
        exact ⟨i, hi, by rw [hget, if_pos rfl, hv]⟩
    · rw [Function.update_noteq hk]
      rw [← hf k v]
      constructor
      · rintro ⟨j, hj, hjk⟩
        rw [hget] at hjk
        by_cases hji : j = i
        · rw [if_pos hji] at hjk
          simp only [Slot.entry.injEq] at hjk
          exact absurd hjk.1.symm hk
        · rw [if_neg hji] at hjk
          exact ⟨j, hj, hjk⟩
      · rintro ⟨j, hj, hjk⟩
        refine ⟨j, hj, ?_⟩
        rw [hget]
        by_cases hji : j = i
        · rw [hji, hent] at hjk
          simp only [Slot.entry.injEq] at hjk
          exact absurd hjk.1.symm hk
        · rw [if_neg hji]; exact hjk

/-- The insertion of a key without counter, with every allocation succeeding: `ht_add`
returns `HT_OK` and leaves a table of counters in which the key has the value added. -/
theorem counter_insert {t : hashtable (List Nat) Nat} (h : CounterInv t)
    (hsz : t.size < 2147483648) {f : List Nat → Nat} (hf : Counts t f)
    {w : World (List Nat) Nat} (hw : w.mallocs = []) (key : List Nat) (hz : f key = 0)
    (v1 : Nat) (hv1 : v1 ≠ 0) :
    ∃ r, ht_add w t key v1 = some r ∧ r.ret = HT_OK ∧ r.w = w ∧ CounterInv r.t ∧
      Counts r.t (Function.update f key v1) ∧ r.t.used = t.used + 1 := by
  have hI := h.inv
  have hul := hI.used_le
  have habs : ∀ j k v, j < t.size → t.table j = Slot.entry k v →
      t.key_compare key k = false := by
    intro j k v hj hjk
    cases hc : t.key_compare key k with
    | false => rfl
    | true =>
      exfalso
      rw [h.cmp, compare_string_iff] at hc
      have := (hf k v).mp ⟨j, hj, hjk⟩
      rw [← hc, hz] at this
      exact this.2 this.1.symm
  obtain ⟨r, he, hok, hrw⟩ := ht_add_absent hI (by omega) hw hsz key v1 habs
  obtain ⟨r0, j, c, d, hg, hg0, hrt, -, -, hjlt, hne, -, -, -⟩ := ht_add_ok hI he hok
  obtain ⟨hC0, hs0, hU0, hF0⟩ := counter_growth h hsz hg hg0
  have hF := hF0 f hf
  have hnokey : ∀ a v, a < r0.t.size → r0.t.table a ≠ Slot.entry key v := by
    intro a v ha hav
    have := (hF key v).mp ⟨a, ha, hav⟩
    rw [hz] at this
    exact this.2 this.1.symm
  have hget : ∀ a, r.t.table a =
      if a = j then Slot.entry key v1 else r0.t.table a := by
    intro a; rw [hrt]; rfl
  have hsize : r.t.size = r0.t.size := by rw [hrt]
  have hused : r.t.used = r0.t.used + 1 := by
    rw [hrt]
    show inc32 r0.t.used = r0.t.used + 1
    have h1 := hC0.inv.used_le
    have h2 := hC0.inv.size_le
    exact inc32_lt (by omega)
  have hroom : t.size = 0 ∨ t.used < t.size := by
    by_cases h0 : t.size = 0
    · exact Or.inl h0
    · have := (hI.size_pos h0).1
      rcases h.load with hl | hl
      · right; omega
      · exact absurd hl h0
  refine ⟨r, he, hok, hrw, ⟨ht_add_inv hI he, ht_add_chain hI h.chain he (by rw [hok]; decide),
    ?_, by rw [hrt]; exact hC0.cmp, ?_,
    Or.inl (by have := load_after_add_of_room hI hroom he hok; omega), ?_⟩, ?_,
    by rw [hused, hU0]⟩
  · intro a
    rw [hget]
    by_cases haj : a = j
    · rw [if_pos haj]; simp
    · rw [if_neg haj]; exact hC0.notomb a
  · intro a b k x1 x2 ha hb hak hbk
    rw [hsize] at ha hb
    rw [hget] at hak hbk
    by_cases haj : a = j
    · by_cases hbj : b = j
      · rw [haj, hbj]
      · rw [if_pos haj] at hak
        rw [if_neg hbj] at hbk
        simp only [Slot.entry.injEq] at hak
        rw [← hak.1] at hbk
        exact absurd hbk (hnokey b x2 hb)
    · by_cases hbj : b = j
      · rw [if_neg haj] at hak
        rw [if_pos hbj] at hbk
        simp only [Slot.entry.injEq] at hbk
        rw [← hbk.1] at hak
        exact absurd hak (hnokey a x1 ha)
      · rw [if_neg haj] at hak
        rw [if_neg hbj] at hbk
        exact hC0.once a b k _ _ ha hb hak hbk
  · rw [hsize, hused]
    rcases hC0.bound with hb | hb
    · exact Or.inl hb
    · right; omega
  · intro k v
    rw [hsize]
    by_cases hk : k = key
    · rw [hk, Function.update_same]
      constructor
      · rintro ⟨a, ha, hak⟩
        rw [hget] at hak
        by_cases haj : a = j
        · rw [if_pos haj] at hak
          simp only [Slot.entry.injEq, true_and] at hak
          exact ⟨hak, by rw [← hak]; exact hv1⟩
        · rw [if_neg haj] at hak
          exact absurd hak (hnokey a v ha)
      · rintro ⟨hv, -⟩
        exact ⟨j, hjlt, by rw [hget, if_pos rfl, hv]⟩
    · rw [Function.update_noteq hk, ← hF k v]
      constructor
      · rintro ⟨a, ha, hak⟩
        rw [hget] at hak
        by_cases haj : a = j
        · rw [if_pos haj] at hak
          simp only [Slot.entry.injEq] at hak
          exact absurd hak.1.symm hk
        · rw [if_neg haj] at hak
          exact ⟨a, ha, hak⟩
      · rintro ⟨a, ha, hak⟩
        refine ⟨a, ha, ?_⟩
        rw [hget]
        by_cases haj : a = j
        · rw [haj] at hak
          rw [hak] at hne
          simp [is_entry] at hne
        · rw [if_neg haj]; exact hak

theorem int_of_long_small {v : Nat} (h : v < 2147483648) : int_of_long v = (v : Int) := by
  unfold int_of_long
  have hm : v % 4294967296 = v := Nat.mod_eq_of_lt (by omega)
  rw [hm, if_pos h]

theorem Counts.stored_size {t : hashtable (List Nat) Nat} {f : List Nat → Nat}
    (hf : Counts t f) {key : List Nat} (hnz : f key ≠ 0) : t.size ≠ 0 := by
  obtain ⟨j, hj, -⟩ := (hf key (f key)).mpr ⟨rfl, hnz⟩
  omega

/-- One call of `vi_counter_incr` on a table of counters, with every allocation
succeeding, the size below 2^31 and the counter of the key below `LONG_MAX`: the call
returns the new counter converted to `int`, and leaves a table of counters in which the
counter of the key has grown by one and the other counters are as before. -/
theorem vi_counter_incr_spec {t : hashtable (List Nat) Nat} (h : CounterInv t)
    (hsz : t.size < 2147483648) {f : List Nat → Nat} (hf : Counts t f)
    {w : World (List Nat) Nat} (hw : w.mallocs = []) (key : List Nat)
    (hv : f key + 1 < 9223372036854775808) :
    ∃ r, vi_counter_incr w t key = some r ∧ r.w = w ∧ r.ret = int_of_long (f key + 1) ∧
      CounterInv r.t ∧ Counts r.t (Function.update f key (f key + 1)) ∧
      r.t.used ≤ t.used + 1 ∧ (f key ≠ 0 → r.t.size = t.size ∧ r.t.used = t.used) := by
  obtain ⟨s, hs, hsw, hCs, hFs, hs0, hUs, hszs, hsame, hN, hF⟩ := counter_search h hsz hf hw key
  have hm : malloc s.w = (true, w) := by rw [hsw]; exact malloc_nil hw
  by_cases hz : f key = 0
  · obtain ⟨r, he, hok, hrw, hCr, hFr, hUr⟩ := counter_insert hCs hszs hFs hw key hz 1 (by decide)
    refine ⟨⟨1, r.t, r.w⟩, ?_, hrw, by rw [hz]; rfl, hCr, by rw [hz]; exact hFr,
      by rw [hUr, hUs], fun hc => absurd hz hc⟩
    unfold vi_counter_incr
    rw [hs]
    simp only
    rw [if_pos (hN hz), hm]
    simp only
    rw [if_neg (by simp), he]
    simp only
    rw [if_neg (by rw [hok]; simp)]
  · obtain ⟨hret, hidx, hent⟩ := hF hz
    have hst : s.t = t := hsame (hf.stored_size hz)
    obtain ⟨hCb, hFb⟩ := counter_bump hCs hFs key s.index (f key + 1) hidx hent (by omega)
    have hm1 : f key % 18446744073709551616 = f key := Nat.mod_eq_of_lt (by omega)
    have hm2 : (f key + 1) % 18446744073709551616 = f key + 1 := Nat.mod_eq_of_lt (by omega)
    refine ⟨⟨int_of_long (f key + 1),
      { s.t with table := slot_set s.t.table s.index (Slot.entry key (f key + 1)) }, s.w⟩,
      ?_, hsw, rfl, hCb, hFb, ?_, fun _ => ⟨?_, ?_⟩⟩
    · unfold vi_counter_incr
      rw [hs]
      simp only
      rw [if_neg (by rw [hret]; simp), if_neg (by rw [hret]; simp), hent]
      simp only
      rw [hm1, hm2, if_neg (by omega)]
    · show s.t.used ≤ t.used + 1
      omega
    · show s.t.size = t.size
      rw [hst]
    · show s.t.used = t.used
      rw [hst]

/-- One call of `vi_counter_val` on a table of counters, with every allocation
succeeding and the size below 2^31: the call returns the counter of the key, converted
to `int`, 0 for a key without counter, and keeps the counters. -/
theorem vi_counter_val_spec {t : hashtable (List Nat) Nat} (h : CounterInv t)
    (hsz : t.size < 2147483648) {f : List Nat → Nat} (hf : Counts t f)
    {w : World (List Nat) Nat} (hw : w.mallocs = []) (key : List Nat) :
    ∃ r, vi_counter_val w t key = some r ∧ r.w = w ∧ r.ret = int_of_long (f key) ∧
      CounterInv r.t ∧ Counts r.t f ∧ r.t.used = t.used := by
  obtain ⟨s, hs, hsw, hCs, hFs, hs0, hUs, hszs, hsame, hN, hF⟩ := counter_search h hsz hf hw key
  by_cases hz : f key = 0
  · refine ⟨⟨0, s.t, s.w⟩, ?_, hsw, by rw [hz]; rfl, hCs, hFs, hUs⟩
    unfold vi_counter_val
    rw [hs]
    simp only
    rw [if_pos (hN hz)]
  · obtain ⟨hret, hidx, hent⟩ := hF hz
    refine ⟨⟨int_of_long (f key), s.t, s.w⟩, ?_, hsw, rfl, hCs, hFs, hUs⟩
    unfold vi_counter_val
    rw [hs]
    simp only
    rw [if_neg (by rw [hret]; simp), if_neg (by rw [hret]; simp), hent]

theorem Counts.congr {t : hashtable (List Nat) Nat} {f g : List Nat → Nat} (hf : Counts t f)
    (hfg : ∀ k, f k = g k) : Counts t g := by
  intro k v
  rw [← hfg k]
  exact hf k v

/-- The table left by `vi_ht_init` is a table of counters without counter. -/
theorem vi_ht_init_counts (seed : Nat) (ptr : List Nat → Nat) :
    CounterInv (vi_ht_init seed ptr) ∧ Counts (vi_ht_init seed ptr) (fun _ => 0) ∧
    (vi_ht_init seed ptr).used = 0 ∧ (vi_ht_init seed ptr).size = 0 := by
  refine ⟨⟨⟨Or.inl ⟨rfl, rfl⟩, rfl⟩, ?_, ?_, rfl, ?_, Or.inr rfl,
    Or.inl (by show (0 : Nat) ≤ 256; omega)⟩, ?_,
    rfl, rfl⟩
  · intro j k v hj _
    exact absurd hj (by show ¬ j < 0; omega)
  · intro j hj
    cases hj
  · intro i j k v1 v2 hi
    exact absurd hi (by show ¬ i < 0; omega)
  · intro k v
    constructor
    · rintro ⟨j, hj, -⟩
      exact absurd hj (by show ¬ j < 0; omega)
    · rintro ⟨h1, h2⟩
      exact absurd h1.symm h2

/-- A sequence of `vi_counter_incr` calls on a table of counters, with every allocation
succeeding and fewer than 2^29 elements in the end: every call returns, and each
counter ends increased by the number of calls made for its key. -/
theorem vi_counter_incr_all_spec {w : World (List Nat) Nat} (hw : w.mallocs = []) :
    ∀ (ks : List (List Nat)) (t : hashtable (List Nat) Nat) (f : List Nat → Nat),
      CounterInv t → Counts t f → t.used + ks.length < 536870912 →
      (∀ k, f k + ks.length < 9223372036854775808) →
      ∃ t1, vi_counter_incr_all w t ks = some (t1, w) ∧ CounterInv t1 ∧
        Counts t1 (fun k => f k + ks.count k) ∧ t1.used ≤ t.used + ks.length := by
  intro ks
  induction ks with
  | nil =>
    intro t f h hf _ _
    exact ⟨t, rfl, h, hf.congr (fun k => by simp), by simp⟩
  | cons key rest ih =>
    intro t f h hf hu hbig
    simp only [List.length_cons] at hu hbig
    obtain ⟨r, he, hrw, -, hCr, hFr, hUr, -⟩ :=
      vi_counter_incr_spec h (h.size_lt (by omega)) hf hw key (by have := hbig key; omega)
    obtain ⟨t1, he1, hC1, hF1, hU1⟩ := ih r.t _ hCr hFr (by omega)
      (by
        intro k
        by_cases hk : k = key
        · rw [hk, Function.update_same]; have := hbig key; omega
        · rw [Function.update_noteq hk]; have := hbig k; omega)
    refine ⟨t1, ?_, hC1, hF1.congr ?_, by simp only [List.length_cons]; omega⟩
    · show (match vi_counter_incr w t key with
        | none => none
        | some r => vi_counter_incr_all r.w r.t rest) = some (t1, w)
      rw [he]
      simp only
      rw [hrw]
      exact he1
    · intro k
      by_cases hk : k = key
      · rw [hk, Function.update_same, List.count_cons_self]
        omega
      · rw [Function.update_noteq hk, List.count_cons_of_ne hk]

/-- Repeated `vi_counter_incr` calls for a key that has a counter, with every allocation
succeeding: every call returns, the counter of the key grows by the number of calls,
and the size of the table does not change. -/
theorem vi_counter_incr_repeat {w : World (List Nat) Nat} (hw : w.mallocs = [])
    (key : List Nat) :
    ∀ (n : Nat) (t : hashtable (List Nat) Nat) (f : List Nat → Nat),
      CounterInv t → Counts t f → t.size < 2147483648 → f key ≠ 0 →
      f key + n < 9223372036854775808 →
      ∃ t1, vi_counter_incr_all w t (List.replicate n key) = some (t1, w) ∧ CounterInv t1 ∧
        Counts t1 (Function.update f key (f key + n)) ∧ t1.size = t.size := by
  intro n
  induction n with
  | zero =>
    intro t f h hf _ _ _
    exact ⟨t, rfl, h, hf.congr (fun k => by
      by_cases hk : k = key
      · rw [hk, Function.update_same]; rfl
      · rw [Function.update_noteq hk]), rfl⟩
  | succ n ih =>
    intro t f h hf hsz hnz hbig
    obtain ⟨r, he, hrw, -, hCr, hFr, -, hS⟩ := vi_counter_incr_spec h hsz hf hw key (by omega)
    obtain ⟨hsize, -⟩ := hS hnz
    obtain ⟨t1, he1, hC1, hF1, hS1⟩ := ih r.t _ hCr hFr (by rw [hsize]; exact hsz)
      (by rw [Function.update_same]; omega) (by rw [Function.update_same]; omega)
    refine ⟨t1, ?_, hC1, hF1.congr ?_, by rw [hS1, hsize]⟩
    · show (match vi_counter_incr w t key with
        | none => none
        | some r => vi_counter_incr_all r.w r.t (List.replicate n key)) = some (t1, w)
      rw [he]
      simp only
      rw [hrw]
      exact he1
    · intro k
      by_cases hk : k = key
      · rw [hk, Function.update_same, Function.update_same, Function.update_same]
        omega
      · rw [Function.update_noteq hk, Function.update_noteq hk, Function.update_noteq hk]

/-- The occurrence counters within the range of `int`. On a table set up by
`vi_ht_init`, after any sequence `ks` of fewer than 2^29 calls of `vi_counter_incr`
with every allocation succeeding: a further `vi_counter_incr(ht, key)` returns the
number of calls made for `key` plus 1, and `vi_counter_val(ht, key)` returns the number
of calls made for `key`, 0 for a key never incremented. -/
theorem vi_counter_counts (seed : Nat) (ptr : List Nat → Nat) {w : World (List Nat) Nat}
    (hw : w.mallocs = []) (ks : List (List Nat)) (hlen : ks.length < 536870911)
    (key : List Nat) :
    ∃ t1, vi_counter_incr_all w (vi_ht_init seed ptr) ks = some (t1, w) ∧
      (∃ r, vi_counter_incr w t1 key = some r ∧ r.ret = (ks.count key : Int) + 1) ∧
      (∃ r, vi_counter_val w t1 key = some r ∧ r.ret = (ks.count key : Int)) := by
  obtain ⟨hC, hF, hU, -⟩ := vi_ht_init_counts seed ptr
  obtain ⟨t1, he, hC1, hF1, hU1⟩ := vi_counter_incr_all_spec hw ks _ _ hC hF
    (by rw [hU]; omega) (fun k => by show 0 + ks.length < _; omega)
  have hcnt : ks.count key ≤ ks.length := List.count_le_length _ _
  have hsz := hC1.size_lt (by rw [hU] at hU1; omega)
  refine ⟨t1, he, ?_, ?_⟩
  · obtain ⟨r, hr, -, hret, -⟩ := vi_counter_incr_spec hC1 hsz hF1 hw key
      (by show 0 + ks.count key + 1 < _; omega)
    refine ⟨r, hr, ?_⟩
    rw [hret]
    show int_of_long (0 + ks.count key + 1) = _
    rw [int_of_long_small (by omega)]
    push_cast
    omega
  · obtain ⟨r, hr, -, hret, -⟩ := vi_counter_val_spec hC1 hsz hF1 hw key
    refine ⟨r, hr, ?_⟩
    rw [hret]
    show int_of_long (0 + ks.count key) = _
    rw [int_of_long_small (by omega)]
    push_cast
    omega

/-- The `n + 1`-th call of `vi_counter_incr` for one key on a table set up by
`vi_ht_init`, with every allocation succeeding: the first `n` calls return, and the call
returns `n + 1` converted from `long` to `int`. -/
theorem vi_counter_nth (seed : Nat) (ptr : List Nat → Nat) {w : World (List Nat) Nat}
    (hw : w.mallocs = []) (key : List Nat) (n : Nat) (hn : n + 1 < 9223372036854775808) :
    ∃ t1, vi_counter_incr_all w (vi_ht_init seed ptr) (List.replicate n key) = some (t1, w) ∧
      ∃ r, vi_counter_incr w t1 key = some r ∧ r.ret = int_of_long (n + 1) := by
  obtain ⟨hC, hF, hU, hS⟩ := vi_ht_init_counts seed ptr
  cases n with
  | zero =>
    obtain ⟨r, hr, -, hret, -⟩ := vi_counter_incr_spec hC (by rw [hS]; decide) hF hw key
      (by decide)
    exact ⟨_, rfl, r, hr, hret⟩
  | succ m =>
    obtain ⟨r, he, hrw, -, hCr, hFr, hUr, -⟩ :=
      vi_counter_incr_spec hC (by rw [hS]; decide) hF hw key (by decide)
    have hszr : r.t.size < 2147483648 := hCr.size_lt (by rw [hU] at hUr; omega)
    obtain ⟨t1, he1, hC1, hF1, hS1⟩ := vi_counter_incr_repeat hw key m r.t _ hCr hFr hszr
      (by rw [Function.update_same]; decide) (by rw [Function.update_same]; omega)
    obtain ⟨r2, hr2, -, hret2, -⟩ := vi_counter_incr_spec hC1 (by rw [hS1]; exact hszr) hF1 hw
      key (by rw [Function.update_same, Function.update_same]; omega)
    refine ⟨t1, ?_, r2, hr2, ?_⟩
    · show (match vi_counter_incr w (vi_ht_init seed ptr) key with
        | none => none
        | some r => vi_counter_incr_all r.w r.t (List.replicate m key)) = some (t1, w)
      rw [he]
      simp only
      rw [hrw]
      exact he1
    · rw [hret2, Function.update_same, Function.update_same]
      congr 1
      omega

/-- C27 fails for the counts outside the range of `int`. On a table set up by
`vi_ht_init`, with every allocation succeeding, the first 2^31 - 1 calls of
`vi_counter_incr` for the key "a" return, and the call number 2^31 returns
-2147483648: the counter is a `long` and the function returns it as an `int`.
After 2^32 - 1 calls the call number 2^32 returns 0, the value that stands for a
failed allocation. -/
theorem C27_counter_eval :
    (∃ t1, vi_counter_incr_all ⟨[], []⟩ (vi_ht_init strong_hash_init_val (fun _ => 0))
        (List.replicate 2147483647 [97]) = some (t1, ⟨[], []⟩) ∧
      ∃ r, vi_counter_incr ⟨[], []⟩ t1 [97] = some r ∧ r.ret = -2147483648) ∧
    (∃ t1, vi_counter_incr_all ⟨[], []⟩ (vi_ht_init strong_hash_init_val (fun _ => 0))
        (List.replicate 4294967295 [97]) = some (t1, ⟨[], []⟩) ∧
      ∃ r, vi_counter_incr ⟨[], []⟩ t1 [97] = some r ∧ r.ret = 0) := by
  constructor
  · obtain ⟨t1, h1, r, h2, h3⟩ := vi_counter_nth strong_hash_init_val (fun _ => 0)
      (show (⟨[], []⟩ : World (List Nat) Nat).mallocs = [] from rfl) [97] 2147483647 (by decide)
    refine ⟨t1, h1, r, h2, ?_⟩
    rw [h3]
    decide
  · obtain ⟨t1, h1, r, h2, h3⟩ := vi_counter_nth strong_hash_init_val (fun _ => 0)
      (show (⟨[], []⟩ : World (List Nat) Nat).mallocs = [] from rfl) [97] 4294967295 (by decide)
    refine ⟨t1, h1, r, h2, ?_⟩
    rw [h3]
    decide

/-! ## Page-view detection -/

theorem memcmp_end_zero_append (p e : List Nat) :
    memcmp_end_zero (p ++ e) e e.length = true := by
  unfold memcmp_end_zero
  rw [List.length_append, Nat.add_sub_cancel, List.drop_left, List.take_length]
  exact beq_self_eq_true _

/-- A URL of 6 to 2^31 - 1 bytes that ends in an extension tested with its
full length is a page view. -/
theorem vi_is_pageview_of_test (p e : List Nat) (he : (e, e.length) ∈ pageview_tests)
    (h6 : 6 ≤ (p ++ e).length) (hl : (p ++ e).length < 2147483648) :
    vi_is_pageview (p ++ e) = some 1 := by
  have hany : pageview_tests.any (fun t => memcmp_end_zero (p ++ e) t.1 t.2) = true :=
    List.any_eq_true.mpr ⟨_, he, memcmp_end_zero_append p e⟩
  unfold vi_is_pageview
  simp only []
  rw [if_neg (by omega)]
  by_cases h47 : (p ++ e).getD ((p ++ e).length - 1) 0 = 47
  · rw [if_pos h47]
  · rw [if_neg h47, if_pos ⟨h6, hany⟩]

/-- Every page extension of the list except the lower-case .xhtml is
recognised, in lower and in upper case, at the end of a URL of 6 to
2^31 - 1 bytes. -/
theorem vi_is_pageview_exts (p e : List Nat) (he : e ∈ page_exts_lower ++ page_exts_upper)
    (h6 : 6 ≤ (p ++ e).length) (hl : (p ++ e).length < 2147483648) :
    vi_is_pageview (p ++ e) = some 1 := by
  have hall : ∀ x ∈ page_exts_lower ++ page_exts_upper, (x, x.length) ∈ pageview_tests := by
    decide
  exact vi_is_pageview_of_test p e (hall e he) h6 hl

/-- C32: the lower-case entry for .xhtml compares only the five bytes at
end - 5 with ".xhtm", so the URL /a.xhtml, of 8 bytes, matches no entry and is
not a page view, while /a.XHTML is one: the two spellings of the extension get
different answers. -/
theorem C32_xhtml_not_pageview_eval :
    vi_is_pageview (bytes ['/', 'a', '.', 'x', 'h', 't', 'm', 'l']) = some 0
    ∧ vi_is_pageview (bytes ['/', 'a', '.', 'X', 'H', 'T', 'M', 'L']) = some 1
    ∧ (bytes ['/', 'a', '.', 'x', 'h', 't', 'm', 'l']).length = 8
    ∧ memcmp_end_zero (bytes ['/', 'a', '.', 'x', 'h', 't', 'm', 'l'])
        (bytes ['.', 'x', 'h', 't', 'm', 'l']) 5 = false
    ∧ (bytes ['.', 'x', 'h', 't', 'm', 'l'], 5) ∈ pageview_tests
    ∧ (bytes ['.', 'x', 'h', 't', 'm', 'l'], 6) ∉ pageview_tests := by
  decide

/-! ## Glob matching -/

/-- One more unit of fuel keeps a result of the body of vi_match_len. -/
theorem vi_match_loop_mono : ∀ (n : Nat) (b : Bool) (P : List Nat) (pp : Nat) (plen : Int)
    (S : List Nat) (sp : Nat) (slen : Int) (nc : Bool) (r : Nat),
    vi_match_loop n b P pp plen S sp slen nc = some r →
    vi_match_loop (n + 1) b P pp plen S sp slen nc = some r := by
  intro n
  induction n with
  | zero =>
    intro b P pp plen S sp slen nc r h
    simp [vi_match_loop] at h
  | succ n ih =>
    intro b P pp plen S sp slen nc r h
    cases b
    · rw [vi_match_loop] at h ⊢
      dsimp only at h ⊢
      repeat' split at h
      all_goals first
        | contradiction
        | (have h2 := ih _ _ _ _ _ _ _ _ _ h
           clear ih
           simp_all)
        | (clear ih
           simp_all)
    · rw [vi_match_loop] at h ⊢
      by_cases hs : slen = 0
      · rw [if_pos hs] at h ⊢
        exact h
      · rw [if_neg hs] at h ⊢
        cases hrec : vi_match_loop n false P (pp + 1) (plen - 1) S sp slen nc with
        | none => rw [hrec] at h; contradiction
        | some r0 =>
          rw [hrec] at h
          rw [ih _ _ _ _ _ _ _ _ _ hrec]
          dsimp only at h ⊢
          by_cases hr : r0 ≠ 0
          · rw [if_pos hr] at h ⊢
            exact h
          · rw [if_neg hr] at h ⊢
            exact ih _ _ _ _ _ _ _ _ _ h

/-- A result of the body of vi_match_len does not depend on the fuel: more
fuel gives the same result. -/
theorem vi_match_loop_fuel (n k : Nat) (b : Bool) (P : List Nat) (pp : Nat) (plen : Int)
    (S : List Nat) (sp : Nat) (slen : Int) (nc : Bool) (r : Nat)
    (h : vi_match_loop n b P pp plen S sp slen nc = some r) :
    vi_match_loop (n + k) b P pp plen S sp slen nc = some r := by
  induction k with
  | zero => exact h
  | succ k ih => exact vi_match_loop_mono _ _ _ _ _ _ _ _ _ _ ih

/-! ## Grep patterns -/

/-- A pattern that ConfigAddGrepPattern accepts is stored, between two stars,
after the entries already there. -/
theorem ConfigAddGrepPattern_stored (cfg cfg1 : List greppat) (p : List Nat) (ty : Int)
    (ok : Bool) (h : ConfigAddGrepPattern cfg p ty ok = some cfg1) :
    cfg1 = cfg ++ [{ type := ty, pattern := 42 :: p ++ [42] }] := by
  unfold ConfigAddGrepPattern at h
  split_ifs at h
  exact (Option.some.inj h).symm

/-- ConfigAddGrepPattern returns when the array has room, malloc succeeds and
the length of the pattern fits an int. -/
theorem ConfigAddGrepPattern_returns (cfg : List greppat) (p : List Nat) (ty : Int)
    (hroom : cfg.length < VI_GREP_PATTERNS_MAX) (hp : p.length < 2147483648) :
    ConfigAddGrepPattern cfg p ty true
      = some (cfg ++ [{ type := ty, pattern := 42 :: p ++ [42] }]) := by
  unfold ConfigAddGrepPattern
  rw [if_neg (by omega), if_neg (by simp; omega)]

/-- For a stored pattern that starts with a star, as every pattern stored by
ConfigAddGrepPattern does, vi_match_line matches the whole stored pattern
without case, whatever follows the star. -/
theorem vi_match_line_star (ty : Int) (q : List Nat) (rest : List greppat) (line : List Nat) :
    vi_match_line ({ type := ty, pattern := 42 :: q } :: rest) line
      = match vi_match (42 :: q) line true with
        | none => none
        | some r =>
          if r ≠ 0 then
            if ty = VI_PATTERNTYPE_EXCLUDE then some 0 else vi_match_line rest line
          else
            if ty = VI_PATTERNTYPE_GREP then some 0 else vi_match_line rest line := by
  have h0 : char_at (42 :: q) 0 = some 42 := by
    unfold char_at
    rw [if_pos (by simp)]
    rfl
  rw [vi_match_line]
  simp only [h0]
  rfl

/-- C31: ConfigAddGrepPattern stores the pattern cs:Foo as *cs:Foo*, whose
first byte is the star, so the test for cs: in vi_match_line fails and the
stored pattern is matched without case and with the prefix kept.  With this
pattern as a grep pattern the line Foo is rejected, though *Foo* matches it
with case, and the line cs:fOO is accepted, though *Foo* does not match it
with case.  A stored pattern that does start with cs: is matched with case but
with the prefix kept, as vi_match gets the stored pattern and not the pointer
moved past the prefix: the stored pattern cs:Foo rejects the line Foo. -/
theorem C31_cs_pattern_eval :
    ConfigAddGrepPattern [] (bytes ['c', 's', ':', 'F', 'o', 'o']) VI_PATTERNTYPE_GREP true
      = some [{ type := VI_PATTERNTYPE_GREP,
                pattern := bytes ['*', 'c', 's', ':', 'F', 'o', 'o', '*'] }]
    ∧ vi_match_line [{ type := VI_PATTERNTYPE_GREP,
                       pattern := bytes ['*', 'c', 's', ':', 'F', 'o', 'o', '*'] }]
        (bytes ['F', 'o', 'o']) = some 0
    ∧ vi_match (bytes ['*', 'F', 'o', 'o', '*']) (bytes ['F', 'o', 'o']) false = some 1
    ∧ vi_match_line [{ type := VI_PATTERNTYPE_GREP,
                       pattern := bytes ['*', 'c', 's', ':', 'F', 'o', 'o', '*'] }]
        (bytes ['c', 's', ':', 'f', 'O', 'O']) = some 1
    ∧ vi_match (bytes ['*', 'F', 'o', 'o', '*']) (bytes ['c', 's', ':', 'f', 'O', 'O']) false
        = some 0
    ∧ vi_match_line [{ type := VI_PATTERNTYPE_GREP,
                       pattern := bytes ['c', 's', ':', 'F', 'o', 'o'] }]
        (bytes ['F', 'o', 'o']) = some 0
    ∧ vi_match (bytes ['F', 'o', 'o']) (bytes ['F', 'o', 'o']) false = some 1 := by
  decide

/-! ## Removing an absent key: when the call returns -/

end AHT
